import Mathlib

/-!
# dwm-win32: client registry, focus discipline and tiling

A shallow embedding of `dwm-win32.c`.  Clients and monitors live in heaps indexed by
natural numbers; a C pointer is an `Option Nat` (`none` is `NULL`).  The link fields
`next` / `snext` of `struct Client` are kept as separate heap components, every other field
is a record component.  A C function that can dereference `NULL` or loop forever over a
cyclic chain returns in `Run`; loops over pointer chains take fuel equal to the number of
cells handed out by `calloc`, which is exact as soon as every link stays inside the
allocated cells.
-/

namespace DwmWin32

/-! ## Data model -/

/-- Ways in which a run of the C code fails to return normally. -/
inductive Fault where
  | nullDeref
  | diverge
  deriving DecidableEq, Repr

/-- Result of running a C function: a value, or a fault. -/
abbrev Run (α : Type) := Except Fault α

/-- The two layout procedures a `Layout.arrange` pointer can designate. -/
inductive ArrangeFn where
  | tile
  | monocle
  deriving DecidableEq, Repr

/-- `Layout`: symbol and arrange procedure (`none` is the floating layout). -/
structure Layout where
  symbol : String := ""
  arrange : Option ArrangeFn := none
  deriving DecidableEq, Repr

/-- `Rule` of `config.h`. -/
structure Rule where
  cls : Option String := none
  title : Option String := none
  tags : Nat := 0
  isfloating : Bool := false
  ignoreborder : Bool := false
  deriving DecidableEq, Repr

/-- `struct Client` without its link fields; the defaults are the zeroes of `calloc`. -/
structure Client where
  hwnd : Nat := 0
  parent : Nat := 0
  x : Int := 0
  y : Int := 0
  w : Int := 0
  h : Int := 0
  bw : Int := 0
  tags : Nat := 0
  isminimized : Bool := false
  isfloating : Bool := false
  isalive : Bool := false
  ignore : Bool := false
  ignoreborder : Bool := false
  border : Bool := false
  wasvisible : Bool := false
  isfixed : Bool := false
  isurgent : Bool := false
  iscloaked : Bool := false
  mon : Option Nat := none
  deriving DecidableEq, Repr

/-- `struct Monitor` without its link field; the defaults are the zeroes of `calloc`. -/
structure Monitor where
  hmon : Nat := 0
  sx : Int := 0
  sy : Int := 0
  sw : Int := 0
  sh : Int := 0
  «by» : Int := 0
  bh : Int := 0
  blw : Int := 0
  wx : Int := 0
  wy : Int := 0
  ww : Int := 0
  wh : Int := 0
  barhwnd : Nat := 0
  tagset : Nat → Nat := fun _ => 0
  seltags : Nat := 0
  lt : Nat → Option Layout := fun _ => none
  sellt : Nat := 0

/-- Requests sent to the host windowing system. -/
inductive HostCmd where
  | setWindowPos (hwnd : Nat) (x y w h : Int)
  | setVisible (hwnd : Nat) (visible : Bool)
  | setForeground (hwnd : Nat)
  | setBorder (hwnd : Nat) (border : Bool)
  | destroyWindow (hwnd : Nat)
  deriving DecidableEq, Repr

/-- The constants of `config.h` that the embedded functions read. -/
structure Config where
  ntags : Nat := 9
  tagset : Nat → Nat := fun _ => 1
  layouts : List Layout := [⟨"[]=", some .tile⟩, ⟨"><>", none⟩, ⟨"[M]", some .monocle⟩]
  rules : List Rule := []
  topbar : Bool := true

/-- All file-scope variables of `dwm-win32.c`, the two heaps, and the host state read back.
Of `mfact` the state keeps the function `ww ↦ (int)(mfact * ww)` (see `truncMul`). Its
default is a placeholder for the example states and no property below depends on its values;
at width 1000, the work width of those examples, it is 550, as is `(int)(0.55 * 1000)`. -/
structure State where
  cfg : Config := {}
  cl : Nat → Client := fun _ => {}
  next : Nat → Option Nat := fun _ => none
  snext : Nat → Option Nat := fun _ => none
  nclients : Nat := 0
  clients : Option Nat := none
  stack : Option Nat := none
  sel : Option Nat := none
  mon : Nat → Monitor := fun _ => {}
  mnext : Nat → Option Nat := fun _ => none
  nmons : Nat := 0
  mons : Option Nat := none
  selmon : Option Nat := none
  curmon : Option Nat := none
  seltags : Nat := 0
  glt : Nat → Option Layout := fun _ => none
  mfact : Int → Int := fun ww => (11 * ww).tdiv 20
  showbar : Bool := true
  hostvis : Nat → Bool := fun _ => false
  vsx : Int := 0
  vsy : Int := 0
  vsw : Int := 0
  vsh : Int := 0
  cmds : List HostCmd := []

/-- `TAGMASK`. -/
def TAGMASK (s : State) : Nat := 2 ^ s.cfg.ntags - 1

/-- Dereference of a client or monitor pointer. -/
def deref (p : Option Nat) : Run Nat :=
  match p with
  | none => throw .nullDeref
  | some i => pure i

/-- Write to the non-link fields of client `i`. -/
def State.setCl (s : State) (i : Nat) (f : Client → Client) : State :=
  { s with cl := Function.update s.cl i (f (s.cl i)) }

/-- Write to the non-link fields of monitor `m`. -/
def State.setMon (s : State) (m : Nat) (f : Monitor → Monitor) : State :=
  { s with mon := Function.update s.mon m (f (s.mon m)) }

/-! ## Visibility -/

/-- `isvisible`. -/
def isvisible (s : State) (x : Option Nat) : Bool :=
  match x with
  | none => false
  | some i =>
    let ts := match (s.cl i).mon with
      | some m => (s.mon m).tagset (s.mon m).seltags
      | none => s.cfg.tagset s.seltags
    ((s.cl i).tags &&& ts) != 0

/-- `ISFOCUSABLE`, for a non-null client. -/
def ISFOCUSABLE (s : State) (i : Nat) : Bool :=
  !(s.cl i).isminimized && isvisible s (some i) && s.hostvis (s.cl i).hwnd

/-! ## The two orderings -/

/-- `attach`. -/
def attach (s : State) (c : Option Nat) : Run State := do
  let i ← deref c
  pure { s with next := Function.update s.next i s.clients, clients := some i }

/-- `attachstack`. -/
def attachstack (s : State) (c : Option Nat) : Run State := do
  let i ← deref c
  pure { s with snext := Function.update s.snext i s.stack, stack := some i }

/-- The position `tc` of the `detach` loops: the head variable or the link field of a cell. -/
inductive Loc where
  | head
  | node (i : Nat)
  deriving DecidableEq, Repr

/-- Value `*tc` of the link variable at `tc`, over a link heap `nx` with head `hd`. -/
def Loc.load (nx : Nat → Option Nat) (hd : Option Nat) : Loc → Option Nat
  | .head => hd
  | .node i => nx i

/-- The loop of `detach` / `detachstack` over a link heap `nx` with head `hd`: advance `tc`
while `*tc` is neither `NULL` nor `c`. -/
def detachLoop (nx : Nat → Option Nat) (hd : Option Nat) (c : Option Nat) :
    Nat → Loc → Run Loc
  | 0, tc =>
    match tc.load nx hd with
    | none => pure tc
    | some j => if some j = c then pure tc else throw .diverge
  | f + 1, tc =>
    match tc.load nx hd with
    | none => pure tc
    | some j => if some j = c then pure tc else detachLoop nx hd c f (.node j)

/-- `detach`. -/
def detach (s : State) (c : Option Nat) : Run State := do
  let tc ← detachLoop s.next s.clients c s.nclients .head
  let i ← deref c
  match tc with
  | .head => pure { s with clients := s.next i }
  | .node j => pure { s with next := Function.update s.next j (s.next i) }

/-- `detachstack`. -/
def detachstack (s : State) (c : Option Nat) : Run State := do
  let tc ← detachLoop s.snext s.stack c s.nclients .head
  let i ← deref c
  match tc with
  | .head => pure { s with stack := s.snext i }
  | .node j => pure { s with snext := Function.update s.snext j (s.snext i) }

/-! ## Pointer walks

The `for` loops of the source that only move a cursor along `next` / `snext` / the monitor
links.  Fuel is the number of allocated cells. -/

/-- Loop `for (; c && p(c); c = c->link);` and its value `c`. -/
def skipWhile (nx : Nat → Option Nat) (p : Nat → Bool) : Nat → Option Nat → Run (Option Nat)
  | _, none => pure none
  | 0, some _ => throw .diverge
  | f + 1, some i => if p i then skipWhile nx p f (nx i) else pure (some i)

/-- Loop `for (i = start; i != stop; i = i->link) if (p(i)) c = i;` with `c` initially
`NULL`; the value is `(c, i)`. Reaching `NULL` before `stop` dereferences `NULL`. -/
def lastBefore (nx : Nat → Option Nat) (p : Nat → Bool) (stop : Option Nat) :
    Nat → Option Nat → Option Nat → Run (Option Nat × Option Nat)
  | fuel, i, c =>
    if i = stop then pure (c, i)
    else match i, fuel with
      | none, _ => throw .nullDeref
      | some _, 0 => throw .diverge
      | some j, f + 1 => lastBefore nx p stop f (nx j) (if p j then some j else c)

/-- Loop `for (; i; i = i->link) if (p(i)) c = i;` and its value `c`. -/
def lastFrom (nx : Nat → Option Nat) (p : Nat → Bool) :
    Nat → Option Nat → Option Nat → Run (Option Nat)
  | _, none, c => pure c
  | 0, some _, _ => throw .diverge
  | f + 1, some j, c => lastFrom nx p f (nx j) (if p j then some j else c)

/-- `nexttiled`. -/
def nexttiled (s : State) (c : Option Nat) : Run (Option Nat) :=
  skipWhile s.next (fun i => (s.cl i).isfloating || !isvisible s (some i)) s.nclients c

/-- `mon_get_layout`. -/
def mon_get_layout (s : State) (m : Option Nat) (idx : Nat) : Option Layout :=
  match m.bind (fun k => (s.mon k).lt idx) with
  | some l => some l
  | none => if idx < 2 then s.glt idx else s.glt 0

/-- The `->arrange` field of the layout of the monitor `m` at its index `sellt`. -/
def layoutArrange (s : State) (m : Option Nat) : Run (Option ArrangeFn) := do
  let k ← deref m
  match mon_get_layout s m (s.mon k).sellt with
  | none => throw .nullDeref
  | some l => pure l.arrange

/-! ## Geometry -/

/-- `setvisibility`: the request is logged and the host is taken to carry it out. -/
def setvisibility (s : State) (hwnd : Nat) (visibility : Bool) : State :=
  { s with hostvis := Function.update s.hostvis hwnd visibility,
           cmds := s.cmds ++ [.setVisible hwnd visibility] }

/-- `WIDTH`. -/
def WIDTH (c : Client) : Int := c.w + 2 * c.bw

/-- `HEIGHT`. -/
def HEIGHT (c : Client) : Int := c.h + 2 * c.bw

/-- The rectangle `resize` computes for client record `c` once `w <= 0 && h <= 0` is
excluded: clamped against monitor `m`, or against the virtual screen when there is none. -/
def resizeRect (s : State) (c : Client) (x y w h : Int) : Int × Int × Int × Int :=
  match (match c.mon with | some m => some m | none => s.selmon) with
  | none =>
    let x1 := if x > s.vsx + s.vsw then s.vsw - WIDTH c else x
    let y1 := if y > s.vsy + s.vsh then s.vsh - HEIGHT c else y
    let x2 := if x1 + w + 2 * c.bw < s.vsx then s.vsx else x1
    let y2 := if y1 + h + 2 * c.bw < s.vsy then s.vsy else y1
    (x2, y2, w, h)
  | some k =>
    let m := s.mon k
    let x1 := if x > m.sx + m.sw then m.sw - WIDTH c else x
    let y1 := if y > m.sy + m.sh then m.sh - HEIGHT c else y
    let x2 := if x1 + w + 2 * c.bw < m.sx then m.sx else x1
    let y2 := if y1 + h + 2 * c.bw < m.sy then m.sy else y1
    let h1 := if h < m.bh then m.bh else h
    let w1 := if w < m.bh then m.bh else w
    (x2, y2, w1, h1)

/-- `resize`, for a non-null client. -/
def resize (s : State) (i : Nat) (x y w h : Int) : State :=
  if w ≤ 0 ∧ h ≤ 0 then setvisibility s (s.cl i).hwnd false
  else
    let c := s.cl i
    let r := resizeRect s c x y w h
    if c.x ≠ r.1 ∨ c.y ≠ r.2.1 ∨ c.w ≠ r.2.2.1 ∨ c.h ≠ r.2.2.2 then
      { s.setCl i (fun c => { c with x := r.1, y := r.2.1, w := r.2.2.1, h := r.2.2.2 }) with
        cmds := s.cmds ++ [.setWindowPos c.hwnd r.1 r.2.1 r.2.2.1 r.2.2.2] }
    else s

/-! ## Selection -/

/-- `setselected` (the border and bar drawing calls are rendering only and are left out). -/
def setselected (s : State) (c : Option Nat) : Run State := do
  let c ← (if c.isNone || !isvisible s c then
      skipWhile s.snext (fun i => !isvisible s (some i) || (s.cl i).mon != s.selmon)
        s.nclients s.stack
    else pure c)
  match c with
  | some i =>
    let s1 := if (s.cl i).isurgent then s.setCl i (fun r => { r with isurgent := false }) else s
    let s2 ← detachstack s1 (some i)
    let s3 ← attachstack s2 (some i)
    pure { s3 with selmon := (s3.cl i).mon, sel := some i }
  | none => pure { s with sel := none }

/-- `focus`. -/
def focus (s : State) (c : Option Nat) : Run State := do
  let s1 ← setselected s c
  match s1.sel with
  | some i => pure { s1 with cmds := s1.cmds ++ [.setForeground (s1.cl i).hwnd] }
  | none => pure s1

/-! ## Layouts -/

/-- `showhide`: the recursion along `snext`. -/
def showhide : Nat → State → Option Nat → Run State
  | _, s, none => pure s
  | 0, _, some _ => throw .diverge
  | f + 1, s, some c =>
    let s1 :=
      if !isvisible s (some c) then
        if s.hostvis (s.cl c).hwnd then
          setvisibility (s.setCl c (fun r => { r with ignore := true, wasvisible := true }))
            (s.cl c).hwnd false
        else s
      else if (s.cl c).wasvisible then setvisibility s (s.cl c).hwnd true
      else s
    showhide f s1 (s1.snext c)

/-- The counting loop of `tile`: the clients on `curmon` that are neither floating nor
invisible. -/
def tileCount (s : State) : Nat → Option Nat → Nat → Run Nat
  | _, none, n => pure n
  | 0, some _, _ => throw .diverge
  | f + 1, some c, n =>
    if (s.cl c).mon != s.curmon then tileCount s f (s.next c) n
    else if !(s.cl c).isfloating && isvisible s (some c) then tileCount s f (s.next c) (n + 1)
    else tileCount s f (s.next c) n

/-- Conversion `(int)(mfact * ww)` of `tile`. The variable `mfact` is declared in config.h,
which is not part of the source, and the product is a floating-point one, whose rounding
depends on that declaration. The arithmetic is therefore not computed here: `mfact` stands
for the function that gives, for each work width, the integer the program obtains. -/
def truncMul (mfact : Int → Int) (ww : Int) : Int := mfact ww

/-- Quotient `wh / n` of an `int` by an `unsigned int`, stored back into an `int`. -/
def divUnsigned (wh : Int) (n : Nat) : Int :=
  let q := (wh % 2 ^ 32).toNat / n
  if q < 2 ^ 31 then (q : Int) else (q : Int) - 2 ^ 32

/-- The stack loop of `tile`, entered with cursor `c`, counter `i` and running `y`. -/
def tileLoop (m : Monitor) (x w h : Int) (n : Nat) :
    Nat → State → Option Nat → Nat → Int → Run State
  | _, s, none, _, _ => pure s
  | 0, _, some _, _, _ => throw .diverge
  | f + 1, s, some c, i, y =>
    if (s.cl c).mon != s.curmon || (s.cl c).isfloating then do
      let c1 ← nexttiled s (s.next c)
      tileLoop m x w h n f s c1 (i + 1) y
    else do
      let bw := (s.cl c).bw
      let s1 := resize s c x y (w - 2 * bw)
        (if i + 1 = n then m.wy + m.wh - y - 2 * bw else h - 2 * bw)
      let y1 := if h ≠ m.wh then (s1.cl c).y + HEIGHT (s1.cl c) else y
      let c1 ← nexttiled s1 (s1.next c)
      tileLoop m x w h n f s1 c1 (i + 1) y1

/-- `tile`. -/
def tile (s : State) : Run State := do
  let n ← tileCount s s.nclients s.clients 0
  if n = 0 then pure s
  else
    let c0 ← nexttiled s s.clients
    let c ← skipWhile s.next (fun i => (s.cl i).mon != s.curmon || (s.cl i).isfloating)
      s.nclients c0
    match c with
    | none => pure s
    | some c =>
      let k ← deref s.curmon
      let m := s.mon k
      let mw := truncMul s.mfact m.ww
      let bw := (s.cl c).bw
      let s1 := resize s c m.wx m.wy ((if n = 1 then m.ww else mw) - 2 * bw) (m.wh - 2 * bw)
      let n := n - 1
      if n = 0 then pure s1
      else
        let r := s1.cl c
        let m := s1.mon k
        let x := if m.wx + mw > r.x + r.w then r.x + r.w + 2 * r.bw else m.wx + mw
        let y := m.wy
        let w := if m.wx + mw > r.x + r.w then m.wx + m.ww - x else m.ww - mw
        let h := divUnsigned m.wh n
        let h := if h < m.bh then m.wh else h
        let c1 ← nexttiled s1 (s1.next c)
        tileLoop m x w h n s1.nclients s1 c1 0 y

/-- The loop of `monocle`. -/
def monocleLoop : Nat → State → Option Nat → Run State
  | _, s, none => pure s
  | 0, _, some _ => throw .diverge
  | f + 1, s, some c =>
    if (s.cl c).mon != s.curmon then do
      let c1 ← nexttiled s (s.next c)
      monocleLoop f s c1
    else do
      let k ← deref s.curmon
      let m := s.mon k
      let bw := (s.cl c).bw
      let s1 := resize s c m.wx m.wy (m.ww - 2 * bw) (m.wh - 2 * bw)
      let c1 ← nexttiled s1 (s1.next c)
      monocleLoop f s1 c1

/-- `monocle`. -/
def monocle (s : State) : Run State := do
  let c ← nexttiled s s.clients
  monocleLoop s.nclients s c

/-- `arrangemon` (the bar drawing is left out). -/
def arrangemon (s : State) (m : Nat) : Run State := do
  let s1 := { s with curmon := some m }
  match ← layoutArrange s1 (some m) with
  | some .tile => tile s1
  | some .monocle => monocle s1
  | none => pure s1

/-- The loop of `arrange` over the monitors. -/
def arrangeLoop : Nat → State → Option Nat → Run State
  | _, s, none => pure s
  | 0, _, some _ => throw .diverge
  | f + 1, s, some m => do
    let s1 ← arrangemon s m
    arrangeLoop f s1 (s1.mnext m)

/-- `arrange` (`restack` is empty in the source). -/
def arrange (s : State) : Run State := do
  let s1 ← showhide s.nclients s s.stack
  let s2 ← focus s1 none
  arrangeLoop s2.nmons s2 s2.mons

/-! ## Commands on the orderings -/

/-- `focusstack`, with `arg->i` as `dir`. -/
def focusstack (s : State) (dir : Int) : Run State :=
  match s.sel with
  | none => pure s
  | some sl => do
    let bad := fun i => !ISFOCUSABLE s i || (s.cl i).mon != s.selmon
    let good := fun i => ISFOCUSABLE s i && (s.cl i).mon == s.selmon
    let c ← (if dir > 0 then
        skipWhile s.next bad s.nclients (s.next sl) >>= fun c =>
          if c.isNone then skipWhile s.next bad s.nclients s.clients else pure c
      else
        lastBefore s.next good s.sel s.nclients s.clients none >>= fun r =>
          if r.1.isNone then lastFrom s.next good s.nclients r.2 r.1 else pure r.1)
    if c.isSome then focus s c else pure s

/-- The loop of `movestack` that looks for the predecessors `p` of `sel` and `pc` of `c`. -/
def predLoop (nx : Nat → Option Nat) (sel c : Option Nat) :
    Nat → Option Nat → Option Nat → Option Nat → Run (Option Nat × Option Nat)
  | _, none, p, pc => pure (p, pc)
  | fuel, some i, p, pc =>
    if p.isSome && pc.isSome then pure (p, pc)
    else match fuel with
      | 0 => throw .diverge
      | f + 1 =>
        let p1 := if nx i = sel then some i else p
        let pc1 := if nx i = c then some i else pc
        predLoop nx sel c f (nx i) p1 pc1

/-- `movestack`, with `arg->i` as `dir`. -/
def movestack (s : State) (dir : Int) : Run State := do
  let bad := fun i => !isvisible s (some i) || (s.cl i).isfloating || (s.cl i).mon != s.selmon
  let good := fun i => isvisible s (some i) && !(s.cl i).isfloating && (s.cl i).mon == s.selmon
  let c ← (if dir > 0 then
      deref s.sel >>= fun sl =>
        skipWhile s.next bad s.nclients (s.next sl) >>= fun c =>
          if c.isNone then skipWhile s.next bad s.nclients s.clients else pure c
    else
      lastBefore s.next good s.sel s.nclients s.clients none >>= fun r =>
        if r.1.isNone then lastFrom s.next good s.nclients r.2 r.1 else pure r.1)
  let (p, pc) ← predLoop s.next s.sel c s.nclients s.clients none none
  match c with
  | none => pure s
  | some ci =>
    if c = s.sel then pure s
    else do
      let sl ← deref s.sel
      let temp := if s.next sl = c then s.sel else s.next sl
      let nx1 := Function.update s.next sl (if s.next ci = s.sel then c else s.next ci)
      let nx2 := Function.update nx1 ci temp
      let nx3 := match p with
        | some pi => if p ≠ c then Function.update nx2 pi c else nx2
        | none => nx2
      let nx4 := match pc with
        | some pci => if pc ≠ s.sel then Function.update nx3 pci s.sel else nx3
        | none => nx3
      let hd := if s.sel = s.clients then c else if c = s.clients then s.sel else s.clients
      arrange { s with next := nx4, clients := hd }

/-- `zoom`. -/
def zoom (s : State) : Run State := do
  let a ← layoutArrange s s.selmon
  let selfloating := match s.sel with
    | some sl => (s.cl sl).isfloating
    | none => false
  if a = none || a = some .monocle || selfloating then pure s
  else do
    let first ← nexttiled s s.clients
    let c ← (if s.sel = first then
        match s.sel with
        | none => pure none
        | some sl => nexttiled s (s.next sl)
      else pure s.sel)
    if s.sel = first && c.isNone then pure s
    else do
      let s1 ← detach s c
      let s2 ← attach s1 c
      let s3 ← focus s2 c
      arrange s3

/-! ## Managing and unmanaging windows -/

/-- What the host reports about a window when `manage` queries it. -/
structure WinInfo where
  valid : Bool := true
  parent : Nat := 0
  hmon : Nat := 0
  minimizebox : Bool := true
  maximizebox : Bool := true
  cloaked : Bool := false
  title : String := ""
  cls : String := ""
  left : Int := 0
  top : Int := 0
  right : Int := 0
  bottom : Int := 0

/-- `getclient`. -/
def getclient (s : State) (hwnd : Nat) : Run (Option Nat) :=
  skipWhile s.next (fun i => (s.cl i).hwnd != hwnd) s.nclients s.clients

/-- `monitor_from_hwnd`, with the host's answer `hmon` for the window. -/
def monitor_from_hwnd (s : State) (hmon : Nat) : Run (Option Nat) := do
  let m ← skipWhile s.mnext (fun k => (s.mon k).hmon != hmon) s.nmons s.mons
  if m.isSome then pure m else pure s.mons

/-- Test `wcsstr(hay, needle) != NULL`. -/
def wcsstr (hay needle : String) : Bool := decide (needle.toList <:+: hay.toList)

/-- The tag set a client record inherits: its monitor's current one, or the global one. -/
def defaultTs (s : State) (c : Client) : Nat :=
  match c.mon with
  | some m => (s.mon m).tagset (s.mon m).seltags
  | none => s.cfg.tagset s.seltags

/-- `applyrules`, with the window title and class the host returns. -/
def applyrules (s : State) (i : Nat) (title cls : String) : State :=
  let s1 := s.cfg.rules.foldl (fun s r =>
    if (r.title.all fun t => wcsstr title t) && (r.cls.all fun k => wcsstr cls k) then
      s.setCl i (fun c => { c with
        isfloating := r.isfloating, ignoreborder := r.ignoreborder,
        tags := c.tags ||| (if r.tags &&& TAGMASK s ≠ 0 then r.tags &&& TAGMASK s
                            else defaultTs s c) })
    else s) s
  if (s1.cl i).tags = 0 then s1.setCl i (fun c => { c with tags := defaultTs s1 c }) else s1

/-- `manage`; the fresh cell is the next unused index, as `calloc` never hands out a live
cell (its failure, which ends the process, is not represented). -/
def manage (s : State) (hwnd : Nat) (wi : WinInfo) : Run (State × Option Nat) := do
  let c ← getclient s hwnd
  if c.isSome then pure (s, c)
  else if !wi.valid then pure (s, none)
  else do
    let i := s.nclients
    let m ← monitor_from_hwnd s wi.hmon
    let m := if m.isSome then m else if s.selmon.isSome then s.selmon else s.mons
    let r : Client :=
      { hwnd := hwnd, parent := wi.parent, isalive := true, iscloaked := wi.cloaked, bw := 0,
        mon := m, isfloating := !wi.minimizebox && !wi.maximizebox, ignoreborder := wi.cloaked }
    let s1 := { s with cl := Function.update s.cl i r,
                       next := Function.update s.next i none,
                       snext := Function.update s.snext i none,
                       nclients := s.nclients + 1 }
    let s2 := applyrules s1 i wi.title wi.cls
    let s3 := if (s2.cl i).isfloating && s2.hostvis hwnd then
        resize s2 i wi.left wi.top (wi.right - wi.left) (wi.bottom - wi.top)
      else s2
    let s4 ← attach s3 (some i)
    let s5 ← attachstack s4 (some i)
    pure (s5, some i)

/-- `setborder`. -/
def setborder (s : State) (i : Nat) (border : Bool) : State :=
  if !(s.cl i).ignoreborder then
    { s.setCl i (fun c => { c with border := border }) with
      cmds := s.cmds ++ [.setBorder (s.cl i).hwnd border] }
  else s

/-- `unmanage` (the cell is not reused afterwards; `free` itself is not represented). -/
def unmanage (s : State) (c : Option Nat) : Run State := do
  let i ← deref c
  let s1 := if (s.cl i).wasvisible then setvisibility s (s.cl i).hwnd true else s
  let s2 := if !(s1.cl i).isfloating then setborder s1 i true else s1
  let s3 ← detach s2 c
  let s4 ← detachstack s3 c
  let s5 ← (if s4.sel = c then focus s4 none else pure s4)
  arrange s5

/-- `IsChain nx p l`: following the links `nx` from the pointer `p` visits exactly the cells
`l`, in this order, and then reaches `NULL`. -/
def IsChain (nx : Nat → Option Nat) : Option Nat → List Nat → Prop
  | p, [] => p = none
  | p, a :: l => p = some a ∧ IsChain nx (nx a) l

instance instDecidableIsChain (nx : Nat → Option Nat) :
    ∀ (p : Option Nat) (l : List Nat), Decidable (IsChain nx p l)
  | p, [] => inferInstanceAs (Decidable (p = none))
  | p, a :: l =>
    have := instDecidableIsChain nx (nx a) l
    inferInstanceAs (Decidable (p = some a ∧ IsChain nx (nx a) l))

/-- `IsSeg nx p l q`: following `nx` from `p` visits exactly the cells `l` and arrives at
the pointer `q`. -/
def IsSeg (nx : Nat → Option Nat) : Option Nat → List Nat → Option Nat → Prop
  | p, [], q => p = q
  | p, a :: l, q => p = some a ∧ IsSeg nx (nx a) l q

/-- The value of the loop `if (p(i)) c = i` over the cells `l`, entered with `c`. -/
def lastSat (good : Nat → Bool) (l : List Nat) (c : Option Nat) : Option Nat :=
  l.foldl (fun c a => if good a then some a else c) c

/-- The cell whose link field `tc` designates after the `detach` loop stopped in front of
`c`, having walked over the cells `l`. -/
def locAfter (tc : Loc) (l : List Nat) : Loc :=
  match l.getLast? with
  | none => tc
  | some j => .node j

/-- The link heap and head after the store `*tc = v` of the `detach` functions. -/
def storeAt (nx : Nat → Option Nat) (hd : Option Nat) (tc : Loc) (v : Option Nat) :
    (Nat → Option Nat) × Option Nat :=
  match tc with
  | .head => (nx, v)
  | .node j => (Function.update nx j v, hd)

/-- `Frame s t`: `t` differs from `s` at most in the rectangles, the hide bookkeeping and
the border flag of the clients, in the host visibility, in the request log and in `curmon`. -/
structure Frame (s t : State) : Prop where
  glob : t = { s with cl := t.cl, hostvis := t.hostvis, cmds := t.cmds, curmon := t.curmon }
  cl : ∀ i, t.cl i = { s.cl i with x := (t.cl i).x, y := (t.cl i).y, w := (t.cl i).w,
                                   h := (t.cl i).h, ignore := (t.cl i).ignore,
                                   wasvisible := (t.cl i).wasvisible,
                                   border := (t.cl i).border }

/-- The test `setselected` applies when it searches the focus stack: visible under the
tag set of its monitor, and on the selected monitor. -/
def pickable (s : State) (i : Nat) : Bool :=
  isvisible s (some i) && (s.cl i).mon == s.selmon

/-- The state in which `setselected` leaves `s` once it has settled on the client `c`, with
`sn` the relinked `snext` heap. -/
def selected (s : State) (c : Nat) (sn : Nat → Option Nat) : State :=
  { s with cl := Function.update s.cl c { s.cl c with isurgent := false },
           snext := sn, stack := some c, selmon := (s.cl c).mon, sel := some c }

deriving instance DecidableEq for Except

/-- `Inv s L S`: the registry of `s` is well formed, with `L` the clients in List order and
`S` the same clients in Stack order; every cell in use was handed out by `calloc`, and the
selection, if any, is a managed client. -/
structure Inv (s : State) (L S : List Nat) : Prop where
  list : IsChain s.next s.clients L
  stack : IsChain s.snext s.stack S
  perm : L.Perm S
  bound : ∀ i ∈ L, i < s.nclients
  sel : ∀ i, s.sel = some i → i ∈ L

/-- A registry of three clients on one monitor showing tag 1: List order 0, 1, 2 and Stack
order 2, 0, 1, with client 2 selected and client 0 urgent. -/
def exThree : State :=
  { cl := fun i => { hwnd := 100 + i, tags := 1, mon := some 0, isurgent := decide (i = 0) }
    next := fun i => if i = 0 then some 1 else if i = 1 then some 2 else none
    snext := fun i => if i = 2 then some 0 else if i = 0 then some 1 else none
    nclients := 3
    clients := some 0
    stack := some 2
    sel := some 2
    mon := fun _ => { tagset := fun _ => 1 }
    nmons := 1
    mons := some 0
    selmon := some 0
    hostvis := fun _ => true }

/-- The registry right after a second window was managed and before `arrange` ran: client 0
is the new window, at the front of List and Stack and not shown by the host; client 1 is
the selected client, visible, not minimised and shown by the host. -/
def exRepair : State :=
  { cl := fun i => { hwnd := 100 + i, tags := 1, mon := some 0 }
    next := fun i => if i = 0 then some 1 else none
    snext := fun i => if i = 0 then some 1 else none
    nclients := 2
    clients := some 0
    stack := some 0
    sel := some 1
    mon := fun _ => { tagset := fun _ => 1 }
    nmons := 1
    mons := some 0
    selmon := some 0
    hostvis := fun h => decide (h = 101) }

/-- The test of the `nexttiled` loop: floating, or not visible. -/
def untiled (s : State) (i : Nat) : Bool :=
  (s.cl i).isfloating || !isvisible s (some i)

/-- The test of the counting loop of `tile`: on `curmon`, not floating and visible. -/
def eligible (s : State) (i : Nat) : Bool :=
  (s.cl i).mon == s.curmon && (!(s.cl i).isfloating && isvisible s (some i))

/-- The stack loop of `tile` run over the list `cs` of the clients the cursor visits. -/
def tileFold (m : Monitor) (x w h : Int) (n : Nat) : State → List Nat → Nat → Int → State
  | s, [], _, _ => s
  | s, c :: cs, i, y =>
    if (s.cl c).mon != s.curmon || (s.cl c).isfloating then tileFold m x w h n s cs (i + 1) y
    else
      let bw := (s.cl c).bw
      let s1 := resize s c x y (w - 2 * bw)
        (if i + 1 = n then m.wy + m.wh - y - 2 * bw else h - 2 * bw)
      let y1 := if h ≠ m.wh then (s1.cl c).y + HEIGHT (s1.cl c) else y
      tileFold m x w h n s1 cs (i + 1) y1

/-- `tile` run for the monitor `k` over the clients `L` in List order. -/
def tileList (k : Nat) (s : State) (L : List Nat) : State :=
  let n := (L.filter (eligible s)).length
  if n = 0 then s
  else
    match (L.dropWhile (untiled s)).dropWhile
        (fun i => (s.cl i).mon != s.curmon || (s.cl i).isfloating) with
    | [] => s
    | c :: R =>
      let m := s.mon k
      let mw := truncMul s.mfact m.ww
      let bw := (s.cl c).bw
      let s1 := resize s c m.wx m.wy ((if n = 1 then m.ww else mw) - 2 * bw) (m.wh - 2 * bw)
      let n := n - 1
      if n = 0 then s1
      else
        let r := s1.cl c
        let m := s1.mon k
        let x := if m.wx + mw > r.x + r.w then r.x + r.w + 2 * r.bw else m.wx + mw
        let y := m.wy
        let w := if m.wx + mw > r.x + r.w then m.wx + m.ww - x else m.ww - mw
        let h := divUnsigned m.wh n
        let h := if h < m.bh then m.wh else h
        tileFold m x w h n s1 (R.filter (fun i => !untiled s i)) 0 y

/-- The loop of `monocle` run over the list `cs` of the clients the cursor visits. -/
def monoFold (k : Nat) : State → List Nat → State
  | s, [] => s
  | s, c :: cs =>
    if (s.cl c).mon != s.curmon then monoFold k s cs
    else
      let m := s.mon k
      let bw := (s.cl c).bw
      monoFold k (resize s c m.wx m.wy (m.ww - 2 * bw) (m.wh - 2 * bw)) cs

/-- `MonsOk s M`: the monitors of `s` form the well-formed chain `M` of allocated cells, and
each of them has a layout to run. -/
structure MonsOk (s : State) (M : List Nat) : Prop where
  chain : IsChain s.mnext s.mons M
  bound : M.length ≤ s.nmons
  layout : ∀ m ∈ M, (mon_get_layout s (some m) (s.mon m).sellt).isSome = true

/-- `Keeps s t`: `t` differs from `s` at most in what `Frame` allows and in the two
orderings, the selection, the selected monitor and the urgent flags. -/
structure Keeps (s t : State) : Prop where
  glob : t = { s with cl := t.cl, hostvis := t.hostvis, cmds := t.cmds, curmon := t.curmon,
                      next := t.next, clients := t.clients,
                      snext := t.snext, stack := t.stack, sel := t.sel, selmon := t.selmon }
  cl : ∀ i, t.cl i = { s.cl i with x := (t.cl i).x, y := (t.cl i).y, w := (t.cl i).w,
                                   h := (t.cl i).h, ignore := (t.cl i).ignore,
                                   wasvisible := (t.cl i).wasvisible,
                                   border := (t.cl i).border,
                                   isurgent := (t.cl i).isurgent }

/-- The Stack order after `setselected` settled on `o`. -/
def stackAfter (S : List Nat) (o : Option Nat) : List Nat :=
  match o with
  | some c => c :: S.erase c
  | none => S

/-- `WndProc` on the shell hook message `HSHELL_WINDOWDESTROYED` for the window `hwnd`. -/
def windowDestroyed (s : State) (hwnd : Nat) : Run State := do
  match ← getclient s hwnd with
  | some c =>
    if !(s.cl c).ignore then unmanage s (some c)
    else pure (s.setCl c (fun r => { r with ignore := false }))
  | none => pure s

/-- Two clients on one tiled monitor showing tag 1, List and Stack order 0, 1, client 0
selected; client 1 is visible under the tag set but minimised. -/
def exDestroy : State :=
  { cl := fun i => { hwnd := 100 + i, tags := 1, mon := some 0, isminimized := decide (i = 1) }
    next := fun i => if i = 0 then some 1 else none
    snext := fun i => if i = 0 then some 1 else none
    nclients := 2
    clients := some 0
    stack := some 0
    sel := some 0
    mon := fun _ => { sw := 1000, sh := 800, bh := 20, ww := 1000, wh := 800,
                      tagset := fun _ => 1 }
    nmons := 1
    mons := some 0
    selmon := some 0
    glt := fun _ => some { symbol := "[]=", arrange := some .tile }
    hostvis := fun _ => true }

/-- The client the forward walk of `focusstack` / `movestack` settles on, with `A` the
clients before the selected client `sl` in List order and `B` those after it: the first
good client of `B`, else the first good client of the whole List. -/
def cycleNext (good : Nat → Bool) (A : List Nat) (sl : Nat) (B : List Nat) : Option Nat :=
  match B.find? good with
  | some c => some c
  | none => (A ++ sl :: B).find? good

/-- The client the backward walk of `focusstack` / `movestack` settles on: the last good
client of `A`, else the last good client from `sl` on. -/
def cyclePrev (good : Nat → Bool) (A : List Nat) (sl : Nat) (B : List Nat) : Option Nat :=
  match lastSat good A none with
  | some c => some c
  | none => lastSat good (sl :: B) none

/-- The candidate test of `focusstack`: focusable and on the selected monitor. -/
def focusGood (s : State) (i : Nat) : Bool :=
  ISFOCUSABLE s i && (s.cl i).mon == s.selmon

/-- Three clients of one monitor in List order 0, 1, 2 with client 0 selected and heading
the Stack; clients 0 and 2 are shown by the host, and client 1 is not. -/
def exCycle : State :=
  { cl := fun i => { hwnd := 100 + i, tags := 1, mon := some 0 }
    next := fun i => if i = 0 then some 1 else if i = 1 then some 2 else none
    snext := fun i => if i = 0 then some 1 else if i = 1 then some 2 else none
    nclients := 3
    clients := some 0
    stack := some 0
    sel := some 0
    mon := fun _ => { tagset := fun _ => 1 }
    nmons := 1
    mons := some 0
    selmon := some 0
    hostvis := fun h => decide (h ≠ 101) }

/-- The registry of `exCycle` with the unfocusable client 1 selected and heading the Stack
instead. -/
def exCycleSel : State :=
  { exCycle with
    sel := some 1
    stack := some 1
    snext := fun i => if i = 1 then some 0 else if i = 0 then some 2 else none }

/-- Exchange of the two identifiers `a` and `b`. -/
def swapIds (a b : Nat) (i : Nat) : Nat :=
  if i = a then b else if i = b then a else i

/-- The link heap and head after the pointer surgery of `movestack` exchanging the
selected client `sl` and the client `ci`, with `p` and `pc` the predecessors found. -/
def moveLinks (nx : Nat → Option Nat) (hd : Option Nat) (sl ci : Nat) (p pc : Option Nat) :
    (Nat → Option Nat) × Option Nat :=
  let temp := if nx sl = some ci then some sl else nx sl
  let nx1 := Function.update nx sl (if nx ci = some sl then some ci else nx ci)
  let nx2 := Function.update nx1 ci temp
  let nx3 := match p with
    | some pi => if p ≠ some ci then Function.update nx2 pi (some ci) else nx2
    | none => nx2
  let nx4 := match pc with
    | some pci => if pc ≠ some sl then Function.update nx3 pci (some sl) else nx3
    | none => nx3
  (nx4, if some sl = hd then some ci else if some ci = hd then some sl else hd)

/-- The candidate test of `movestack`: visible, not floating and on the selected
monitor. -/
def moveGood (s : State) (i : Nat) : Bool :=
  isvisible s (some i) && !(s.cl i).isfloating && (s.cl i).mon == s.selmon

/-- The neighbour `movestack` picks for the selected client `sl`, with `A` the clients
before it in List order and `B` those after it. -/
def movePick (s : State) (dir : Int) (A : List Nat) (sl : Nat) (B : List Nat) : Option Nat :=
  if dir > 0 then cycleNext (moveGood s) A sl B else cyclePrev (moveGood s) A sl B

/-- Two tiled monitors showing tag 1. Client 0 lives on monitor 0 and is selected; client 1
lives on monitor 1, is visible under the tag set and minimised. Monitor 1 is the selected
monitor, as after `focusmon` found no focusable client on it. -/
def exMove : State :=
  { cl := fun i => { hwnd := 100 + i, tags := 1, mon := some i, isminimized := decide (i = 1) }
    next := fun i => if i = 0 then some 1 else none
    snext := fun i => if i = 0 then some 1 else none
    nclients := 2
    clients := some 0
    stack := some 0
    sel := some 0
    mon := fun k => { sx := 1000 * k, sw := 1000, sh := 800, bh := 20, wx := 1000 * k,
                      ww := 1000, wh := 800, tagset := fun _ => 1 }
    mnext := fun k => if k = 0 then some 1 else none
    nmons := 2
    mons := some 0
    selmon := some 1
    glt := fun _ => some { symbol := "[]=", arrange := some .tile }
    hostvis := fun _ => true }

/-- The registry of `exThree` on a tiled monitor. -/
def exThreeTiled : State :=
  { exThree with
    mon := fun _ => { sw := 1000, sh := 800, bh := 20, ww := 1000, wh := 800,
                      tagset := fun _ => 1 }
    glt := fun _ => some { symbol := "[]=", arrange := some .tile } }

/-- The List `movestack` leaves behind, in terms of the neighbour it picked. -/
def movedList (s : State) (dir : Int) (A : List Nat) (sl : Nat) (B : List Nat) : List Nat :=
  match movePick s dir A sl B with
  | some ci => (A ++ sl :: B).map (swapIds sl ci)
  | none => A ++ sl :: B

/-- One operation of the registry: `manage`, `unmanage` of a managed client, `setselected`
or `focus` of a managed client or of `NULL`, `focusstack`, `movestack`, `zoom`,
`arrange`. -/
inductive Step : State → State → Prop
  | manage (s t : State) (hwnd : Nat) (wi : WinInfo) (r : Option Nat) :
      manage s hwnd wi = .ok (t, r) → Step s t
  | unmanage (s t : State) (c : Nat) (L : List Nat) :
      IsChain s.next s.clients L → c ∈ L → unmanage s (some c) = .ok t → Step s t
  | setselected (s t : State) (c : Option Nat) (L : List Nat) :
      IsChain s.next s.clients L → (∀ i, c = some i → i ∈ L) →
      setselected s c = .ok t → Step s t
  | focus (s t : State) (c : Option Nat) (L : List Nat) :
      IsChain s.next s.clients L → (∀ i, c = some i → i ∈ L) →
      focus s c = .ok t → Step s t
  | focusstack (s t : State) (dir : Int) : focusstack s dir = .ok t → Step s t
  | movestack (s t : State) (dir : Int) : movestack s dir = .ok t → Step s t
  | zoom (s t : State) : zoom s = .ok t → Step s t
  | arrange (s t : State) : arrange s = .ok t → Step s t

/-- The states reached from an empty registry by the operations of `Step`. -/
inductive Reachable : State → Prop
  | init (s : State) : s.clients = none → s.stack = none → s.sel = none → Reachable s
  | step (s t : State) : Reachable s → Step s t → Reachable t

/-- An empty registry with one tiled monitor showing tag 1. -/
def exEmpty : State :=
  { mon := fun _ => { hmon := 7, sw := 1000, sh := 800, bh := 20, ww := 1000, wh := 800,
                      tagset := fun _ => 1 }
    nmons := 1
    mons := some 0
    selmon := some 0
    glt := fun _ => some { symbol := "[]=", arrange := some .tile }
    hostvis := fun _ => true }

/-- The state after `manage` of window 101 in `exEmpty`. -/
def exManaged1 : State :=
  match manage exEmpty 101 { hmon := 7 } with
  | .ok (t, _) => t
  | .error _ => exEmpty

/-- The state after `arrange` in `exManaged1`. -/
def exManaged2 : State :=
  match arrange exManaged1 with
  | .ok t => t
  | .error _ => exEmpty

/-- Two tiled monitors showing tag 1. Client 0 lives on monitor 0; clients 1 and 2 live on
monitor 1, the selected monitor. Client 1 is selected and is the first tiled client of
monitor 1 in List order, that is, its master. -/
def exZoom : State :=
  { cl := fun i => { hwnd := 100 + i, tags := 1, mon := some (if i = 0 then 0 else 1) }
    next := fun i => if i = 0 then some 1 else if i = 1 then some 2 else none
    snext := fun i => if i = 1 then some 0 else if i = 0 then some 2 else none
    nclients := 3
    clients := some 0
    stack := some 1
    sel := some 1
    mon := fun k => { sx := 1000 * k, sw := 1000, sh := 800, bh := 20, wx := 1000 * k,
                      ww := 1000, wh := 800, tagset := fun _ => 1 }
    mnext := fun k => if k = 0 then some 1 else none
    nmons := 2
    mons := some 0
    selmon := some 1
    glt := fun _ => some { symbol := "[]=", arrange := some .tile }
    hostvis := fun _ => true }

/-- The scenario of the specification: one monitor with work rectangle (0, 0, 1000, 800),
`mfact` 0.6, for which `(int)(mfact * 1000)` is 600, three visible tiled clients in List
order 0, 1, 2. -/
def exTile : State :=
  { cl := fun i => { hwnd := 100 + i, tags := 1, mon := some 0 }
    next := fun i => if i = 0 then some 1 else if i = 1 then some 2 else none
    snext := fun i => if i = 0 then some 1 else if i = 1 then some 2 else none
    nclients := 3
    clients := some 0
    stack := some 0
    sel := some 0
    mon := fun _ => { sw := 1000, sh := 800, bh := 20, ww := 1000, wh := 800,
                      tagset := fun _ => 1 }
    nmons := 1
    mons := some 0
    selmon := some 0
    curmon := some 0
    glt := fun _ => some { symbol := "[]=", arrange := some .tile }
    mfact := fun _ => 600
    hostvis := fun _ => true }

/-- A monitor with work height 30 and bar height 20, with three visible tiled clients in
List order 0, 1, 2. -/
def exTileLow : State :=
  { cl := fun i => { hwnd := 100 + i, tags := 1, mon := some 0 }
    next := fun i => if i = 0 then some 1 else if i = 1 then some 2 else none
    snext := fun i => if i = 0 then some 1 else if i = 1 then some 2 else none
    nclients := 3
    clients := some 0
    stack := some 0
    sel := some 0
    mon := fun _ => { sw := 1000, sh := 30, bh := 20, ww := 1000, wh := 30,
                      tagset := fun _ => 1 }
    nmons := 1
    mons := some 0
    selmon := some 0
    curmon := some 0
    glt := fun _ => some { symbol := "[]=", arrange := some .tile }
    hostvis := fun _ => true }

/-- `view`, with `arg->ui` as `ui`. -/
def view (s : State) (ui : Nat) : Run State := do
  let s1 := if s.selmon.isNone then { s with selmon := s.mons } else s
  let k ← deref s1.selmon
  if ui &&& TAGMASK s1 = (s1.mon k).tagset (s1.mon k).seltags then pure s1
  else
    let s2 := s1.setMon k (fun m => { m with seltags := m.seltags ^^^ 1 })
    let s3 := if ui &&& TAGMASK s2 ≠ 0 then
        let ts := ui &&& TAGMASK s2
        s2.setMon k (fun m => { m with tagset := Function.update m.tagset m.seltags ts })
      else s2
    arrange s3

/-- `toggleview`. -/
def toggleview (s : State) (ui : Nat) : Run State := do
  let s1 := if s.selmon.isNone then { s with selmon := s.mons } else s
  let k ← deref s1.selmon
  let mask := (s1.mon k).tagset (s1.mon k).seltags ^^^ (ui &&& TAGMASK s1)
  if mask ≠ 0 then
    arrange (s1.setMon k (fun m => { m with tagset := Function.update m.tagset m.seltags mask }))
  else pure s1

/-- `toggletag`. -/
def toggletag (s : State) (ui : Nat) : Run State :=
  match s.sel with
  | none => pure s
  | some sl =>
    let mask := (s.cl sl).tags ^^^ (ui &&& TAGMASK s)
    if mask ≠ 0 then arrange (s.setCl sl (fun c => { c with tags := mask })) else pure s

/-- Loop `for (t = start; t && t != stop; t = t->link) prev = t;` and its value `prev`. -/
def prevLoop (nx : Nat → Option Nat) (stop : Nat) : Nat → Option Nat → Option Nat → Run (Option Nat)
  | _, none, prev => pure prev
  | 0, some _, _ => throw .diverge
  | f + 1, some t, prev => if t = stop then pure prev else prevLoop nx stop f (nx t) (some t)

/-- Loop `while (tail->link) tail = tail->link;` and its value `tail`. -/
def tailLoop (nx : Nat → Option Nat) : Nat → Nat → Run Nat
  | 0, _ => throw .diverge
  | f + 1, t =>
    match nx t with
    | some u => tailLoop nx f u
    | none => pure t

/-- The monitor `focusmon` and `sendmon` pick from `cur`: the next one, wrapping to the
first, for a positive direction, else the previous one, wrapping to the last. -/
def targetmon (s : State) (cur : Nat) (dir : Int) : Run (Option Nat) :=
  if dir > 0 then
    if (s.mnext cur).isSome then pure (s.mnext cur) else pure s.mons
  else do
    let prev ← prevLoop s.mnext cur s.nmons s.mons none
    if prev.isSome then pure prev
    else do
      let hd ← deref s.mons
      let tl ← tailLoop s.mnext s.nmons hd
      pure (some tl)

/-- `focusmon`, with `arg->i` as `dir`. -/
def focusmon (s : State) (dir : Int) : Run State :=
  if s.mons.isNone then pure s
  else do
    let s1 := if s.selmon.isNone then { s with selmon := s.mons } else s
    let cur ← deref s1.selmon
    let target ← targetmon s1 cur dir
    if target.isSome && target != s1.selmon then do
      let s2 := { s1 with selmon := target }
      let c ← skipWhile s2.snext (fun i => !((s2.cl i).mon == s2.selmon && ISFOCUSABLE s2 i))
        s2.nclients s2.stack
      if c.isSome then focus s2 c else pure s2
    else pure s1

/-- `sendmon`, with `arg->i` as `dir`. -/
def sendmon (s : State) (dir : Int) : Run State :=
  match s.sel with
  | none => pure s
  | some sl =>
    if s.mons.isNone then pure s
    else do
      let cur ← deref (if (s.cl sl).mon.isSome then (s.cl sl).mon else s.selmon)
      let target ← targetmon s cur dir
      match target with
      | none => pure s
      | some tg =>
        if tg = cur then pure s
        else
          let s1 := s.setCl sl (fun c => { c with mon := some tg })
          let s2 := { s1 with
            hostvis := Function.update s1.hostvis (s1.cl sl).hwnd true
            cmds := s1.cmds ++ [.setWindowPos (s1.cl sl).hwnd (s1.mon tg).wx (s1.mon tg).wy
              (s1.cl sl).w (s1.cl sl).h] }
          let s3 := if (s2.cl sl).tags &&& (s2.mon tg).tagset (s2.mon tg).seltags = 0 then
              let ts := (s2.cl sl).tags &&& TAGMASK s2
              s2.setMon tg (fun m => { m with tagset := Function.update m.tagset m.seltags ts })
            else s2
          arrange s3

/-- What the host answers about one window: the data `manage` reads, and the further
queries of `ismanageable`, `IsIconic` and `EnumChildWindows`. -/
structure HostWin where
  info : WinInfo := {}
  textlen : Nat := 0
  disabled : Bool := false
  noactivate : Bool := false
  istool : Bool := false
  isapp : Bool := false
  iconic : Bool := false
  children : List Nat := []

/-- The host's answers for every window handle at the time of one event. -/
abbrev Host := Nat → HostWin

/-- The titles of `Windows.UI.Core.CoreWindow` windows that `ismanageable` rejects. -/
def shellTitles : List String :=
  ["Windows Shell Experience Host", "Microsoft Text Input Application", "Action center",
   "New Notification", "Date and Time Information", "Volume Control", "Network Connections",
   "Cortana", "Start", "Windows Default Lock Screen", "Search"]

/-- The window classes that `ismanageable` rejects. -/
def shellClasses : List String :=
  ["ForegroundStaging", "ApplicationManager_DesktopShellWindow", "Static", "Scrollbar",
   "Progman"]

/-- The contents of the static buffers of `getclienttitle` and `getclientclassname` at the
tests of `ismanageable`. Both are filled for the window itself before `manage(parent)`. If
that call ran `applyrules` (`ran`), the rule loop has filled the title buffer for the parent
when some rule names a title, and the class buffer for the parent when some rule whose title
test passes names a class. The result is the pair of title and class. -/
def buffersAfter (rules : List Rule) (ran : Bool) (own par : WinInfo) : String × String :=
  (if ran && rules.any (fun r => r.title.isSome) then par.title else own.title,
   if ran && rules.any (fun r => (r.title.all fun t => wcsstr par.title t) && r.cls.isSome)
     then par.cls else own.cls)

/-- The tests of `ismanageable` once the parent has been dealt with: `title` and `cls` are
the contents of the two static buffers, `visible` is `IsWindowVisible(hwnd)` and `pok` tells
whether the parent is manageable. -/
def manageableWin (w : HostWin) (title cls : String) (visible pok : Bool) : Bool :=
  if w.textlen = 0 then false
  else if w.disabled then false
  else if w.noactivate then false
  else if w.info.cloaked then false
  else if wcsstr cls "Windows.UI.Core.CoreWindow" &&
      shellTitles.any (fun t => wcsstr title t) then false
  else if shellClasses.any (fun k => wcsstr cls k) then false
  else if (w.info.parent = 0 && visible) || pok then
    if (!w.istool && w.info.parent = 0) || (w.istool && pok) then true
    else if w.isapp && w.info.parent ≠ 0 then true
    else false
  else false

/-- `ismanageable`; the fuel bounds the recursion along the parent windows. `manage(parent)`
runs `applyrules` unless it returns early, which after the test `!getclient(parent)` happens
only when `GetWindowInfo` fails. -/
def ismanageable (host : Host) : Nat → State → Nat → Run (State × Bool)
  | 0, _, _ => throw .diverge
  | f + 1, s, hwnd =>
    if hwnd = 0 then pure (s, false)
    else do
      let c ← getclient s hwnd
      if c.isSome then pure (s, true)
      else do
        let w := host hwnd
        let parent := w.info.parent
        let (s1, pok) ← (if parent ≠ 0 then ismanageable host f s parent else pure (s, false))
        let s2 ← (if pok then
            getclient s1 parent >>= fun pc =>
              if pc.isNone then manage s1 parent (host parent).info >>= fun r => pure r.1
              else pure s1
          else pure s1)
        let ran := pok && (host parent).info.valid &&
          (match getclient s1 parent with
            | .ok none => true
            | _ => false)
        let b := buffersAfter s1.cfg.rules ran w.info (host parent).info
        pure (s2, manageableWin w b.1 b.2 (s2.hostvis hwnd) pok)

/-- `scan`, the callback of `EnumChildWindows`. -/
def scan (host : Host) (fuel : Nat) (s : State) (hwnd : Nat) : Run State := do
  match ← getclient s hwnd with
  | some c => pure (s.setCl c (fun r => { r with isalive := true }))
  | none => do
    let (s1, ok) ← ismanageable host fuel s hwnd
    if ok then manage s1 hwnd (host hwnd).info >>= fun r => pure r.1
    else pure s1

/-- `EnumChildWindows(p->hwnd, scan, 0)` over the child windows `ws` the host enumerates. -/
def enumChildWindows (host : Host) (fuel : Nat) : State → List Nat → Run State
  | s, [] => pure s
  | s, w :: ws => do
    let s1 ← scan host fuel s w
    enumChildWindows host fuel s1 ws

/-- The loop of `managechildwindows` over the List: a child of `p` that was not enumerated
and that the host does not show is unmanaged, the others lose their `isalive` mark. -/
def reapLoop (p : Nat) : Nat → State → Option Nat → Run State
  | _, s, none => pure s
  | 0, _, some _ => throw .diverge
  | f + 1, s, some c =>
    if (s.cl c).parent = (s.cl p).hwnd then
      if !(s.cl c).isalive && !s.hostvis (s.cl c).hwnd then do
        let t := s.next c
        let s1 ← unmanage s (some c)
        reapLoop p f s1 t
      else
        let s1 := s.setCl c (fun r => { r with isalive := false })
        reapLoop p f s1 (s1.next c)
    else reapLoop p f s (s.next c)

/-- `nextchild`. -/
def nextchild (s : State) (p : Option Nat) (c : Option Nat) : Run (Option Nat) :=
  match c with
  | none => pure none
  | some _ => do
    let pi ← deref p
    skipWhile s.next (fun i => (s.cl i).parent != (s.cl pi).hwnd) s.nclients c

/-- `managechildwindows`. -/
def managechildwindows (host : Host) (fuel : Nat) (s : State) (p : Option Nat) :
    Run (State × Option Nat) := do
  let pi ← deref p
  let s1 ← enumChildWindows host fuel s (host (s.cl pi).hwnd).children
  let s2 ← reapLoop pi s1.nclients s1 s1.clients
  let c ← nextchild s2 p s2.clients
  pure (s2, c)

/-- The loop of `tag` over the children of the selected client. -/
def tagLoop (ui : Nat) : Nat → State → Option Nat → Run State
  | _, s, none => pure s
  | 0, _, some _ => throw .diverge
  | f + 1, s, some c => do
    let s1 := if (s.cl c).isfloating then
        s.setCl c (fun r => { r with tags := ui &&& TAGMASK s })
      else s
    let c1 ← nextchild s1 s1.sel (s1.next c)
    tagLoop ui f s1 c1

/-- `tag`, with `arg->ui` as `ui`. -/
def tag (host : Host) (fuel : Nat) (s : State) (ui : Nat) : Run State :=
  match s.sel with
  | none => pure s
  | some sl =>
    if ui &&& TAGMASK s ≠ 0 then do
      let s1 := s.setCl sl (fun c => { c with tags := ui &&& TAGMASK s })
      let (s2, c) ← managechildwindows host fuel s1 s1.sel
      let s3 ← tagLoop ui s2.nclients s2 c
      arrange s3
    else pure s

/-- `update_client_monitor`. -/
def update_client_monitor (host : Host) (s : State) (c : Nat) : Run State := do
  let m ← monitor_from_hwnd s (host (s.cl c).hwnd).info.hmon
  if m.isSome && m != (s.cl c).mon then pure (s.setCl c (fun r => { r with mon := m }))
  else pure s

/-- `WndProc` on the shell hook message `HSHELL_WINDOWCREATED` for the window `hwnd`. -/
def windowCreated (host : Host) (fuel : Nat) (s : State) (hwnd : Nat) : Run State := do
  let c ← getclient s hwnd
  if c.isSome then pure s
  else do
    let (s1, ok) ← ismanageable host fuel s hwnd
    if ok then do
      let (s2, c) ← manage s1 hwnd (host hwnd).info
      let (s3, _) ← managechildwindows host fuel s2 c
      arrange s3
    else pure s1

/-- `WndProc` on the shell hook message `HSHELL_WINDOWACTIVATED` for the window `hwnd`. -/
def windowActivated (host : Host) (fuel : Nat) (s : State) (hwnd : Nat) : Run State := do
  match ← getclient s hwnd with
  | some c => do
    let t := s.sel
    let (s1, _) ← managechildwindows host fuel s (some c)
    let s2 ← update_client_monitor host s1 c
    let s3 ← setselected s2 (some c)
    let s4 ← (match t with
      | some ti =>
        let s3a := s3.setCl ti (fun r => { r with isminimized := (host (s3.cl ti).hwnd).iconic })
        if (host (s3.cl ti).hwnd).iconic then arrange s3a else pure s3a
      | none => pure s3)
    match s4.sel with
    | some sl =>
      if (s4.cl sl).isminimized then
        zoom (s4.setCl sl (fun r => { r with isminimized := false }))
      else pure s4
    | none => pure s4
  | none => do
    let (s1, ok) ← ismanageable host fuel s hwnd
    if ok then do
      let (s2, c) ← manage s1 hwnd (host hwnd).info
      let (s3, _) ← managechildwindows host fuel s2 c
      let s4 ← setselected s3 c
      arrange s4
    else pure s1

/-- `wineventproc` on `EVENT_OBJECT_UNCLOAKED` for the window `hwnd` itself. -/
def windowUncloaked (host : Host) (fuel : Nat) (s : State) (hwnd : Nat) : Run State :=
  if hwnd = 0 then pure s
  else do
    let c ← getclient s hwnd
    if c.isSome then pure s
    else do
      let (s1, ok) ← ismanageable host fuel s hwnd
      if ok then do
        let (s2, c) ← manage s1 hwnd (host hwnd).info
        let (s3, _) ← managechildwindows host fuel s2 c
        let s4 ← setselected s3 c
        arrange s4
      else pure s1

/-- The window notifications and user commands. -/
inductive Event where
  | view (ui : Nat)
  | toggleview (ui : Nat)
  | tag (ui : Nat)
  | toggletag (ui : Nat)
  | focusstack (dir : Int)
  | movestack (dir : Int)
  | zoom
  | focusmon (dir : Int)
  | sendmon (dir : Int)
  | unmanage (c : Nat)
  | windowCreated (hwnd : Nat)
  | windowDestroyed (hwnd : Nat)
  | windowActivated (hwnd : Nat)
  | windowUncloaked (hwnd : Nat)

/-- The handling of one event, with the host's answers `host` at that time. -/
def handle (host : Host) (fuel : Nat) (s : State) : Event → Run State
  | .view ui => view s ui
  | .toggleview ui => toggleview s ui
  | .tag ui => tag host fuel s ui
  | .toggletag ui => toggletag s ui
  | .focusstack dir => focusstack s dir
  | .movestack dir => movestack s dir
  | .zoom => zoom s
  | .focusmon dir => focusmon s dir
  | .sendmon dir => sendmon s dir
  | .unmanage c => unmanage s (some c)
  | .windowCreated hwnd => windowCreated host fuel s hwnd
  | .windowDestroyed hwnd => windowDestroyed s hwnd
  | .windowActivated hwnd => windowActivated host fuel s hwnd
  | .windowUncloaked hwnd => windowUncloaked host fuel s hwnd

/-- No allocated client cell names its own window as its parent. -/
def NoSelf (s : State) : Prop := ∀ i, i < s.nclients → (s.cl i).parent ≠ (s.cl i).hwnd

/-- The host never reports a window as its own parent. -/
def HostOk (host : Host) : Prop := ∀ w, w ≠ 0 → (host w).info.parent ≠ w

/-- The selected client, if any, is visible under the tag set of its monitor. -/
def Vis (s : State) : Prop := ∀ i, s.sel = some i → isvisible s (some i) = true

/-- `Reg s L`: the registry of `s` is well formed with List `L`, and no managed window is
its own parent. -/
structure Reg (s : State) (L : List Nat) : Prop where
  inv : ∃ S, Inv s L S
  noself : NoSelf s

/-- `Same s t`: `t` has the links, the selection and the window identities of `s`. -/
structure Same (s t : State) : Prop where
  next : t.next = s.next
  clients : t.clients = s.clients
  snext : t.snext = s.snext
  stack : t.stack = s.stack
  nclients : t.nclients = s.nclients
  sel : t.sel = s.sel
  ident : ∀ i, (t.cl i).hwnd = (s.cl i).hwnd ∧ (t.cl i).parent = (s.cl i).parent

/-- `OnlyCell i s t`: `t` differs from `s` at most in the client cell `i`, whose window and
parent are kept. -/
structure OnlyCell (i : Nat) (s t : State) : Prop where
  glob : t = { s with cl := t.cl, hostvis := t.hostvis, cmds := t.cmds }
  other : ∀ j, j ≠ i → t.cl j = s.cl j
  hwnd : (t.cl i).hwnd = (s.cl i).hwnd
  parent : (t.cl i).parent = (s.cl i).parent

/-- The part of `setup` that fills the registry, after the monitors are built:
`EnumWindows(scan, 0); selmon = mons; arrange(); focus(NULL);` over the top-level windows
`ws` the host enumerates. -/
def setupScan (host : Host) (fuel : Nat) (s : State) (ws : List Nat) : Run State := do
  let s1 ← enumChildWindows host fuel s ws
  let s2 ← arrange { s1 with selmon := s1.mons }
  focus s2 none

/-- The states reached from the empty registry by the initial scan of `setup` and by
handling window notifications and user commands; between two events the host may show or
hide windows. An `unmanage` is for a managed client, and the host never reports a window as
its own parent. -/
inductive EventReach : State → Prop
  | init (s : State) : s.clients = none → s.stack = none → s.sel = none → s.nclients = 0 →
      EventReach s
  | setup (s t : State) (host : Host) (fuel : Nat) (ws : List Nat) : EventReach s →
      HostOk host → setupScan host fuel s ws = .ok t → EventReach t
  | event (s t : State) (host : Host) (fuel : Nat) (e : Event) : EventReach s → HostOk host →
      (∀ c, e = .unmanage c → ∃ L, IsChain s.next s.clients L ∧ c ∈ L) →
      handle host fuel s e = .ok t → EventReach t
  | hostShows (s : State) (v : Nat → Bool) : EventReach s → EventReach { s with hostvis := v }

/-- The host of the example: every window is a titled top-level window on monitor 7. -/
def exHost : Host := fun _ => { info := { hmon := 7 }, textlen := 5 }

/-- The state after the notification that window 101 was created, from `exEmpty`. -/
def exCreated : State :=
  match handle exHost 1 exEmpty (.windowCreated 101) with
  | .ok t => t
  | .error _ => exEmpty

/-- One display as `EnumDisplayMonitors` hands it to `monenumproc`: its platform id, whether
`GetMonitorInfoW` succeeds, and the rectangles `rcMonitor` and `rcWork` it reports. -/
structure Display where
  hmon : Nat := 0
  valid : Bool := true
  left : Int := 0
  top : Int := 0
  right : Int := 0
  bottom : Int := 0
  wleft : Int := 0
  wtop : Int := 0
  wright : Int := 0
  wbottom : Int := 0
  deriving DecidableEq, Repr

/-- The geometry assignments of `monenumproc`, the same for a record it updates and for one
it creates, from the rectangle `r = (l, t, r, b)`; `int` arithmetic is taken without
overflow, display coordinates being far from the `int` range. -/
def monGeometry (showbar topbar : Bool) (l t r b : Int) (m : Monitor) : Monitor :=
  let sx := l
  let sy := t
  let sw := r - l
  let sh := b - t
  let bh := 20
  let wy := if showbar && topbar then sy + bh else sy
  let wh := if showbar then sh - bh else sh
  { m with
    sx := sx
    sy := sy
    sw := sw
    sh := sh
    bh := bh
    wx := sx
    wy := wy
    ww := sw
    wh := wh
    «by» := if showbar then (if topbar then wy - bh else wy + wh) else -bh }

/-- Loop `for (m = mons; m; prev = m, m = m->next) if (m->hmon == hMon) ...` of
`monenumproc`: the record found, if any, and `prev` when the loop is left. -/
def monFind (s : State) (hmon : Nat) :
    Nat → Option Nat → Option Nat → Run (Option Nat × Option Nat)
  | _, none, prev => pure (none, prev)
  | 0, some _, _ => throw .diverge
  | f + 1, some m, prev =>
    if (s.mon m).hmon = hmon then pure (some m, prev)
    else monFind s hmon f (s.mnext m) (some m)

/-- `monenumproc` for the display `d`; `taskbar` tells whether the explorer task bar exists
and is visible. The fresh record is the next unused cell, zeroed as by `calloc` (whose
failure is not represented). -/
def monenumproc (s : State) (taskbar : Bool) (d : Display) : Run State :=
  if !d.valid then pure s
  else do
    let (found, prev) ← monFind s d.hmon s.nmons s.mons none
    let l := if taskbar then d.wleft else d.left
    let t := if taskbar then d.wtop else d.top
    let r := if taskbar then d.wright else d.right
    let b := if taskbar then d.wbottom else d.bottom
    match found with
    | some k => pure (s.setMon k (monGeometry s.showbar s.cfg.topbar l t r b))
    | none =>
      let i := s.nmons
      let s1 := { s with
        mon := Function.update s.mon i (monGeometry s.showbar s.cfg.topbar l t r b { hmon := d.hmon })
        mnext := Function.update s.mnext i none
        nmons := s.nmons + 1 }
      match s1.mons with
      | none => pure { s1 with mons := some i }
      | some _ => do
        let p ← deref prev
        pure { s1 with mnext := Function.update s1.mnext p (some i) }

/-- `EnumDisplayMonitors(NULL, NULL, monenumproc, 0)` over the displays the host enumerates. -/
def enumDisplayMonitors (taskbar : Bool) : State → List Display → Run State
  | s, [] => pure s
  | s, d :: ds => do
    let s1 ← monenumproc s taskbar d
    enumDisplayMonitors taskbar s1 ds

/-- The loop of `buildmonitors` over the old monitor list: a record whose platform id is in
no record of the new list loses its bar window and is freed (`free` itself is not
represented, the cell is not reused). -/
def dropOld : Nat → State → Option Nat → Run State
  | _, s, none => pure s
  | 0, _, some _ => throw .diverge
  | f + 1, s, some p => do
    let nxt := s.mnext p
    let m ← skipWhile s.mnext (fun k => (s.mon k).hmon != (s.mon p).hmon) s.nmons s.mons
    let s1 := if m.isNone && (s.mon p).barhwnd ≠ 0 then
        { s with cmds := s.cmds ++ [.destroyWindow (s.mon p).barhwnd] }
      else s
    dropOld f s1 nxt

/-- `buildmonitors`, over the displays `ds` the host enumerates. -/
def buildmonitors (s : State) (taskbar : Bool) (ds : List Display) : Run State := do
  let old := s.mons
  let s1 ← enumDisplayMonitors taskbar { s with mons := none } ds
  let s2 ← dropOld s1.nmons s1 old
  if s2.selmon.isNone then pure { s2 with selmon := s2.mons } else pure s2

/-- The rectangle `monenumproc` takes as the screen rectangle of `d`: the work area the host
reports when the explorer task bar is visible, else the whole display. -/
def displayRect (taskbar : Bool) (d : Display) : Int × Int × Int × Int :=
  (if taskbar then d.wleft else d.left, if taskbar then d.wtop else d.top,
   if taskbar then d.wright else d.right, if taskbar then d.wbottom else d.bottom)

/-- What C20 says of a monitor record `m`, with `showbar` as given: the bar height is not
negative, the work rectangle is inside the screen rectangle, a shown bar is inside the
screen rectangle and clear of the work rectangle, and with a hidden bar the work rectangle
is the screen rectangle. -/
def BarLayoutOk (showbar : Bool) (m : Monitor) : Prop :=
  0 ≤ m.bh ∧
  (m.sx ≤ m.wx ∧ m.wx + m.ww ≤ m.sx + m.sw ∧ m.sy ≤ m.wy ∧ m.wy + m.wh ≤ m.sy + m.sh) ∧
  (showbar = true → m.sy ≤ m.«by» ∧ m.«by» + m.bh ≤ m.sy + m.sh ∧
    (m.«by» + m.bh ≤ m.wy ∨ m.wy + m.wh ≤ m.«by»)) ∧
  (showbar = false → m.wx = m.sx ∧ m.wy = m.sy ∧ m.ww = m.sw ∧ m.wh = m.sh)

/-- One monitor with platform id 7 as `setup` leaves it, after the user has switched it to
tag 3 and to the monocle layout; no clients. -/
def exRebuild : State :=
  { mon := fun _ => { hmon := 7, sw := 1000, sh := 800, bh := 20, wy := 20, ww := 1000, wh := 780,
                      barhwnd := 50, tagset := fun i => if i = 0 then 4 else 1,
                      lt := fun i => if i = 0 then some { symbol := "[M]", arrange := some .monocle }
                                     else if i = 1 then some { symbol := "><>", arrange := none }
                                     else none }
    nmons := 1
    mons := some 0
    selmon := some 0
    glt := fun i => if i = 0 then some { symbol := "[]=", arrange := some .tile }
                    else some { symbol := "><>", arrange := none }
    hostvis := fun _ => true }

/-- The display with platform id 7, unchanged. -/
def exDisplay : Display := { hmon := 7, right := 1000, bottom := 800, wright := 1000, wbottom := 800 }

/-- `TagsKept s t L S`: `t` has the monitor records (tag-set slots and toggle indices
included) and the client tags of `s`, the List `L`, the Stack `S` and the selection of `s`. -/
structure TagsKept (s t : State) (L S : List Nat) : Prop where
  mon : t.mon = s.mon
  tags : ∀ i, (t.cl i).tags = (s.cl i).tags
  list : IsChain t.next t.clients L
  stack : IsChain t.snext t.stack S
  sel : t.sel = s.sel

/-- The state of `exTile` with tag 2 in the other tag-set slot of the monitor. -/
def exView : State :=
  { exTile with
    mon := fun _ => { sw := 1000, sh := 800, bh := 20, ww := 1000, wh := 800,
                      tagset := fun i => if i = 0 then 1 else 2 } }

/-- The monitor next to `cur` in the monitor list `A ++ cur :: B`, cyclically: the one
after it for a positive direction, else the one before it. -/
def adjacentMon (A : List Nat) (cur : Nat) (B : List Nat) (dir : Int) : Nat :=
  if dir > 0 then (B ++ A).headD cur else (B ++ A).getLastD cur

/-- The test of the loop of `focusmon`, once `selmon` is the monitor `tg`: on that monitor
and focusable. -/
def monFocusable (s : State) (tg : Nat) (c : Nat) : Bool :=
  (s.cl c).mon == some tg && ISFOCUSABLE s c

/-- The state of `exMove` with monitor 0, that of the selected client 0, as the selected
monitor; the only client of monitor 1 is minimised. -/
def exFocusmon : State := { exMove with selmon := some 0 }

/-- Two tiled monitors: monitor 0 shows tag 1 and is selected, monitor 1 shows tag 2.
Client 0 carries tag 1, lives on monitor 0 and is selected. -/
def exSend : State :=
  { cl := fun i => { hwnd := 100 + i, tags := 1, mon := some 0, w := 400, h := 300 }
    next := fun _ => none
    snext := fun _ => none
    nclients := 1
    clients := some 0
    stack := some 0
    sel := some 0
    mon := fun k => { sx := 1000 * k, sw := 1000, sh := 800, bh := 20, wx := 1000 * k,
                      ww := 1000, wh := 800, tagset := fun _ => if k = 0 then 1 else 2 }
    mnext := fun k => if k = 0 then some 1 else none
    nmons := 2
    mons := some 0
    selmon := some 0
    glt := fun _ => some { symbol := "[]=", arrange := some .tile }
    hostvis := fun _ => true }

/-- One monitor as `monenumproc` lays it out for the display rectangle (0, 0, 1000, 800)
with a top bar: bar height 20 and work rectangle (0, 20, 1000, 780), in monocle layout;
clients 0 and 1 are visible and tiled, without border as `manage` creates them. -/
def exMono : State :=
  { cl := fun i => { hwnd := 100 + i, tags := 1, mon := some 0 }
    next := fun i => if i = 0 then some 1 else none
    snext := fun i => if i = 0 then some 1 else none
    nclients := 2
    clients := some 0
    stack := some 0
    sel := some 0
    mon := fun _ => { sw := 1000, sh := 800, bh := 20, wy := 20, ww := 1000, wh := 780,
                      tagset := fun _ => 1 }
    nmons := 1
    mons := some 0
    selmon := some 0
    curmon := some 0
    glt := fun _ => some { symbol := "[M]", arrange := some .monocle }
    hostvis := fun _ => true }

/-- Two tiled monitors showing tag 1, monitor 1 with work rectangle (1000, 0, 1000, 800).
List order 0, 1, 2: client 0 is visible on monitor 0; clients 1 and 2 live on monitor 1,
client 1 carrying tag 2 only and so hidden, client 2 visible. No client floats, and every
stored rectangle is (0, 0, 0, 0). -/
def exHidden : State :=
  { cl := fun i => { hwnd := 100 + i, tags := if i = 1 then 2 else 1,
                     mon := some (if i = 0 then 0 else 1) }
    next := fun i => if i = 0 then some 1 else if i = 1 then some 2 else none
    snext := fun i => if i = 0 then some 1 else if i = 1 then some 2 else none
    nclients := 3
    clients := some 0
    stack := some 0
    sel := some 0
    mon := fun k => { sx := 1000 * k, sw := 1000, sh := 800, bh := 20, wx := 1000 * k,
                      ww := 1000, wh := 800, tagset := fun _ => 1 }
    mnext := fun k => if k = 0 then some 1 else none
    nmons := 2
    mons := some 0
    selmon := some 0
    glt := fun _ => some { symbol := "[]=", arrange := some .tile }
    hostvis := fun _ => true }

/-- A monitor left of the primary display, with screen rectangle (-1920, 0, 1920, 1080),
and a floating client without border assigned to it whose stored rectangle
(100, 0, 800, 600) still lies on the primary display: `sendmon` sets `mon` and moves the
window, but leaves the stored rectangle to the layout, and a layout without arrange function
does not touch it. -/
def exClamp : State :=
  { cl := fun i => { hwnd := 100 + i, tags := 1, mon := some 0, isfloating := true,
                     x := 100, y := 0, w := 800, h := 600 }
    next := fun _ => none
    snext := fun _ => none
    nclients := 1
    clients := some 0
    stack := some 0
    sel := some 0
    mon := fun _ => { sx := -1920, sw := 1920, sh := 1080, bh := 20, wx := -1920,
                      ww := 1920, wh := 1080, tagset := fun _ => 1 }
    nmons := 1
    mons := some 0
    selmon := some 0
    glt := fun _ => some { symbol := "[]=", arrange := some .tile }
    hostvis := fun _ => true }

/-- A display 30 high with a top bar of height 20: work rectangle (0, 20, 1000, 10), below
the bar height. Two visible tiled clients without border, List order 0, 1. -/
def exTileTiny : State :=
  { cl := fun i => { hwnd := 100 + i, tags := 1, mon := some 0 }
    next := fun i => if i = 0 then some 1 else none
    snext := fun i => if i = 0 then some 1 else none
    nclients := 2
    clients := some 0
    stack := some 0
    sel := some 0
    mon := fun _ => { sw := 1000, sh := 30, bh := 20, wy := 20, ww := 1000, wh := 10,
                      tagset := fun _ => 1 }
    nmons := 1
    mons := some 0
    selmon := some 0
    curmon := some 0
    glt := fun _ => some { symbol := "[]=", arrange := some .tile }
    hostvis := fun _ => true }

/-- An entry of the `keys` table (`Key`): modifier, virtual key, and as `cmd` the command
that `func` applied to `arg` runs. The table itself is in config.h, which is not part of the
source; the functions below take it as a parameter. -/
structure Key where
  mod : Nat
  key : Nat
  cmd : Event

/-- The loop of `grabkeys` from index `i` on: the `RegisterHotKey` requests, each as
(id, mod, key). -/
def grabkeysFrom : Nat → List Key → List (Nat × Nat × Nat)
  | _, [] => []
  | i, k :: ks => (i, k.mod, k.key) :: grabkeysFrom (i + 1) ks

/-- `grabkeys`. -/
def grabkeys (keys : List Key) : List (Nat × Nat × Nat) := grabkeysFrom 0 keys

/-- The guard of `WndProc` on `WM_HOTKEY`: the table entry whose function is called. -/
def hotkeyEntry (keys : List Key) (wParam : Nat) : Option Key :=
  if wParam > 0 ∧ wParam < keys.length then keys[wParam]? else none

/-- `WndProc` on the message `WM_HOTKEY`. -/
def wmHotkey (host : Host) (fuel : Nat) (keys : List Key) (s : State) (wParam : Nat) :
    Run State :=
  match hotkeyEntry keys wParam with
  | some k => handle host fuel s k.cmd
  | none => pure s

/-- A key table with two entries: `focusstack(+1)` on Alt+J and `focusstack(-1)` on
Alt+K. -/
def exKeys : List Key :=
  [{ mod := 1, key := 74, cmd := .focusstack 1 }, { mod := 1, key := 75, cmd := .focusstack (-1) }]

/-- Two tiled monitors showing tag 1. Both clients are visible, tiled and on monitor 1;
monitor 0, which has no client, is the selected monitor, and no client is selected. -/
def exNoSel : State :=
  { cl := fun i => { hwnd := 100 + i, tags := 1, mon := some 1 }
    next := fun i => if i = 0 then some 1 else none
    snext := fun i => if i = 0 then some 1 else none
    nclients := 2
    clients := some 0
    stack := some 0
    sel := none
    mon := fun k => { sx := 1000 * k, sw := 1000, sh := 800, bh := 20, wx := 1000 * k,
                      ww := 1000, wh := 800, tagset := fun _ => 1 }
    mnext := fun k => if k = 0 then some 1 else none
    nmons := 2
    mons := some 0
    selmon := some 0
    glt := fun _ => some { symbol := "[]=", arrange := some .tile }
    hostvis := fun _ => true }

/-- Two tiled monitors showing tag 1; monitor 0 has work height 30 and bar height 20. List
order 0, 1, 2, 3, 4: client 0 is visible on monitor 1, client 1 lives on monitor 0 and is
hidden (tag 2 only), clients 2, 3 and 4 are visible on monitor 0. No client floats or has a
border. -/
def exTileLowTwo : State :=
  { cl := fun i => { hwnd := 100 + i, tags := if i = 1 then 2 else 1,
                     mon := some (if i = 0 then 1 else 0) }
    next := fun i => if i < 4 then some (i + 1) else none
    snext := fun i => if i < 4 then some (i + 1) else none
    nclients := 5
    clients := some 0
    stack := some 0
    sel := some 2
    mon := fun k => { sx := 1000 * k, sw := 1000, sh := 30, bh := 20, wx := 1000 * k,
                      ww := 1000, wh := 30, tagset := fun _ => 1 }
    mnext := fun k => if k = 0 then some 1 else none
    nmons := 2
    mons := some 0
    selmon := some 0
    curmon := some 0
    glt := fun _ => some { symbol := "[]=", arrange := some .tile }
    hostvis := fun _ => true }

/-- `DataOk s`: the tag data and the borders as the program keeps them. Every client record
has tags within `TAGMASK` and border width 0, and every tag-set slot of a monitor record and
of the configured `tagset` lies within `TAGMASK`. -/
structure DataOk (s : State) : Prop where
  tags : ∀ i, (s.cl i).tags &&& TAGMASK s = (s.cl i).tags
  bw : ∀ i, (s.cl i).bw = 0
  tagset : ∀ k j, (s.mon k).tagset j &&& TAGMASK s = (s.mon k).tagset j
  cfgtagset : ∀ j, s.cfg.tagset j &&& TAGMASK s = s.cfg.tagset j

/-- The states of `EventReach` that start with the tag data the program starts with: an
empty registry in which every tag set lies within `TAGMASK` (the configured `tagset` and the
one `monenumproc` copies into a monitor record), and the records that `manage` will hand out
are the zeroed memory of `calloc`. -/
inductive DataReach : State → Prop
  | init (s : State) : s.clients = none → s.stack = none → s.sel = none → s.nclients = 0 →
      DataOk s → DataReach s
  | setup (s t : State) (host : Host) (fuel : Nat) (ws : List Nat) : DataReach s →
      HostOk host → setupScan host fuel s ws = .ok t → DataReach t
  | event (s t : State) (host : Host) (fuel : Nat) (e : Event) : DataReach s → HostOk host →
      (∀ c, e = .unmanage c → ∃ L, IsChain s.next s.clients L ∧ c ∈ L) →
      handle host fuel s e = .ok t → DataReach t
  | hostShows (s : State) (v : Nat → Bool) : DataReach s → DataReach { s with hostvis := v }

/-! # Properties -/

/-! ## The result type -/

@[simp] theorem run_pure {α : Type} (a : α) : (pure a : Run α) = .ok a := rfl

@[simp] theorem run_throw {α : Type} (e : Fault) : (throw e : Run α) = .error e := rfl

@[simp] theorem run_ok_bind {α β : Type} (a : α) (f : α → Run β) :
    ((Except.ok a : Run α) >>= f) = f a := rfl

@[simp] theorem run_error_bind {α β : Type} (e : Fault) (f : α → Run β) :
    ((Except.error e : Run α) >>= f) = .error e := rfl

@[simp] theorem isChain_nil (nx : Nat → Option Nat) (p : Option Nat) :
    IsChain nx p [] ↔ p = none := Iff.rfl

@[simp] theorem isChain_cons (nx : Nat → Option Nat) (p : Option Nat) (a : Nat) (l : List Nat) :
    IsChain nx p (a :: l) ↔ p = some a ∧ IsChain nx (nx a) l := Iff.rfl

theorem isChain_none {nx : Nat → Option Nat} {l : List Nat} (h : IsChain nx none l) : l = [] := by
  cases l with
  | nil => rfl
  | cons a l => simp at h

theorem IsChain.unique {nx : Nat → Option Nat} {p : Option Nat} {l l' : List Nat}
    (h : IsChain nx p l) (h' : IsChain nx p l') : l = l' := by
  induction l generalizing p l' with
  | nil =>
    simp at h; subst h; exact (isChain_none h').symm
  | cons a l ih =>
    obtain ⟨rfl, h2⟩ := h
    cases l' with
    | nil => simp at h'
    | cons b l' =>
      obtain ⟨hb, h3⟩ := h'
      cases hb
      rw [ih h2 h3]

theorem IsChain.of_append {nx : Nat → Option Nat} {p : Option Nat} {l1 : List Nat} {a : Nat}
    {l2 : List Nat} (h : IsChain nx p (l1 ++ a :: l2)) : IsChain nx (some a) (a :: l2) := by
  induction l1 generalizing p with
  | nil => obtain ⟨rfl, h2⟩ := h; exact ⟨rfl, h2⟩
  | cons b l1 ih => exact ih h.2

theorem IsChain.nodup {nx : Nat → Option Nat} {p : Option Nat} {l : List Nat}
    (h : IsChain nx p l) : l.Nodup := by
  induction l generalizing p with
  | nil => exact List.nodup_nil
  | cons a l ih =>
    obtain ⟨rfl, h2⟩ := h
    refine List.nodup_cons.2 ⟨?_, ih h2⟩
    intro hmem
    obtain ⟨l1, l2, rfl⟩ := List.append_of_mem hmem
    have h3 := IsChain.of_append h2
    have h4 : IsChain nx (some a) (a :: (l1 ++ a :: l2)) := ⟨rfl, h2⟩
    have := congrArg List.length (h3.unique h4)
    simp at this
    omega

theorem isChain_congr {nx nx' : Nat → Option Nat} {p : Option Nat} {l : List Nat}
    (h : IsChain nx p l) (hx : ∀ a ∈ l, nx' a = nx a) : IsChain nx' p l := by
  induction l generalizing p with
  | nil => exact h
  | cons a l ih =>
    refine ⟨h.1, ?_⟩
    rw [hx a (List.mem_cons_self a l)]
    exact ih h.2 (fun b hb => hx b (List.mem_cons_of_mem a hb))

@[simp] theorem isSeg_nil (nx : Nat → Option Nat) (p q : Option Nat) :
    IsSeg nx p [] q ↔ p = q := Iff.rfl

@[simp] theorem isSeg_cons (nx : Nat → Option Nat) (p q : Option Nat) (a : Nat) (l : List Nat) :
    IsSeg nx p (a :: l) q ↔ p = some a ∧ IsSeg nx (nx a) l q := Iff.rfl

theorem isChain_iff_isSeg {nx : Nat → Option Nat} {p : Option Nat} {l : List Nat} :
    IsChain nx p l ↔ IsSeg nx p l none := by
  induction l generalizing p with
  | nil => simp
  | cons a l ih => simp [ih]

theorem isSeg_append {nx : Nat → Option Nat} {p q : Option Nat} {l1 l2 : List Nat} :
    IsSeg nx p (l1 ++ l2) q ↔ ∃ r, IsSeg nx p l1 r ∧ IsSeg nx r l2 q := by
  induction l1 generalizing p with
  | nil => simp
  | cons a l1 ih =>
    simp only [List.cons_append, isSeg_cons, ih]
    constructor
    · rintro ⟨h, r, h1, h2⟩; exact ⟨r, ⟨h, h1⟩, h2⟩
    · rintro ⟨r, ⟨h, h1⟩, h2⟩; exact ⟨h, r, h1, h2⟩

theorem isChain_append {nx : Nat → Option Nat} {p : Option Nat} {l1 l2 : List Nat} :
    IsChain nx p (l1 ++ l2) ↔ ∃ r, IsSeg nx p l1 r ∧ IsChain nx r l2 := by
  simp only [isChain_iff_isSeg, isSeg_append]

theorem isSeg_congr {nx nx' : Nat → Option Nat} {p q : Option Nat} {l : List Nat}
    (h : IsSeg nx p l q) (hx : ∀ a ∈ l, nx' a = nx a) : IsSeg nx' p l q := by
  induction l generalizing p with
  | nil => exact h
  | cons a l ih =>
    refine ⟨h.1, ?_⟩
    rw [hx a (List.mem_cons_self a l)]
    exact ih h.2 (fun b hb => hx b (List.mem_cons_of_mem a hb))

/-- The last link of a non-empty segment is the arrival pointer. -/
theorem IsSeg.next_getLast {nx : Nat → Option Nat} {p q : Option Nat} {l : List Nat} {j : Nat}
    (h : IsSeg nx p (l ++ [j]) q) : nx j = q := by
  obtain ⟨r, _, h2⟩ := isSeg_append.1 h
  exact h2.2

theorem length_le_of_nodup_of_lt {l : List Nat} {n : Nat} (hd : l.Nodup)
    (hb : ∀ i ∈ l, i < n) : l.length ≤ n := by
  have h1 : l.toFinset ⊆ Finset.range n := by
    intro i hi
    simp only [List.mem_toFinset] at hi
    simpa using hb i hi
  have h2 := Finset.card_le_card h1
  rwa [List.toFinset_card_of_nodup hd, Finset.card_range] at h2

/-! ### The pointer walks on a chain -/

theorem skipWhile_chain {nx : Nat → Option Nat} (pr : Nat → Bool) {l : List Nat} :
    ∀ {p : Option Nat} {fuel : Nat}, IsChain nx p l → l.length ≤ fuel →
      skipWhile nx pr fuel p = .ok (l.find? (fun a => !pr a)) := by
  induction l with
  | nil => intro p fuel h _; simp at h; subst h; cases fuel <;> rfl
  | cons a l ih =>
    intro p fuel h hf
    obtain ⟨rfl, h2⟩ := h
    cases fuel with
    | zero => simp at hf
    | succ f =>
      simp only [skipWhile, List.find?_cons]
      cases hp : pr a
      · simp
      · simp only [if_true, Bool.not_true]
        exact ih h2 (by simpa using hf)

theorem lastFrom_chain {nx : Nat → Option Nat} (good : Nat → Bool) {l : List Nat} :
    ∀ {p : Option Nat} {fuel : Nat} (c : Option Nat), IsChain nx p l → l.length ≤ fuel →
      lastFrom nx good fuel p c = .ok (lastSat good l c) := by
  induction l with
  | nil => intro p fuel c h _; simp at h; subst h; cases fuel <;> rfl
  | cons a l ih =>
    intro p fuel c h hf
    obtain ⟨rfl, h2⟩ := h
    cases fuel with
    | zero => simp at hf
    | succ f =>
      simp only [lastFrom, lastSat, List.foldl_cons]
      exact ih _ h2 (by simpa using hf)

theorem lastBefore_seg {nx : Nat → Option Nat} (good : Nat → Bool) {t : Nat} {l : List Nat} :
    ∀ {p : Option Nat} {fuel : Nat} (c : Option Nat), IsSeg nx p l (some t) → t ∉ l →
      l.length ≤ fuel →
      lastBefore nx good (some t) fuel p c = .ok (lastSat good l c, some t) := by
  induction l with
  | nil =>
    intro p fuel c h _ _
    simp at h; subst h
    unfold lastBefore; simp [lastSat]
  | cons a l ih =>
    intro p fuel c h ht hf
    obtain ⟨rfl, h2⟩ := h
    have hat : a ≠ t := fun e => ht (e ▸ List.mem_cons_self a l)
    cases fuel with
    | zero => simp at hf
    | succ f =>
      unfold lastBefore
      simp only [Option.some.injEq, hat, if_false, lastSat, List.foldl_cons]
      exact ih _ h2 (fun hm => ht (List.mem_cons_of_mem a hm)) (by simpa using hf)

theorem lastBefore_chain_none {nx : Nat → Option Nat} (good : Nat → Bool) {l : List Nat} :
    ∀ {p : Option Nat} {fuel : Nat} (c : Option Nat), IsChain nx p l → l.length ≤ fuel →
      lastBefore nx good none fuel p c = .ok (lastSat good l c, none) := by
  induction l with
  | nil =>
    intro p fuel c h _
    simp at h; subst h
    unfold lastBefore; simp [lastSat]
  | cons a l ih =>
    intro p fuel c h hf
    obtain ⟨rfl, h2⟩ := h
    cases fuel with
    | zero => simp at hf
    | succ f =>
      unfold lastBefore
      simp only [reduceCtorEq, if_false, lastSat, List.foldl_cons]
      exact ih _ h2 (by simpa using hf)

theorem detachLoop_seg {nx : Nat → Option Nat} {hd : Option Nat} {c : Nat} {l : List Nat} :
    ∀ {tc : Loc} {fuel : Nat},
      IsSeg nx (tc.load nx hd) l (some c) → c ∉ l →
      l.length ≤ fuel →
      detachLoop nx hd (some c) fuel tc = .ok (locAfter tc l) := by
  induction l with
  | nil =>
    intro tc fuel h _ _
    simp at h
    cases fuel <;> simp [detachLoop, h, locAfter]
  | cons a l ih =>
    intro tc fuel h hc hf
    obtain ⟨h1, h2⟩ := h
    have hac : a ≠ c := fun e => hc (e ▸ List.mem_cons_self a l)
    cases fuel with
    | zero => simp at hf
    | succ f =>
      simp only [detachLoop, h1, Option.some.injEq, hac, if_false]
      rw [@ih (.node a) _ h2 (fun hm => hc (List.mem_cons_of_mem a hm)) (by simpa using hf)]
      cases l with
      | nil => simp [locAfter]
      | cons b l =>
        cases hl : (b :: l).getLast? with
        | none => simp at hl
        | some j => simp [locAfter, hl, List.getLast?_cons_cons]

/-! ### Insertion and removal on a chain -/

theorem isChain_attach {nx : Nat → Option Nat} {hd : Option Nat} {L : List Nat} {c : Nat}
    (hL : IsChain nx hd L) (hc : c ∉ L) :
    IsChain (Function.update nx c hd) (some c) (c :: L) := by
  refine ⟨rfl, ?_⟩
  rw [Function.update_same]
  exact isChain_congr hL (fun a ha => Function.update_noteq (ne_of_mem_of_not_mem ha hc) _ _)

theorem split_of_mem_nodup {L : List Nat} {c : Nat} (hd : L.Nodup) (hc : c ∈ L) :
    ∃ A B, L = A ++ c :: B ∧ c ∉ A ∧ c ∉ B ∧ L.erase c = A ++ B := by
  obtain ⟨A, B, rfl⟩ := List.append_of_mem hc
  have h1 := List.nodup_append.1 hd
  have hA : c ∉ A := fun h => h1.2.2 h (List.mem_cons_self c B)
  have hB : c ∉ B := (List.nodup_cons.1 h1.2.1).1
  exact ⟨A, B, rfl, hA, hB, by rw [List.erase_append_right _ hA, List.erase_cons_head]⟩

theorem detachLoop_chain {nx : Nat → Option Nat} {hd : Option Nat} {L : List Nat} {c fuel : Nat}
    (hL : IsChain nx hd L) (hlen : L.length ≤ fuel) (hc : c ∈ L) :
    ∃ tc, detachLoop nx hd (some c) fuel .head = .ok tc ∧
      IsChain (storeAt nx hd tc (nx c)).1 (storeAt nx hd tc (nx c)).2 (L.erase c) := by
  obtain ⟨A, B, rfl, hA, hB, he⟩ := split_of_mem_nodup hL.nodup hc
  have hnd := hL.nodup
  obtain ⟨r, h1, h2⟩ := isChain_append.1 hL
  obtain ⟨rfl, h3⟩ := h2
  have hlenA : A.length ≤ fuel := by simp at hlen; omega
  refine ⟨locAfter .head A, @detachLoop_seg _ _ _ _ .head _ h1 hA hlenA, ?_⟩
  rw [he]
  rcases List.eq_nil_or_concat A with rfl | ⟨A', j, rfl⟩
  · simpa [locAfter, storeAt] using h3
  · have hj : (A'.concat j).getLast? = some j := by simp
    simp only [locAfter, hj, storeAt]
    rw [List.concat_eq_append] at h1 hnd hA ⊢
    have hjc : j ≠ c := fun e => hA (by simp [e])
    have hnd' := List.nodup_append.1 hnd
    have hjA' : j ∉ A' := by
      have := List.nodup_append.1 hnd'.1
      exact fun h => this.2.2 h (List.mem_singleton_self j)
    have hjB : j ∉ B := fun h => hnd'.2.2 (by simp) (List.mem_cons_of_mem c h)
    obtain ⟨r, h4, h5⟩ := isSeg_append.1 h1
    obtain ⟨rfl, _⟩ := h5
    rw [List.append_assoc]
    refine isChain_append.2 ⟨some j, ?_, rfl, ?_⟩
    · exact isSeg_congr h4 (fun a ha => Function.update_noteq (ne_of_mem_of_not_mem ha hjA') _ _)
    · rw [Function.update_same]
      exact isChain_congr h3 (fun a ha => Function.update_noteq (ne_of_mem_of_not_mem ha hjB) _ _)

theorem detach_chain {s : State} {L : List Nat} {c : Nat} (hL : IsChain s.next s.clients L)
    (hlen : L.length ≤ s.nclients) (hc : c ∈ L) :
    ∃ nx hd, detach s (some c) = .ok { s with next := nx, clients := hd } ∧
      IsChain nx hd (L.erase c) := by
  obtain ⟨tc, h1, h2⟩ := detachLoop_chain hL hlen hc
  cases tc with
  | head => exact ⟨_, _, by simp [detach, h1, deref]; exact ⟨rfl, rfl⟩, h2⟩
  | node j => exact ⟨_, _, by simp [detach, h1, deref]; exact ⟨rfl, rfl⟩, h2⟩

theorem detachstack_chain {s : State} {S : List Nat} {c : Nat} (hS : IsChain s.snext s.stack S)
    (hlen : S.length ≤ s.nclients) (hc : c ∈ S) :
    ∃ sn hd, detachstack s (some c) = .ok { s with snext := sn, stack := hd } ∧
      IsChain sn hd (S.erase c) := by
  obtain ⟨tc, h1, h2⟩ := detachLoop_chain hS hlen hc
  cases tc with
  | head => exact ⟨_, _, by simp [detachstack, h1, deref]; exact ⟨rfl, rfl⟩, h2⟩
  | node j => exact ⟨_, _, by simp [detachstack, h1, deref]; exact ⟨rfl, rfl⟩, h2⟩

theorem bind_eq_ok {α β : Type} {x : Run α} {f : α → Run β} {b : β} :
    (x >>= f) = .ok b ↔ ∃ a, x = .ok a ∧ f a = .ok b := by
  cases x with
  | error e => simp
  | ok a => simp

theorem Frame.refl (s : State) : Frame s s := ⟨rfl, fun _ => rfl⟩

theorem Frame.trans {s t u : State} (h1 : Frame s t) (h2 : Frame t u) : Frame s u := by
  refine ⟨?_, fun i => ?_⟩
  · rw [h2.glob, h1.glob]
  · rw [h2.cl i, h1.cl i]

theorem Frame.next {s t : State} (h : Frame s t) : t.next = s.next := by rw [h.glob]

theorem Frame.snext {s t : State} (h : Frame s t) : t.snext = s.snext := by rw [h.glob]

theorem Frame.clients {s t : State} (h : Frame s t) : t.clients = s.clients := by rw [h.glob]

theorem Frame.stack {s t : State} (h : Frame s t) : t.stack = s.stack := by rw [h.glob]

theorem Frame.sel {s t : State} (h : Frame s t) : t.sel = s.sel := by rw [h.glob]

theorem Frame.selmon {s t : State} (h : Frame s t) : t.selmon = s.selmon := by rw [h.glob]

theorem Frame.nclients {s t : State} (h : Frame s t) : t.nclients = s.nclients := by rw [h.glob]

theorem Frame.mon {s t : State} (h : Frame s t) : t.mon = s.mon := by rw [h.glob]

theorem Frame.mnext {s t : State} (h : Frame s t) : t.mnext = s.mnext := by rw [h.glob]

theorem Frame.mons {s t : State} (h : Frame s t) : t.mons = s.mons := by rw [h.glob]

theorem Frame.nmons {s t : State} (h : Frame s t) : t.nmons = s.nmons := by rw [h.glob]

theorem Frame.glt {s t : State} (h : Frame s t) : t.glt = s.glt := by rw [h.glob]

theorem Frame.cfg {s t : State} (h : Frame s t) : t.cfg = s.cfg := by rw [h.glob]

theorem Frame.seltags {s t : State} (h : Frame s t) : t.seltags = s.seltags := by rw [h.glob]

theorem Frame.mfact {s t : State} (h : Frame s t) : t.mfact = s.mfact := by rw [h.glob]

theorem Frame.tags {s t : State} (h : Frame s t) (i : Nat) : (t.cl i).tags = (s.cl i).tags := by
  rw [h.cl i]

theorem Frame.cmon {s t : State} (h : Frame s t) (i : Nat) : (t.cl i).mon = (s.cl i).mon := by
  rw [h.cl i]

theorem Frame.isfloating {s t : State} (h : Frame s t) (i : Nat) :
    (t.cl i).isfloating = (s.cl i).isfloating := by rw [h.cl i]

theorem Frame.bw {s t : State} (h : Frame s t) (i : Nat) : (t.cl i).bw = (s.cl i).bw := by
  rw [h.cl i]

theorem Frame.hwnd {s t : State} (h : Frame s t) (i : Nat) : (t.cl i).hwnd = (s.cl i).hwnd := by
  rw [h.cl i]

theorem Frame.isminimized {s t : State} (h : Frame s t) (i : Nat) :
    (t.cl i).isminimized = (s.cl i).isminimized := by rw [h.cl i]

theorem Frame.isurgent {s t : State} (h : Frame s t) (i : Nat) :
    (t.cl i).isurgent = (s.cl i).isurgent := by rw [h.cl i]

theorem Frame.isvisible {s t : State} (h : Frame s t) (x : Option Nat) :
    isvisible t x = isvisible s x := by
  cases x with
  | none => rfl
  | some i => simp only [DwmWin32.isvisible, h.tags, h.cmon, h.mon, h.cfg, h.seltags]

theorem frame_setvisibility (s : State) (hwnd : Nat) (v : Bool) :
    Frame s (setvisibility s hwnd v) := ⟨rfl, fun _ => rfl⟩

theorem frame_resize (s : State) (i : Nat) (x y w h : Int) : Frame s (resize s i x y w h) := by
  unfold resize
  split
  · exact frame_setvisibility _ _ _
  · simp only
    split
    · refine ⟨rfl, fun j => ?_⟩
      by_cases hj : j = i
      · subst hj; simp [State.setCl]
      · simp [State.setCl, Function.update_noteq hj]
    · exact Frame.refl s

/-! ### What the layout procedures leave alone -/

theorem frame_showhide : ∀ (fuel : Nat) (s : State) (c : Option Nat) (t : State),
    showhide fuel s c = .ok t → Frame s t := by
  intro fuel
  induction fuel with
  | zero =>
    intro s c t h
    cases c with
    | none => simp [showhide] at h; exact h ▸ Frame.refl s
    | some c => simp [showhide] at h
  | succ f ih =>
    intro s c t h
    cases c with
    | none => simp [showhide] at h; exact h ▸ Frame.refl s
    | some c =>
      simp only [showhide] at h
      refine Frame.trans ?_ (ih _ _ _ h)
      split
      · split
        · refine Frame.trans ?_ (frame_setvisibility _ _ _)
          refine ⟨rfl, fun j => ?_⟩
          by_cases hj : j = c
          · subst hj; simp [State.setCl]
          · simp [State.setCl, Function.update_noteq hj]
        · exact Frame.refl s
      · split
        · exact frame_setvisibility _ _ _
        · exact Frame.refl s

theorem frame_tileLoop (m : Monitor) (x w h : Int) (n : Nat) :
    ∀ (fuel : Nat) (s : State) (c : Option Nat) (i : Nat) (y : Int) (t : State),
      tileLoop m x w h n fuel s c i y = .ok t → Frame s t := by
  intro fuel
  induction fuel with
  | zero =>
    intro s c i y t h
    cases c with
    | none => simp [tileLoop] at h; exact h ▸ Frame.refl s
    | some c => simp [tileLoop] at h
  | succ f ih =>
    intro s c i y t h
    cases c with
    | none => simp [tileLoop] at h; exact h ▸ Frame.refl s
    | some c =>
      simp only [tileLoop] at h
      split at h
      · obtain ⟨c1, _, h2⟩ := bind_eq_ok.1 h
        exact ih _ _ _ _ _ h2
      · obtain ⟨c1, _, h2⟩ := bind_eq_ok.1 h
        exact Frame.trans (frame_resize _ _ _ _ _ _) (ih _ _ _ _ _ h2)

theorem frame_tile {s t : State} (h : tile s = .ok t) : Frame s t := by
  unfold tile at h
  obtain ⟨n, _, h⟩ := bind_eq_ok.1 h
  split at h
  · simp at h; exact h ▸ Frame.refl s
  · obtain ⟨c0, _, h⟩ := bind_eq_ok.1 h
    obtain ⟨c, _, h⟩ := bind_eq_ok.1 h
    cases c with
    | none => simp at h; exact h ▸ Frame.refl s
    | some c =>
      simp only at h
      obtain ⟨k, _, h⟩ := bind_eq_ok.1 h
      split at h
      · simp at h; exact h ▸ frame_resize _ _ _ _ _ _
      · obtain ⟨c1, _, h⟩ := bind_eq_ok.1 h
        exact Frame.trans (frame_resize _ _ _ _ _ _) (frame_tileLoop _ _ _ _ _ _ _ _ _ _ _ h)

theorem frame_monocleLoop : ∀ (fuel : Nat) (s : State) (c : Option Nat) (t : State),
    monocleLoop fuel s c = .ok t → Frame s t := by
  intro fuel
  induction fuel with
  | zero =>
    intro s c t h
    cases c with
    | none => simp [monocleLoop] at h; exact h ▸ Frame.refl s
    | some c => simp [monocleLoop] at h
  | succ f ih =>
    intro s c t h
    cases c with
    | none => simp [monocleLoop] at h; exact h ▸ Frame.refl s
    | some c =>
      simp only [monocleLoop] at h
      split at h
      · obtain ⟨c1, _, h2⟩ := bind_eq_ok.1 h
        exact ih _ _ _ h2
      · obtain ⟨k, _, h⟩ := bind_eq_ok.1 h
        obtain ⟨c1, _, h2⟩ := bind_eq_ok.1 h
        exact Frame.trans (frame_resize _ _ _ _ _ _) (ih _ _ _ h2)

theorem frame_monocle {s t : State} (h : monocle s = .ok t) : Frame s t := by
  unfold monocle at h
  obtain ⟨c, _, h⟩ := bind_eq_ok.1 h
  exact frame_monocleLoop _ _ _ _ h

theorem frame_arrangemon {s t : State} {m : Nat} (h : arrangemon s m = .ok t) : Frame s t := by
  unfold arrangemon at h
  obtain ⟨a, _, h⟩ := bind_eq_ok.1 h
  have h0 : Frame s { s with curmon := some m } := ⟨rfl, fun _ => rfl⟩
  split at h
  · exact h0.trans (frame_tile h)
  · exact h0.trans (frame_monocle h)
  · simp at h; exact h ▸ h0

theorem frame_arrangeLoop : ∀ (fuel : Nat) (s : State) (m : Option Nat) (t : State),
    arrangeLoop fuel s m = .ok t → Frame s t := by
  intro fuel
  induction fuel with
  | zero =>
    intro s m t h
    cases m with
    | none => simp [arrangeLoop] at h; exact h ▸ Frame.refl s
    | some m => simp [arrangeLoop] at h
  | succ f ih =>
    intro s m t h
    cases m with
    | none => simp [arrangeLoop] at h; exact h ▸ Frame.refl s
    | some m =>
      simp only [arrangeLoop] at h
      obtain ⟨s1, h1, h2⟩ := bind_eq_ok.1 h
      exact (frame_arrangemon h1).trans (ih _ _ _ h2)

/-! ### Selection -/

theorem skipWhile_stop {nx : Nat → Option Nat} {pr : Nat → Bool} :
    ∀ {fuel : Nat} {p : Option Nat} {c : Nat}, skipWhile nx pr fuel p = .ok (some c) →
      pr c = false := by
  intro fuel
  induction fuel with
  | zero => intro p c h; cases p <;> simp [skipWhile] at h
  | succ f ih =>
    intro p c h
    cases p with
    | none => simp [skipWhile] at h
    | some i =>
      simp only [skipWhile] at h
      split at h
      · exact ih h
      · simp at h; subst h; simpa using ‹¬pr i = true›

theorem detachstack_glob {s t : State} {c : Option Nat} (h : detachstack s c = .ok t) :
    t = { s with snext := t.snext, stack := t.stack } := by
  unfold detachstack at h
  obtain ⟨tc, _, h⟩ := bind_eq_ok.1 h
  obtain ⟨i, _, h⟩ := bind_eq_ok.1 h
  cases tc <;> simp at h <;> subst h <;> rfl

theorem detach_glob {s t : State} {c : Option Nat} (h : detach s c = .ok t) :
    t = { s with next := t.next, clients := t.clients } := by
  unfold detach at h
  obtain ⟨tc, _, h⟩ := bind_eq_ok.1 h
  obtain ⟨i, _, h⟩ := bind_eq_ok.1 h
  cases tc <;> simp at h <;> subst h <;> rfl

theorem clearurgent_eq (s : State) (i : Nat) :
    (if (s.cl i).isurgent then s.setCl i (fun r => { r with isurgent := false }) else s) =
      { s with cl := Function.update s.cl i { s.cl i with isurgent := false } } := by
  split
  · rfl
  · rename_i h
    have : ({ s.cl i with isurgent := false } : Client) = s.cl i := by
      cases hc : s.cl i; simp_all
    rw [this, Function.update_eq_self]

/-- The part of `setselected` after the choice of a non-null client. -/
theorem setselected_settle {s : State} {S : List Nat} {c : Nat}
    (hS : IsChain s.snext s.stack S) (hlen : S.length ≤ s.nclients) (hc : c ∈ S) :
    ∃ sn, (do
        let s1 := if (s.cl c).isurgent then s.setCl c (fun r => { r with isurgent := false })
          else s
        let s2 ← detachstack s1 (some c)
        let s3 ← attachstack s2 (some c)
        pure { s3 with selmon := (s3.cl c).mon, sel := some c } : Run State)
        = .ok (selected s c sn) ∧
      IsChain sn (some c) (c :: S.erase c) := by
  simp only [clearurgent_eq]
  obtain ⟨sn, hd, h1, h2⟩ := @detachstack_chain
    { s with cl := Function.update s.cl c { s.cl c with isurgent := false } } S c hS hlen hc
  have hc' : c ∉ S.erase c := fun h => (List.Nodup.mem_erase_iff hS.nodup).1 h |>.1 rfl
  refine ⟨Function.update sn c hd, ?_, isChain_attach h2 hc'⟩
  rw [h1]
  simp [attachstack, deref, selected]

theorem pickable_eq (s : State) :
    (fun a => !(!isvisible s (some a) || (s.cl a).mon != s.selmon)) = pickable s := by
  funext a
  simp only [pickable]
  cases isvisible s (some a) <;> cases h : ((s.cl a).mon == s.selmon) <;> simp [bne, h]

theorem setselected_search {s : State} {S : List Nat} (c0 : Option Nat)
    (hS : IsChain s.snext s.stack S) (hlen : S.length ≤ s.nclients)
    (h0 : c0 = none ∨ isvisible s c0 = false) :
    (∃ c sn, S.find? (pickable s) = some c ∧ setselected s c0 = .ok (selected s c sn) ∧
        IsChain sn (some c) (c :: S.erase c)) ∨
      (S.find? (pickable s) = none ∧ setselected s c0 = .ok { s with sel := none }) := by
  have hcond : (c0.isNone || !isvisible s c0) = true := by
    rcases h0 with rfl | h
    · rfl
    · simp [h]
  have hw := skipWhile_chain (fun i => !isvisible s (some i) || (s.cl i).mon != s.selmon) hS hlen
  rw [pickable_eq] at hw
  unfold setselected
  simp only [hcond, if_true, hw, run_ok_bind]
  cases hf : S.find? (pickable s) with
  | none => right; exact ⟨rfl, rfl⟩
  | some c =>
    left
    obtain ⟨sn, h1, h2⟩ := setselected_settle hS hlen (List.mem_of_find?_eq_some hf)
    exact ⟨c, sn, rfl, h1, h2⟩

theorem setselected_visible {s : State} {S : List Nat} {c : Nat}
    (hS : IsChain s.snext s.stack S) (hlen : S.length ≤ s.nclients) (hc : c ∈ S)
    (hv : isvisible s (some c) = true) :
    ∃ sn, setselected s (some c) = .ok (selected s c sn) ∧
      IsChain sn (some c) (c :: S.erase c) := by
  obtain ⟨sn, h1, h2⟩ := setselected_settle hS hlen hc
  refine ⟨sn, ?_, h2⟩
  unfold setselected
  simp only [Option.isNone_some, hv, Bool.not_true, Bool.or_self, Bool.false_eq_true, if_false,
    run_ok_bind]
  exact h1

theorem isvisible_selected (s : State) (c : Nat) (sn : Nat → Option Nat) (x : Option Nat) :
    isvisible (selected s c sn) x = isvisible s x := by
  cases x with
  | none => rfl
  | some i =>
    by_cases hi : i = c
    · subst hi; simp [isvisible, selected]
    · simp [isvisible, selected, Function.update_noteq hi]

/-- After `setselected` the selection is empty, or it heads the focus stack and is visible. -/
theorem setselected_post {s t : State} {c : Option Nat} (h : setselected s c = .ok t) :
    t.sel = none ∨ (t.stack = t.sel ∧ isvisible t t.sel = true) := by
  unfold setselected at h
  obtain ⟨c1, hc1, h⟩ := bind_eq_ok.1 h
  cases c1 with
  | none => simp at h; subst h; left; rfl
  | some i =>
    right
    have hv : isvisible s (some i) = true := by
      split at hc1
      · have := skipWhile_stop hc1
        simp at this
        exact this.1
      · rename_i hn
        simp at hc1; subst hc1
        simpa using hn
    simp only [clearurgent_eq] at h
    obtain ⟨s2, h2, h⟩ := bind_eq_ok.1 h
    obtain ⟨s3, h3, h⟩ := bind_eq_ok.1 h
    have g2 := detachstack_glob h2
    simp [attachstack, deref] at h3
    simp at h
    subst h; subst h3
    refine ⟨rfl, ?_⟩
    rw [g2]
    simp only [isvisible] at hv ⊢
    simpa using hv

theorem Inv.list_length_le {s : State} {L S : List Nat} (h : Inv s L S) :
    L.length ≤ s.nclients :=
  length_le_of_nodup_of_lt h.list.nodup h.bound

theorem Inv.stack_length_le {s : State} {L S : List Nat} (h : Inv s L S) :
    S.length ≤ s.nclients := by
  rw [← h.perm.length_eq]; exact h.list_length_le

theorem Inv.mem_stack {s : State} {L S : List Nat} (h : Inv s L S) {i : Nat} :
    i ∈ S ↔ i ∈ L := h.perm.mem_iff.symm

theorem exThree_inv : Inv exThree [0, 1, 2] [2, 0, 1] :=
  ⟨by decide, by decide, by decide, by decide, fun i h => by cases h; decide⟩

/-- C7: for a managed client `c` that is visible, `setselected(c)` returns with `sel = c`,
the urgent flag of `c` cleared, the selected monitor equal to the monitor of `c`, `c` at the
front of the Stack with every other client of the Stack in its previous relative order, and
the List untouched. -/
theorem setselected_moves_to_front (s : State) (L S : List Nat) (c : Nat)
    (hinv : Inv s L S) (hc : c ∈ L) (hv : isvisible s (some c) = true) :
    ∃ t, setselected s (some c) = .ok t ∧ t.sel = some c ∧ (t.cl c).isurgent = false ∧
      t.selmon = (t.cl c).mon ∧ (t.cl c).mon = (s.cl c).mon ∧
      IsChain t.snext t.stack (c :: S.erase c) ∧
      t.next = s.next ∧ t.clients = s.clients ∧ IsChain t.next t.clients L := by
  obtain ⟨sn, h1, h2⟩ :=
    setselected_visible hinv.stack hinv.stack_length_le (hinv.mem_stack.2 hc) hv
  refine ⟨_, h1, rfl, ?_, ?_, ?_, h2, rfl, rfl, hinv.list⟩ <;> simp [selected]

theorem setselected_moves_to_front_witness :
    ∃ t, setselected exThree (some 0) = .ok t ∧ t.sel = some 0 ∧ (t.cl 0).isurgent = false ∧
      t.selmon = (t.cl 0).mon ∧ (t.cl 0).mon = (exThree.cl 0).mon ∧
      IsChain t.snext t.stack (0 :: [2, 0, 1].erase 0) ∧
      t.next = exThree.next ∧ t.clients = exThree.clients ∧ IsChain t.next t.clients [0, 1, 2] :=
  setselected_moves_to_front exThree [0, 1, 2] [2, 0, 1] 0 exThree_inv (by decide) (by decide)

theorem focus_search {s : State} {S : List Nat} (hS : IsChain s.snext s.stack S)
    (hlen : S.length ≤ s.nclients) :
    (∃ c sn, S.find? (pickable s) = some c ∧
        focus s none = .ok { selected s c sn with
          cmds := s.cmds ++ [.setForeground (s.cl c).hwnd] } ∧
        IsChain sn (some c) (c :: S.erase c)) ∨
      (S.find? (pickable s) = none ∧ focus s none = .ok { s with sel := none }) := by
  rcases setselected_search none hS hlen (Or.inl rfl) with ⟨c, sn, h1, h2, h3⟩ | ⟨h1, h2⟩
  · left
    refine ⟨c, sn, h1, ?_, h3⟩
    simp [focus, h2, selected]
  · right
    exact ⟨h1, by simp [focus, h2]⟩

/-- C4 (amended): `focus(NULL)`, as `arrange` runs it, returns and makes the selection the
first client in Stack order that is visible under the current tag set of its monitor and
whose monitor is the selected monitor, and empties it when there is none; neither the
previous selection nor the minimised or host-visibility state of a client is consulted.
In particular a selected client that heads the Stack, is visible and is on the selected
monitor stays selected. -/
theorem focus_null_selects (s : State) (L S : List Nat) (hinv : Inv s L S) :
    ∃ t, focus s none = .ok t ∧ t.sel = S.find? (pickable s) ∧
      (∀ c, s.sel = some c → S.head? = some c → pickable s c = true → t.sel = s.sel) := by
  rcases focus_search hinv.stack hinv.stack_length_le with ⟨c, sn, h1, h2, _⟩ | ⟨h1, h2⟩
  · refine ⟨_, h2, by simp [selected, h1], ?_⟩
    intro c' hs hh hp
    cases S with
    | nil => simp at hh
    | cons a S =>
      simp at hh; subst hh
      simp [List.find?_cons, hp] at h1
      subst h1
      simp [selected, hs]
  · refine ⟨_, h2, by simp [h1], ?_⟩
    intro c' hs hh hp
    cases S with
    | nil => simp at hh
    | cons a S =>
      simp at hh; subst hh
      simp [List.find?_cons, hp] at h1

theorem focus_null_selects_witness :
    ∃ t, focus exThree none = .ok t ∧ t.sel = [2, 0, 1].find? (pickable exThree) ∧
      (∀ c, exThree.sel = some c → [2, 0, 1].head? = some c → pickable exThree c = true →
        t.sel = exThree.sel) :=
  focus_null_selects exThree [0, 1, 2] [2, 0, 1] exThree_inv

/-- C4 fails as stated: in `exRepair` the selected client 1 is focusable, yet `focus(NULL)`
replaces it by client 0, the head of the Stack, which is not focusable. -/
theorem focus_null_drops_focusable_selection :
    exRepair.sel = some 1 ∧ ISFOCUSABLE exRepair 1 = true ∧ ISFOCUSABLE exRepair 0 = false ∧
      Except.map State.sel (focus exRepair none) = .ok (some 0) := by
  decide

/-! ### The layout procedures on a well-formed List -/

theorem skipWhile_dropWhile {nx : Nat → Option Nat} (pr : Nat → Bool) {l : List Nat} :
    ∀ {p : Option Nat} {fuel : Nat}, IsChain nx p l → l.length ≤ fuel →
      skipWhile nx pr fuel p = .ok (l.dropWhile pr).head? ∧
        IsChain nx (l.dropWhile pr).head? (l.dropWhile pr) := by
  induction l with
  | nil => intro p fuel h _; simp at h; subst h; cases fuel <;> simp [skipWhile]
  | cons a l ih =>
    intro p fuel h hf
    obtain ⟨rfl, h2⟩ := h
    cases fuel with
    | zero => simp at hf
    | succ f =>
      simp only [skipWhile, List.dropWhile_cons]
      cases hp : pr a
      · simp [h2]
      · simp only [if_true]
        exact ih h2 (by simpa using hf)

theorem filter_dropWhile_not (pr : Nat → Bool) (l : List Nat) :
    (l.dropWhile pr).filter (fun a => !pr a) = l.filter (fun a => !pr a) := by
  induction l with
  | nil => rfl
  | cons a l ih =>
    simp only [List.dropWhile_cons, List.filter_cons]
    cases hp : pr a <;> simp [hp, ih]

theorem head_dropWhile_not (pr : Nat → Bool) (l : List Nat) (c : Nat)
    (h : (l.dropWhile pr).head? = some c) : pr c = false := by
  induction l with
  | nil => simp at h
  | cons a l ih =>
    simp only [List.dropWhile_cons] at h
    cases hp : pr a
    · simp [hp] at h; subst h; exact hp
    · simp [hp] at h; exact ih h

theorem length_dropWhile_le (pr : Nat → Bool) (l : List Nat) :
    (l.dropWhile pr).length ≤ l.length := by
  induction l with
  | nil => simp
  | cons a l ih =>
    simp only [List.dropWhile_cons]
    split
    · exact Nat.le_succ_of_le ih
    · exact Nat.le_refl _

theorem Frame.untiled {s t : State} (h : Frame s t) : untiled t = untiled s := by
  funext i
  simp only [DwmWin32.untiled, h.isfloating, h.isvisible]

theorem resize_curmon (s : State) (i : Nat) (x y w h : Int) :
    (resize s i x y w h).curmon = s.curmon := by
  unfold resize
  split
  · rfl
  · simp only
    split <;> rfl

theorem nexttiled_chain {s : State} {p : Option Nat} {l : List Nat}
    (h : IsChain s.next p l) (hlen : l.length ≤ s.nclients) :
    nexttiled s p = .ok (l.dropWhile (untiled s)).head? ∧
      IsChain s.next (l.dropWhile (untiled s)).head? (l.dropWhile (untiled s)) :=
  skipWhile_dropWhile (untiled s) h hlen

theorem tileLoop_eq (m : Monitor) (x w h : Int) (n : Nat) :
    ∀ (fuel : Nat) (l : List Nat) (s : State) (p : Option Nat) (i : Nat) (y : Int),
      IsChain s.next p l → l.length ≤ fuel → l.length ≤ s.nclients →
      (∀ c, l.head? = some c → untiled s c = false) →
      tileLoop m x w h n fuel s p i y =
        .ok (tileFold m x w h n s (l.filter (fun a => !untiled s a)) i y) := by
  intro fuel
  induction fuel with
  | zero =>
    intro l s p i y hl hf _ _
    cases l with
    | nil => simp at hl; subst hl; simp [tileLoop, tileFold]
    | cons a l => simp at hf
  | succ f ih =>
    intro l s p i y hl hf hn hh
    cases l with
    | nil => simp at hl; subst hl; simp [tileLoop, tileFold]
    | cons c R =>
      obtain ⟨rfl, hR⟩ := hl
      have hc : untiled s c = false := hh c rfl
      have hRf : R.length ≤ f := by simpa using hf
      have hRn : R.length ≤ s.nclients := by simp at hn; omega
      simp only [List.filter_cons, hc, Bool.not_false, if_true, tileLoop, tileFold]
      split
      · obtain ⟨e1, e2⟩ := nexttiled_chain hR hRn
        rw [e1, run_ok_bind]
        rw [ih _ s _ (i + 1) y e2 (le_trans (length_dropWhile_le _ _) hRf)
          (le_trans (length_dropWhile_le _ _) hRn) (fun c hc => head_dropWhile_not _ _ c hc),
          filter_dropWhile_not]
      · have hfr := frame_resize s c x y (w - 2 * (s.cl c).bw)
          (if i + 1 = n then m.wy + m.wh - y - 2 * (s.cl c).bw else h - 2 * (s.cl c).bw)
        generalize resize s c x y (w - 2 * (s.cl c).bw)
          (if i + 1 = n then m.wy + m.wh - y - 2 * (s.cl c).bw else h - 2 * (s.cl c).bw) = s1
          at hfr ⊢
        have hR1 : IsChain s1.next (s1.next c) R := by rw [hfr.next]; exact hR
        have hRn1 : R.length ≤ s1.nclients := by rw [hfr.nclients]; exact hRn
        obtain ⟨e1, e2⟩ := nexttiled_chain hR1 hRn1
        rw [e1, run_ok_bind]
        rw [ih _ s1 _ (i + 1) _ e2 (le_trans (length_dropWhile_le _ _) hRf)
          (le_trans (length_dropWhile_le _ _) hRn1) (fun c hc => head_dropWhile_not _ _ c hc),
          filter_dropWhile_not, hfr.untiled]

theorem tileCount_chain (s : State) {l : List Nat} :
    ∀ {p : Option Nat} {fuel : Nat} (n : Nat), IsChain s.next p l → l.length ≤ fuel →
      tileCount s fuel p n = .ok (n + (l.filter (eligible s)).length) := by
  induction l with
  | nil => intro p fuel n h _; simp at h; subst h; cases fuel <;> simp [tileCount]
  | cons a l ih =>
    intro p fuel n h hf
    obtain ⟨rfl, h2⟩ := h
    cases fuel with
    | zero => simp at hf
    | succ f =>
      have hf' : l.length ≤ f := by simpa using hf
      simp only [tileCount, List.filter_cons, eligible]
      by_cases h1 : (s.cl a).mon = s.curmon
      · by_cases h3 : (!(s.cl a).isfloating && isvisible s (some a)) = true
        · simp only [h1, bne_self_eq_false, Bool.false_eq_true, if_false, h3, if_true, beq_self_eq_true,
            Bool.and_self, List.length_cons]
          rw [ih _ h2 hf']; congr 1; omega
        · simp only [h1, bne_self_eq_false, Bool.false_eq_true, if_false, h3, beq_self_eq_true,
            Bool.true_and]
          exact ih _ h2 hf'
      · have h4 : ((s.cl a).mon != s.curmon) = true := by simpa [bne_iff_ne] using h1
        have h5 : ((s.cl a).mon == s.curmon) = false := by simpa using h1
        simp only [h4, if_true, h5, Bool.false_and, Bool.false_eq_true, if_false]
        exact ih _ h2 hf'

theorem tile_eq {s : State} {L : List Nat} {k : Nat} (hL : IsChain s.next s.clients L)
    (hlen : L.length ≤ s.nclients) (hk : s.curmon = some k) :
    tile s = .ok (tileList k s L) := by
  unfold tile tileList
  rw [tileCount_chain s 0 hL hlen]
  simp only [run_ok_bind, Nat.zero_add]
  split
  · rfl
  · obtain ⟨e1, e2⟩ := nexttiled_chain hL hlen
    rw [e1, run_ok_bind]
    obtain ⟨e3, e4⟩ := skipWhile_dropWhile
      (fun i => (s.cl i).mon != s.curmon || (s.cl i).isfloating) e2
      (le_trans (length_dropWhile_le _ _) hlen)
    rw [e3, run_ok_bind]
    cases hL2 : (L.dropWhile (untiled s)).dropWhile
      (fun i => (s.cl i).mon != s.curmon || (s.cl i).isfloating) with
    | nil => rfl
    | cons c R =>
      rw [hL2] at e4
      obtain ⟨_, hR⟩ := e4
      have hRn : R.length ≤ s.nclients := by
        have h1 := length_dropWhile_le (fun i => (s.cl i).mon != s.curmon || (s.cl i).isfloating)
          (L.dropWhile (untiled s))
        have h2 := length_dropWhile_le (untiled s) L
        rw [hL2] at h1
        simp at h1
        omega
      simp only [List.head?_cons, hk, deref, run_ok_bind, run_pure]
      split
      · rfl
      · have hfr := frame_resize s c (s.mon k).wx (s.mon k).wy
          ((if (L.filter (eligible s)).length = 1 then (s.mon k).ww
            else truncMul s.mfact (s.mon k).ww) - 2 * (s.cl c).bw)
          ((s.mon k).wh - 2 * (s.cl c).bw)
        generalize resize s c (s.mon k).wx (s.mon k).wy
          ((if (L.filter (eligible s)).length = 1 then (s.mon k).ww
            else truncMul s.mfact (s.mon k).ww) - 2 * (s.cl c).bw)
          ((s.mon k).wh - 2 * (s.cl c).bw) = s1 at hfr ⊢
        have hR1 : IsChain s1.next (s1.next c) R := by rw [hfr.next]; exact hR
        have hRn1 : R.length ≤ s1.nclients := by rw [hfr.nclients]; exact hRn
        obtain ⟨e5, e6⟩ := nexttiled_chain hR1 hRn1
        rw [e5, run_ok_bind]
        rw [tileLoop_eq _ _ _ _ _ _ _ s1 _ 0 _ e6 (le_trans (length_dropWhile_le _ _) hRn1)
          (le_trans (length_dropWhile_le _ _) hRn1) (fun c hc => head_dropWhile_not _ _ c hc),
          filter_dropWhile_not, hfr.untiled]

theorem monocleLoop_eq (k : Nat) :
    ∀ (fuel : Nat) (l : List Nat) (s : State) (p : Option Nat),
      IsChain s.next p l → l.length ≤ fuel → l.length ≤ s.nclients → s.curmon = some k →
      (∀ c, l.head? = some c → untiled s c = false) →
      monocleLoop fuel s p = .ok (monoFold k s (l.filter (fun a => !untiled s a))) := by
  intro fuel
  induction fuel with
  | zero =>
    intro l s p hl hf _ _ _
    cases l with
    | nil => simp at hl; subst hl; simp [monocleLoop, monoFold]
    | cons a l => simp at hf
  | succ f ih =>
    intro l s p hl hf hn hk hh
    cases l with
    | nil => simp at hl; subst hl; simp [monocleLoop, monoFold]
    | cons c R =>
      obtain ⟨rfl, hR⟩ := hl
      have hc : untiled s c = false := hh c rfl
      have hRf : R.length ≤ f := by simpa using hf
      have hRn : R.length ≤ s.nclients := by simp at hn; omega
      simp only [List.filter_cons, hc, Bool.not_false, if_true, monocleLoop, monoFold]
      split
      · obtain ⟨e1, e2⟩ := nexttiled_chain hR hRn
        rw [e1, run_ok_bind]
        rw [ih _ s _ e2 (le_trans (length_dropWhile_le _ _) hRf)
          (le_trans (length_dropWhile_le _ _) hRn) hk (fun c hc => head_dropWhile_not _ _ c hc),
          filter_dropWhile_not]
      · simp only [hk, deref, run_ok_bind, run_pure]
        have hfr := frame_resize s c (s.mon k).wx (s.mon k).wy
          ((s.mon k).ww - 2 * (s.cl c).bw) ((s.mon k).wh - 2 * (s.cl c).bw)
        have hcur := resize_curmon s c (s.mon k).wx (s.mon k).wy
          ((s.mon k).ww - 2 * (s.cl c).bw) ((s.mon k).wh - 2 * (s.cl c).bw)
        generalize resize s c (s.mon k).wx (s.mon k).wy
          ((s.mon k).ww - 2 * (s.cl c).bw) ((s.mon k).wh - 2 * (s.cl c).bw) = s1 at hfr hcur ⊢
        have hR1 : IsChain s1.next (s1.next c) R := by rw [hfr.next]; exact hR
        have hRn1 : R.length ≤ s1.nclients := by rw [hfr.nclients]; exact hRn
        obtain ⟨e1, e2⟩ := nexttiled_chain hR1 hRn1
        rw [e1, run_ok_bind]
        rw [ih _ s1 _ e2 (le_trans (length_dropWhile_le _ _) hRf)
          (le_trans (length_dropWhile_le _ _) hRn1) (hcur.trans hk)
          (fun c hc => head_dropWhile_not _ _ c hc),
          filter_dropWhile_not, hfr.untiled]

theorem monocle_eq {s : State} {L : List Nat} {k : Nat} (hL : IsChain s.next s.clients L)
    (hlen : L.length ≤ s.nclients) (hk : s.curmon = some k) :
    monocle s = .ok (monoFold k s (L.filter (fun a => !untiled s a))) := by
  unfold monocle
  obtain ⟨e1, e2⟩ := nexttiled_chain hL hlen
  rw [e1, run_ok_bind]
  rw [monocleLoop_eq k _ _ s _ e2 (le_trans (length_dropWhile_le _ _) hlen)
    (le_trans (length_dropWhile_le _ _) hlen) hk (fun c hc => head_dropWhile_not _ _ c hc),
    filter_dropWhile_not]

/-! ### `arrange` on a well-formed registry -/

theorem Keeps.keep_refl (s : State) : Keeps s s := ⟨rfl, fun _ => rfl⟩

theorem Keeps.keep_trans {s t u : State} (h1 : Keeps s t) (h2 : Keeps t u) : Keeps s u := by
  refine ⟨?_, fun i => ?_⟩
  · rw [h2.glob, h1.glob]
  · rw [h2.cl i, h1.cl i]

theorem Frame.keeps {s t : State} (h : Frame s t) : Keeps s t := by
  refine ⟨?_, fun i => ?_⟩
  · rw [h.glob]
  · rw [h.cl i]

theorem keeps_selected (s : State) (c : Nat) (sn : Nat → Option Nat) :
    Keeps s (selected s c sn) := by
  refine ⟨rfl, fun i => ?_⟩
  by_cases hi : i = c
  · subst hi; simp [selected]
  · simp [selected, Function.update_noteq hi]



theorem Keeps.keep_nclients {s t : State} (h : Keeps s t) : t.nclients = s.nclients := by rw [h.glob]

theorem Keeps.keep_mon {s t : State} (h : Keeps s t) : t.mon = s.mon := by rw [h.glob]

theorem Keeps.keep_mnext {s t : State} (h : Keeps s t) : t.mnext = s.mnext := by rw [h.glob]

theorem Keeps.keep_mons {s t : State} (h : Keeps s t) : t.mons = s.mons := by rw [h.glob]

theorem Keeps.keep_nmons {s t : State} (h : Keeps s t) : t.nmons = s.nmons := by rw [h.glob]

theorem Keeps.keep_glt {s t : State} (h : Keeps s t) : t.glt = s.glt := by rw [h.glob]

theorem Keeps.keep_cfg {s t : State} (h : Keeps s t) : t.cfg = s.cfg := by rw [h.glob]

theorem Keeps.keep_seltags {s t : State} (h : Keeps s t) : t.seltags = s.seltags := by rw [h.glob]

theorem Keeps.keep_mfact {s t : State} (h : Keeps s t) : t.mfact = s.mfact := by rw [h.glob]

theorem Keeps.keep_tags {s t : State} (h : Keeps s t) (i : Nat) : (t.cl i).tags = (s.cl i).tags := by
  rw [h.cl i]

theorem Keeps.keep_cmon {s t : State} (h : Keeps s t) (i : Nat) : (t.cl i).mon = (s.cl i).mon := by
  rw [h.cl i]

theorem Keeps.keep_isfloating {s t : State} (h : Keeps s t) (i : Nat) :
    (t.cl i).isfloating = (s.cl i).isfloating := by rw [h.cl i]

theorem Keeps.keep_bw {s t : State} (h : Keeps s t) (i : Nat) : (t.cl i).bw = (s.cl i).bw := by
  rw [h.cl i]

theorem Keeps.keep_hwnd {s t : State} (h : Keeps s t) (i : Nat) : (t.cl i).hwnd = (s.cl i).hwnd := by
  rw [h.cl i]

theorem Keeps.keep_isminimized {s t : State} (h : Keeps s t) (i : Nat) :
    (t.cl i).isminimized = (s.cl i).isminimized := by rw [h.cl i]

theorem Keeps.keep_isvisible {s t : State} (h : Keeps s t) (x : Option Nat) :
    isvisible t x = isvisible s x := by
  cases x with
  | none => rfl
  | some i => simp only [DwmWin32.isvisible, h.keep_tags, h.keep_cmon, h.keep_mon, h.keep_cfg, h.keep_seltags]

theorem Keeps.keep_untiled {s t : State} (h : Keeps s t) : untiled t = untiled s := by
  funext i
  simp only [DwmWin32.untiled, h.keep_isfloating, h.keep_isvisible]

theorem Keeps.mon_get_layout {s t : State} (h : Keeps s t) (m : Option Nat) (idx : Nat) :
    mon_get_layout t m idx = mon_get_layout s m idx := by
  simp only [DwmWin32.mon_get_layout, h.keep_mon, h.keep_glt]

theorem Keeps.monsOk {s t : State} (h : Keeps s t) {M : List Nat} (hM : MonsOk s M) :
    MonsOk t M := by
  refine ⟨?_, ?_, fun m hm => ?_⟩
  · rw [h.keep_mnext, h.keep_mons]; exact hM.chain
  · rw [h.keep_nmons]; exact hM.bound
  · rw [h.mon_get_layout, h.keep_mon]; exact hM.layout m hm

theorem Frame.pickable {s t : State} (h : Frame s t) : pickable t = pickable s := by
  funext i
  simp only [DwmWin32.pickable, h.isvisible, h.cmon, h.selmon]

theorem showhide_ok {S : List Nat} :
    ∀ {fuel : Nat} {s : State} {p : Option Nat}, IsChain s.snext p S → S.length ≤ fuel →
      ∃ t, showhide fuel s p = .ok t := by
  induction S with
  | nil => intro fuel s p h _; simp at h; subst h; cases fuel <;> exact ⟨s, rfl⟩
  | cons a S ih =>
    intro fuel s p h hf
    obtain ⟨rfl, h2⟩ := h
    cases fuel with
    | zero => simp at hf
    | succ f =>
      simp only [showhide]
      have key : ∀ s1 : State, Frame s s1 → ∃ t, showhide f s1 (s1.snext a) = .ok t := by
        intro s1 hfr
        exact ih (by rw [hfr.snext]; exact h2) (by simpa using hf)
      apply key
      split
      · split
        · refine Frame.trans ?_ (frame_setvisibility _ _ _)
          refine ⟨rfl, fun j => ?_⟩
          by_cases hj : j = a
          · subst hj; simp [State.setCl]
          · simp [State.setCl, Function.update_noteq hj]
        · exact Frame.refl s
      · split
        · exact frame_setvisibility _ _ _
        · exact Frame.refl s

theorem arrangemon_ok {s : State} {L : List Nat} {m : Nat} (hL : IsChain s.next s.clients L)
    (hlen : L.length ≤ s.nclients)
    (hlay : (mon_get_layout s (some m) (s.mon m).sellt).isSome = true) :
    ∃ t, arrangemon s m = .ok t := by
  obtain ⟨l, hl⟩ := Option.isSome_iff_exists.1 hlay
  have h1 : layoutArrange { s with curmon := some m } (some m) = .ok l.arrange := by
    have : mon_get_layout { s with curmon := some m } (some m) (s.mon m).sellt = some l := hl
    simp only [layoutArrange, deref, run_pure, run_ok_bind, this]
  unfold arrangemon
  simp only [h1, run_ok_bind]
  cases l.arrange with
  | none => exact ⟨_, rfl⟩
  | some a =>
    cases a with
    | tile => exact ⟨_, @tile_eq { s with curmon := some m } L m hL hlen rfl⟩
    | monocle => exact ⟨_, @monocle_eq { s with curmon := some m } L m hL hlen rfl⟩

theorem arrangeLoop_ok {L : List Nat} {M : List Nat} :
    ∀ {fuel : Nat} {s : State} {p : Option Nat}, IsChain s.next s.clients L →
      L.length ≤ s.nclients → IsChain s.mnext p M → M.length ≤ fuel →
      (∀ m ∈ M, (mon_get_layout s (some m) (s.mon m).sellt).isSome = true) →
      ∃ t, arrangeLoop fuel s p = .ok t := by
  induction M with
  | nil => intro fuel s p _ _ h _ _; simp at h; subst h; cases fuel <;> exact ⟨s, rfl⟩
  | cons a M ih =>
    intro fuel s p hL hlen h hf hlay
    obtain ⟨rfl, h2⟩ := h
    cases fuel with
    | zero => simp at hf
    | succ f =>
      simp only [arrangeLoop]
      obtain ⟨s1, h1⟩ := arrangemon_ok hL hlen (hlay a (List.mem_cons_self a M))
      have hfr := frame_arrangemon h1
      rw [h1, run_ok_bind]
      refine ih (by rw [hfr.next, hfr.clients]; exact hL) (by rw [hfr.nclients]; exact hlen)
        (by rw [hfr.mnext]; exact h2) (by simpa using hf) (fun m hm => ?_)
      rw [hfr.keeps.mon_get_layout, hfr.mon]
      exact hlay m (List.mem_cons_of_mem a hm)

theorem stackAfter_perm {S : List Nat} {o : Option Nat} (h : ∀ c, o = some c → c ∈ S) :
    (stackAfter S o).Perm S := by
  cases o with
  | none => exact List.Perm.refl S
  | some c => exact (List.perm_cons_erase (h c rfl)).symm

theorem Inv.of_keeps {s t : State} {L S S' : List Nat} (hinv : Inv s L S) (hk : Keeps s t)
    (hn : t.next = s.next) (hc : t.clients = s.clients)
    (hS : IsChain t.snext t.stack S') (hp : S'.Perm S) (hsel : ∀ i, t.sel = some i → i ∈ L) :
    Inv t L S' := by
  refine ⟨?_, hS, hinv.perm.trans hp.symm, ?_, hsel⟩
  · rw [hn, hc]; exact hinv.list
  · rw [hk.keep_nclients]; exact hinv.bound

theorem Frame.inv {s t : State} {L S : List Nat} (hinv : Inv s L S) (hf : Frame s t) :
    Inv t L S :=
  hinv.of_keeps hf.keeps hf.next hf.clients (by rw [hf.snext, hf.stack]; exact hinv.stack)
    (List.Perm.refl S) (by rw [hf.sel]; exact hinv.sel)

/-- `arrange` on a well-formed registry returns; it re-runs the selection and leaves the
List, the tags and the monitors alone. -/
theorem arrange_spec {s : State} {L S M : List Nat} (hinv : Inv s L S) (hM : MonsOk s M) :
    ∃ t, arrange s = .ok t ∧ Keeps s t ∧ t.next = s.next ∧ t.clients = s.clients ∧
      t.sel = S.find? (pickable s) ∧ t.selmon = s.selmon ∧
      IsChain t.snext t.stack (stackAfter S (S.find? (pickable s))) := by
  obtain ⟨s1, h1⟩ := showhide_ok hinv.stack hinv.stack_length_le
  have f1 := frame_showhide _ _ _ _ h1
  have hS1 : IsChain s1.snext s1.stack S := by rw [f1.snext, f1.stack]; exact hinv.stack
  have hn1 : S.length ≤ s1.nclients := by rw [f1.nclients]; exact hinv.stack_length_le
  have hL1 : IsChain s1.next s1.clients L := by rw [f1.next, f1.clients]; exact hinv.list
  have hln1 : L.length ≤ s1.nclients := by rw [f1.nclients]; exact hinv.list_length_le
  have hM1 := f1.keeps.monsOk hM
  unfold arrange
  rw [h1, run_ok_bind]
  rcases focus_search hS1 hn1 with ⟨c, sn, e1, e2, e3⟩ | ⟨e1, e2⟩
  · rw [f1.pickable] at e1
    rw [e2, run_ok_bind]
    have k2 : Keeps s1 { selected s1 c sn with
        cmds := s1.cmds ++ [.setForeground (s1.cl c).hwnd] } :=
      (keeps_selected s1 c sn).keep_trans ⟨rfl, fun _ => rfl⟩
    have hM2 := k2.monsOk hM1
    obtain ⟨t, h3⟩ := @arrangeLoop_ok L M _
      { selected s1 c sn with cmds := s1.cmds ++ [.setForeground (s1.cl c).hwnd] } _
      hL1 hln1 hM2.chain hM2.bound hM2.layout
    have f3 := frame_arrangeLoop _ _ _ _ h3
    refine ⟨t, h3, f1.keeps.keep_trans (k2.keep_trans f3.keeps), by rw [f3.next]; exact f1.next,
      by rw [f3.clients]; exact f1.clients, ?_, ?_, ?_⟩
    · rw [f3.sel, e1]; rfl
    · rw [f3.selmon]
      have hp := List.find?_some e1
      simp only [pickable, Bool.and_eq_true, beq_iff_eq] at hp
      show (s1.cl c).mon = s.selmon
      rw [f1.cmon]; exact hp.2
    · rw [f3.snext, f3.stack, e1]; exact e3
  · rw [f1.pickable] at e1
    rw [e2, run_ok_bind]
    have k2 : Keeps s1 { s1 with sel := none } := ⟨rfl, fun _ => rfl⟩
    have hM2 := k2.monsOk hM1
    obtain ⟨t, h3⟩ := @arrangeLoop_ok L M _ { s1 with sel := none } _
      hL1 hln1 hM2.chain hM2.bound hM2.layout
    have f3 := frame_arrangeLoop _ _ _ _ h3
    refine ⟨t, h3, f1.keeps.keep_trans (k2.keep_trans f3.keeps), by rw [f3.next]; exact f1.next,
      by rw [f3.clients]; exact f1.clients, ?_, ?_, ?_⟩
    · rw [f3.sel, e1]
    · rw [f3.selmon]; exact f1.selmon
    · rw [f3.snext, f3.stack, e1]; exact hS1

theorem arrange_inv {s : State} {L S M : List Nat} (hinv : Inv s L S) (hM : MonsOk s M) :
    ∃ t, arrange s = .ok t ∧ Keeps s t ∧ t.next = s.next ∧ t.clients = s.clients ∧
      t.sel = S.find? (pickable s) ∧
      t.selmon = s.selmon ∧ Inv t L (stackAfter S (S.find? (pickable s))) ∧ MonsOk t M := by
  obtain ⟨t, h1, h2, hn, hc, h3, h4, h5⟩ := arrange_spec hinv hM
  have hmem : ∀ c, S.find? (pickable s) = some c → c ∈ S :=
    fun c hc => List.mem_of_find?_eq_some hc
  refine ⟨t, h1, h2, hn, hc, h3, h4, hinv.of_keeps h2 hn hc h5 (stackAfter_perm hmem) ?_,
    h2.monsOk hM⟩
  intro i hi
  rw [h3] at hi
  exact hinv.mem_stack.1 (hmem i hi)

/-- After `arrange` the selection is empty, or it heads the focus stack and is visible. -/
theorem arrange_post {s t : State} (h : arrange s = .ok t) :
    t.sel = none ∨ (t.stack = t.sel ∧ isvisible t t.sel = true) := by
  unfold arrange at h
  obtain ⟨s1, _, h⟩ := bind_eq_ok.1 h
  obtain ⟨s2, h2, h3⟩ := bind_eq_ok.1 h
  have f3 := frame_arrangeLoop _ _ _ _ h3
  rw [f3.sel, f3.stack, f3.isvisible]
  unfold focus at h2
  obtain ⟨s3, h4, h5⟩ := bind_eq_ok.1 h2
  have hp := setselected_post h4
  cases hs : s3.sel with
  | none => simp [hs] at h5; subst h5; left; exact hs
  | some i =>
    simp [hs] at h5; subst h5
    rcases hp with hp | hp
    · simp [hs] at hp
    · right
      simpa [isvisible, hs] using hp

/-! ### `unmanage` -/

theorem Keeps.keep_pickable {s t : State} (h : Keeps s t) (hm : t.selmon = s.selmon) :
    pickable t = pickable s := by
  funext i
  simp only [DwmWin32.pickable, h.keep_isvisible, h.keep_cmon, hm]

theorem find_stackAfter (p : Nat → Bool) (X : List Nat) :
    (stackAfter X (X.find? p)).find? p = X.find? p := by
  cases h : X.find? p with
  | none => simpa [stackAfter] using h
  | some c => simp [stackAfter, List.find?_cons, List.find?_some h]

theorem stackAfter_idem (X : List Nat) (o : Option Nat) :
    stackAfter (stackAfter X o) o = stackAfter X o := by
  cases o with
  | none => rfl
  | some c => simp [stackAfter]

theorem frame_setborder (s : State) (i : Nat) (b : Bool) : Frame s (setborder s i b) := by
  unfold setborder
  split
  · refine ⟨rfl, fun j => ?_⟩
    by_cases hj : j = i
    · subst hj; simp [State.setCl]
    · simp [State.setCl, Function.update_noteq hj]
  · exact Frame.refl s

theorem detach_both {s : State} {L S : List Nat} {c : Nat} (hinv : Inv s L S) (hc : c ∈ L) :
    ∃ s3 s4, detach s (some c) = .ok s3 ∧ detachstack s3 (some c) = .ok s4 ∧ Keeps s s4 ∧
      s4.sel = s.sel ∧ s4.selmon = s.selmon ∧
      IsChain s4.next s4.clients (L.erase c) ∧ IsChain s4.snext s4.stack (S.erase c) := by
  obtain ⟨nx, hd, e3, c3⟩ := detach_chain hinv.list hinv.list_length_le hc
  obtain ⟨sn, hd', e4, c4⟩ := @detachstack_chain { s with next := nx, clients := hd } S c
    hinv.stack hinv.stack_length_le (hinv.mem_stack.2 hc)
  exact ⟨_, _, e3, e4, ⟨rfl, fun _ => rfl⟩, rfl, rfl, c3, c4⟩

/-- `arrange` on a well-formed registry, when it returns: the List, the tags and the
monitors are left alone and the selection is re-run. -/
theorem arrange_of_ok {s t : State} {L S : List Nat} (h : arrange s = .ok t)
    (hinv : Inv s L S) :
    Keeps s t ∧ t.next = s.next ∧ t.clients = s.clients ∧
      t.sel = S.find? (pickable s) ∧ t.selmon = s.selmon ∧
      Inv t L (stackAfter S (S.find? (pickable s))) := by
  unfold arrange at h
  obtain ⟨s1, h1, h⟩ := bind_eq_ok.1 h
  obtain ⟨s2, h2, h3⟩ := bind_eq_ok.1 h
  have f1 := frame_showhide _ _ _ _ h1
  have f3 := frame_arrangeLoop _ _ _ _ h3
  have i1 := f1.inv hinv
  have hmem : ∀ c, S.find? (pickable s) = some c → c ∈ S :=
    fun c hc => List.mem_of_find?_eq_some hc
  have hsel : ∀ i, S.find? (pickable s) = some i → i ∈ L :=
    fun i hi => hinv.mem_stack.1 (hmem i hi)
  rcases focus_search i1.stack i1.stack_length_le with ⟨c, sn, e1, e2, e3⟩ | ⟨e1, e2⟩
  · rw [f1.pickable] at e1
    rw [e2] at h2
    have h2' := (Except.ok.inj h2).symm
    have k2 : Keeps s1 s2 := by
      rw [h2']; exact (keeps_selected s1 c sn).keep_trans ⟨rfl, fun _ => rfl⟩
    have hk := f1.keeps.keep_trans (k2.keep_trans f3.keeps)
    have hn : t.next = s.next := by rw [f3.next, h2']; exact f1.next
    have hc : t.clients = s.clients := by rw [f3.clients, h2']; exact f1.clients
    have hs : t.sel = S.find? (pickable s) := by rw [f3.sel, h2', e1]; rfl
    refine ⟨hk, hn, hc, hs, ?_, ?_⟩
    · rw [f3.selmon, h2']
      have hp := List.find?_some e1
      simp only [pickable, Bool.and_eq_true, beq_iff_eq] at hp
      show (s1.cl c).mon = s.selmon
      rw [f1.cmon]; exact hp.2
    · refine hinv.of_keeps hk hn hc ?_ (stackAfter_perm hmem) (by rw [hs]; exact hsel)
      rw [f3.snext, f3.stack, h2', e1]; exact e3
  · rw [f1.pickable] at e1
    rw [e2] at h2
    have h2' := (Except.ok.inj h2).symm
    have k2 : Keeps s1 s2 := by rw [h2']; exact ⟨rfl, fun _ => rfl⟩
    have hk := f1.keeps.keep_trans (k2.keep_trans f3.keeps)
    have hn : t.next = s.next := by rw [f3.next, h2']; exact f1.next
    have hc : t.clients = s.clients := by rw [f3.clients, h2']; exact f1.clients
    have hs : t.sel = S.find? (pickable s) := by rw [f3.sel, h2', e1]
    refine ⟨hk, hn, hc, hs, ?_, ?_⟩
    · rw [f3.selmon, h2']; exact f1.selmon
    · refine hinv.of_keeps hk hn hc ?_ (stackAfter_perm hmem) (by rw [hs]; exact hsel)
      rw [f3.snext, f3.stack, h2', e1]; exact i1.stack

theorem arrange_ok {s : State} {L S M : List Nat} (hinv : Inv s L S) (hM : MonsOk s M) :
    ∃ t, arrange s = .ok t := by
  obtain ⟨t, h, _⟩ := arrange_spec hinv hM
  exact ⟨t, h⟩

/-- `unmanage` of a managed client comes down to `arrange` on a well-formed registry from
which the client is gone. -/
theorem unmanage_eq_arrange {s : State} {L S : List Nat} {c : Nat} (hinv : Inv s L S)
    (hc : c ∈ L) :
    ∃ s5 S5, unmanage s (some c) = arrange s5 ∧ Keeps s s5 ∧ s5.selmon = s.selmon ∧
      Inv s5 (L.erase c) S5 ∧
      stackAfter S5 ((S.erase c).find? (pickable s)) =
        stackAfter (S.erase c) ((S.erase c).find? (pickable s)) ∧
      S5.find? (pickable s) = (S.erase c).find? (pickable s) := by
  have f1 : Frame s (if (s.cl c).wasvisible then setvisibility s (s.cl c).hwnd true else s) := by
    split
    · exact frame_setvisibility _ _ _
    · exact Frame.refl s
  unfold unmanage
  simp only [deref, run_pure, run_ok_bind]
  generalize (if (s.cl c).wasvisible then setvisibility s (s.cl c).hwnd true else s) = s1
    at f1 ⊢
  have f2 : Frame s (if !(s1.cl c).isfloating then setborder s1 c true else s1) := by
    split
    · exact f1.trans (frame_setborder _ _ _)
    · exact f1
  generalize (if !(s1.cl c).isfloating then setborder s1 c true else s1) = s2 at f2 ⊢
  have i2 := f2.inv hinv
  obtain ⟨s3, s4, e3, e4, k24, hsel4, hmon4, c3, c4⟩ := detach_both i2 hc
  rw [e3, run_ok_bind, e4, run_ok_bind]
  have k4 : Keeps s s4 := f2.keeps.keep_trans k24
  have hm4 : s4.selmon = s.selmon := hmon4.trans f2.selmon
  have hperm : (L.erase c).Perm (S.erase c) := hinv.perm.erase c
  have hb : ∀ i ∈ L.erase c, i < s4.nclients := fun i hi => by
    rw [k4.keep_nclients]; exact hinv.bound i (List.mem_of_mem_erase hi)
  have hlenS : (S.erase c).length ≤ s4.nclients :=
    le_trans (by rw [← hperm.length_eq]) (length_le_of_nodup_of_lt c3.nodup hb)
  have hp4 : pickable s4 = pickable s := k4.keep_pickable hm4
  by_cases hs : s4.sel = some c
  · rw [if_pos hs]
    rcases focus_search c4 hlenS with ⟨c', sn', e1, e2, e3'⟩ | ⟨e1, e2⟩
    · rw [hp4] at e1
      rw [e2, run_ok_bind]
      have hc' : c' ∈ S.erase c := List.mem_of_find?_eq_some e1
      have hpk := List.find?_some e1
      simp only [pickable, Bool.and_eq_true, beq_iff_eq] at hpk
      have k5 : Keeps s4 { selected s4 c' sn' with
          cmds := s4.cmds ++ [.setForeground (s4.cl c').hwnd] } :=
        (keeps_selected _ c' sn').keep_trans ⟨rfl, fun _ => rfl⟩
      refine ⟨_, c' :: (S.erase c).erase c', rfl, k4.keep_trans k5, ?_, ?_, ?_, ?_⟩
      · show (s4.cl c').mon = s.selmon
        rw [k4.keep_cmon]; exact hpk.2
      · refine ⟨c3, e3', ?_, hb, ?_⟩
        · exact hperm.trans (List.perm_cons_erase hc')
        · intro i hi
          have : i = c' := by
            have : some c' = some i := hi
            exact (Option.some.inj this).symm
          rw [this]; exact hperm.mem_iff.2 hc'
      · rw [e1]; simp [stackAfter]
      · rw [e1]; simp [List.find?_cons, List.find?_some e1]
    · rw [hp4] at e1
      rw [e2, run_ok_bind]
      refine ⟨_, S.erase c, rfl, k4.keep_trans ⟨rfl, fun _ => rfl⟩, hm4, ?_, rfl, rfl⟩
      exact ⟨c3, c4, hperm, hb, fun i hi => by cases hi⟩
  · rw [if_neg hs]
    simp only [run_pure, run_ok_bind]
    refine ⟨_, S.erase c, rfl, k4, hm4, ?_, rfl, rfl⟩
    refine ⟨c3, c4, hperm, hb, fun i hi => ?_⟩
    have h1 : i ∈ L := hinv.sel i (by rw [← f2.sel, ← hsel4]; exact hi)
    have h2 : i ≠ c := fun e => hs (e ▸ hi)
    exact (List.mem_erase_of_ne h2).2 h1

theorem unmanage_of_ok {s t : State} {L S : List Nat} {c : Nat} (hinv : Inv s L S)
    (hc : c ∈ L) (h : unmanage s (some c) = .ok t) :
    Keeps s t ∧ t.sel = (S.erase c).find? (pickable s) ∧ t.selmon = s.selmon ∧
      Inv t (L.erase c) (stackAfter (S.erase c) ((S.erase c).find? (pickable s))) := by
  obtain ⟨s5, S5, e, k5, hm5, i5, hst, hfd⟩ := unmanage_eq_arrange hinv hc
  rw [e] at h
  obtain ⟨h2, _, _, h3, h4, h5⟩ := arrange_of_ok h i5
  rw [k5.keep_pickable hm5, hfd] at h3 h5
  rw [hst] at h5
  exact ⟨k5.keep_trans h2, h3, h4.trans hm5, h5⟩

theorem unmanage_spec {s : State} {L S M : List Nat} {c : Nat} (hinv : Inv s L S)
    (hM : MonsOk s M) (hc : c ∈ L) :
    ∃ t, unmanage s (some c) = .ok t ∧ Keeps s t ∧
      t.sel = (S.erase c).find? (pickable s) ∧ t.selmon = s.selmon ∧
      Inv t (L.erase c) (stackAfter (S.erase c) ((S.erase c).find? (pickable s))) ∧
      MonsOk t M := by
  obtain ⟨s5, S5, e, k5, _, i5, _, _⟩ := unmanage_eq_arrange hinv hc
  obtain ⟨t, h⟩ := arrange_ok i5 (k5.monsOk hM)
  rw [← e] at h
  obtain ⟨h1, h2, h3, h4⟩ := unmanage_of_ok hinv hc h
  exact ⟨t, h, h1, h2, h3, h4, h1.monsOk hM⟩

theorem exDestroy_inv : Inv exDestroy [0, 1] [0, 1] :=
  ⟨by decide, by decide, by decide, by decide, fun i h => by cases h; decide⟩

theorem exDestroy_monsOk : MonsOk exDestroy [0] :=
  ⟨by decide, by decide, by decide⟩

/-- C5 (amended): when the selected client `c` receives a window-destroyed notification
and is not marked `ignore`, the handler returns, `c` is gone from the List and from the
Stack, and the selection is the first client in the remaining Stack order that is visible
under the tag set of its monitor and on the selected monitor (whether it is minimised or
shown by the host is not consulted, and the monitor is `selmon`, not the monitor of `c`);
it is empty when there is no such client. -/
theorem destroy_selected_reselects (s : State) (L S M : List Nat) (c hwnd : Nat)
    (hinv : Inv s L S) (hM : MonsOk s M) (hsel : s.sel = some c)
    (hg : getclient s hwnd = .ok (some c)) (hig : (s.cl c).ignore = false) :
    ∃ t, windowDestroyed s hwnd = .ok t ∧
      IsChain t.next t.clients (L.erase c) ∧ c ∉ L.erase c ∧
      IsChain t.snext t.stack (stackAfter (S.erase c) ((S.erase c).find? (pickable s))) ∧
      t.sel = (S.erase c).find? (pickable s) ∧ pickable t = pickable s := by
  obtain ⟨t, h1, h2, h3, h4, h5, _⟩ := unmanage_spec hinv hM (hinv.sel c hsel)
  refine ⟨t, ?_, h5.list, ?_, h5.stack, h3, h2.keep_pickable h4⟩
  · simp [windowDestroyed, hg, hig, h1]
  · exact fun h => ((List.Nodup.mem_erase_iff hinv.list.nodup).1 h).1 rfl

theorem destroy_selected_reselects_witness :
    ∃ t, windowDestroyed exDestroy 100 = .ok t ∧
      IsChain t.next t.clients ([0, 1].erase 0) ∧ 0 ∉ [0, 1].erase 0 ∧
      IsChain t.snext t.stack
        (stackAfter ([0, 1].erase 0) (([0, 1].erase 0).find? (pickable exDestroy))) ∧
      t.sel = ([0, 1].erase 0).find? (pickable exDestroy) ∧ pickable t = pickable exDestroy :=
  destroy_selected_reselects exDestroy [0, 1] [0, 1] [0] 0 100 exDestroy_inv exDestroy_monsOk
    (by decide) (by decide) (by decide)

/-- C5 fails as stated: in `exDestroy` the only other client is minimised, hence not
focusable, yet after the destroy notification for the selected client 0 it is selected. -/
theorem destroy_selects_unfocusable :
    exDestroy.sel = some 0 ∧ ISFOCUSABLE exDestroy 1 = false ∧
      Except.map State.sel (windowDestroyed exDestroy 100) = .ok (some 1) := by
  decide

/-! ### `manage` and `setselected` keep the registry well formed -/

theorem applyrules_glob (s : State) (i : Nat) (title cls : String) :
    applyrules s i title cls = { s with cl := (applyrules s i title cls).cl } := by
  have key : ∀ (rs : List Rule) (f : State → Rule → State),
      (∀ u r, f u r = { u with cl := (f u r).cl }) → ∀ u : State,
      rs.foldl f u = { u with cl := (rs.foldl f u).cl } := by
    intro rs f hf
    induction rs with
    | nil => intro u; rfl
    | cons r rs ih =>
      intro u
      simp only [List.foldl_cons]
      rw [ih (f u r)]
      rw [hf u r]
  unfold applyrules
  simp only
  split
  · rw [key]
    · rfl
    · intro u r; split <;> rfl
  · rw [key]
    intro u r; split <;> rfl

theorem manage_of_ok {s t : State} {L S : List Nat} {hwnd : Nat} {wi : WinInfo}
    {r : Option Nat} (hinv : Inv s L S) (h : manage s hwnd wi = .ok (t, r)) :
    (t = s ∧ ∀ i, r = some i → i ∈ L) ∨
      (r = some s.nclients ∧ t.nclients = s.nclients + 1 ∧ t.sel = s.sel ∧
        t.selmon = s.selmon ∧ Inv t (s.nclients :: L) (s.nclients :: S)) := by
  unfold manage at h
  obtain ⟨c, hc, h⟩ := bind_eq_ok.1 h
  split at h
  · left
    simp at h
    obtain ⟨rfl, rfl⟩ := h
    refine ⟨rfl, fun i hi => ?_⟩
    unfold getclient at hc
    rw [skipWhile_chain _ hinv.list hinv.list_length_le] at hc
    have := Except.ok.inj hc
    rw [hi] at this
    exact List.mem_of_find?_eq_some this
  · split at h
    · left
      simp at h
      obtain ⟨rfl, rfl⟩ := h
      exact ⟨rfl, fun i hi => by cases hi⟩
    · right
      obtain ⟨m, _, h⟩ := bind_eq_ok.1 h
      simp only at h
      generalize hs1 : ({ s with
          cl := Function.update s.cl s.nclients _,
          next := Function.update s.next s.nclients none,
          snext := Function.update s.snext s.nclients none,
          nclients := s.nclients + 1 } : State) = s1 at h
      have g2 := applyrules_glob s1 s.nclients wi.title wi.cls
      generalize applyrules s1 s.nclients wi.title wi.cls = s2 at h g2
      have f3 : Frame s2 (if (s2.cl s.nclients).isfloating && s2.hostvis hwnd then
          resize s2 s.nclients wi.left wi.top (wi.right - wi.left) (wi.bottom - wi.top)
          else s2) := by
        split
        · exact frame_resize _ _ _ _ _ _
        · exact Frame.refl _
      generalize (if (s2.cl s.nclients).isfloating && s2.hostvis hwnd then
          resize s2 s.nclients wi.left wi.top (wi.right - wi.left) (wi.bottom - wi.top)
          else s2) = s3 at h f3
      simp [attach, attachstack, deref] at h
      obtain ⟨rfl, rfl⟩ := h
      have hnL : s.nclients ∉ L := fun hm => Nat.lt_irrefl _ (hinv.bound _ hm)
      have hnS : s.nclients ∉ S := fun hm => hnL (hinv.mem_stack.1 hm)
      have e3n : s3.next = Function.update s.next s.nclients none := by
        rw [f3.next, g2, ← hs1]
      have e3s : s3.snext = Function.update s.snext s.nclients none := by
        rw [f3.snext, g2, ← hs1]
      have e3c : s3.clients = s.clients := by rw [f3.clients, g2, ← hs1]
      have e3k : s3.stack = s.stack := by rw [f3.stack, g2, ← hs1]
      have e3b : s3.nclients = s.nclients + 1 := by rw [f3.nclients, g2, ← hs1]
      have e3l : s3.sel = s.sel := by rw [f3.sel, g2, ← hs1]
      have e3m : s3.selmon = s.selmon := by rw [f3.selmon, g2, ← hs1]
      refine ⟨rfl, e3b, e3l, e3m, ?_, ?_, hinv.perm.cons _, ?_, ?_⟩
      · show IsChain (Function.update s3.next s.nclients s3.clients) (some s.nclients) _
        rw [e3n, e3c, Function.update_idem]
        exact isChain_attach hinv.list hnL
      · show IsChain (Function.update s3.snext s.nclients s3.stack) (some s.nclients) _
        rw [e3s, e3k, Function.update_idem]
        exact isChain_attach hinv.stack hnS
      · intro i hi
        show i < s3.nclients
        rw [e3b]
        rcases List.mem_cons.1 hi with rfl | hi
        · exact Nat.lt_succ_self _
        · exact Nat.lt_succ_of_lt (hinv.bound i hi)
      · intro i hi
        exact List.mem_cons_of_mem _ (hinv.sel i (e3l ▸ hi))

theorem setselected_inv {s : State} {L S : List Nat} (c : Option Nat) (hinv : Inv s L S)
    (hc : ∀ i, c = some i → i ∈ L) :
    ∃ t S', setselected s c = .ok t ∧ Keeps s t ∧ t.next = s.next ∧ t.clients = s.clients ∧
      Inv t L S' := by
  have settle : ∀ i sn, i ∈ S → IsChain sn (some i) (i :: S.erase i) →
      Keeps s (selected s i sn) ∧ (selected s i sn).next = s.next ∧
        (selected s i sn).clients = s.clients ∧ Inv (selected s i sn) L (i :: S.erase i) := by
    intro i sn hi hch
    refine ⟨keeps_selected s i sn, rfl, rfl, ?_⟩
    exact hinv.of_keeps (keeps_selected s i sn) rfl rfl hch (List.perm_cons_erase hi).symm
      (fun j hj => by
        have : j = i := (Option.some.inj hj).symm
        rw [this]; exact hinv.mem_stack.1 hi)
  by_cases hv : c = none ∨ isvisible s c = false
  · rcases setselected_search c hinv.stack hinv.stack_length_le hv with
      ⟨i, sn, e1, e2, e3⟩ | ⟨_, e2⟩
    · obtain ⟨a, b, c', d⟩ := settle i sn (List.mem_of_find?_eq_some e1) e3
      exact ⟨_, _, e2, a, b, c', d⟩
    · refine ⟨_, S, e2, ⟨rfl, fun _ => rfl⟩, rfl, rfl, ?_⟩
      exact hinv.of_keeps ⟨rfl, fun _ => rfl⟩ rfl rfl hinv.stack (List.Perm.refl S)
        (fun j hj => by cases hj)
  · cases c with
    | none => exact absurd (Or.inl rfl) hv
    | some i =>
      have hvi : isvisible s (some i) = true := by
        cases hb : isvisible s (some i)
        · exact absurd (Or.inr hb) hv
        · rfl
      have hi : i ∈ S := hinv.mem_stack.2 (hc i rfl)
      obtain ⟨sn, e2, e3⟩ := setselected_visible hinv.stack hinv.stack_length_le hi hvi
      obtain ⟨a, b, c', d⟩ := settle i sn hi e3
      exact ⟨_, _, e2, a, b, c', d⟩

theorem focus_inv {s : State} {L S : List Nat} (c : Option Nat) (hinv : Inv s L S)
    (hc : ∀ i, c = some i → i ∈ L) :
    ∃ t S', focus s c = .ok t ∧ Keeps s t ∧ t.next = s.next ∧ t.clients = s.clients ∧
      Inv t L S' := by
  obtain ⟨t, S', e, k, hn, hcl, i1⟩ := setselected_inv c hinv hc
  unfold focus
  rw [e, run_ok_bind]
  split
  · rename_i i _
    have f : Frame t { t with cmds := t.cmds ++ [.setForeground (t.cl i).hwnd] } :=
      ⟨rfl, fun _ => rfl⟩
    exact ⟨_, S', rfl, k.keep_trans f.keeps, hn, hcl, f.inv i1⟩
  · exact ⟨t, S', rfl, k, hn, hcl, i1⟩

/-! ### The cyclic walks of `focusstack` and `movestack` -/

theorem lastSat_eq (good : Nat → Bool) (l : List Nat) (acc : Option Nat) :
    lastSat good l acc = (l.reverse.find? good).or acc := by
  induction l generalizing acc with
  | nil => simp [lastSat]
  | cons a l ih =>
    have : lastSat good (a :: l) acc = lastSat good l (if good a then some a else acc) := rfl
    rw [this, ih]
    simp only [List.reverse_cons, List.find?_append, List.find?_cons, List.find?_nil]
    cases good a <;> cases List.find? good l.reverse <;> simp

theorem lastSat_mem {good : Nat → Bool} {l : List Nat} {c : Nat}
    (h : lastSat good l none = some c) : c ∈ l ∧ good c = true := by
  rw [lastSat_eq] at h
  simp only [Option.or_none] at h
  exact ⟨List.mem_reverse.1 (List.mem_of_find?_eq_some h), List.find?_some h⟩

theorem walk_forward {nx : Nat → Option Nat} {hd : Option Nat} {A B : List Nat} {sl fuel : Nat}
    (bad good : Nat → Bool) (hbg : ∀ i, good i = !bad i)
    (hL : IsChain nx hd (A ++ sl :: B)) (hf : (A ++ sl :: B).length ≤ fuel) :
    (skipWhile nx bad fuel (nx sl) >>= fun c =>
        if c.isNone then skipWhile nx bad fuel hd else pure c) =
      .ok (cycleNext good A sl B) := by
  have hg : (fun a => !bad a) = good := funext fun i => (hbg i).symm
  have hB : IsChain nx (nx sl) B := (IsChain.of_append hL).2
  have hfB : B.length ≤ fuel := by simp at hf; omega
  rw [skipWhile_chain bad hB hfB, hg, run_ok_bind]
  unfold cycleNext
  cases hfind : B.find? good with
  | some c => simp
  | none =>
    simp only [Option.isNone_none, if_true]
    rw [skipWhile_chain bad hL hf, hg]

theorem walk_backward {nx : Nat → Option Nat} {hd : Option Nat} {A B : List Nat}
    {sl fuel : Nat} (good : Nat → Bool)
    (hL : IsChain nx hd (A ++ sl :: B)) (hf : (A ++ sl :: B).length ≤ fuel) :
    (lastBefore nx good (some sl) fuel hd none >>= fun r =>
        if r.1.isNone then lastFrom nx good fuel r.2 r.1 else pure r.1) =
      .ok (cyclePrev good A sl B) := by
  obtain ⟨r, h1, h2⟩ := isChain_append.1 hL
  have hr : r = some sl := h2.1
  subst hr
  have hnd := hL.nodup
  have hA : sl ∉ A := fun h => (List.nodup_append.1 hnd).2.2 h (List.mem_cons_self sl B)
  have hfA : A.length ≤ fuel := by simp at hf; omega
  have hfB : (sl :: B).length ≤ fuel := by simp at hf ⊢; omega
  rw [lastBefore_seg good none h1 hA hfA, run_ok_bind]
  unfold cyclePrev
  cases hlast : lastSat good A none with
  | some c => simp
  | none =>
    simp only [Option.isNone_none, if_true]
    rw [lastFrom_chain good none h2 hfB]

theorem cycleNext_mem {good : Nat → Bool} {A B : List Nat} {sl c : Nat}
    (h : cycleNext good A sl B = some c) : c ∈ A ++ sl :: B ∧ good c = true := by
  unfold cycleNext at h
  cases hf : B.find? good with
  | some c' =>
    rw [hf] at h
    cases h
    exact ⟨List.mem_append_right _ (List.mem_cons_of_mem _ (List.mem_of_find?_eq_some hf)),
      List.find?_some hf⟩
  | none =>
    rw [hf] at h
    exact ⟨List.mem_of_find?_eq_some h, List.find?_some h⟩

theorem cyclePrev_mem {good : Nat → Bool} {A B : List Nat} {sl c : Nat}
    (h : cyclePrev good A sl B = some c) : c ∈ A ++ sl :: B ∧ good c = true := by
  unfold cyclePrev at h
  cases hf : lastSat good A none with
  | some c' =>
    rw [hf] at h
    cases h
    exact ⟨List.mem_append_left _ (lastSat_mem hf).1, (lastSat_mem hf).2⟩
  | none =>
    rw [hf] at h
    exact ⟨List.mem_append_right _ (lastSat_mem h).1, (lastSat_mem h).2⟩

/-- `focusstack` with a selected client `sl`, in terms of the List `A ++ sl :: B`. -/
theorem focusstack_eq {s : State} {A B : List Nat} {sl : Nat} (dir : Int)
    (hL : IsChain s.next s.clients (A ++ sl :: B))
    (hlen : (A ++ sl :: B).length ≤ s.nclients) (hsel : s.sel = some sl) :
    focusstack s dir =
      (match (if dir > 0 then cycleNext (focusGood s) A sl B
              else cyclePrev (focusGood s) A sl B) with
       | some c => focus s (some c)
       | none => pure s) := by
  unfold focusstack
  rw [hsel]
  simp only
  by_cases hd : dir > 0
  · simp only [hd, if_true]
    have := walk_forward (fun i => !ISFOCUSABLE s i || (s.cl i).mon != s.selmon) (focusGood s)
      (fun i => by
        simp only [focusGood]
        cases ISFOCUSABLE s i <;> cases h : ((s.cl i).mon == s.selmon) <;> simp [bne, h])
      hL hlen
    rw [this, run_ok_bind]
    cases cycleNext (focusGood s) A sl B <;> rfl
  · simp only [hd, if_false]
    have := walk_backward (focusGood s) hL hlen
    rw [← hsel]
    have hgood : (fun i => ISFOCUSABLE s i && (s.cl i).mon == s.selmon) = focusGood s := rfl
    rw [hgood, hsel, this, run_ok_bind]
    cases cyclePrev (focusGood s) A sl B <;> rfl

theorem focusstack_of_ok {s t : State} {L S : List Nat} {dir : Int} (hinv : Inv s L S)
    (h : focusstack s dir = .ok t) :
    ∃ S', Keeps s t ∧ t.next = s.next ∧ t.clients = s.clients ∧ Inv t L S' := by
  cases hsel : s.sel with
  | none =>
    simp [focusstack, hsel] at h
    subst h
    exact ⟨S, Keeps.keep_refl _, rfl, rfl, hinv⟩
  | some sl =>
    obtain ⟨A, B, rfl, _, _, _⟩ := split_of_mem_nodup hinv.list.nodup (hinv.sel sl hsel)
    rw [focusstack_eq dir hinv.list hinv.list_length_le hsel] at h
    split at h
    · rename_i c hc
      have hmem : c ∈ A ++ sl :: B := by
        split at hc
        · exact (cycleNext_mem hc).1
        · exact (cyclePrev_mem hc).1
      obtain ⟨t', S', e, k, hn, hcl, i1⟩ := focus_inv (some c) hinv
        (fun i hi => by cases hi; exact hmem)
      rw [e] at h
      cases h
      exact ⟨S', k, hn, hcl, i1⟩
    · simp at h
      subst h
      exact ⟨S, Keeps.keep_refl _, rfl, rfl, hinv⟩

/-! ### Forward then backward along the List -/

theorem find_none_of_forall {good : Nat → Bool} {l : List Nat}
    (h : ∀ a ∈ l, (!good a) = true) : l.find? good = none := by
  rw [List.find?_eq_none]
  intro a ha
  have := h a ha
  simpa using this

theorem find_reverse_none {good : Nat → Bool} {l : List Nat}
    (h : l.find? good = none) : l.reverse.find? good = none := by
  rw [List.find?_eq_none] at h ⊢
  intro a ha
  exact h a (List.mem_reverse.1 ha)

theorem cycle_fwd_bwd {good : Nat → Bool} {A B : List Nat} {s c : Nat}
    (hnd : (A ++ s :: B).Nodup) (hs : good s = true) (hc : c ∈ A ++ s :: B) (hcs : c ≠ s)
    (hgc : good c = true) :
    ∃ c1 A' B', cycleNext good A s B = some c1 ∧ c1 ≠ s ∧ (B ++ A).find? good = some c1 ∧
      A ++ s :: B = A' ++ c1 :: B' ∧ cyclePrev good A' c1 B' = some s := by
  have hsA : s ∉ A := fun h => (List.nodup_append.1 hnd).2.2 h (List.mem_cons_self s B)
  have hsB : s ∉ B := (List.nodup_cons.1 (List.nodup_append.1 hnd).2.1).1
  cases hf : B.find? good with
  | some c1 =>
    obtain ⟨_, B1, B2, rfl, hB1⟩ := List.find?_eq_some.1 hf
    have hne : c1 ≠ s := fun e => hsB (by simp [e])
    refine ⟨c1, A ++ s :: B1, B2, by simp only [cycleNext, hf], hne,
      by rw [List.find?_append, hf]; rfl, by simp, ?_⟩
    have h1 : lastSat good (A ++ s :: B1) none = some s := by
      rw [lastSat_eq]
      simp only [List.reverse_append, List.reverse_cons, List.find?_append, List.append_assoc,
        List.singleton_append, List.find?_cons, hs, Option.or_none]
      rw [find_reverse_none (find_none_of_forall hB1)]
      rfl
    simp [cyclePrev, h1]
  | none =>
    have hcB : c ∉ B := fun h => by
      have := (List.find?_eq_none.1 hf) c h
      exact this hgc
    have hcA : c ∈ A := by
      rcases List.mem_append.1 hc with h | h
      · exact h
      · rcases List.mem_cons.1 h with h | h
        · exact absurd h hcs
        · exact absurd h hcB
    have hAsome : (A.find? good).isSome = true := by
      rw [List.find?_isSome]; exact ⟨c, hcA, hgc⟩
    obtain ⟨c1, hfA⟩ := Option.isSome_iff_exists.1 hAsome
    obtain ⟨_, A1, A2, rfl, hA1⟩ := List.find?_eq_some.1 hfA
    have hne : c1 ≠ s := fun e => hsA (by simp [e])
    refine ⟨c1, A1, A2 ++ s :: B, ?_, hne,
      by rw [List.find?_append, hf, hfA]; rfl, by simp, ?_⟩
    · simp only [cycleNext, hf, List.find?_append, hfA]
      rfl
    · have h1 : lastSat good A1 none = none := by
        rw [lastSat_eq, find_reverse_none (find_none_of_forall hA1)]; rfl
      have h2 : lastSat good (c1 :: (A2 ++ s :: B)) none = some s := by
        rw [lastSat_eq]
        simp only [List.reverse_cons, List.reverse_append, List.find?_append, List.append_assoc,
          List.singleton_append, List.find?_cons, hs, Option.or_none]
        rw [find_reverse_none hf]
        rfl
      simp [cyclePrev, h1, h2]

theorem cycle_bwd_fwd {good : Nat → Bool} {A B : List Nat} {s c : Nat}
    (hnd : (A ++ s :: B).Nodup) (hs : good s = true) (hc : c ∈ A ++ s :: B) (hcs : c ≠ s)
    (hgc : good c = true) :
    ∃ c1 A' B', cyclePrev good A s B = some c1 ∧ c1 ≠ s ∧
      A ++ s :: B = A' ++ c1 :: B' ∧ cycleNext good A' c1 B' = some s := by
  have hsA : s ∉ A := fun h => (List.nodup_append.1 hnd).2.2 h (List.mem_cons_self s B)
  have hsB : s ∉ B := (List.nodup_cons.1 (List.nodup_append.1 hnd).2.1).1
  cases hf : A.reverse.find? good with
  | some c1 =>
    obtain ⟨_, R1, R2, hR, hR1⟩ := List.find?_eq_some.1 hf
    have hA : A = R2.reverse ++ c1 :: R1.reverse := by
      have := congrArg List.reverse hR
      simpa using this
    subst hA
    have hne : c1 ≠ s := fun e => hsA (by simp [e])
    have hR1' : R1.reverse.find? good = none :=
      find_reverse_none (find_none_of_forall hR1)
    refine ⟨c1, R2.reverse, R1.reverse ++ s :: B, ?_, hne, by simp, ?_⟩
    · simp only [cyclePrev, lastSat_eq, hf]
      rfl
    · simp [cycleNext, List.find?_append, hR1', List.find?_cons, hs]
  | none =>
    have hAn : A.find? good = none := by
      have := find_reverse_none hf
      simpa using this
    have hcA : c ∉ A := fun h => (List.find?_eq_none.1 hAn) c h hgc
    have hcB : c ∈ B := by
      rcases List.mem_append.1 hc with h | h
      · exact absurd h hcA
      · rcases List.mem_cons.1 h with h | h
        · exact absurd h hcs
        · exact h
    have hBsome : (B.reverse.find? good).isSome = true := by
      rw [List.find?_isSome]; exact ⟨c, List.mem_reverse.2 hcB, hgc⟩
    obtain ⟨c1, hfB⟩ := Option.isSome_iff_exists.1 hBsome
    obtain ⟨_, R1, R2, hR, hR1⟩ := List.find?_eq_some.1 hfB
    have hB : B = R2.reverse ++ c1 :: R1.reverse := by
      have := congrArg List.reverse hR
      simpa using this
    subst hB
    have hne : c1 ≠ s := fun e => hsB (by simp [e])
    have hR1' : R1.reverse.find? good = none :=
      find_reverse_none (find_none_of_forall hR1)
    refine ⟨c1, A ++ s :: R2.reverse, R1.reverse, ?_, hne, by simp, ?_⟩
    · have h1 : lastSat good A none = none := by rw [lastSat_eq, hf]; rfl
      have h2 : lastSat good (s :: (R2.reverse ++ c1 :: R1.reverse)) none = some c1 := by
        rw [lastSat_eq]
        have : (s :: (R2.reverse ++ c1 :: R1.reverse)).reverse =
            (R2.reverse ++ c1 :: R1.reverse).reverse ++ [s] := by simp
        rw [this, List.find?_append, hfB]
        rfl
      simp [cyclePrev, h1, h2]
    · simp [cycleNext, hR1', List.find?_append, hAn, List.find?_cons, hs]

/-! ### The round trip of `focusstack` -/

theorem focusGood_selected {s : State} {c : Nat} (sn : Nat → Option Nat) (x : List HostCmd)
    (hm : (s.cl c).mon = s.selmon) :
    focusGood { selected s c sn with cmds := x } = focusGood s := by
  funext i
  have hv : isvisible { selected s c sn with cmds := x } (some i) = isvisible s (some i) :=
    isvisible_selected s c sn (some i)
  simp only [focusGood, ISFOCUSABLE, hv]
  by_cases hi : i = c
  · subst hi; simp [selected, hm]
  · simp [selected, Function.update_noteq hi, hm]

theorem focusstack_step {s : State} {L S A B : List Nat} {sl c1 : Nat} (dir : Int)
    (hinv : Inv s L S) (hL : L = A ++ sl :: B) (hsel : s.sel = some sl)
    (hpick : (if dir > 0 then cycleNext (focusGood s) A sl B
              else cyclePrev (focusGood s) A sl B) = some c1) :
    ∃ t S', focusstack s dir = .ok t ∧ t.sel = some c1 ∧ Inv t L S' ∧
      focusGood t = focusGood s := by
  subst hL
  have hmem : c1 ∈ A ++ sl :: B ∧ focusGood s c1 = true := by
    split at hpick
    · exact cycleNext_mem hpick
    · exact cyclePrev_mem hpick
  have hg := hmem.2
  simp only [focusGood, ISFOCUSABLE, Bool.and_eq_true, beq_iff_eq] at hg
  obtain ⟨sn, e1, e2⟩ := setselected_visible hinv.stack hinv.stack_length_le
    (hinv.mem_stack.2 hmem.1) hg.1.1.2
  rw [focusstack_eq dir hinv.list hinv.list_length_le hsel, hpick]
  refine ⟨{ selected s c1 sn with cmds := s.cmds ++ [.setForeground (s.cl c1).hwnd] },
    c1 :: S.erase c1, ?_, rfl, ?_, focusGood_selected sn _ hg.2⟩
  · simp [focus, e1, selected]
  · have k : Keeps s { selected s c1 sn with
        cmds := s.cmds ++ [.setForeground (s.cl c1).hwnd] } :=
      (keeps_selected s c1 sn).keep_trans ⟨rfl, fun _ => rfl⟩
    exact hinv.of_keeps k rfl rfl e2 (List.perm_cons_erase (hinv.mem_stack.2 hmem.1)).symm
      (fun j hj => by
        have : j = c1 := (Option.some.inj hj).symm
        rw [this]; exact hmem.1)

/-- C8 (amended): when the selected client `sl` is itself focusable and on the selected
monitor and some other client of the List is too, `focusstack(+1)` selects the next such
client after `sl` in cyclic List order and a following `focusstack(-1)` selects `sl` again;
likewise `focusstack(-1)` followed by `focusstack(+1)`. -/
theorem focusstack_round_trip (s : State) (L S A B : List Nat) (sl c : Nat)
    (hinv : Inv s L S) (hL : L = A ++ sl :: B) (hsel : s.sel = some sl)
    (hgs : focusGood s sl = true) (hc : c ∈ L) (hcs : c ≠ sl) (hgc : focusGood s c = true) :
    (∃ t1 t2 c1, focusstack s 1 = .ok t1 ∧ t1.sel = some c1 ∧ c1 ≠ sl ∧
        (B ++ A).find? (focusGood s) = some c1 ∧
        focusstack t1 (-1) = .ok t2 ∧ t2.sel = some sl) ∧
      (∃ u1 u2 c1, focusstack s (-1) = .ok u1 ∧ u1.sel = some c1 ∧ c1 ≠ sl ∧
        focusstack u1 1 = .ok u2 ∧ u2.sel = some sl) := by
  have hnd : (A ++ sl :: B).Nodup := hL ▸ hinv.list.nodup
  have hc' : c ∈ A ++ sl :: B := hL ▸ hc
  constructor
  · obtain ⟨c1, A', B', h1, h2, h3, h4, h5⟩ := cycle_fwd_bwd hnd hgs hc' hcs hgc
    obtain ⟨t1, S1, e1, s1, i1, g1⟩ := focusstack_step 1 hinv hL hsel
      (by simpa using h1)
    obtain ⟨t2, S2, e2, s2, _, _⟩ := focusstack_step (-1) i1 (hL.trans h4) s1
      (by rw [g1]; simpa using h5)
    exact ⟨t1, t2, c1, e1, s1, h2, h3, e2, s2⟩
  · obtain ⟨c1, A', B', h1, h2, h4, h5⟩ := cycle_bwd_fwd hnd hgs hc' hcs hgc
    obtain ⟨u1, S1, e1, s1, i1, g1⟩ := focusstack_step (-1) hinv hL hsel
      (by simpa using h1)
    obtain ⟨u2, S2, e2, s2, _, _⟩ := focusstack_step 1 i1 (hL.trans h4) s1
      (by rw [g1]; simpa using h5)
    exact ⟨u1, u2, c1, e1, s1, h2, e2, s2⟩

theorem exCycle_inv : Inv exCycle [0, 1, 2] [0, 1, 2] :=
  ⟨by decide, by decide, by decide, by decide, fun i h => by cases h; decide⟩

theorem focusstack_round_trip_witness :
    (∃ t1 t2 c1, focusstack exCycle 1 = .ok t1 ∧ t1.sel = some c1 ∧ c1 ≠ 0 ∧
        ([1, 2] ++ []).find? (focusGood exCycle) = some c1 ∧
        focusstack t1 (-1) = .ok t2 ∧ t2.sel = some 0) ∧
      (∃ u1 u2 c1, focusstack exCycle (-1) = .ok u1 ∧ u1.sel = some c1 ∧ c1 ≠ 0 ∧
        focusstack u1 1 = .ok u2 ∧ u2.sel = some 0) :=
  focusstack_round_trip exCycle [0, 1, 2] [0, 1, 2] [] [1, 2] 0 2 exCycle_inv (by decide)
    (by decide) (by decide) (by decide) (by decide) (by decide)

theorem exCycleSel_inv : Inv exCycleSel [0, 1, 2] [1, 0, 2] :=
  ⟨by decide, by decide, by decide, by decide, fun i h => by cases h; decide⟩

/-- C8 fails as stated: in `exCycleSel` two clients of the selected monitor are focusable
but the selected client 1 is not (the host does not show it); `focusstack(+1)` selects
client 2 and the following `focusstack(-1)` selects client 0, not client 1. -/
theorem focusstack_round_trip_fails :
    exCycleSel.sel = some 1 ∧ focusGood exCycleSel 0 = true ∧ focusGood exCycleSel 2 = true ∧
      ∃ t1 t2, focusstack exCycleSel 1 = .ok t1 ∧ t1.sel = some 2 ∧
        focusstack t1 (-1) = .ok t2 ∧ t2.sel = some 0 := by
  refine ⟨by decide, by decide, by decide, ?_⟩
  obtain ⟨t1, S1, e1, s1, i1, g1⟩ :=
    @focusstack_step exCycleSel [0, 1, 2] [1, 0, 2] [0] [2] 1 2 1 exCycleSel_inv rfl rfl
      (by decide)
  obtain ⟨t2, S2, e2, s2, _, _⟩ :=
    @focusstack_step t1 [0, 1, 2] S1 [0, 1] [] 2 0 (-1) i1 rfl s1 (by rw [g1]; decide)
  exact ⟨t1, t2, e1, s1, e2, s2⟩

/-! ### The exchange of two clients by `movestack` -/

theorem isChain_getElem {nx : Nat → Option Nat} {l : List Nat} :
    ∀ {p : Option Nat} (k : Nat) (h : k < l.length), IsChain nx p l →
      nx (l[k]) = l[k + 1]? := by
  induction l with
  | nil => intro p k h; simp at h
  | cons a l ih =>
    intro p k h hc
    cases k with
    | zero =>
      simp only [List.getElem_cons_zero, List.getElem?_cons_succ]
      cases l with
      | nil => simpa using hc.2
      | cons b l => simpa using hc.2.1
    | succ k =>
      simp only [List.getElem_cons_succ, List.getElem?_cons_succ]
      exact ih k (by simpa using h) hc.2

theorem isChain_pred_unique {nx : Nat → Option Nat} {p : Option Nat} {l : List Nat}
    {a b x : Nat} (hc : IsChain nx p l) (ha : a ∈ l) (hb : b ∈ l) (hax : nx a = some x)
    (hbx : nx b = some x) : a = b := by
  obtain ⟨i, hi, rfl⟩ := List.mem_iff_getElem.1 ha
  obtain ⟨j, hj, rfl⟩ := List.mem_iff_getElem.1 hb
  rw [isChain_getElem i hi hc] at hax
  rw [isChain_getElem j hj hc] at hbx
  obtain ⟨hi', e1⟩ := List.getElem?_eq_some.1 hax
  obtain ⟨hj', e2⟩ := List.getElem?_eq_some.1 hbx
  have := (List.Nodup.getElem_inj_iff hc.nodup).1 (e1.trans e2.symm)
  have hij : i = j := by omega
  subst hij; rfl

theorem isChain_next_ne_self {nx : Nat → Option Nat} {p : Option Nat} {l : List Nat}
    {a : Nat} (hc : IsChain nx p l) (ha : a ∈ l) : nx a ≠ some a := by
  obtain ⟨i, hi, rfl⟩ := List.mem_iff_getElem.1 ha
  intro h
  rw [isChain_getElem i hi hc] at h
  obtain ⟨hi', e1⟩ := List.getElem?_eq_some.1 h
  have := (List.Nodup.getElem_inj_iff hc.nodup).1 e1
  omega

theorem isChain_next_ne_head {nx : Nat → Option Nat} {l : List Nat} {a h : Nat}
    (hc : IsChain nx (some h) l) (ha : a ∈ l) : nx a ≠ some h := by
  obtain ⟨i, hi, rfl⟩ := List.mem_iff_getElem.1 ha
  intro e
  rw [isChain_getElem i hi hc] at e
  obtain ⟨hi', e1⟩ := List.getElem?_eq_some.1 e
  cases l with
  | nil => simp at hi
  | cons b l =>
    have hb : b = h := by
      have := hc.1
      exact (Option.some.inj this).symm
    subst hb
    have h0 : (b :: l)[i + 1] = (b :: l)[0] := by simpa using e1
    have := (List.Nodup.getElem_inj_iff hc.nodup).1 h0
    omega

theorem isChain_next_mem {nx : Nat → Option Nat} {p : Option Nat} {l : List Nat}
    {a b : Nat} (hc : IsChain nx p l) (ha : a ∈ l) (hab : nx a = some b) : b ∈ l := by
  obtain ⟨i, hi, rfl⟩ := List.mem_iff_getElem.1 ha
  rw [isChain_getElem i hi hc] at hab
  obtain ⟨hi', e1⟩ := List.getElem?_eq_some.1 hab
  exact e1 ▸ List.getElem_mem _

theorem isChain_map_hom {nx nx' : Nat → Option Nat} (σ : Nat → Nat) {l : List Nat} :
    ∀ {hd hd' : Option Nat}, IsChain nx hd l → hd' = hd.map σ →
      (∀ a ∈ l, nx' (σ a) = (nx a).map σ) → IsChain nx' hd' (l.map σ) := by
  induction l with
  | nil => intro hd hd' h e _; simp at h; subst h; simpa using e
  | cons a l ih =>
    intro hd hd' h e hx
    obtain ⟨rfl, h2⟩ := h
    refine ⟨by simpa using e, ?_⟩
    exact ih h2 (hx a (List.mem_cons_self a l)) (fun b hb => hx b (List.mem_cons_of_mem a hb))

/-- What the predecessor loop of `movestack` returns, walking the cells `l`. -/
theorem predLoop_spec {nx : Nat → Option Nat} {sel c : Option Nat} {l : List Nat} :
    ∀ {fuel : Nat} {p : Option Nat} (P PC : Option Nat), IsChain nx p l → l.length ≤ fuel →
      ∃ P' PC', predLoop nx sel c fuel p P PC = .ok (P', PC') ∧
        (∀ a, P' = some a → P = some a ∨ (a ∈ l ∧ nx a = sel)) ∧
        (∀ a, PC' = some a → PC = some a ∨ (a ∈ l ∧ nx a = c)) ∧
        (P.isSome = true ∨ (∃ b ∈ l, nx b = sel) → P'.isSome = true) ∧
        (PC.isSome = true ∨ (∃ b ∈ l, nx b = c) → PC'.isSome = true) := by
  induction l with
  | nil =>
    intro fuel p P PC h _
    simp at h; subst h
    refine ⟨P, PC, by cases fuel <;> simp [predLoop], fun a h => Or.inl h, fun a h => Or.inl h,
      ?_, ?_⟩
    · rintro (h | ⟨b, hb, _⟩)
      · exact h
      · simp at hb
    · rintro (h | ⟨b, hb, _⟩)
      · exact h
      · simp at hb
  | cons a l ih =>
    intro fuel p P PC h hf
    obtain ⟨rfl, h2⟩ := h
    by_cases hboth : (P.isSome && PC.isSome) = true
    · refine ⟨P, PC, ?_, fun a h => Or.inl h, fun a h => Or.inl h, ?_, ?_⟩
      · cases fuel <;> simp [predLoop, hboth]
      · intro _; simp at hboth; exact hboth.1
      · intro _; simp at hboth; exact hboth.2
    · cases fuel with
      | zero => simp at hf
      | succ f =>
        obtain ⟨P', PC', e, s1, s2, c1, c2⟩ := ih (if nx a = sel then some a else P)
          (if nx a = c then some a else PC) h2 (by simpa using hf)
        refine ⟨P', PC', ?_, ?_, ?_, ?_, ?_⟩
        · simp only [predLoop, hboth, Bool.false_eq_true, if_false]
          exact e
        · intro x hx
          rcases s1 x hx with h | ⟨h, h'⟩
          · split at h
            · right; cases h; exact ⟨List.mem_cons_self _ _, ‹nx a = sel›⟩
            · left; exact h
          · right; exact ⟨List.mem_cons_of_mem _ h, h'⟩
        · intro x hx
          rcases s2 x hx with h | ⟨h, h'⟩
          · split at h
            · right; cases h; exact ⟨List.mem_cons_self _ _, ‹nx a = c›⟩
            · left; exact h
          · right; exact ⟨List.mem_cons_of_mem _ h, h'⟩
        · intro h
          apply c1
          rcases h with h | ⟨b, hb, hb'⟩
          · left; split <;> simp [h]
          · rcases List.mem_cons.1 hb with rfl | hb
            · left; simp [hb']
            · right; exact ⟨b, hb, hb'⟩
        · intro h
          apply c2
          rcases h with h | ⟨b, hb, hb'⟩
          · left; split <;> simp [h]
          · rcases List.mem_cons.1 hb with rfl | hb
            · left; simp [hb']
            · right; exact ⟨b, hb, hb'⟩

set_option maxHeartbeats 1000000 in
theorem moveLinks_apply {nx : Nat → Option Nat} {hd : Option Nat} {sl ci : Nat}
    {P PC : Option Nat} (hPsl : P ≠ some sl) (hPCci : PC ≠ some ci)
    (hpp : ∀ a, P = some a → PC = some a → False) (x : Nat) :
    (moveLinks nx hd sl ci P PC).1 x =
        if PC = some x ∧ x ≠ sl then some sl
        else if P = some x ∧ x ≠ ci then some ci
        else if x = ci then (if nx sl = some ci then some sl else nx sl)
        else if x = sl then (if nx ci = some sl then some ci else nx ci)
        else nx x := by
  unfold moveLinks
  cases P with
  | none =>
    cases PC with
    | none => simp [Function.update_apply]
    | some pci =>
      have h1 : pci ≠ ci := fun e => hPCci (e ▸ rfl)
      simp only [ne_eq, Option.some.injEq]
      split_ifs <;> simp_all [Function.update_apply] <;> omega
  | some pi =>
    have h0 : pi ≠ sl := fun e => hPsl (e ▸ rfl)
    cases PC with
    | none =>
      simp only [ne_eq, Option.some.injEq]
      split_ifs <;> simp_all [Function.update_apply] <;> omega
    | some pci =>
      have h1 : pci ≠ ci := fun e => hPCci (e ▸ rfl)
      have h2 : pi ≠ pci := fun e => hpp pi rfl (e ▸ rfl)
      simp only [ne_eq, Option.some.injEq]
      split_ifs <;> simp_all [Function.update_apply] <;>
        first
        | omega
        | (split_ifs <;> first | rfl | (exfalso; omega))

/-- The pointer surgery of `movestack` turns the List into the List with `sl` and `ci`
exchanged. -/
theorem moveLinks_chain {nx : Nat → Option Nat} {hd : Option Nat} {L : List Nat}
    {sl ci : Nat} {P PC : Option Nat} (hc : IsChain nx hd L) (hsl : sl ∈ L) (hci : ci ∈ L)
    (hne : sl ≠ ci)
    (hP : ∀ a ∈ L, nx a = some sl ↔ P = some a) (hPm : ∀ a, P = some a → a ∈ L)
    (hPC : ∀ a ∈ L, nx a = some ci ↔ PC = some a) (hPCm : ∀ a, PC = some a → a ∈ L) :
    IsChain (moveLinks nx hd sl ci P PC).1 (moveLinks nx hd sl ci P PC).2
      (L.map (swapIds sl ci)) := by
  have h1 : nx sl ≠ some sl := isChain_next_ne_self hc hsl
  have h2 : nx ci ≠ some ci := isChain_next_ne_self hc hci
  have hPsl : P ≠ some sl := fun e => h1 ((hP sl hsl).2 e)
  have hPCci : PC ≠ some ci := fun e => h2 ((hPC ci hci).2 e)
  have hpp : ∀ a, P = some a → PC = some a → False := by
    intro a e1 e2
    have a1 := (hP a (hPm a e1)).2 e1
    have a2 := (hPC a (hPCm a e2)).2 e2
    rw [a1] at a2
    exact hne (Option.some.inj a2)
  refine isChain_map_hom (swapIds sl ci) hc ?_ ?_
  · cases hd with
    | none => simp [moveLinks]
    | some h =>
      simp only [moveLinks, Option.map_some', swapIds, Option.some.injEq]
      split_ifs <;> first | rfl | (exfalso; omega)
  · intro a ha
    rw [moveLinks_apply hPsl hPCci hpp]
    by_cases e1 : a = sl
    · subst e1
      have hs : swapIds a ci a = ci := by simp [swapIds]
      rw [hs, if_neg (fun h => hPCci h.1), if_neg (fun h => h.2 rfl), if_pos rfl]
      cases hn : nx a with
      | none => simp
      | some b =>
        have hb : b ≠ a := fun e => h1 (e ▸ hn)
        by_cases e : b = ci
        · simp [swapIds, e, hne, Ne.symm hne]
        · simp [swapIds, e, hb]
    · by_cases e2 : a = ci
      · subst e2
        have hs : swapIds sl a a = sl := by simp [swapIds, Ne.symm hne]
        rw [hs, if_neg (fun h => h.2 rfl), if_neg (fun h => hPsl h.1), if_neg hne, if_pos rfl]
        cases hn : nx a with
        | none => simp
        | some b =>
          have hb : b ≠ a := fun e => h2 (e ▸ hn)
          by_cases e : b = sl
          · simp [swapIds, e, hne, Ne.symm hne]
          · simp [swapIds, e, hb]
      · have hs : swapIds sl ci a = a := by simp [swapIds, e1, e2]
        rw [hs]
        by_cases ePC : PC = some a
        · rw [if_pos ⟨ePC, e1⟩, (hPC a ha).2 ePC]
          simp [swapIds, Ne.symm hne]
        · rw [if_neg (fun h => ePC h.1)]
          by_cases eP : P = some a
          · rw [if_pos ⟨eP, e2⟩, (hP a ha).2 eP]
            simp [swapIds]
          · rw [if_neg (fun h => eP h.1), if_neg e2, if_neg e1]
            cases hn : nx a with
            | none => simp
            | some b =>
              have hb1 : b ≠ sl := fun e => eP ((hP a ha).1 (e ▸ hn))
              have hb2 : b ≠ ci := fun e => ePC ((hPC a ha).1 (e ▸ hn))
              simp [swapIds, hb1, hb2]

/-! ### `movestack` -/

theorem swapIds_invol (a b i : Nat) : swapIds a b (swapIds a b i) = i := by
  unfold swapIds
  split_ifs <;> first | rfl | omega

theorem swapIds_mem {L : List Nat} {a b : Nat} (ha : a ∈ L) (hb : b ∈ L) (i : Nat) :
    swapIds a b i ∈ L ↔ i ∈ L := by
  unfold swapIds
  split_ifs with h1 h2
  · subst h1; exact ⟨fun _ => ha, fun _ => hb⟩
  · subst h2; exact ⟨fun _ => hb, fun _ => ha⟩
  · exact Iff.rfl

theorem swapIds_map_perm {L : List Nat} {a b : Nat} (hnd : L.Nodup) (ha : a ∈ L)
    (hb : b ∈ L) : (L.map (swapIds a b)).Perm L := by
  have hinj : Function.Injective (swapIds a b) := fun x y h => by
    have := congrArg (swapIds a b) h
    simpa [swapIds_invol] using this
  refine (List.perm_ext_iff_of_nodup (hnd.map hinj) hnd).2 (fun i => ?_)
  constructor
  · intro h
    obtain ⟨j, hj, rfl⟩ := List.mem_map.1 h
    exact (swapIds_mem ha hb j).2 hj
  · intro h
    exact List.mem_map.2 ⟨swapIds a b i, (swapIds_mem ha hb i).2 h, swapIds_invol a b i⟩

theorem swapIds_self_map (a : Nat) (L : List Nat) : L.map (swapIds a a) = L := by
  have : swapIds a a = id := by
    funext i
    unfold swapIds
    split_ifs <;> simp_all
  rw [this, List.map_id]

theorem moveGood_eq (s : State) :
    (fun i => isvisible s (some i) && !(s.cl i).isfloating && (s.cl i).mon == s.selmon) =
      moveGood s := rfl

theorem movestack_pick {s : State} {A B : List Nat} {sl : Nat} (dir : Int)
    (hL : IsChain s.next s.clients (A ++ sl :: B))
    (hlen : (A ++ sl :: B).length ≤ s.nclients) (hsel : s.sel = some sl) :
    (if dir > 0 then
        deref s.sel >>= fun sl =>
          skipWhile s.next
            (fun i => !isvisible s (some i) || (s.cl i).isfloating || (s.cl i).mon != s.selmon)
            s.nclients (s.next sl) >>= fun c =>
            if c.isNone then skipWhile s.next
              (fun i => !isvisible s (some i) || (s.cl i).isfloating || (s.cl i).mon != s.selmon)
              s.nclients s.clients else pure c
      else
        lastBefore s.next
          (fun i => isvisible s (some i) && !(s.cl i).isfloating && (s.cl i).mon == s.selmon)
          s.sel s.nclients s.clients none >>= fun r =>
          if r.1.isNone then lastFrom s.next
            (fun i => isvisible s (some i) && !(s.cl i).isfloating && (s.cl i).mon == s.selmon)
            s.nclients r.2 r.1 else pure r.1) =
      .ok (movePick s dir A sl B) := by
  unfold movePick
  by_cases hd : dir > 0
  · simp only [hd, if_true, hsel, deref, run_pure, run_ok_bind]
    exact walk_forward _ (moveGood s)
      (fun i => by
        simp only [moveGood]
        cases isvisible s (some i) <;> cases (s.cl i).isfloating <;>
          cases h : ((s.cl i).mon == s.selmon) <;> simp [bne, h])
      hL hlen
  · simp only [hd, if_false, hsel, moveGood_eq]
    exact walk_backward (moveGood s) hL hlen

theorem movePick_mem {s : State} {dir : Int} {A B : List Nat} {sl c : Nat}
    (h : movePick s dir A sl B = some c) : c ∈ A ++ sl :: B := by
  unfold movePick at h
  split at h
  · exact (cycleNext_mem h).1
  · exact (cyclePrev_mem h).1

/-- `movestack` with a selected client `sl`, in terms of the List `A ++ sl :: B`: nothing
happens without a neighbour, otherwise the two clients are exchanged and `arrange` runs. -/
theorem movestack_eq {s : State} {A B : List Nat} {sl : Nat} (dir : Int)
    (hL : IsChain s.next s.clients (A ++ sl :: B))
    (hlen : (A ++ sl :: B).length ≤ s.nclients) (hsel : s.sel = some sl) :
    ((movePick s dir A sl B = none ∨ movePick s dir A sl B = some sl) ∧
        movestack s dir = .ok s) ∨
      (∃ ci nx hd, movePick s dir A sl B = some ci ∧ ci ≠ sl ∧
        movestack s dir = arrange { s with next := nx, clients := hd } ∧
        IsChain nx hd ((A ++ sl :: B).map (swapIds sl ci))) := by
  have hpick := movestack_pick dir hL hlen hsel
  obtain ⟨P, PC, e, s1, s2, c1, c2⟩ := @predLoop_spec s.next s.sel (movePick s dir A sl B)
    (A ++ sl :: B) s.nclients s.clients none none hL hlen
  unfold movestack
  simp only
  rw [hpick, run_ok_bind, e, run_ok_bind]
  cases hp : movePick s dir A sl B with
  | none => left; exact ⟨Or.inl rfl, rfl⟩
  | some ci =>
    by_cases hci : ci = sl
    · left
      refine ⟨Or.inr (by rw [hci]), ?_⟩
      simp [hsel, hci]
    · right
      have hcm : ci ∈ A ++ sl :: B := movePick_mem hp
      have hsm : sl ∈ A ++ sl :: B := by simp
      rw [hp] at s2 c2
      rw [hsel] at s1 c1
      have hP : ∀ a ∈ A ++ sl :: B, s.next a = some sl ↔ P = some a := by
        intro a ha
        constructor
        · intro h
          obtain ⟨b, hb⟩ := Option.isSome_iff_exists.1 (c1 (Or.inr ⟨a, ha, h⟩))
          rcases s1 b hb with h' | ⟨h1, h2⟩
          · cases h'
          · rw [hb, isChain_pred_unique hL ha h1 h h2]
        · intro h
          rcases s1 a h with h' | ⟨_, h2⟩
          · cases h'
          · exact h2
      have hPC : ∀ a ∈ A ++ sl :: B, s.next a = some ci ↔ PC = some a := by
        intro a ha
        constructor
        · intro h
          obtain ⟨b, hb⟩ := Option.isSome_iff_exists.1 (c2 (Or.inr ⟨a, ha, h⟩))
          rcases s2 b hb with h' | ⟨h1, h2⟩
          · cases h'
          · rw [hb, isChain_pred_unique hL ha h1 h h2]
        · intro h
          rcases s2 a h with h' | ⟨_, h2⟩
          · cases h'
          · exact h2
      have hPm : ∀ a, P = some a → a ∈ A ++ sl :: B := by
        intro a h
        rcases s1 a h with h' | ⟨h1, _⟩
        · cases h'
        · exact h1
      have hPCm : ∀ a, PC = some a → a ∈ A ++ sl :: B := by
        intro a h
        rcases s2 a h with h' | ⟨h1, _⟩
        · cases h'
        · exact h1
      refine ⟨ci, (moveLinks s.next s.clients sl ci P PC).1,
        (moveLinks s.next s.clients sl ci P PC).2, rfl, hci, ?_,
        moveLinks_chain hL hsm hcm (Ne.symm hci) hP hPm hPC hPCm⟩
      have hne : ¬ ((some ci : Option Nat) = some sl) := fun h => hci (Option.some.inj h)
      simp only [hsel, hne, if_false, deref, run_pure, run_ok_bind, moveLinks]

theorem movedList_perm {s : State} {dir : Int} {A B : List Nat} {sl : Nat}
    (hnd : (A ++ sl :: B).Nodup) : (movedList s dir A sl B).Perm (A ++ sl :: B) := by
  unfold movedList
  cases hp : movePick s dir A sl B with
  | none => exact List.Perm.refl _
  | some ci => exact swapIds_map_perm hnd (by simp) (movePick_mem hp)

theorem movePick_good {s : State} {dir : Int} {A B : List Nat} {sl c : Nat}
    (h : movePick s dir A sl B = some c) : moveGood s c = true := by
  unfold movePick at h
  split at h
  · exact (cycleNext_mem h).2
  · exact (cyclePrev_mem h).2

/-- C9 (amended): when the selected client `sl` heads the Stack, is visible and is on the
selected monitor, `movestack` returns with the List equal to the previous List with `sl`
and the picked neighbour exchanged and every other client at its previous position (the
List unchanged when there is no neighbour); the neighbour is the next, or previous,
visible non-floating client of the selected monitor in cyclic List order; the List is
still a duplicate-free null-terminated chain of the same clients, the Stack order is
unchanged and `sl` is still selected. -/
theorem movestack_swaps (s : State) (L S M A B : List Nat) (sl : Nat) (dir : Int)
    (hinv : Inv s L S) (hM : MonsOk s M) (hL : L = A ++ sl :: B) (hsel : s.sel = some sl)
    (hhead : S.head? = some sl) (hpk : pickable s sl = true) :
    ∃ t, movestack s dir = .ok t ∧
      IsChain t.next t.clients (movedList s dir A sl B) ∧
      (∀ ci, movePick s dir A sl B = some ci → ci ∈ L ∧ moveGood s ci = true) ∧
      (movedList s dir A sl B).Perm L ∧ (movedList s dir A sl B).Nodup ∧
      IsChain t.snext t.stack S ∧ t.sel = some sl := by
  subst hL
  have hnd := hinv.list.nodup
  have hperm := @movedList_perm s dir A B sl hnd
  have hgood : ∀ ci, movePick s dir A sl B = some ci →
      ci ∈ A ++ sl :: B ∧ moveGood s ci = true :=
    fun ci h => ⟨movePick_mem h, movePick_good h⟩
  rcases movestack_eq dir hinv.list hinv.list_length_le hsel with
    ⟨hp, e⟩ | ⟨ci, nx, hd, hp, hci, e, hch⟩
  · refine ⟨s, e, ?_, hgood, hperm, hperm.nodup_iff.2 hnd, hinv.stack, hsel⟩
    unfold movedList
    rcases hp with hp | hp
    · rw [hp]; exact hinv.list
    · rw [hp]; simp only; rw [swapIds_self_map]; exact hinv.list
  · have hml : movedList s dir A sl B = (A ++ sl :: B).map (swapIds sl ci) := by
      unfold movedList; rw [hp]
    have k1 : Keeps s { s with next := nx, clients := hd } := ⟨rfl, fun _ => rfl⟩
    have i1 : Inv { s with next := nx, clients := hd } ((A ++ sl :: B).map (swapIds sl ci)) S := by
      refine ⟨hch, hinv.stack, (hml ▸ hperm).trans hinv.perm, ?_, ?_⟩
      · intro i hi
        exact hinv.bound i ((hml ▸ hperm).mem_iff.1 hi)
      · intro i hi
        exact (hml ▸ hperm).mem_iff.2 (hinv.sel i hi)
    obtain ⟨t, h1, _, hn, hc, h3, _, h5, _⟩ := arrange_inv i1 (k1.monsOk hM)
    have hfind : S.find? (pickable s) = some sl := by
      cases S with
      | nil => simp at hhead
      | cons a S' =>
        simp at hhead; subst hhead
        simp [List.find?_cons, hpk]
    have hpk' : pickable { s with next := nx, clients := hd } = pickable s := rfl
    rw [hpk', hfind] at h3 h5
    have hst : stackAfter S (some sl) = S := by
      cases S with
      | nil => simp at hhead
      | cons a S' =>
        simp at hhead; subst hhead
        simp [stackAfter]
    rw [hst] at h5
    refine ⟨t, e.trans h1, ?_, hgood, hperm, hperm.nodup_iff.2 hnd, h5.stack, h3⟩
    rw [hml, hn, hc]
    exact hch

theorem exThreeTiled_inv : Inv exThreeTiled [0, 1, 2] [2, 0, 1] :=
  ⟨by decide, by decide, by decide, by decide, fun i h => by cases h; decide⟩

theorem exThreeTiled_monsOk : MonsOk exThreeTiled [0] :=
  ⟨by decide, by decide, by decide⟩

theorem movestack_swaps_witness :
    ∃ t, movestack exThreeTiled (-1) = .ok t ∧
      IsChain t.next t.clients (movedList exThreeTiled (-1) [0, 1] 2 []) ∧
      (∀ ci, movePick exThreeTiled (-1) [0, 1] 2 [] = some ci →
        ci ∈ [0, 1, 2] ∧ moveGood exThreeTiled ci = true) ∧
      (movedList exThreeTiled (-1) [0, 1] 2 []).Perm [0, 1, 2] ∧
      (movedList exThreeTiled (-1) [0, 1] 2 []).Nodup ∧
      IsChain t.snext t.stack [2, 0, 1] ∧ t.sel = some 2 :=
  movestack_swaps exThreeTiled [0, 1, 2] [2, 0, 1] [0] [0, 1] [] 2 (-1) exThreeTiled_inv
    exThreeTiled_monsOk (by decide) (by decide) (by decide) (by decide)

/-- C9 fails as stated: in `exMove` client 0 is selected while monitor 1 is the selected
monitor; `movestack(+1)` exchanges clients 0 and 1 and then `arrange` selects client 1 and
moves it to the front of the Stack. -/
theorem movestack_changes_selection :
    exMove.sel = some 0 ∧ exMove.stack = some 0 ∧
      Except.map (fun t => (t.clients, t.sel, t.stack)) (movestack exMove 1) =
        .ok (some 1, some 1, some 1) := by
  decide

/-! ### `movestack` and `zoom` keep the registry well formed -/

theorem movestack_of_ok {s t : State} {L S : List Nat} {dir : Int} (hinv : Inv s L S)
    (h : movestack s dir = .ok t) : ∃ L' S', Inv t L' S' ∧ Keeps s t := by
  cases hsel : s.sel with
  | some sl =>
    obtain ⟨A, B, rfl, _, _, _⟩ := split_of_mem_nodup hinv.list.nodup (hinv.sel sl hsel)
    rcases movestack_eq dir hinv.list hinv.list_length_le hsel with
      ⟨_, e⟩ | ⟨ci, nx, hd, hp, hci, e, hch⟩
    · rw [e] at h; cases h; exact ⟨_, _, hinv, Keeps.keep_refl _⟩
    · rw [e] at h
      have hperm : ((A ++ sl :: B).map (swapIds sl ci)).Perm (A ++ sl :: B) :=
        swapIds_map_perm hinv.list.nodup (by simp) (movePick_mem hp)
      have i1 : Inv { s with next := nx, clients := hd }
          ((A ++ sl :: B).map (swapIds sl ci)) S :=
        ⟨hch, hinv.stack, hperm.trans hinv.perm, fun i hi => hinv.bound i (hperm.mem_iff.1 hi),
          fun i hi => hperm.mem_iff.2 (hinv.sel i hi)⟩
      have k1 : Keeps s { s with next := nx, clients := hd } := ⟨rfl, fun _ => rfl⟩
      exact ⟨_, _, (arrange_of_ok h i1).2.2.2.2.2, k1.keep_trans (arrange_of_ok h i1).1⟩
  | none =>
    unfold movestack at h
    simp only at h
    obtain ⟨c, hc, h⟩ := bind_eq_ok.1 h
    obtain ⟨r, _, h⟩ := bind_eq_ok.1 h
    cases c with
    | none => simp at h; subst h; exact ⟨_, _, hinv, Keeps.keep_refl _⟩
    | some ci =>
      simp only [hsel, reduceCtorEq, if_false, deref, run_throw, run_error_bind] at h

theorem detach_none {s t : State} (h : detach s none = .ok t) : False := by
  unfold detach at h
  obtain ⟨tc, _, h⟩ := bind_eq_ok.1 h
  simp [deref] at h

theorem zoom_of_ok {s t : State} {L S : List Nat} (hinv : Inv s L S)
    (h : zoom s = .ok t) : ∃ L' S', Inv t L' S' ∧ Keeps s t := by
  unfold zoom at h
  obtain ⟨a, _, h⟩ := bind_eq_ok.1 h
  simp only at h
  split at h
  · simp at h; subst h; exact ⟨_, _, hinv, Keeps.keep_refl _⟩
  · obtain ⟨first, _, h⟩ := bind_eq_ok.1 h
    obtain ⟨c, hc, h⟩ := bind_eq_ok.1 h
    split at h
    · simp at h; subst h; exact ⟨_, _, hinv, Keeps.keep_refl _⟩
    · obtain ⟨s1, h1, h⟩ := bind_eq_ok.1 h
      obtain ⟨s2, h2, h⟩ := bind_eq_ok.1 h
      obtain ⟨s3, h3, h4⟩ := bind_eq_ok.1 h
      cases c with
      | none => exact (detach_none h1).elim
      | some ci =>
        have hci : ci ∈ L := by
          split at hc
          · cases hsel : s.sel with
            | none => simp [hsel] at hc
            | some sl =>
              simp only [hsel] at hc
              obtain ⟨A, B, hL, _, _, _⟩ :=
                split_of_mem_nodup hinv.list.nodup (hinv.sel sl hsel)
              have hB : IsChain s.next (s.next sl) B := by
                have := hinv.list
                rw [hL] at this
                exact (IsChain.of_append this).2
              have hlB : B.length ≤ s.nclients := by
                have := hinv.list_length_le
                rw [hL] at this
                simp at this; omega
              rw [(nexttiled_chain hB hlB).1] at hc
              have hh := Except.ok.inj hc
              have hm : ci ∈ B.dropWhile (untiled s) := List.mem_of_mem_head? hh
              rw [hL]
              exact List.mem_append_right _
                (List.mem_cons_of_mem _ ((List.dropWhile_sublist _).subset hm))
          · simp at hc
            exact hinv.sel ci hc
        obtain ⟨nx, hd, e1, c1⟩ := detach_chain hinv.list hinv.list_length_le hci
        rw [e1] at h1
        cases h1
        simp [attach, deref] at h2
        subst h2
        have hnot : ci ∉ L.erase ci := fun hm =>
          ((List.Nodup.mem_erase_iff hinv.list.nodup).1 hm).1 rfl
        have hperm : (ci :: L.erase ci).Perm L := (List.perm_cons_erase hci).symm
        have i2 : Inv { s with next := Function.update nx ci hd, clients := some ci }
            (ci :: L.erase ci) S :=
          ⟨isChain_attach c1 hnot, hinv.stack, hperm.trans hinv.perm,
            fun i hi => hinv.bound i (hperm.mem_iff.1 hi),
            fun i hi => hperm.mem_iff.2 (hinv.sel i hi)⟩
        obtain ⟨t3, S3, e3, k3, _, _, i3⟩ := focus_inv (some ci) i2
          (fun i hi => by cases hi; exact List.mem_cons_self _ _)
        rw [e3] at h3
        cases h3
        have k2 : Keeps s { s with next := Function.update nx ci hd, clients := some ci } :=
          ⟨rfl, fun _ => rfl⟩
        exact ⟨_, _, (arrange_of_ok h4 i3).2.2.2.2.2,
          (k2.keep_trans k3).keep_trans (arrange_of_ok h4 i3).1⟩

theorem reachable_inv {s : State} (h : Reachable s) : ∃ L S, Inv s L S := by
  induction h with
  | init s h1 h2 h3 =>
    refine ⟨[], [], h1, h2, List.Perm.refl _, ?_, ?_⟩
    · intro i hi
      cases hi
    · intro i hi
      rw [h3] at hi
      cases hi
  | step s t _ hst ih =>
    obtain ⟨L, S, hinv⟩ := ih
    cases hst with
    | manage hwnd wi r h =>
      rcases manage_of_ok hinv h with ⟨rfl, _⟩ | ⟨_, _, _, _, i1⟩
      · exact ⟨L, S, hinv⟩
      · exact ⟨_, _, i1⟩
    | unmanage c L' hL hc h =>
      have := hL.unique hinv.list
      subst this
      exact ⟨_, _, (unmanage_of_ok hinv hc h).2.2.2⟩
    | setselected c L' hL hc h =>
      have := hL.unique hinv.list
      subst this
      obtain ⟨t', S', e, _, _, _, i1⟩ := setselected_inv c hinv hc
      rw [e] at h; cases h
      exact ⟨_, _, i1⟩
    | focus c L' hL hc h =>
      have := hL.unique hinv.list
      subst this
      obtain ⟨t', S', e, _, _, _, i1⟩ := focus_inv c hinv hc
      rw [e] at h; cases h
      exact ⟨_, _, i1⟩
    | focusstack dir h =>
      obtain ⟨S', _, _, _, i1⟩ := focusstack_of_ok hinv h
      exact ⟨_, _, i1⟩
    | movestack dir h =>
      obtain ⟨L', S', i1, _⟩ := movestack_of_ok hinv h
      exact ⟨L', S', i1⟩
    | zoom h =>
      obtain ⟨L', S', i1, _⟩ := zoom_of_ok hinv h
      exact ⟨L', S', i1⟩
    | arrange h => exact ⟨_, _, (arrange_of_ok h hinv).2.2.2.2.2⟩

/-- C1: in every state reached from the empty registry by `manage`, `unmanage`,
`setselected` / `focus`, `focusstack`, `movestack`, `zoom` and `arrange`, the `next` links
from `clients` and the `snext` links from `stack` are null-terminated chains over exactly
the same clients, each exactly once. -/
theorem list_stack_same_clients (s : State) (h : Reachable s) :
    ∃ L S, IsChain s.next s.clients L ∧ IsChain s.snext s.stack S ∧ L.Nodup ∧ S.Nodup ∧
      ∀ i, i ∈ L ↔ i ∈ S := by
  obtain ⟨L, S, hinv⟩ := reachable_inv h
  exact ⟨L, S, hinv.list, hinv.stack, hinv.list.nodup, hinv.stack.nodup,
    fun i => hinv.perm.mem_iff⟩

theorem exManaged1_step : manage exEmpty 101 { hmon := 7 } = .ok (exManaged1, some 0) := by
  rfl

theorem exManaged2_step : arrange exManaged1 = .ok exManaged2 := by
  rfl

theorem list_stack_same_clients_witness :
    ∃ L S, IsChain exManaged2.next exManaged2.clients L ∧
      IsChain exManaged2.snext exManaged2.stack S ∧ L.Nodup ∧ S.Nodup ∧ ∀ i, i ∈ L ↔ i ∈ S :=
  list_stack_same_clients exManaged2
    (.step _ _ (.step _ _ (.init exEmpty rfl rfl rfl) (.manage _ _ _ _ _ exManaged1_step))
      (.arrange _ _ exManaged2_step))

/-- C10 fails in the code: in `exZoom` the selected client 1 is the master of its monitor
(the first visible non-floating client of monitor 1 in the List `[0, 1, 2]`), and client 2
is the next such client. `zoom` compares the selection with the first tiled client of the
whole List, client 0 of the other monitor, and so moves client 1 itself to the front: the
List becomes `[1, 0, 2]`, client 1 is still the master of monitor 1 and client 2 has not
been promoted. -/
theorem zoom_ignores_monitor :
    IsChain exZoom.next exZoom.clients [0, 1, 2] ∧ exZoom.sel = some 1 ∧
      [0, 1, 2].filter (fun i => (exZoom.cl i).mon == some 1 && !untiled exZoom i) = [1, 2] ∧
      Except.map (fun t => (t.clients, t.next 1, t.next 0, t.next 2, t.sel)) (zoom exZoom) =
        .ok (some 1, some 0, some 2, none, some 1) := by
  decide

/-! ### The rectangles `tile` assigns -/

theorem resize_other (s : State) (i j : Nat) (x y w h : Int) (hj : j ≠ i) :
    (resize s i x y w h).cl j = s.cl j := by
  unfold resize
  split
  · rfl
  · simp only
    split
    · simp [State.setCl, Function.update_noteq hj]
    · rfl

theorem resize_rect (s : State) (i : Nat) (x y w h : Int) (hv : ¬ (w ≤ 0 ∧ h ≤ 0)) :
    ((resize s i x y w h).cl i).x = (resizeRect s (s.cl i) x y w h).1 ∧
      ((resize s i x y w h).cl i).y = (resizeRect s (s.cl i) x y w h).2.1 ∧
      ((resize s i x y w h).cl i).w = (resizeRect s (s.cl i) x y w h).2.2.1 ∧
      ((resize s i x y w h).cl i).h = (resizeRect s (s.cl i) x y w h).2.2.2 := by
  unfold resize
  rw [if_neg hv]
  simp only
  split
  · simp [State.setCl]
  · rename_i hne
    simp only [not_or, Decidable.not_not] at hne
    exact hne

theorem resizeRect_exact (s : State) (c : Client) (k : Nat) (x y w h : Int)
    (hm : c.mon = some k) (hx : x ≤ (s.mon k).sx + (s.mon k).sw)
    (hy : y ≤ (s.mon k).sy + (s.mon k).sh) (hx2 : (s.mon k).sx ≤ x + w + 2 * c.bw)
    (hy2 : (s.mon k).sy ≤ y + h + 2 * c.bw) (hw : (s.mon k).bh ≤ w) (hh : (s.mon k).bh ≤ h) :
    resizeRect s c x y w h = (x, y, w, h) := by
  unfold resizeRect
  rw [hm]
  simp only
  rw [if_neg (by omega), if_neg (by omega), if_neg (by omega), if_neg (by omega),
    if_neg (by omega), if_neg (by omega)]

theorem frame_tileFold (m : Monitor) (x w h : Int) (n : Nat) :
    ∀ (cs : List Nat) (s : State) (i : Nat) (y : Int), Frame s (tileFold m x w h n s cs i y) := by
  intro cs
  induction cs with
  | nil => intro s i y; exact Frame.refl s
  | cons c cs ih =>
    intro s i y
    unfold tileFold
    split
    · exact ih _ _ _
    · exact (frame_resize _ _ _ _ _ _).trans (ih _ _ _)

theorem tileFold_curmon (m : Monitor) (x w h : Int) (n : Nat) :
    ∀ (cs : List Nat) (s : State) (i : Nat) (y : Int),
      (tileFold m x w h n s cs i y).curmon = s.curmon := by
  intro cs
  induction cs with
  | nil => intro s i y; rfl
  | cons c cs ih =>
    intro s i y
    unfold tileFold
    split
    · exact ih _ _ _
    · simp only
      rw [ih, resize_curmon]

theorem tileFold_other (m : Monitor) (x w h : Int) (n : Nat) (j : Nat) :
    ∀ (cs : List Nat) (s : State) (i : Nat) (y : Int), j ∉ cs →
      (tileFold m x w h n s cs i y).cl j = s.cl j := by
  intro cs
  induction cs with
  | nil => intro s i y _; rfl
  | cons c cs ih =>
    intro s i y hj
    simp only [List.mem_cons, not_or] at hj
    unfold tileFold
    split
    · exact ih _ _ _ hj.2
    · simp only
      rw [ih _ _ _ hj.2, resize_other _ _ _ _ _ _ _ hj.1]

theorem dropWhile_append_all (p : Nat → Bool) (A l : List Nat) (h : ∀ a ∈ A, p a = true) :
    (A ++ l).dropWhile p = l.dropWhile p := by
  induction A with
  | nil => rfl
  | cons a A ih =>
    rw [List.cons_append, List.dropWhile_cons, if_pos (h a (List.mem_cons_self _ _))]
    exact ih (fun b hb => h b (List.mem_cons_of_mem _ hb))

theorem dropWhile_keep (p q : Nat → Bool) (A : List Nat) (c : Nat) (B : List Nat)
    (hq : ∀ a ∈ A, q a = true) (hc : p c = false) :
    ∃ A', (∀ a ∈ A', q a = true) ∧ (A ++ c :: B).dropWhile p = A' ++ c :: B := by
  induction A with
  | nil =>
    refine ⟨[], ?_, ?_⟩
    · intro a h
      cases h
    · simp [List.dropWhile_cons, hc]
  | cons a A ih =>
    by_cases hp : p a = true
    · obtain ⟨A', h1, h2⟩ := ih (fun b hb => hq b (List.mem_cons_of_mem _ hb))
      exact ⟨A', h1, by rw [List.cons_append, List.dropWhile_cons, if_pos hp]; exact h2⟩
    · exact ⟨a :: A, hq, by rw [List.cons_append, List.dropWhile_cons, if_neg hp]⟩

theorem filter_eq_nil_of_all (p : Nat → Bool) (A : List Nat) (h : ∀ a ∈ A, p a = false) :
    A.filter p = [] := by
  induction A with
  | nil => rfl
  | cons a A ih =>
    rw [List.filter_cons, if_neg (by rw [h a (List.mem_cons_self _ _)]; simp)]
    exact ih (fun b hb => h b (List.mem_cons_of_mem _ hb))

/-- The two loops by which `tile` looks for the master stop at `c` when the List is a run
of hidden or floating clients, then a run of clients that are floating or on another
monitor, then `c`, a visible tiled client of the monitor. -/
theorem tile_master (s : State) (k : Nat) (A1 A2 B : List Nat) (c : Nat)
    (hk : s.curmon = some k) (hA1 : ∀ a ∈ A1, untiled s a = true)
    (hA2 : ∀ a ∈ A2, (s.cl a).mon ≠ some k ∨ (s.cl a).isfloating = true)
    (hc : eligible s c = true) :
    ((A1 ++ A2 ++ c :: B).dropWhile (untiled s)).dropWhile
        (fun i => (s.cl i).mon != s.curmon || (s.cl i).isfloating) = c :: B ∧
      (A1 ++ A2 ++ c :: B).filter (eligible s) = c :: B.filter (eligible s) := by
  have hc' : (s.cl c).mon = some k ∧ (s.cl c).isfloating = false ∧
      isvisible s (some c) = true := by
    simpa [eligible, hk] using hc
  have hcu : untiled s c = false := by simp [untiled, hc'.2.1, hc'.2.2]
  have hcq : (fun i => (s.cl i).mon != s.curmon || (s.cl i).isfloating) c = false := by
    simp [hk, hc'.1, hc'.2.1]
  have hA2' : ∀ a ∈ A2, (fun i => (s.cl i).mon != s.curmon || (s.cl i).isfloating) a = true := by
    intro a ha
    rcases hA2 a ha with h | h
    · simp [hk, h]
    · simp [h]
  constructor
  · rw [List.append_assoc, dropWhile_append_all _ _ _ hA1]
    obtain ⟨A', h1, h2⟩ := dropWhile_keep (untiled s) _ A2 c B hA2' hcu
    rw [h2, dropWhile_append_all _ _ _ h1, List.dropWhile_cons, if_neg (by simpa using hcq)]
  · rw [List.filter_append, List.filter_append, List.filter_cons, if_pos hc,
      filter_eq_nil_of_all _ A1, filter_eq_nil_of_all _ A2]
    · rfl
    · intro a ha
      rcases hA2 a ha with h | h
      · simp [eligible, hk, h]
      · simp [eligible, h]
    · intro a ha
      have := hA1 a ha
      simp only [untiled, Bool.or_eq_true, Bool.not_eq_true'] at this
      rcases this with h | h
      · simp [eligible, h]
      · simp [eligible, h]

theorem resize_row (s : State) (c k : Nat) (x y w h : Int) (hm : (s.cl c).mon = some k)
    (hy : y ≤ (s.mon k).sy + (s.mon k).sh) (hy2 : (s.mon k).sy ≤ y + h + 2 * (s.cl c).bw)
    (hh : (s.mon k).bh ≤ h) (hpos : 0 < h) :
    ((resize s c x y w h).cl c).y = y ∧ ((resize s c x y w h).cl c).h = h := by
  have hv : ¬ (w ≤ 0 ∧ h ≤ 0) := by omega
  obtain ⟨_, e2, _, e4⟩ := resize_rect s c x y w h hv
  rw [e2, e4]
  unfold resizeRect
  rw [hm]
  simp only
  constructor
  · rw [if_neg (by omega), if_neg (by omega)]
  · rw [if_neg (by omega)]

/-- The stack loop run over clients of the monitor that it all lays out, the last of them
at index `n - 1`: the rows begin at `y`, each begins where the one before ends, the last
ends at the bottom edge of the work rectangle, and the heights add up to what was left. -/
theorem tileFold_rows (m : Monitor) (k : Nat) (x w h : Int) (n : Nat)
    (hbh : 0 < m.bh) (hsy : m.sy ≤ m.wy) (hsh : m.wy + m.wh ≤ m.sy + m.sh) :
    ∀ (cs : List Nat) (s : State) (i : Nat) (y : Int), cs.Nodup → s.curmon = some k →
      s.mon k = m → i + cs.length = n → m.wy ≤ y → y + (cs.length : Int) * h ≤ m.wy + m.wh →
      (∀ c ∈ cs, (s.cl c).mon = some k ∧ (s.cl c).isfloating = false ∧ 0 ≤ (s.cl c).bw ∧
        m.bh + 2 * (s.cl c).bw ≤ h) →
      (∀ c, cs.head? = some c → ((tileFold m x w h n s cs i y).cl c).y = y) ∧
      List.Chain' (fun a b => ((tileFold m x w h n s cs i y).cl a).y +
        HEIGHT ((tileFold m x w h n s cs i y).cl a) = ((tileFold m x w h n s cs i y).cl b).y) cs ∧
      (∀ c, cs.getLast? = some c → ((tileFold m x w h n s cs i y).cl c).y +
        HEIGHT ((tileFold m x w h n s cs i y).cl c) = m.wy + m.wh) ∧
      (cs ≠ [] → (cs.map (fun c => HEIGHT ((tileFold m x w h n s cs i y).cl c))).sum =
        m.wy + m.wh - y) := by
  intro cs
  induction cs with
  | nil =>
    intro s i y _ _ _ _ _ _ _
    simp
  | cons c cs ih =>
    intro s i y hnd hk hm hi hy hfit hcs
    have hnd' := List.nodup_cons.1 hnd
    obtain ⟨hcm, hcf, hcb, hch⟩ := hcs c (List.mem_cons_self _ _)
    have hskip : ¬ (((s.cl c).mon != s.curmon || (s.cl c).isfloating) = true) := by
      simp [hcm, hk, hcf]
    have hlen : ((c :: cs).length : Int) = (cs.length : Int) + 1 := by simp
    rw [hlen] at hfit
    have hnn : 0 ≤ (cs.length : Int) * h := mul_nonneg (by omega) (by omega)
    unfold tileFold
    rw [if_neg hskip]
    simp only
    cases cs with
    | nil =>
      have hin : i + 1 = n := by simpa using hi
      rw [if_pos hin]
      simp only [tileFold]
      simp only [List.length_nil, Nat.cast_zero, zero_mul, add_zero] at hfit hnn
      have hf := frame_resize s c x y (w - 2 * (s.cl c).bw)
        (m.wy + m.wh - y - 2 * (s.cl c).bw)
      obtain ⟨e1, e2⟩ := resize_row s c k x y (w - 2 * (s.cl c).bw)
        (m.wy + m.wh - y - 2 * (s.cl c).bw) hcm (by rw [hm]; omega) (by rw [hm]; omega)
        (by rw [hm]; omega) (by omega)
      have e3 : HEIGHT ((resize s c x y (w - 2 * (s.cl c).bw)
          (m.wy + m.wh - y - 2 * (s.cl c).bw)).cl c) = m.wy + m.wh - y := by
        unfold HEIGHT
        rw [e2, hf.bw]
        omega
      refine ⟨?_, List.chain'_singleton _, ?_, ?_⟩
      · intro c' hc'
        simp at hc'
        subst hc'
        exact e1
      · intro c' hc'
        simp at hc'
        subst hc'
        rw [e1, e3]
        omega
      · intro _
        simp [e3]
    | cons c' rest =>
      have hin : ¬ (i + 1 = n) := by
        simp only [List.length_cons] at hi
        omega
      rw [if_neg hin]
      have hlen2 : (((c' :: rest).length : Nat) : Int) = (rest.length : Int) + 1 := by simp
      rw [hlen2] at hfit hnn
      have hnn2 : 0 ≤ (rest.length : Int) * h := mul_nonneg (by omega) (by omega)
      have hne : h ≠ m.wh := by
        intro e
        have : ((rest.length : Int) + 1 + 1) * h = (rest.length : Int) * h + h + h := by ring
        omega
      rw [if_pos hne]
      have hf := frame_resize s c x y (w - 2 * (s.cl c).bw) (h - 2 * (s.cl c).bw)
      have hcur := resize_curmon s c x y (w - 2 * (s.cl c).bw) (h - 2 * (s.cl c).bw)
      have hexp : ((rest.length : Int) + 1 + 1) * h = ((rest.length : Int) + 1) * h + h := by
        ring
      obtain ⟨e1, e2⟩ := resize_row s c k x y (w - 2 * (s.cl c).bw)
        (h - 2 * (s.cl c).bw) hcm (by rw [hm]; omega) (by rw [hm]; omega)
        (by rw [hm]; omega) (by omega)
      have e3 : HEIGHT ((resize s c x y (w - 2 * (s.cl c).bw)
          (h - 2 * (s.cl c).bw)).cl c) = h := by
        unfold HEIGHT
        rw [e2, hf.bw]
        omega
      rw [e1, e3]
      generalize resize s c x y (w - 2 * (s.cl c).bw) (h - 2 * (s.cl c).bw) = s1
        at e1 e2 e3 hf hcur ⊢
      obtain ⟨i1, i2, i3, i4⟩ := ih s1 (i + 1) (y + h) hnd'.2 (by rw [hcur]; exact hk)
        (by rw [hf.mon]; exact hm) (by simp only [List.length_cons] at hi ⊢; omega)
        (by omega) (by rw [hlen2]; omega)
        (fun b hb => by
          rw [hf.cmon, hf.isfloating, hf.bw]
          exact hcs b (List.mem_cons_of_mem _ hb))
      have hother : ((tileFold m x w h n s1 (c' :: rest) (i + 1) (y + h)).cl c) = s1.cl c :=
        tileFold_other _ _ _ _ _ _ _ _ _ _ hnd'.1
      refine ⟨?_, ?_, ?_, ?_⟩
      · intro c0 hc0
        simp at hc0
        subst hc0
        rw [hother]
        exact e1
      · refine List.Chain'.cons ?_ i2
        rw [hother, e1, e3]
        exact (i1 c' rfl).symm
      · intro c0 hc0
        rw [List.getLast?_cons_cons] at hc0
        exact i3 c0 hc0
      · intro _
        rw [List.map_cons, List.sum_cons, hother, e3, i4 (by simp)]
        omega

theorem divUnsigned_eq (wh : Int) (n : Nat) (h0 : 0 ≤ wh) (h1 : wh < 2 ^ 31) :
    divUnsigned wh n = wh / (n : Int) := by
  unfold divUnsigned
  have e1 : wh % 2 ^ 32 = wh := Int.emod_eq_of_lt h0 (by omega)
  rw [e1]
  obtain ⟨a, rfl⟩ := Int.eq_ofNat_of_zero_le h0
  simp only [Int.toNat_ofNat]
  have ha : a < 2 ^ 31 := by exact_mod_cast h1
  have hq : a / n < 2 ^ 31 := lt_of_le_of_lt (Nat.div_le_self _ _) ha
  rw [if_pos hq]
  simp

/-- C3 (amended): let the List of monitor `k` be a run `A1` of hidden or floating clients,
a run `A2` of clients that are floating or on another monitor, the first eligible client `c`
(the master) and the rest `B`, in which every visible tiled client is on monitor `k` and at
least one client is eligible (so `n ≥ 2`); let the work rectangle lie inside the screen
rectangle vertically, the work height be below `2 ^ 31`, the bar height be positive, and
every stack client have a border width `bw ≥ 0` with `bh + 2 * bw ≤ wh / (n - 1)`. Then
`tile` returns, the heights `h + 2 * bw` of the stack clients add up to exactly `wh`, each
stack client begins where the one before ends, the first begins at `wy` and the last ends
at `wy + wh`. -/
theorem tile_stack_heights (s : State) (k : Nat) (L A1 A2 B : List Nat) (c : Nat)
    (hL : IsChain s.next s.clients L) (hlen : L.length ≤ s.nclients)
    (hk : s.curmon = some k) (hsplit : L = A1 ++ A2 ++ c :: B)
    (hA1 : ∀ a ∈ A1, untiled s a = true)
    (hA2 : ∀ a ∈ A2, (s.cl a).mon ≠ some k ∨ (s.cl a).isfloating = true)
    (hc : eligible s c = true)
    (hB : ∀ b ∈ B, untiled s b = false → (s.cl b).mon = some k)
    (hn : B.filter (eligible s) ≠ [])
    (hsy : (s.mon k).sy ≤ (s.mon k).wy)
    (hsh : (s.mon k).wy + (s.mon k).wh ≤ (s.mon k).sy + (s.mon k).sh)
    (hbh : 0 < (s.mon k).bh) (hwh : (s.mon k).wh < 2 ^ 31)
    (hrow : ∀ b ∈ B, eligible s b = true → 0 ≤ (s.cl b).bw ∧
      (s.mon k).bh + 2 * (s.cl b).bw ≤ (s.mon k).wh / ((B.filter (eligible s)).length : Int)) :
    ∃ t, tile s = .ok t ∧
      ((B.filter (eligible s)).map (fun b => HEIGHT (t.cl b))).sum = (s.mon k).wh ∧
      List.Chain' (fun a b => (t.cl a).y + HEIGHT (t.cl a) = (t.cl b).y)
        (B.filter (eligible s)) ∧
      (∀ b, (B.filter (eligible s)).head? = some b → (t.cl b).y = (s.mon k).wy) ∧
      (∀ b, (B.filter (eligible s)).getLast? = some b →
        (t.cl b).y + HEIGHT (t.cl b) = (s.mon k).wy + (s.mon k).wh) := by
  subst hsplit
  obtain ⟨hdrop, hfilt⟩ := tile_master s k A1 A2 B c hk hA1 hA2 hc
  have hnd := hL.nodup
  have hBnd : B.Nodup := (List.nodup_cons.1 (List.nodup_append.1 hnd).2.1).2
  have hfe : B.filter (fun i => !untiled s i) = B.filter (eligible s) := by
    apply List.filter_congr
    intro b hb
    cases hu : untiled s b with
    | true =>
      simp only [untiled, Bool.or_eq_true, Bool.not_eq_true'] at hu
      rcases hu with h | h <;> simp [eligible, h]
    | false =>
      have hm := hB b hb hu
      simp only [untiled, Bool.or_eq_false_iff, Bool.not_eq_false'] at hu
      simp [eligible, hm, hk, hu.1, hu.2]
  have hlen1 : 0 < (B.filter (eligible s)).length := List.length_pos.2 hn
  obtain ⟨b0, hb0⟩ := List.exists_mem_of_ne_nil _ hn
  have hb0' := List.mem_filter.1 hb0
  have hr0 := hrow b0 hb0'.1 hb0'.2
  have hwh0 : 0 ≤ (s.mon k).wh := by
    by_contra hneg
    have : (s.mon k).wh / ((B.filter (eligible s)).length : Int) < 0 :=
      Int.ediv_neg' (by omega) (by exact_mod_cast hlen1)
    omega
  rw [tile_eq hL hlen hk]
  refine ⟨_, rfl, ?_⟩
  unfold tileList
  simp only [hdrop, hfilt, List.length_cons, Nat.add_sub_cancel, hfe]
  rw [if_neg (by omega), if_neg (by omega)]
  have hf := frame_resize s c (s.mon k).wx (s.mon k).wy
    ((if (B.filter (eligible s)).length + 1 = 1 then (s.mon k).ww
      else truncMul s.mfact (s.mon k).ww) - 2 * (s.cl c).bw) ((s.mon k).wh - 2 * (s.cl c).bw)
  have hcur := resize_curmon s c (s.mon k).wx (s.mon k).wy
    ((if (B.filter (eligible s)).length + 1 = 1 then (s.mon k).ww
      else truncMul s.mfact (s.mon k).ww) - 2 * (s.cl c).bw) ((s.mon k).wh - 2 * (s.cl c).bw)
  generalize resize s c (s.mon k).wx (s.mon k).wy
    ((if (B.filter (eligible s)).length + 1 = 1 then (s.mon k).ww
      else truncMul s.mfact (s.mon k).ww) - 2 * (s.cl c).bw) ((s.mon k).wh - 2 * (s.cl c).bw) = s1
    at hf hcur ⊢
  have hh : (if (s.mon k).wh / ((B.filter (eligible s)).length : Int) < (s.mon k).bh
      then (s.mon k).wh else (s.mon k).wh / ((B.filter (eligible s)).length : Int)) =
      (s.mon k).wh / ((B.filter (eligible s)).length : Int) := if_neg (by omega)
  rw [hf.mon, divUnsigned_eq _ _ hwh0 hwh, hh]
  have hmul : ((B.filter (eligible s)).length : Int) *
      ((s.mon k).wh / ((B.filter (eligible s)).length : Int)) ≤ (s.mon k).wh :=
    Int.mul_ediv_self_le (by omega)
  obtain ⟨r1, r2, r3, r4⟩ := tileFold_rows (s.mon k) k _ _
    ((s.mon k).wh / ((B.filter (eligible s)).length : Int)) (B.filter (eligible s)).length
    hbh hsy hsh (B.filter (eligible s)) s1 0 (s.mon k).wy (hBnd.filter _)
    (by rw [hcur]; exact hk) (by rw [hf.mon]) (by omega) (le_refl _) (by omega)
    (fun b hb => by
      have hb' := List.mem_filter.1 hb
      have he : (s.cl b).mon = some k ∧ (s.cl b).isfloating = false ∧
          isvisible s (some b) = true := by
        simpa [eligible, hk] using hb'.2
      rw [hf.cmon, hf.isfloating, hf.bw]
      exact ⟨he.1, he.2.1, hrow b hb'.1 hb'.2⟩)
  refine ⟨?_, r2, r1, r3⟩
  rw [r4 hn]
  omega

theorem tile_stack_heights_witness :
    ∃ t, tile exTile = .ok t ∧
      ([1, 2].map (fun b => HEIGHT (t.cl b))).sum = 800 ∧
      List.Chain' (fun a b => (t.cl a).y + HEIGHT (t.cl a) = (t.cl b).y) [1, 2] ∧
      (∀ b, [1, 2].head? = some b → (t.cl b).y = 0) ∧
      (∀ b, [1, 2].getLast? = some b → (t.cl b).y + HEIGHT (t.cl b) = 800) :=
  tile_stack_heights exTile 0 [0, 1, 2] [] [] [1, 2] 0 (by decide) (by decide) rfl rfl
    (by decide) (by decide) (by decide) (by decide) (by decide) (by decide) (by decide)
    (by decide) (by decide) (by decide)

/-- C3 fails as stated: on the monitor of `exTileLow` (work height 30, bar height 20) the
three clients are eligible, the row height `30 / 2 = 15` is below the bar height, and `tile`
then gives both stack clients the full work height at `y = 0`: their heights add up to 60
and they overlap. -/
theorem tile_low_rows_overlap :
    [0, 1, 2].filter (eligible exTileLow) = [0, 1, 2] ∧
      Except.map (fun t => [((t.cl 1).y, HEIGHT (t.cl 1)), ((t.cl 2).y, HEIGHT (t.cl 2))])
        (tile exTileLow) = .ok [(0, 30), (0, 30)] := by
  decide

/-! ## Tag and monitor commands -/

/-! ## Window notifications -/

/-! ### The selection stays in the Stack and visible -/

theorem Frame.parent {s t : State} (h : Frame s t) (i : Nat) :
    (t.cl i).parent = (s.cl i).parent := by
  rw [h.cl i]

theorem Keeps.keep_parent {s t : State} (h : Keeps s t) (i : Nat) :
    (t.cl i).parent = (s.cl i).parent := by
  rw [h.cl i]

theorem NoSelf.noself_of_keeps {s t : State} (hn : NoSelf s) (hk : Keeps s t) : NoSelf t := by
  intro i hi
  rw [hk.keep_parent, hk.keep_hwnd]
  exact hn i (by rw [← hk.keep_nclients]; exact hi)

theorem Same.same_inv {s t : State} {L S : List Nat} (h : Same s t) (hinv : Inv s L S) :
    Inv t L S := by
  refine ⟨?_, ?_, hinv.perm, ?_, ?_⟩
  · rw [h.next, h.clients]; exact hinv.list
  · rw [h.snext, h.stack]; exact hinv.stack
  · rw [h.nclients]; exact hinv.bound
  · rw [h.sel]; exact hinv.sel

theorem Same.reg {s t : State} {L : List Nat} (h : Same s t) (hr : Reg s L) : Reg t L := by
  obtain ⟨S, hinv⟩ := hr.inv
  refine ⟨⟨S, h.same_inv hinv⟩, ?_⟩
  intro i hi
  rw [(h.ident i).1, (h.ident i).2]
  exact hr.noself i (by rw [← h.nclients]; exact hi)

theorem same_setCl (s : State) (i : Nat) (f : Client → Client)
    (h1 : (f (s.cl i)).hwnd = (s.cl i).hwnd) (h2 : (f (s.cl i)).parent = (s.cl i).parent) :
    Same s (s.setCl i f) := by
  refine ⟨rfl, rfl, rfl, rfl, rfl, rfl, fun j => ?_⟩
  by_cases hj : j = i
  · subst hj; simp [State.setCl, h1, h2]
  · simp [State.setCl, Function.update_noteq hj]

theorem same_setMon (s : State) (k : Nat) (f : Monitor → Monitor) : Same s (s.setMon k f) :=
  ⟨rfl, rfl, rfl, rfl, rfl, rfl, fun _ => ⟨rfl, rfl⟩⟩

theorem Same.same_refl (s : State) : Same s s := ⟨rfl, rfl, rfl, rfl, rfl, rfl, fun _ => ⟨rfl, rfl⟩⟩

theorem Same.same_trans {s t u : State} (h1 : Same s t) (h2 : Same t u) : Same s u :=
  ⟨h2.next.trans h1.next, h2.clients.trans h1.clients, h2.snext.trans h1.snext,
    h2.stack.trans h1.stack, h2.nclients.trans h1.nclients, h2.sel.trans h1.sel,
    fun i => ⟨(h2.ident i).1.trans (h1.ident i).1, (h2.ident i).2.trans (h1.ident i).2⟩⟩

theorem vis_of_settled {t : State}
    (h : t.sel = none ∨ (t.stack = t.sel ∧ isvisible t t.sel = true)) : Vis t := by
  intro i hi
  rcases h with h | h
  · rw [h] at hi; cases hi
  · rw [← hi]; exact h.2

theorem Vis.of_eq {s t : State} (hv : Vis s) (hsel : t.sel = s.sel)
    (h : ∀ x, isvisible t x = isvisible s x) : Vis t := by
  intro i hi
  rw [h]
  exact hv i (by rw [← hsel]; exact hi)

theorem arrange_reg {s t : State} {L : List Nat} (hr : Reg s L) (h : arrange s = .ok t) :
    Reg t L ∧ Vis t := by
  obtain ⟨S, hinv⟩ := hr.inv
  obtain ⟨hk, _, _, _, _, i1⟩ := arrange_of_ok h hinv
  exact ⟨⟨⟨_, i1⟩, hr.noself.noself_of_keeps hk⟩, vis_of_settled (arrange_post h)⟩

theorem setselected_reg {s t : State} {L : List Nat} {c : Option Nat} (hr : Reg s L)
    (hc : ∀ i, c = some i → i ∈ L) (h : setselected s c = .ok t) : Reg t L ∧ Vis t := by
  obtain ⟨S, hinv⟩ := hr.inv
  obtain ⟨t', S', e, hk, _, _, i1⟩ := setselected_inv c hinv hc
  rw [e] at h
  cases h
  exact ⟨⟨⟨_, i1⟩, hr.noself.noself_of_keeps hk⟩, vis_of_settled (setselected_post e)⟩

theorem focus_post {s t : State} {c : Option Nat} (h : focus s c = .ok t) :
    t.sel = none ∨ (t.stack = t.sel ∧ isvisible t t.sel = true) := by
  unfold focus at h
  obtain ⟨s1, h1, h⟩ := bind_eq_ok.1 h
  have hp := setselected_post h1
  split at h
  · simp at h; subst h
    exact hp
  · simp at h; subst h
    exact hp

theorem focus_reg {s t : State} {L : List Nat} {c : Option Nat} (hr : Reg s L)
    (hc : ∀ i, c = some i → i ∈ L) (h : focus s c = .ok t) : Reg t L ∧ Vis t := by
  obtain ⟨S, hinv⟩ := hr.inv
  obtain ⟨t', S', e, hk, _, _, i1⟩ := focus_inv c hinv hc
  rw [e] at h
  cases h
  exact ⟨⟨⟨_, i1⟩, hr.noself.noself_of_keeps hk⟩, vis_of_settled (focus_post e)⟩

theorem unmanage_post {s t : State} {c : Option Nat} (h : unmanage s c = .ok t) :
    t.sel = none ∨ (t.stack = t.sel ∧ isvisible t t.sel = true) := by
  unfold unmanage at h
  obtain ⟨i, _, h⟩ := bind_eq_ok.1 h
  simp only at h
  obtain ⟨s3, _, h⟩ := bind_eq_ok.1 h
  obtain ⟨s4, _, h⟩ := bind_eq_ok.1 h
  obtain ⟨s5, _, h⟩ := bind_eq_ok.1 h
  exact arrange_post h

theorem unmanage_reg {s t : State} {L : List Nat} {c : Nat} (hr : Reg s L) (hc : c ∈ L)
    (h : unmanage s (some c) = .ok t) : Reg t (L.erase c) ∧ Vis t := by
  obtain ⟨S, hinv⟩ := hr.inv
  obtain ⟨hk, _, _, i1⟩ := unmanage_of_ok hinv hc h
  exact ⟨⟨⟨_, i1⟩, hr.noself.noself_of_keeps hk⟩, vis_of_settled (unmanage_post h)⟩

theorem OnlyCell.only_refl (i : Nat) (s : State) : OnlyCell i s s := ⟨rfl, fun _ _ => rfl, rfl, rfl⟩

theorem OnlyCell.only_trans {i : Nat} {s t u : State} (h1 : OnlyCell i s t) (h2 : OnlyCell i t u) :
    OnlyCell i s u := by
  refine ⟨?_, fun j hj => (h2.other j hj).trans (h1.other j hj), h2.hwnd.trans h1.hwnd,
    h2.parent.trans h1.parent⟩
  rw [h2.glob, h1.glob]

theorem onlyCell_setCl (s : State) (i : Nat) (f : Client → Client)
    (h1 : (f (s.cl i)).hwnd = (s.cl i).hwnd) (h2 : (f (s.cl i)).parent = (s.cl i).parent) :
    OnlyCell i s (s.setCl i f) := by
  refine ⟨rfl, fun j hj => ?_, ?_, ?_⟩
  · simp [State.setCl, Function.update_noteq hj]
  · simp [State.setCl, h1]
  · simp [State.setCl, h2]

theorem onlyCell_resize (s : State) (i : Nat) (x y w h : Int) :
    OnlyCell i s (resize s i x y w h) := by
  have hf := frame_resize s i x y w h
  refine ⟨?_, fun j hj => resize_other s i j x y w h hj, hf.hwnd i, hf.parent i⟩
  have hc := resize_curmon s i x y w h
  rw [hf.glob]
  rw [hc]

theorem onlyCell_foldl (i : Nat) (g : State → Rule → State)
    (hg : ∀ s r, OnlyCell i s (g s r)) :
    ∀ (rs : List Rule) (s : State), OnlyCell i s (rs.foldl g s) := by
  intro rs
  induction rs with
  | nil => intro s; exact OnlyCell.only_refl i s
  | cons r rs ih => intro s; exact (hg s r).only_trans (ih _)

theorem onlyCell_applyrules (s : State) (i : Nat) (title cls : String) :
    OnlyCell i s (applyrules s i title cls) := by
  unfold applyrules
  simp only
  have h1 := onlyCell_foldl i (fun s r =>
    if (r.title.all fun t => wcsstr title t) && (r.cls.all fun k => wcsstr cls k) then
      s.setCl i (fun c => { c with
        isfloating := r.isfloating, ignoreborder := r.ignoreborder,
        tags := c.tags ||| (if r.tags &&& TAGMASK s ≠ 0 then r.tags &&& TAGMASK s
                            else defaultTs s c) })
    else s) (fun s r => by
      simp only
      split
      · exact onlyCell_setCl _ _ _ rfl rfl
      · exact OnlyCell.only_refl _ _) s.cfg.rules s
  split
  · exact h1.only_trans (onlyCell_setCl _ _ _ rfl rfl)
  · exact h1

/-- What `manage` leaves alone: the monitors, the configuration and every cell but the
fresh one, which gets the window and the parent the host reports. -/
theorem manage_cells {s t : State} {hwnd : Nat} {wi : WinInfo} {r : Option Nat}
    (h : manage s hwnd wi = .ok (t, r)) :
    t.mon = s.mon ∧ t.cfg = s.cfg ∧ t.seltags = s.seltags ∧
      (∀ j, j ≠ s.nclients → t.cl j = s.cl j) ∧
      (t = s ∨ ((t.cl s.nclients).hwnd = hwnd ∧ (t.cl s.nclients).parent = wi.parent)) := by
  unfold manage at h
  obtain ⟨c, hc, h⟩ := bind_eq_ok.1 h
  split at h
  · simp at h
    obtain ⟨rfl, rfl⟩ := h
    exact ⟨rfl, rfl, rfl, fun _ _ => rfl, Or.inl rfl⟩
  · split at h
    · simp at h
      obtain ⟨rfl, rfl⟩ := h
      exact ⟨rfl, rfl, rfl, fun _ _ => rfl, Or.inl rfl⟩
    · obtain ⟨m, _, h⟩ := bind_eq_ok.1 h
      simp only at h
      generalize hs1 : ({ s with
          cl := Function.update s.cl s.nclients _,
          next := Function.update s.next s.nclients none,
          snext := Function.update s.snext s.nclients none,
          nclients := s.nclients + 1 } : State) = s1 at h
      have g2 := onlyCell_applyrules s1 s.nclients wi.title wi.cls
      generalize applyrules s1 s.nclients wi.title wi.cls = s2 at h g2
      have f3 : OnlyCell s.nclients s2 (if (s2.cl s.nclients).isfloating && s2.hostvis hwnd then
          resize s2 s.nclients wi.left wi.top (wi.right - wi.left) (wi.bottom - wi.top)
          else s2) := by
        split
        · exact onlyCell_resize _ _ _ _ _ _
        · exact OnlyCell.only_refl _ _
      generalize (if (s2.cl s.nclients).isfloating && s2.hostvis hwnd then
          resize s2 s.nclients wi.left wi.top (wi.right - wi.left) (wi.bottom - wi.top)
          else s2) = s3 at h f3
      simp [attach, attachstack, deref] at h
      obtain ⟨rfl, rfl⟩ := h
      have g3 := g2.only_trans f3
      have e1 : s3.mon = s.mon := by rw [g3.glob, ← hs1]
      have e2 : s3.cfg = s.cfg := by rw [g3.glob, ← hs1]
      have e3 : s3.seltags = s.seltags := by rw [g3.glob, ← hs1]
      refine ⟨e1, e2, e3, fun j hj => ?_, Or.inr ⟨?_, ?_⟩⟩
      · show s3.cl j = s.cl j
        rw [g3.other j hj, ← hs1]
        simp [Function.update_noteq hj]
      · show (s3.cl s.nclients).hwnd = hwnd
        rw [g3.hwnd, ← hs1]
        simp
      · show (s3.cl s.nclients).parent = wi.parent
        rw [g3.parent, ← hs1]
        simp

theorem manage_reg {s t : State} {L : List Nat} {hwnd : Nat} {wi : WinInfo} {r : Option Nat}
    (hr : Reg s L) (hp : wi.parent ≠ hwnd) (h : manage s hwnd wi = .ok (t, r)) :
    ∃ L', Reg t L' ∧ (∀ i ∈ L, i ∈ L') ∧ (∀ i, r = some i → i ∈ L') ∧ (Vis s → Vis t) := by
  obtain ⟨S, hinv⟩ := hr.inv
  obtain ⟨e1, e2, e3, e4, e5⟩ := manage_cells h
  rcases manage_of_ok hinv h with ⟨rfl, hr1⟩ | ⟨hr1, hn, hsel, _, i1⟩
  · exact ⟨L, hr, fun i hi => hi, hr1, fun hv => hv⟩
  · refine ⟨_, ⟨⟨_, i1⟩, ?_⟩, fun i hi => List.mem_cons_of_mem _ hi, ?_, ?_⟩
    · intro i hi
      rw [hn] at hi
      by_cases hi' : i = s.nclients
      · subst hi'
        rcases e5 with rfl | ⟨h1, h2⟩
        · omega
        · rw [h1, h2]; exact hp
      · rw [e4 i hi']
        exact hr.noself i (by omega)
    · intro i hi
      rw [hr1] at hi
      cases hi
      exact List.mem_cons_self _ _
    · intro hv i hi
      rw [hsel] at hi
      have hiL := hinv.sel i hi
      have hne : i ≠ s.nclients := fun e => Nat.lt_irrefl _ (e ▸ hinv.bound i hiL)
      have := hv i hi
      simp only [isvisible, e4 i hne, e1, e2, e3] at this ⊢
      exact this

theorem vis_setCl {s : State} (i : Nat) (f : Client → Client) (hv : Vis s)
    (h1 : (f (s.cl i)).tags = (s.cl i).tags) (h2 : (f (s.cl i)).mon = (s.cl i).mon) :
    Vis (s.setCl i f) := by
  intro j hj
  have := hv j hj
  by_cases hji : j = i
  · subst hji
    simpa [isvisible, State.setCl, h1, h2] using this
  · simpa [isvisible, State.setCl, Function.update_noteq hji] using this

theorem getclient_mem {s : State} {L S : List Nat} {hwnd c : Nat} (hinv : Inv s L S)
    (h : getclient s hwnd = .ok (some c)) : c ∈ L := by
  unfold getclient at h
  rw [skipWhile_chain _ hinv.list hinv.list_length_le] at h
  exact List.mem_of_find?_eq_some (Except.ok.inj h)

theorem ismanageable_reg (host : Host) (hh : HostOk host) :
    ∀ (fuel : Nat) (s : State) (L : List Nat) (hwnd : Nat) (t : State) (ok : Bool),
      Reg s L → ismanageable host fuel s hwnd = .ok (t, ok) →
      ∃ L', Reg t L' ∧ (∀ i ∈ L, i ∈ L') ∧ (Vis s → Vis t) ∧ (ok = true → hwnd ≠ 0) := by
  intro fuel
  induction fuel with
  | zero => intro s L hwnd t ok _ h; simp [ismanageable] at h
  | succ f ih =>
    intro s L hwnd t ok hr h
    unfold ismanageable at h
    split at h
    · simp at h
      obtain ⟨rfl, rfl⟩ := h
      exact ⟨L, hr, fun i hi => hi, fun hv => hv, fun e => by cases e⟩
    · rename_i hne
      obtain ⟨c, _, h⟩ := bind_eq_ok.1 h
      split at h
      · simp at h
        obtain ⟨rfl, rfl⟩ := h
        exact ⟨L, hr, fun i hi => hi, fun hv => hv, fun _ => hne⟩
      · simp only at h
        obtain ⟨r1, h1, h⟩ := bind_eq_ok.1 h
        obtain ⟨s1, pok⟩ := r1
        simp only at h
        obtain ⟨s2, h2, h⟩ := bind_eq_ok.1 h
        simp at h
        obtain ⟨rfl, _⟩ := h
        -- the parent
        have hs1 : ∃ L1, Reg s1 L1 ∧ (∀ i ∈ L, i ∈ L1) ∧ (Vis s → Vis s1) ∧
            (pok = true → (host hwnd).info.parent ≠ 0) := by
          split at h1
          · rename_i hp
            obtain ⟨L1, a, b, c, _⟩ := ih s L _ s1 pok hr h1
            exact ⟨L1, a, b, c, fun _ => hp⟩
          · simp at h1
            obtain ⟨rfl, rfl⟩ := h1
            exact ⟨L, hr, fun i hi => hi, fun hv => hv, fun e => by cases e⟩
        obtain ⟨L1, r1, m1, v1, p1⟩ := hs1
        have hs2 : ∃ L2, Reg s2 L2 ∧ (∀ i ∈ L1, i ∈ L2) ∧ (Vis s1 → Vis s2) := by
          split at h2
          · rename_i hpok
            obtain ⟨pc, _, h2⟩ := bind_eq_ok.1 h2
            split at h2
            · obtain ⟨r, hm, h2⟩ := bind_eq_ok.1 h2
              obtain ⟨t', r'⟩ := r
              simp at h2
              subst h2
              obtain ⟨L2, a, b, _, d⟩ := manage_reg r1 (hh _ (p1 hpok)) hm
              exact ⟨L2, a, b, d⟩
            · simp at h2
              subst h2
              exact ⟨L1, r1, fun i hi => hi, fun hv => hv⟩
          · simp at h2
            subst h2
            exact ⟨L1, r1, fun i hi => hi, fun hv => hv⟩
        obtain ⟨L2, r2, m2, v2⟩ := hs2
        exact ⟨L2, r2, fun i hi => m2 i (m1 i hi), fun hv => v2 (v1 hv), fun _ => hne⟩

theorem scan_reg (host : Host) (hh : HostOk host) (fuel : Nat) {s t : State} {L : List Nat}
    {hwnd : Nat} (hr : Reg s L) (h : scan host fuel s hwnd = .ok t) :
    ∃ L', Reg t L' ∧ (∀ i ∈ L, i ∈ L') ∧ (Vis s → Vis t) := by
  unfold scan at h
  obtain ⟨c, _, h⟩ := bind_eq_ok.1 h
  cases c with
  | some c =>
    simp at h
    subst h
    exact ⟨L, (same_setCl s c _ rfl rfl).reg hr, fun i hi => hi,
      fun hv => vis_setCl c _ hv rfl rfl⟩
  | none =>
    simp only at h
    obtain ⟨r1, h1, h⟩ := bind_eq_ok.1 h
    obtain ⟨s1, ok⟩ := r1
    simp only at h
    obtain ⟨L1, r1, m1, v1, z1⟩ := ismanageable_reg host hh fuel s L hwnd s1 ok hr h1
    split at h
    · rename_i hok
      obtain ⟨r, hm, h⟩ := bind_eq_ok.1 h
      obtain ⟨t', r'⟩ := r
      simp at h
      subst h
      obtain ⟨L2, a, b, _, d⟩ := manage_reg r1 (hh _ (z1 hok)) hm
      exact ⟨L2, a, fun i hi => b i (m1 i hi), fun hv => d (v1 hv)⟩
    · simp at h
      subst h
      exact ⟨L1, r1, m1, v1⟩

theorem enumChildWindows_reg (host : Host) (hh : HostOk host) (fuel : Nat) :
    ∀ (ws : List Nat) (s t : State) (L : List Nat), Reg s L →
      enumChildWindows host fuel s ws = .ok t →
      ∃ L', Reg t L' ∧ (∀ i ∈ L, i ∈ L') ∧ (Vis s → Vis t) := by
  intro ws
  induction ws with
  | nil =>
    intro s t L hr h
    simp [enumChildWindows] at h
    subst h
    exact ⟨L, hr, fun i hi => hi, fun hv => hv⟩
  | cons w ws ih =>
    intro s t L hr h
    unfold enumChildWindows at h
    obtain ⟨s1, h1, h⟩ := bind_eq_ok.1 h
    obtain ⟨L1, r1, m1, v1⟩ := scan_reg host hh fuel hr h1
    obtain ⟨L2, r2, m2, v2⟩ := ih s1 t L1 r1 h
    exact ⟨L2, r2, fun i hi => m2 i (m1 i hi), fun hv => v2 (v1 hv)⟩

theorem reapLoop_reg (p : Nat) :
    ∀ (fuel : Nat) (s t : State) (L : List Nat) (cur : Option Nat), Reg s L → p ∈ L →
      (∀ c, cur = some c → c ∈ L) → reapLoop p fuel s cur = .ok t →
      ∃ L', Reg t L' ∧ p ∈ L' ∧ (Vis s → Vis t) := by
  intro fuel
  induction fuel with
  | zero =>
    intro s t L cur hr hp _ h
    cases cur with
    | none =>
      simp [reapLoop] at h
      subst h
      exact ⟨L, hr, hp, fun hv => hv⟩
    | some c => simp [reapLoop] at h
  | succ f ih =>
    intro s t L cur hr hp hcur h
    cases cur with
    | none =>
      simp [reapLoop] at h
      subst h
      exact ⟨L, hr, hp, fun hv => hv⟩
    | some c =>
      have hc := hcur c rfl
      obtain ⟨S, hinv⟩ := hr.inv
      have hnext : ∀ b, s.next c = some b → b ∈ L :=
        fun b hb => isChain_next_mem hinv.list hc hb
      unfold reapLoop at h
      split at h
      · rename_i hpar
        split at h
        · obtain ⟨s1, h1, h⟩ := bind_eq_ok.1 h
          obtain ⟨r1, v1⟩ := unmanage_reg hr hc h1
          have hpc : p ≠ c := by
            intro e
            subst e
            exact hr.noself p (hinv.bound p hp) hpar
          obtain ⟨L', a, b, d⟩ := ih s1 t (L.erase c) (s.next c) r1
            ((List.mem_erase_of_ne hpc).2 hp)
            (fun b hb => (List.mem_erase_of_ne (fun e => by
              subst e
              exact isChain_next_ne_self hinv.list hc hb)).2 (hnext b hb)) h
          exact ⟨L', a, b, fun _ => d v1⟩
        · simp only at h
          obtain ⟨L', a, b, d⟩ := ih _ t L _ ((same_setCl s c _ rfl rfl).reg hr) hp hnext h
          exact ⟨L', a, b, fun hv => d (vis_setCl c _ hv rfl rfl)⟩
      · exact ih s t L _ hr hp hnext h

theorem managechildwindows_reg (host : Host) (hh : HostOk host) (fuel : Nat) {s t : State}
    {L : List Nat} {p : Nat} {c : Option Nat} (hr : Reg s L) (hp : p ∈ L)
    (h : managechildwindows host fuel s (some p) = .ok (t, c)) :
    ∃ L', Reg t L' ∧ p ∈ L' ∧ (Vis s → Vis t) := by
  unfold managechildwindows at h
  simp only [deref, run_pure, run_ok_bind] at h
  obtain ⟨s1, h1, h⟩ := bind_eq_ok.1 h
  obtain ⟨s2, h2, h⟩ := bind_eq_ok.1 h
  obtain ⟨c', _, h⟩ := bind_eq_ok.1 h
  simp at h
  obtain ⟨rfl, _⟩ := h
  obtain ⟨L1, r1, m1, v1⟩ := enumChildWindows_reg host hh fuel _ s s1 L hr h1
  obtain ⟨S1, i1⟩ := r1.inv
  obtain ⟨L2, r2, m2, v2⟩ := reapLoop_reg p s1.nclients s1 s2 L1 s1.clients r1 (m1 p hp)
    (fun c hc => by
      have := i1.list
      rw [hc] at this
      cases L1 with
      | nil => simp [IsChain] at this
      | cons a l =>
        obtain ⟨e, _⟩ := this
        cases e
        exact List.mem_cons_self _ _) h2
  exact ⟨L2, r2, m2, fun hv => v2 (v1 hv)⟩

theorem tagLoop_reg (ui : Nat) :
    ∀ (fuel : Nat) (s t : State) (L : List Nat) (cur : Option Nat), Reg s L →
      tagLoop ui fuel s cur = .ok t → Reg t L := by
  intro fuel
  induction fuel with
  | zero =>
    intro s t L cur hr h
    cases cur with
    | none =>
      simp [tagLoop] at h
      subst h
      exact hr
    | some c => simp [tagLoop] at h
  | succ f ih =>
    intro s t L cur hr h
    cases cur with
    | none =>
      simp [tagLoop] at h
      subst h
      exact hr
    | some c =>
      unfold tagLoop at h
      simp only at h
      obtain ⟨c1, _, h⟩ := bind_eq_ok.1 h
      refine ih _ t L c1 ?_ h
      split
      · exact (same_setCl s c _ rfl rfl).reg hr
      · exact hr

theorem same_selmon (s : State) (m : Option Nat) : Same s { s with selmon := m } :=
  ⟨rfl, rfl, rfl, rfl, rfl, rfl, fun _ => ⟨rfl, rfl⟩⟩

theorem view_reg {s t : State} {L : List Nat} {ui : Nat} (hr : Reg s L) (hv : Vis s)
    (h : view s ui = .ok t) : Reg t L ∧ Vis t := by
  unfold view at h
  simp only at h
  have hs1 : Same s (if s.selmon.isNone then { s with selmon := s.mons } else s) := by
    split
    · exact same_selmon s _
    · exact Same.same_refl s
  have hv1 : Vis (if s.selmon.isNone then { s with selmon := s.mons } else s) := by
    split
    · exact hv
    · exact hv
  generalize (if s.selmon.isNone then { s with selmon := s.mons } else s) = s1 at h hs1 hv1
  obtain ⟨k, _, h⟩ := bind_eq_ok.1 h
  split at h
  · simp at h
    subst h
    exact ⟨hs1.reg hr, hv1⟩
  · refine arrange_reg (Same.reg ?_ (hs1.reg hr)) h
    split
    · exact (same_setMon _ _ _).same_trans (same_setMon _ _ _)
    · exact same_setMon _ _ _

theorem toggleview_reg {s t : State} {L : List Nat} {ui : Nat} (hr : Reg s L) (hv : Vis s)
    (h : toggleview s ui = .ok t) : Reg t L ∧ Vis t := by
  unfold toggleview at h
  simp only at h
  have hs1 : Same s (if s.selmon.isNone then { s with selmon := s.mons } else s) := by
    split
    · exact same_selmon s _
    · exact Same.same_refl s
  have hv1 : Vis (if s.selmon.isNone then { s with selmon := s.mons } else s) := by
    split
    · exact hv
    · exact hv
  generalize (if s.selmon.isNone then { s with selmon := s.mons } else s) = s1 at h hs1 hv1
  obtain ⟨k, _, h⟩ := bind_eq_ok.1 h
  split at h
  · exact arrange_reg ((same_setMon _ _ _).reg (hs1.reg hr)) h
  · simp at h
    subst h
    exact ⟨hs1.reg hr, hv1⟩

theorem toggletag_reg {s t : State} {L : List Nat} {ui : Nat} (hr : Reg s L) (hv : Vis s)
    (h : toggletag s ui = .ok t) : Reg t L ∧ Vis t := by
  unfold toggletag at h
  split at h
  · simp at h
    subst h
    exact ⟨hr, hv⟩
  · simp only at h
    split at h
    · exact arrange_reg ((same_setCl _ _ _ rfl rfl).reg hr) h
    · simp at h
      subst h
      exact ⟨hr, hv⟩

theorem tag_reg (host : Host) (hh : HostOk host) (fuel : Nat) {s t : State} {L : List Nat}
    {ui : Nat} (hr : Reg s L) (hv : Vis s) (h : tag host fuel s ui = .ok t) :
    ∃ L', Reg t L' ∧ Vis t := by
  unfold tag at h
  split at h
  · simp at h
    subst h
    exact ⟨L, hr, hv⟩
  · rename_i sl hsl
    split at h
    · obtain ⟨r, h1, h⟩ := bind_eq_ok.1 h
      obtain ⟨s2, c⟩ := r
      simp only at h
      obtain ⟨s3, h3, h⟩ := bind_eq_ok.1 h
      obtain ⟨S, hinv⟩ := hr.inv
      have hsl' : (s.setCl sl (fun c => { c with tags := ui &&& TAGMASK s })).sel = some sl := hsl
      rw [hsl'] at h1
      obtain ⟨L2, r2, _, _⟩ := managechildwindows_reg host hh fuel
        ((same_setCl s sl _ rfl rfl).reg hr) (hinv.sel sl hsl) h1
      have r3 := tagLoop_reg ui _ s2 s3 L2 c r2 h3
      exact ⟨L2, arrange_reg r3 h⟩
    · simp at h
      subst h
      exact ⟨L, hr, hv⟩

theorem focusstack_last {s t : State} {dir : Int} (h : focusstack s dir = .ok t) :
    t = s ∨ ∃ c, focus s c = .ok t := by
  unfold focusstack at h
  split at h
  · simp at h
    exact Or.inl h.symm
  · simp only at h
    obtain ⟨c, _, h⟩ := bind_eq_ok.1 h
    split at h
    · exact Or.inr ⟨c, h⟩
    · simp at h
      exact Or.inl h.symm

theorem focusstack_reg {s t : State} {L : List Nat} {dir : Int} (hr : Reg s L) (hv : Vis s)
    (h : focusstack s dir = .ok t) : Reg t L ∧ Vis t := by
  obtain ⟨S, hinv⟩ := hr.inv
  obtain ⟨S', hk, _, _, i1⟩ := focusstack_of_ok hinv h
  refine ⟨⟨⟨_, i1⟩, hr.noself.noself_of_keeps hk⟩, ?_⟩
  rcases focusstack_last h with rfl | ⟨c, hc⟩
  · exact hv
  · exact vis_of_settled (focus_post hc)

theorem movestack_last {s t : State} {dir : Int} (h : movestack s dir = .ok t) :
    t = s ∨ ∃ s', arrange s' = .ok t := by
  unfold movestack at h
  simp only at h
  obtain ⟨c, _, h⟩ := bind_eq_ok.1 h
  obtain ⟨r, _, h⟩ := bind_eq_ok.1 h
  obtain ⟨p, pc⟩ := r
  simp only at h
  split at h
  · simp at h
    exact Or.inl h.symm
  · split at h
    · simp at h
      exact Or.inl h.symm
    · obtain ⟨sl, _, h⟩ := bind_eq_ok.1 h
      exact Or.inr ⟨_, h⟩

theorem movestack_reg {s t : State} {L : List Nat} {dir : Int} (hr : Reg s L) (hv : Vis s)
    (h : movestack s dir = .ok t) : ∃ L', Reg t L' ∧ Vis t := by
  obtain ⟨S, hinv⟩ := hr.inv
  obtain ⟨L', S', i1, hk⟩ := movestack_of_ok hinv h
  refine ⟨L', ⟨⟨_, i1⟩, hr.noself.noself_of_keeps hk⟩, ?_⟩
  rcases movestack_last h with rfl | ⟨c, hc⟩
  · exact hv
  · exact vis_of_settled (arrange_post hc)

theorem zoom_last {s t : State} (h : zoom s = .ok t) :
    t = s ∨ ∃ s', arrange s' = .ok t := by
  unfold zoom at h
  obtain ⟨a, _, h⟩ := bind_eq_ok.1 h
  simp only at h
  split at h
  · simp at h
    exact Or.inl h.symm
  · obtain ⟨first, _, h⟩ := bind_eq_ok.1 h
    obtain ⟨c, _, h⟩ := bind_eq_ok.1 h
    split at h
    · simp at h
      exact Or.inl h.symm
    · obtain ⟨s1, _, h⟩ := bind_eq_ok.1 h
      obtain ⟨s2, _, h⟩ := bind_eq_ok.1 h
      obtain ⟨s3, _, h⟩ := bind_eq_ok.1 h
      exact Or.inr ⟨_, h⟩

theorem zoom_reg {s t : State} {L : List Nat} (hr : Reg s L) (hv : Vis s)
    (h : zoom s = .ok t) : ∃ L', Reg t L' ∧ Vis t := by
  obtain ⟨S, hinv⟩ := hr.inv
  obtain ⟨L', S', i1, hk⟩ := zoom_of_ok hinv h
  refine ⟨L', ⟨⟨_, i1⟩, hr.noself.noself_of_keeps hk⟩, ?_⟩
  rcases zoom_last h with rfl | ⟨c, hc⟩
  · exact hv
  · exact vis_of_settled (arrange_post hc)

theorem focusmon_reg {s t : State} {L : List Nat} {dir : Int} (hr : Reg s L) (hv : Vis s)
    (h : focusmon s dir = .ok t) : Reg t L ∧ Vis t := by
  unfold focusmon at h
  split at h
  · simp at h
    subst h
    exact ⟨hr, hv⟩
  · simp only at h
    have hs1 : Same s (if s.selmon.isNone then { s with selmon := s.mons } else s) := by
      split
      · exact same_selmon s _
      · exact Same.same_refl s
    have hv1 : Vis (if s.selmon.isNone then { s with selmon := s.mons } else s) := by
      split
      · exact hv
      · exact hv
    generalize (if s.selmon.isNone then { s with selmon := s.mons } else s) = s1 at h hs1 hv1
    obtain ⟨cur, _, h⟩ := bind_eq_ok.1 h
    obtain ⟨target, _, h⟩ := bind_eq_ok.1 h
    split at h
    · obtain ⟨c, hc, h⟩ := bind_eq_ok.1 h
      have r2 : Reg { s1 with selmon := target } L := (same_selmon s1 target).reg (hs1.reg hr)
      split at h
      · obtain ⟨S, i2⟩ := r2.inv
        refine focus_reg r2 (fun i hi => ?_) h
        rw [skipWhile_chain _ i2.stack i2.stack_length_le] at hc
        have := Except.ok.inj hc
        rw [hi] at this
        exact i2.mem_stack.1 (List.mem_of_find?_eq_some this)
      · simp at h
        subst h
        exact ⟨r2, hv1⟩
    · simp at h
      subst h
      exact ⟨hs1.reg hr, hv1⟩

theorem sendmon_reg {s t : State} {L : List Nat} {dir : Int} (hr : Reg s L) (hv : Vis s)
    (h : sendmon s dir = .ok t) : Reg t L ∧ Vis t := by
  unfold sendmon at h
  cases hsel : s.sel with
  | none =>
    simp [hsel] at h
    subst h
    exact ⟨hr, hv⟩
  | some sl =>
    simp only [hsel] at h
    split at h
    · simp at h
      subst h
      exact ⟨hr, hv⟩
    · obtain ⟨cur, _, h⟩ := bind_eq_ok.1 h
      obtain ⟨target, _, h⟩ := bind_eq_ok.1 h
      cases target with
      | none =>
        simp at h
        subst h
        exact ⟨hr, hv⟩
      | some tg =>
        simp only at h
        split at h
        · simp at h
          subst h
          exact ⟨hr, hv⟩
        · have h1 : Same s (s.setCl sl (fun c => { c with mon := some tg })) :=
            same_setCl s sl _ rfl rfl
          refine arrange_reg (Same.reg ?_ (h1.reg hr)) h
          split
          · exact ⟨rfl, rfl, rfl, rfl, rfl, rfl, fun _ => ⟨rfl, rfl⟩⟩
          · exact ⟨rfl, rfl, rfl, rfl, rfl, rfl, fun _ => ⟨rfl, rfl⟩⟩

theorem windowDestroyed_reg {s t : State} {L : List Nat} {hwnd : Nat} (hr : Reg s L)
    (hv : Vis s) (h : windowDestroyed s hwnd = .ok t) : ∃ L', Reg t L' ∧ Vis t := by
  unfold windowDestroyed at h
  obtain ⟨c, hc, h⟩ := bind_eq_ok.1 h
  obtain ⟨S, hinv⟩ := hr.inv
  cases c with
  | none =>
    simp at h
    subst h
    exact ⟨L, hr, hv⟩
  | some c =>
    simp only at h
    split at h
    · exact ⟨_, unmanage_reg hr (getclient_mem hinv hc) h⟩
    · simp at h
      subst h
      exact ⟨L, (same_setCl s c _ rfl rfl).reg hr, vis_setCl c _ hv rfl rfl⟩

theorem update_client_monitor_reg {host : Host} {s t : State} {L : List Nat} {c : Nat}
    (hr : Reg s L) (h : update_client_monitor host s c = .ok t) : Reg t L := by
  unfold update_client_monitor at h
  obtain ⟨m, _, h⟩ := bind_eq_ok.1 h
  split at h
  · simp at h
    subst h
    exact (same_setCl s c _ rfl rfl).reg hr
  · simp at h
    subst h
    exact hr

/-- The notification for a window that is not managed yet and is to be selected: test it,
manage it and its children, select it and arrange. -/
theorem adopt_select_reg (host : Host) (hh : HostOk host) (fuel : Nat) {s t : State}
    {L : List Nat} {hwnd : Nat} (hr : Reg s L) (hv : Vis s)
    (h : (do
      let (s1, ok) ← ismanageable host fuel s hwnd
      if ok then do
        let (s2, c) ← manage s1 hwnd (host hwnd).info
        let (s3, _) ← managechildwindows host fuel s2 c
        let s4 ← setselected s3 c
        arrange s4
      else pure s1 : Run State) = .ok t) :
    ∃ L', Reg t L' ∧ Vis t := by
  obtain ⟨r, h1, h⟩ := bind_eq_ok.1 h
  obtain ⟨s1, ok⟩ := r
  obtain ⟨L1, r1, _, v1, z1⟩ := ismanageable_reg host hh fuel s L hwnd s1 ok hr h1
  simp only at h
  split at h
  · rename_i hok
    obtain ⟨r2, h2, h⟩ := bind_eq_ok.1 h
    obtain ⟨s2, c⟩ := r2
    obtain ⟨L2, rg2, _, m2, _⟩ := manage_reg r1 (hh _ (z1 hok)) h2
    obtain ⟨r3, h3, h⟩ := bind_eq_ok.1 h
    obtain ⟨s3, c3⟩ := r3
    simp only at h3 h
    cases c with
    | none => simp [managechildwindows, deref] at h3
    | some ci =>
      obtain ⟨L3, rg3, m3, _⟩ := managechildwindows_reg host hh fuel rg2 (m2 ci rfl) h3
      obtain ⟨s4, h4, h⟩ := bind_eq_ok.1 h
      have rg4 := (setselected_reg rg3 (fun i hi => by cases hi; exact m3) h4).1
      exact ⟨L3, arrange_reg rg4 h⟩
  · simp at h
    subst h
    exact ⟨L1, r1, v1 hv⟩

theorem windowCreated_reg (host : Host) (hh : HostOk host) (fuel : Nat) {s t : State}
    {L : List Nat} {hwnd : Nat} (hr : Reg s L) (hv : Vis s)
    (h : windowCreated host fuel s hwnd = .ok t) : ∃ L', Reg t L' ∧ Vis t := by
  unfold windowCreated at h
  obtain ⟨c, _, h⟩ := bind_eq_ok.1 h
  split at h
  · simp at h
    subst h
    exact ⟨L, hr, hv⟩
  · obtain ⟨r, h1, h⟩ := bind_eq_ok.1 h
    obtain ⟨s1, ok⟩ := r
    obtain ⟨L1, r1, _, v1, z1⟩ := ismanageable_reg host hh fuel s L hwnd s1 ok hr h1
    simp only at h
    split at h
    · rename_i hok
      obtain ⟨r2, h2, hA⟩ := bind_eq_ok.1 h
      obtain ⟨s2, c2⟩ := r2
      simp only at hA
      obtain ⟨L2, rg2, _, m2, _⟩ := manage_reg r1 (hh _ (z1 hok)) h2
      obtain ⟨r3, h3, hB⟩ := bind_eq_ok.1 hA
      obtain ⟨s3, c3⟩ := r3
      simp only at h3 hB
      cases c2 with
      | none => simp [managechildwindows, deref] at h3
      | some ci =>
        obtain ⟨L3, rg3, _, _⟩ := managechildwindows_reg host hh fuel rg2 (m2 ci rfl) h3
        exact ⟨L3, arrange_reg rg3 hB⟩
    · simp at h
      subst h
      exact ⟨L1, r1, v1 hv⟩

theorem windowUncloaked_reg (host : Host) (hh : HostOk host) (fuel : Nat) {s t : State}
    {L : List Nat} {hwnd : Nat} (hr : Reg s L) (hv : Vis s)
    (h : windowUncloaked host fuel s hwnd = .ok t) : ∃ L', Reg t L' ∧ Vis t := by
  unfold windowUncloaked at h
  split at h
  · simp at h
    subst h
    exact ⟨L, hr, hv⟩
  · obtain ⟨c, _, h⟩ := bind_eq_ok.1 h
    split at h
    · simp at h
      subst h
      exact ⟨L, hr, hv⟩
    · exact adopt_select_reg host hh fuel hr hv h

theorem windowActivated_reg (host : Host) (hh : HostOk host) (fuel : Nat) {s t : State}
    {L : List Nat} {hwnd : Nat} (hr : Reg s L) (hv : Vis s)
    (h : windowActivated host fuel s hwnd = .ok t) : ∃ L', Reg t L' ∧ Vis t := by
  unfold windowActivated at h
  obtain ⟨c, hc, h⟩ := bind_eq_ok.1 h
  obtain ⟨S, hinv⟩ := hr.inv
  cases c with
  | none =>
    exact adopt_select_reg host hh fuel hr hv h
  | some c =>
    simp only at h
    obtain ⟨r1, h1, h⟩ := bind_eq_ok.1 h
    obtain ⟨s1, c1⟩ := r1
    simp only at h
    obtain ⟨s2, h2, h⟩ := bind_eq_ok.1 h
    obtain ⟨s3, h3, h⟩ := bind_eq_ok.1 h
    obtain ⟨s4, h4, h⟩ := bind_eq_ok.1 h
    obtain ⟨L1, rg1, m1, _⟩ := managechildwindows_reg host hh fuel hr (getclient_mem hinv hc) h1
    have rg2 := update_client_monitor_reg rg1 h2
    obtain ⟨rg3, v3⟩ := setselected_reg rg2 (fun i hi => by cases hi; exact m1) h3
    have g4 : Reg s4 L1 ∧ Vis s4 := by
      split at h4
      · split at h4
        · exact arrange_reg ((same_setCl s3 _ _ rfl rfl).reg rg3) h4
        · simp at h4
          subst h4
          exact ⟨(same_setCl s3 _ _ rfl rfl).reg rg3, vis_setCl _ _ v3 rfl rfl⟩
      · simp at h4
        subst h4
        exact ⟨rg3, v3⟩
    split at h
    · split at h
      · exact zoom_reg ((same_setCl s4 _ _ rfl rfl).reg g4.1) (vis_setCl _ _ g4.2 rfl rfl) h
      · simp at h
        subst h
        exact ⟨L1, g4⟩
    · simp at h
      subst h
      exact ⟨L1, g4⟩

theorem handle_reg (host : Host) (hh : HostOk host) (fuel : Nat) {s t : State}
    {L : List Nat} (e : Event) (hr : Reg s L) (hv : Vis s)
    (hu : ∀ c, e = .unmanage c → c ∈ L) (h : handle host fuel s e = .ok t) :
    ∃ L', Reg t L' ∧ Vis t := by
  cases e with
  | view ui => exact ⟨L, view_reg hr hv h⟩
  | toggleview ui => exact ⟨L, toggleview_reg hr hv h⟩
  | tag ui => exact tag_reg host hh fuel hr hv h
  | toggletag ui => exact ⟨L, toggletag_reg hr hv h⟩
  | focusstack dir => exact ⟨L, focusstack_reg hr hv h⟩
  | movestack dir => exact movestack_reg hr hv h
  | zoom => exact zoom_reg hr hv h
  | focusmon dir => exact ⟨L, focusmon_reg hr hv h⟩
  | sendmon dir => exact ⟨L, sendmon_reg hr hv h⟩
  | unmanage c => exact ⟨_, unmanage_reg hr (hu c rfl) h⟩
  | windowCreated hwnd => exact windowCreated_reg host hh fuel hr hv h
  | windowDestroyed hwnd => exact windowDestroyed_reg hr hv h
  | windowActivated hwnd => exact windowActivated_reg host hh fuel hr hv h
  | windowUncloaked hwnd => exact windowUncloaked_reg host hh fuel hr hv h

theorem eventReach_reg {s : State} (h : EventReach s) : ∃ L, Reg s L ∧ Vis s := by
  induction h with
  | init s h1 h2 h3 h4 =>
    refine ⟨[], ⟨⟨[], h1, h2, List.Perm.refl _, ?_, ?_⟩, ?_⟩, ?_⟩
    · intro i hi
      cases hi
    · intro i hi
      rw [h3] at hi
      cases hi
    · intro i hi
      rw [h4] at hi
      cases hi
    · intro i hi
      rw [h3] at hi
      cases hi
  | setup s t host fuel ws _ hh h ih =>
    obtain ⟨L, hr, hv⟩ := ih
    unfold setupScan at h
    obtain ⟨s1, h1, h⟩ := bind_eq_ok.1 h
    obtain ⟨s2, h2, h⟩ := bind_eq_ok.1 h
    obtain ⟨L1, r1, _, _⟩ := enumChildWindows_reg host hh fuel ws s s1 L hr h1
    obtain ⟨r2, _⟩ := arrange_reg ((same_selmon s1 s1.mons).reg r1) h2
    exact ⟨L1, focus_reg r2 (fun i hi => by cases hi) h⟩
  | event s t host fuel e _ hh hu h ih =>
    obtain ⟨L, hr, hv⟩ := ih
    obtain ⟨S, hinv⟩ := hr.inv
    refine handle_reg host hh fuel e hr hv (fun c hc => ?_) h
    obtain ⟨L', hL', hm⟩ := hu c hc
    rw [← hL'.unique hinv.list]
    exact hm
  | hostShows s v _ ih =>
    obtain ⟨L, hr, hv⟩ := ih
    have hs : Same s { s with hostvis := v } :=
      ⟨rfl, rfl, rfl, rfl, rfl, rfl, fun _ => ⟨rfl, rfl⟩⟩
    exact ⟨L, hs.reg hr, hv⟩

/-- C6: in every state reached from the empty registry by the initial scan of `setup`, by
window notifications (created, destroyed, activated, uncloaked) and by user commands
(`view`, `toggleview`, `tag`, `toggletag`, `focusstack`, `movestack`, `zoom`, `focusmon`,
`sendmon`, `unmanage`), once the event has been handled the selection is empty, or the
selected client is a member of the Stack and visible under the current tag set of its
monitor. -/
theorem selection_in_stack_and_visible (s : State) (h : EventReach s) :
    s.sel = none ∨ ∃ i S, s.sel = some i ∧ IsChain s.snext s.stack S ∧ i ∈ S ∧
      isvisible s (some i) = true ∧
      ∀ m, (s.cl i).mon = some m →
        (s.cl i).tags &&& (s.mon m).tagset (s.mon m).seltags ≠ 0 := by
  obtain ⟨L, hr, hv⟩ := eventReach_reg h
  obtain ⟨S, hinv⟩ := hr.inv
  cases hsel : s.sel with
  | none => exact Or.inl rfl
  | some i =>
    refine Or.inr ⟨i, S, rfl, hinv.stack, hinv.mem_stack.2 (hinv.sel i hsel), hv i hsel, ?_⟩
    intro m hm
    have := hv i hsel
    simpa [isvisible, hm] using this

theorem exHost_ok : HostOk exHost := fun w hw => by
  simpa [exHost] using hw.symm

theorem exCreated_step : handle exHost 1 exEmpty (.windowCreated 101) = .ok exCreated := by
  rfl

theorem exCreated_sel : exCreated.sel = some 0 := by
  rfl

theorem selection_in_stack_and_visible_witness :
    exCreated.sel = none ∨ ∃ i S, exCreated.sel = some i ∧
      IsChain exCreated.snext exCreated.stack S ∧ i ∈ S ∧
      isvisible exCreated (some i) = true ∧
      ∀ m, (exCreated.cl i).mon = some m →
        (exCreated.cl i).tags &&& (exCreated.mon m).tagset (exCreated.mon m).seltags ≠ 0 :=
  selection_in_stack_and_visible exCreated
    (.event exEmpty exCreated exHost 1 (.windowCreated 101)
      (.init exEmpty rfl rfl rfl rfl) exHost_ok (fun c hc => by cases hc) exCreated_step)

/-! ## Monitors -/

/-! ### Monitor records -/

theorem monGeometry_ok (showbar topbar : Bool) (l t r b : Int) (m : Monitor)
    (hh : 20 ≤ b - t) :
    BarLayoutOk showbar (monGeometry showbar topbar l t r b m) ∧
      (monGeometry showbar topbar l t r b m).sx = l ∧
      (monGeometry showbar topbar l t r b m).sy = t ∧
      (monGeometry showbar topbar l t r b m).sw = r - l ∧
      (monGeometry showbar topbar l t r b m).sh = b - t ∧
      (monGeometry showbar topbar l t r b m).hmon = m.hmon := by
  cases showbar <;> cases topbar <;> simp [BarLayoutOk, monGeometry] <;> omega

theorem monFind_chain (s : State) (hmon : Nat) :
    ∀ (l : List Nat) (fuel : Nat) (p prev : Option Nat), IsChain s.mnext p l → l.length ≤ fuel →
      ∃ found q, monFind s hmon fuel p prev = .ok (found, q) ∧
        (∀ k, found = some k → k ∈ l ∧ (s.mon k).hmon = hmon) ∧
        (found = none → l ≠ [] → q.isSome = true) := by
  intro l
  induction l with
  | nil =>
    intro fuel p prev h _
    simp at h
    subst h
    refine ⟨none, prev, ?_, ?_, ?_⟩
    · cases fuel <;> rfl
    · intro k hk; cases hk
    · intro _ h; exact (h rfl).elim
  | cons a l ih =>
    intro fuel p prev h hf
    obtain ⟨rfl, h2⟩ := h
    cases fuel with
    | zero => simp at hf
    | succ f =>
      have hf' : l.length ≤ f := by simpa using hf
      unfold monFind
      by_cases hm : (s.mon a).hmon = hmon
      · rw [if_pos hm]
        refine ⟨some a, prev, rfl, ?_, ?_⟩
        · intro k hk
          cases hk
          exact ⟨List.mem_cons_self _ _, hm⟩
        · intro h; cases h
      · rw [if_neg hm]
        obtain ⟨found, q, e, h1, h2'⟩ := ih f (s.mnext a) (some a) h2 hf'
        refine ⟨found, q, e, fun k hk => ⟨List.mem_cons_of_mem _ (h1 k hk).1, (h1 k hk).2⟩, ?_⟩
        intro hn _
        cases l with
        | nil =>
          simp at h2
          rw [h2] at e
          cases f <;> simp [monFind] at e <;> rw [← e.2] <;> rfl
        | cons b l' => exact h2' hn (by simp)

/-- C20: for every display `d` that `GetMonitorInfoW` answers for and whose rectangle is at
least as high as the bar (20), `monenumproc` returns, and the record it updated or created
for `d` has the display rectangle as screen rectangle, a bar height that is not negative and
a work rectangle inside the screen rectangle; with the bar shown, at the top or at the
bottom, the bar strip is inside the screen rectangle and does not overlap the work
rectangle, and with the bar hidden the work rectangle is the screen rectangle. -/
theorem monenumproc_bar_layout (s : State) (taskbar : Bool) (d : Display) (M : List Nat)
    (hM : IsChain s.mnext s.mons M) (hlen : M.length ≤ s.nmons) (hv : d.valid = true)
    (hh : 20 ≤ (displayRect taskbar d).2.2.2 - (displayRect taskbar d).2.1) :
    ∃ t k, monenumproc s taskbar d = .ok t ∧ (k ∈ M ∨ k = s.nmons) ∧
      (t.mon k).hmon = d.hmon ∧
      ((t.mon k).sx, (t.mon k).sy, (t.mon k).sx + (t.mon k).sw, (t.mon k).sy + (t.mon k).sh) =
        displayRect taskbar d ∧
      BarLayoutOk s.showbar (t.mon k) := by
  obtain ⟨found, q, e, h1, h2⟩ := monFind_chain s d.hmon M s.nmons s.mons none hM hlen
  unfold monenumproc
  simp only [hv, Bool.not_true, Bool.false_eq_true, if_false, e, run_ok_bind]
  simp only [displayRect] at hh ⊢
  have g := fun m => monGeometry_ok s.showbar s.cfg.topbar
    (if taskbar then d.wleft else d.left) (if taskbar then d.wtop else d.top)
    (if taskbar then d.wright else d.right) (if taskbar then d.wbottom else d.bottom) m hh
  cases found with
  | some k =>
    obtain ⟨g1, g2, g3, g4, g5, g6⟩ := g (s.mon k)
    refine ⟨_, k, rfl, Or.inl (h1 k rfl).1, ?_, ?_, ?_⟩
    · simp only [State.setMon, Function.update_same]
      rw [g6]
      exact (h1 k rfl).2
    · simp only [State.setMon, Function.update_same]
      rw [g2, g3, g4, g5]
      simp
    · simp only [State.setMon, Function.update_same]
      exact g1
  | none =>
    obtain ⟨g1, g2, g3, g4, g5, g6⟩ := g { hmon := d.hmon }
    simp only
    cases hmons : s.mons with
    | none =>
      refine ⟨_, s.nmons, rfl, Or.inr rfl, ?_, ?_, ?_⟩
      · simp only [Function.update_same]
        exact g6
      · simp only [Function.update_same]
        rw [g2, g3, g4, g5]
        simp
      · simp only [Function.update_same]
        exact g1
    | some hd =>
      have hne : M ≠ [] := by
        intro e
        rw [e, hmons] at hM
        simp [IsChain] at hM
      obtain ⟨p, hp⟩ := Option.isSome_iff_exists.1 (h2 rfl hne)
      subst hp
      refine ⟨_, s.nmons, rfl, Or.inr rfl, ?_, ?_, ?_⟩
      · simp only [Function.update_same]
        exact g6
      · simp only [Function.update_same]
        rw [g2, g3, g4, g5]
        simp
      · simp only [Function.update_same]
        exact g1

theorem exRebuild_mons : IsChain exRebuild.mnext exRebuild.mons [0] := by
  decide

theorem monenumproc_bar_layout_witness :
    ∃ t k, monenumproc exRebuild false exDisplay = .ok t ∧ (k ∈ [0] ∨ k = exRebuild.nmons) ∧
      (t.mon k).hmon = exDisplay.hmon ∧
      ((t.mon k).sx, (t.mon k).sy, (t.mon k).sx + (t.mon k).sw, (t.mon k).sy + (t.mon k).sh) =
        displayRect false exDisplay ∧
      BarLayoutOk exRebuild.showbar (t.mon k) :=
  monenumproc_bar_layout exRebuild false exDisplay [0] exRebuild_mons (by decide) rfl
    (by decide)

/-- C16 fails in the code: in `exRebuild` the monitor with platform id 7 shows tag 3 under
the monocle layout; a rebuild in which the host enumerates the same display empties `mons`
before `monenumproc` looks for the id, so a fresh zeroed record (cell 1) takes its place:
both tag-set slots are 0 and both layout slots are `NULL`, while `selmon` still points to the
old record. -/
theorem buildmonitors_forgets_monitor_state :
    (exRebuild.mon 0).hmon = 7 ∧ (exRebuild.mon 0).tagset 0 = 4 ∧
      ((exRebuild.mon 0).lt 0).map (fun l => l.arrange) = some (some .monocle) ∧
      Except.map (fun t => (t.mons, t.mnext 1, (t.mon 1).hmon, t.selmon))
        (buildmonitors exRebuild false [exDisplay]) = .ok (some 1, none, 7, some 0) ∧
      Except.map (fun t => ((t.mon 1).tagset 0, (t.mon 1).tagset 1, ((t.mon 1).lt 0).isSome,
          ((t.mon 1).lt 1).isSome))
        (buildmonitors exRebuild false [exDisplay]) = .ok (0, 0, false, false) := by
  decide

/-- C11 fails in the code: after the rebuild of `exRebuild` the only monitor is a fresh
record whose tag sets are 0; `manage` of window 101 on that display makes it the client's
monitor and `applyrules`, with no rule matching, falls back to that monitor's current tag
set: the new client has `tags = 0`. -/
theorem manage_after_rebuild_zero_tags :
    Except.map (fun r => (r.2, (r.1.cl 0).mon, (r.1.cl 0).tags))
      (buildmonitors exRebuild false [exDisplay] >>= fun t => manage t 101 { hmon := 7 }) =
      .ok (some 0, some 1, 0) := by
  decide

theorem exTile_inv : Inv exTile [0, 1, 2] [0, 1, 2] :=
  ⟨by decide, by decide, by decide, by decide, fun i h => by cases h; decide⟩

theorem exTile_monsOk : MonsOk exTile [0] :=
  ⟨by decide, by decide, by decide⟩

/-! ### Tag commands with an empty mask -/

theorem setCl_tags_self (s : State) (i : Nat) :
    s.setCl i (fun c => { c with tags := (s.cl i).tags }) = s := by
  unfold State.setCl
  have : Function.update s.cl i { s.cl i with tags := (s.cl i).tags } = s.cl :=
    Function.update_eq_self i s.cl
  rw [this]

theorem setMon_tagset_self (s : State) (k ts : Nat)
    (hts : ts = (s.mon k).tagset (s.mon k).seltags) :
    s.setMon k (fun m => { m with tagset := Function.update m.tagset m.seltags ts }) = s := by
  subst hts
  unfold State.setMon
  simp only [Function.update_eq_self]

/-- `arrange` in a state whose selection is what its own search finds and heads the Stack:
it returns and leaves both orderings and the selection as they are. -/
theorem arrange_settled {s : State} {L S M : List Nat} (hinv : Inv s L S) (hM : MonsOk s M)
    (hfind : S.find? (pickable s) = s.sel) (hhead : ∀ c, s.sel = some c → S.head? = some c) :
    ∃ t, arrange s = .ok t ∧ Keeps s t ∧ TagsKept s t L S := by
  obtain ⟨t, e, hk, hn, hc, hs, _, i1, _⟩ := arrange_inv hinv hM
  have hst : stackAfter S (S.find? (pickable s)) = S := by
    rw [hfind]
    cases hsel : s.sel with
    | none => rfl
    | some c =>
      have := hhead c hsel
      cases S with
      | nil => simp at this
      | cons a S' =>
        simp at this
        subst this
        simp [stackAfter]
  rw [hst] at i1
  exact ⟨t, e, hk, hk.keep_mon, hk.keep_tags, i1.list, i1.stack, hs.trans hfind⟩

theorem tag_empty_mask (host : Host) (fuel : Nat) (s : State) (ui : Nat)
    (h0 : ui &&& TAGMASK s = 0) : tag host fuel s ui = .ok s := by
  unfold tag
  cases s.sel with
  | none => rfl
  | some sl => simp [h0]

theorem toggletag_empty_mask (s : State) (ui : Nat) (h0 : ui &&& TAGMASK s = 0) :
    toggletag s ui = .ok s ∨ toggletag s ui = arrange s := by
  unfold toggletag
  cases s.sel with
  | none => exact Or.inl rfl
  | some sl =>
    simp only [h0, Nat.xor_zero]
    by_cases h : (s.cl sl).tags ≠ 0
    · rw [if_pos h, setCl_tags_self]
      exact Or.inr rfl
    · rw [if_neg h]
      exact Or.inl rfl

theorem toggleview_empty_mask (s : State) (ui k : Nat) (hsel : s.selmon = some k)
    (h0 : ui &&& TAGMASK s = 0) :
    toggleview s ui = .ok s ∨ toggleview s ui = arrange s := by
  unfold toggleview
  have e1 : (if s.selmon.isNone then { s with selmon := s.mons } else s) = s := by
    rw [hsel]; rfl
  simp only [e1]
  simp only [hsel, deref, run_pure, run_ok_bind, h0, Nat.xor_zero]
  by_cases h : (s.mon k).tagset (s.mon k).seltags ≠ 0
  · rw [if_pos h, setMon_tagset_self s k _ rfl]
    exact Or.inr rfl
  · rw [if_neg h]
    exact Or.inl rfl

theorem view_empty_mask (s : State) (ui k : Nat) (hsel : s.selmon = some k)
    (h0 : ui &&& TAGMASK s = 0) :
    ((s.mon k).tagset (s.mon k).seltags = 0 ∧ view s ui = .ok s) ∨
      ((s.mon k).tagset (s.mon k).seltags ≠ 0 ∧
        view s ui = arrange (s.setMon k (fun m => { m with seltags := m.seltags ^^^ 1 }))) := by
  unfold view
  have e1 : (if s.selmon.isNone then { s with selmon := s.mons } else s) = s := by
    rw [hsel]; rfl
  simp only [e1]
  simp only [hsel, deref, run_pure, run_ok_bind, h0]
  by_cases h : 0 = (s.mon k).tagset (s.mon k).seltags
  · rw [if_pos h]
    exact Or.inl ⟨h.symm, rfl⟩
  · rw [if_neg h]
    refine Or.inr ⟨fun e => h e.symm, ?_⟩
    have e2 : ui &&& TAGMASK (s.setMon k (fun m => { m with seltags := m.seltags ^^^ 1 })) = 0 :=
      h0
    simp only [e2, ne_eq, not_true_eq_false, if_false]

/-- C12 (amended): for a mask without a bit inside the tag width, in a well-formed state
with a selected monitor whose selection is the one `arrange` settles on: `tag` returns the
state itself; `toggletag` and `toggleview` return with every monitor record, every client's
tags, the List, the Stack and the selection unchanged; `view` returns with every tag-set
slot, every client's tags and the List unchanged, and flips the toggle index of the
selected monitor unless its current tag set is 0. -/
theorem empty_mask_commands (host : Host) (fuel : Nat) (s : State) (L S M : List Nat)
    (k ui : Nat) (hinv : Inv s L S) (hM : MonsOk s M) (hsel : s.selmon = some k)
    (hfind : S.find? (pickable s) = s.sel) (hhead : ∀ c, s.sel = some c → S.head? = some c)
    (h0 : ui &&& TAGMASK s = 0) :
    tag host fuel s ui = .ok s ∧
      (∃ t, toggletag s ui = .ok t ∧ TagsKept s t L S) ∧
      (∃ t, toggleview s ui = .ok t ∧ TagsKept s t L S) ∧
      (∃ t, view s ui = .ok t ∧ (∀ j, (t.mon j).tagset = (s.mon j).tagset) ∧
        (∀ j, j ≠ k → t.mon j = s.mon j) ∧
        (t.mon k).seltags = (if (s.mon k).tagset (s.mon k).seltags = 0 then (s.mon k).seltags
          else (s.mon k).seltags ^^^ 1) ∧
        (∀ i, (t.cl i).tags = (s.cl i).tags) ∧ IsChain t.next t.clients L) := by
  have hself : TagsKept s s L S := ⟨rfl, fun _ => rfl, hinv.list, hinv.stack, rfl⟩
  obtain ⟨ta, ea, _, ka⟩ := arrange_settled hinv hM hfind hhead
  refine ⟨tag_empty_mask host fuel s ui h0, ?_, ?_, ?_⟩
  · rcases toggletag_empty_mask s ui h0 with e | e
    · exact ⟨s, e, hself⟩
    · exact ⟨ta, e.trans ea, ka⟩
  · rcases toggleview_empty_mask s ui k hsel h0 with e | e
    · exact ⟨s, e, hself⟩
    · exact ⟨ta, e.trans ea, ka⟩
  · rcases view_empty_mask s ui k hsel h0 with ⟨hz, e⟩ | ⟨hz, e⟩
    · refine ⟨s, e, fun _ => rfl, fun _ _ => rfl, ?_, fun _ => rfl, hinv.list⟩
      rw [if_pos hz]
    · have i2 : Inv (s.setMon k (fun m => { m with seltags := m.seltags ^^^ 1 })) L S :=
        ⟨hinv.list, hinv.stack, hinv.perm, hinv.bound, hinv.sel⟩
      have m2 : MonsOk (s.setMon k (fun m => { m with seltags := m.seltags ^^^ 1 })) M := by
        refine ⟨hM.chain, hM.bound, fun m hm => ?_⟩
        have := hM.layout m hm
        by_cases hmk : m = k
        · subst hmk
          simpa [mon_get_layout, State.setMon] using this
        · simpa [mon_get_layout, State.setMon, Function.update_noteq hmk] using this
      obtain ⟨t, et, hk, hn, hc, _, _, i3, _⟩ := arrange_inv i2 m2
      refine ⟨t, e.trans et, fun j => ?_, fun j hj => ?_, ?_, fun i => ?_, i3.list⟩
      · rw [hk.keep_mon]
        by_cases hjk : j = k
        · subst hjk
          simp [State.setMon]
        · simp [State.setMon, Function.update_noteq hjk]
      · rw [hk.keep_mon]
        simp [State.setMon, Function.update_noteq hj]
      · rw [hk.keep_mon, if_neg hz]
        simp [State.setMon]
      · rw [hk.keep_tags]
        rfl

theorem empty_mask_commands_witness :
    tag exHost 1 exTile 512 = .ok exTile ∧
      (∃ t, toggletag exTile 512 = .ok t ∧ TagsKept exTile t [0, 1, 2] [0, 1, 2]) ∧
      (∃ t, toggleview exTile 512 = .ok t ∧ TagsKept exTile t [0, 1, 2] [0, 1, 2]) ∧
      (∃ t, view exTile 512 = .ok t ∧ (∀ j, (t.mon j).tagset = (exTile.mon j).tagset) ∧
        (∀ j, j ≠ 0 → t.mon j = exTile.mon j) ∧
        (t.mon 0).seltags = (if (exTile.mon 0).tagset (exTile.mon 0).seltags = 0
          then (exTile.mon 0).seltags else (exTile.mon 0).seltags ^^^ 1) ∧
        (∀ i, (t.cl i).tags = (exTile.cl i).tags) ∧ IsChain t.next t.clients [0, 1, 2]) :=
  empty_mask_commands exHost 1 exTile [0, 1, 2] [0, 1, 2] [0] 0 512 exTile_inv exTile_monsOk
    rfl (by decide) (fun c h => by cases h; rfl) (by decide)

/-- C12 fails as stated: in `exView` the monitor shows tag 1, with tag 2 in its other
tag-set slot, and client 0 is selected; `view` with the mask 512, which has no bit inside
the nine tags, is not rejected: it switches the monitor to the other slot (toggle index 1,
tag 2), no client is visible any more and the selection becomes empty. And in `exMove`,
where client 0 is selected while monitor 1 is the selected monitor, `toggleview` with the
mask 512 runs `arrange`, which selects client 1. -/
theorem view_empty_mask_switches :
    512 &&& TAGMASK exView = 0 ∧ (exView.mon 0).seltags = 0 ∧ exView.sel = some 0 ∧
      Except.map (fun t => ((t.mon 0).seltags, (t.mon 0).tagset (t.mon 0).seltags, t.sel))
        (view exView 512) = .ok (1, 2, none) ∧
      512 &&& TAGMASK exMove = 0 ∧ exMove.sel = some 0 ∧
      Except.map (fun t => t.sel) (toggleview exMove 512) = .ok (some 1) := by
  decide

/-! ### The cyclic order of the monitors -/

theorem isChain_head {nx : Nat → Option Nat} {p : Option Nat} {l : List Nat}
    (h : IsChain nx p l) : p = l.head? := by
  cases l with
  | nil => simpa using h
  | cons a l => exact h.1

theorem prevLoop_chain (nx : Nat → Option Nat) (cur : Nat) :
    ∀ (A : List Nat) (fuel : Nat) (p prev0 : Option Nat) (B : List Nat),
      IsChain nx p (A ++ cur :: B) → cur ∉ A → A.length < fuel →
      prevLoop nx cur fuel p prev0 =
        .ok (match A.getLast? with
          | some a => some a
          | none => prev0) := by
  intro A
  induction A with
  | nil =>
    intro fuel p prev0 B h _ hf
    obtain ⟨rfl, _⟩ := h
    cases fuel with
    | zero => simp at hf
    | succ f => simp [prevLoop]
  | cons a A ih =>
    intro fuel p prev0 B h hc hf
    obtain ⟨rfl, h2⟩ := h
    simp only [List.mem_cons, not_or] at hc
    cases fuel with
    | zero => simp at hf
    | succ f =>
      have hf' : A.length < f := by simpa using hf
      unfold prevLoop
      rw [if_neg (fun e => hc.1 e.symm), ih f (nx a) (some a) B h2 hc.2 hf']
      cases hA : A.getLast? with
      | none =>
        have : A = [] := List.getLast?_eq_none_iff.1 hA
        subst this
        rfl
      | some x =>
        cases A with
        | nil => simp at hA
        | cons b A' => simp [List.getLast?_cons_cons, hA]

theorem tailLoop_chain (nx : Nat → Option Nat) :
    ∀ (l : List Nat) (hd fuel : Nat), IsChain nx (some hd) (hd :: l) → l.length < fuel →
      tailLoop nx fuel hd = .ok (l.getLastD hd) := by
  intro l
  induction l with
  | nil =>
    intro hd fuel h hf
    obtain ⟨_, h2⟩ := h
    simp at h2
    cases fuel with
    | zero => simp at hf
    | succ f => simp [tailLoop, h2]
  | cons b l ih =>
    intro hd fuel h hf
    obtain ⟨_, h2⟩ := h
    have hb : nx hd = some b := h2.1
    cases fuel with
    | zero => simp at hf
    | succ f =>
      have hf' : l.length < f := by simpa using hf
      unfold tailLoop
      rw [hb]
      simp only
      rw [ih b f (hb ▸ h2) hf']
      cases l with
      | nil => rfl
      | cons c l' =>
        simp only [List.getLastD_eq_getLast?, List.getLast?_cons_cons]
        obtain ⟨x, hx⟩ : ∃ x, (c :: l').getLast? = some x :=
          Option.isSome_iff_exists.1 (by simp [List.getLast?_isSome])
        rw [hx]
        rfl

theorem targetmon_chain {s : State} {A B : List Nat} {cur : Nat} (dir : Int)
    (hM : IsChain s.mnext s.mons (A ++ cur :: B)) (hlen : (A ++ cur :: B).length ≤ s.nmons) :
    targetmon s cur dir = .ok (some (adjacentMon A cur B dir)) := by
  have hnd := hM.nodup
  have hcA : cur ∉ A := by
    intro h
    have := List.nodup_append.1 hnd
    exact this.2.2 h (List.mem_cons_self _ _)
  have hB : IsChain s.mnext (s.mnext cur) B := (IsChain.of_append hM).2
  have hhead : s.mons = (A ++ cur :: B).head? := isChain_head hM
  unfold targetmon adjacentMon
  by_cases hd : dir > 0
  · rw [if_pos hd, if_pos hd]
    rw [isChain_head hB]
    cases B with
    | nil =>
      simp only [List.head?_nil, Option.isSome_none, Bool.false_eq_true, if_false,
        List.nil_append]
      rw [hhead]
      cases A <;> simp
    | cons b B' => simp
  · rw [if_neg hd, if_neg hd]
    have hA : A.length < s.nmons := by
      simp at hlen
      omega
    rw [prevLoop_chain s.mnext cur A s.nmons s.mons none B hM hcA hA]
    simp only [run_ok_bind]
    cases hAl : A.getLast? with
    | some a =>
      simp only [Option.isSome_some, if_true]
      have hne : A ≠ [] := by intro e; rw [e] at hAl; simp at hAl
      rw [List.getLastD_eq_getLast?, List.getLast?_append_of_ne_nil _ hne, hAl]
      rfl
    | none =>
      have : A = [] := List.getLast?_eq_none_iff.1 hAl
      subst this
      simp only [Option.isSome_none, Bool.false_eq_true, if_false, List.nil_append,
        List.append_nil] at hhead ⊢
      rw [hhead]
      simp only [List.head?_cons, deref, run_pure, run_ok_bind]
      have hB' : B.length < s.nmons := by
        simp at hlen
        omega
      rw [tailLoop_chain s.mnext B cur s.nmons (IsChain.of_append hM) hB']
      rfl

/-! ### `focusmon` -/

theorem adjacentMon_mem {A B : List Nat} (cur : Nat) (dir : Int) (h2 : B ++ A ≠ []) :
    adjacentMon A cur B dir ∈ B ++ A := by
  unfold adjacentMon
  split
  · cases hl : B ++ A with
    | nil => exact (h2 hl).elim
    | cons a l => simp
  · rw [List.getLastD_eq_getLast?]
    obtain ⟨x, hx⟩ : ∃ x, (B ++ A).getLast? = some x :=
      Option.isSome_iff_exists.1 (by rw [List.getLast?_isSome]; exact h2)
    rw [hx]
    exact List.mem_of_getLast?_eq_some hx

theorem focusmon_spec {s : State} {L S M A B : List Nat} {cur : Nat} (dir : Int)
    (hinv : Inv s L S) (hM : MonsOk s M) (hdec : M = A ++ cur :: B)
    (hsel : s.selmon = some cur) (h2 : B ++ A ≠ []) :
    ∃ t S', focusmon s dir = .ok t ∧ t.selmon = some (adjacentMon A cur B dir) ∧
      t.sel = (S.find? (monFocusable s (adjacentMon A cur B dir))).or s.sel ∧
      Inv t L S' ∧ MonsOk t M := by
  subst hdec
  have hmons : s.mons.isNone = false := by
    rw [isChain_head hM.chain]
    cases A <;> rfl
  have e1 : (if s.selmon.isNone then { s with selmon := s.mons } else s) = s := by
    rw [hsel]; rfl
  have hne : adjacentMon A cur B dir ≠ cur := by
    intro e
    have hm := adjacentMon_mem cur dir h2
    rw [e] at hm
    have hnd := hM.chain.nodup
    have h1 := List.nodup_append.1 hnd
    rcases List.mem_append.1 hm with h | h
    · exact (List.nodup_cons.1 h1.2.1).1 h
    · exact h1.2.2 h (List.mem_cons_self _ _)
  have hcond : ((some (adjacentMon A cur B dir)).isSome &&
      (some (adjacentMon A cur B dir) != s.selmon)) = true := by
    rw [hsel]
    simp [hne]
  unfold focusmon
  rw [hmons]
  simp only [Bool.false_eq_true, if_false, e1]
  rw [hsel]
  simp only [deref, run_pure, run_ok_bind]
  rw [targetmon_chain dir hM.chain hM.bound]
  simp only [run_ok_bind]
  rw [← hsel, if_pos hcond]
  have hS2 : IsChain ({ s with selmon := some (adjacentMon A cur B dir) } : State).snext
      ({ s with selmon := some (adjacentMon A cur B dir) } : State).stack S := hinv.stack
  rw [skipWhile_chain _ hS2 hinv.stack_length_le]
  simp only [run_ok_bind]
  have hpred : (fun a => !!(((({ s with selmon := some (adjacentMon A cur B dir) } : State).cl a).mon
      == ({ s with selmon := some (adjacentMon A cur B dir) } : State).selmon) &&
      ISFOCUSABLE { s with selmon := some (adjacentMon A cur B dir) } a)) =
      monFocusable s (adjacentMon A cur B dir) := by
    funext a
    simp [monFocusable, ISFOCUSABLE, isvisible]
  rw [hpred]
  have i2 : Inv { s with selmon := some (adjacentMon A cur B dir) } L S :=
    ⟨hinv.list, hinv.stack, hinv.perm, hinv.bound, hinv.sel⟩
  have m2 : MonsOk { s with selmon := some (adjacentMon A cur B dir) } (A ++ cur :: B) :=
    ⟨hM.chain, hM.bound, hM.layout⟩
  cases hf : S.find? (monFocusable s (adjacentMon A cur B dir)) with
  | none =>
    simp only [Option.isSome_none, Bool.false_eq_true, if_false]
    exact ⟨_, S, rfl, rfl, rfl, i2, m2⟩
  | some c =>
    simp only [Option.isSome_some, if_true]
    have hcS : c ∈ S := List.mem_of_find?_eq_some hf
    have hgood := List.find?_some hf
    simp only [monFocusable, ISFOCUSABLE, Bool.and_eq_true, beq_iff_eq] at hgood
    obtain ⟨sn, es, hsn⟩ := setselected_visible hS2 hinv.stack_length_le hcS
      (show isvisible { s with selmon := some (adjacentMon A cur B dir) } (some c) = true from
        hgood.2.1.2)
    refine ⟨{ selected { s with selmon := some (adjacentMon A cur B dir) } c sn with
        cmds := s.cmds ++ [.setForeground (s.cl c).hwnd] }, c :: S.erase c, ?_, ?_, rfl, ?_, ?_⟩
    · unfold focus
      rw [es]
      simp [selected]
    · exact hgood.1
    · refine ⟨hinv.list, hsn, ?_, hinv.bound, ?_⟩
      · exact hinv.perm.trans (List.perm_cons_erase hcS)
      · intro i hi
        cases hi
        exact hinv.mem_stack.1 hcS
    · exact ⟨hM.chain, hM.bound, hM.layout⟩

/-- C15, amended: with at least two monitors, of which `cur` is the selected one,
`focusmon` returns and makes the cyclically adjacent monitor (the next one when the direction
is positive, else the previous one, wrapping at the ends of the monitor list) the selected
monitor; the selection becomes the first client in Stack order that is on that monitor and
focusable, and is left as it was when that monitor has no focusable client. `focusmon 1`
followed by `focusmon (-1)` restores the selected monitor. -/
theorem focusmon_selects_adjacent (s : State) (L S M A B : List Nat) (cur : Nat) (dir : Int)
    (hinv : Inv s L S) (hM : MonsOk s M) (hdec : M = A ++ cur :: B)
    (hsel : s.selmon = some cur) (h2 : B ++ A ≠ []) :
    (∃ t, focusmon s dir = .ok t ∧ t.selmon = some (adjacentMon A cur B dir) ∧
      t.sel = (S.find? (monFocusable s (adjacentMon A cur B dir))).or s.sel) ∧
    ∃ t u, focusmon s 1 = .ok t ∧ focusmon t (-1) = .ok u ∧ u.selmon = s.selmon := by
  refine ⟨?_, ?_⟩
  · obtain ⟨t, S1, e, h1, h3, -, -⟩ := focusmon_spec dir hinv hM hdec hsel h2
    exact ⟨t, e, h1, h3⟩
  · obtain ⟨t, S1, e, h1, -, i1, m1⟩ := focusmon_spec 1 hinv hM hdec hsel h2
    cases B with
    | cons b B1 =>
      have ht : t.selmon = some b := by rw [h1]; simp [adjacentMon]
      obtain ⟨u, S2, e2, h4, -, -, -⟩ := focusmon_spec (A := A ++ [cur]) (B := B1) (-1) i1 m1
        (by rw [hdec]; simp) ht (by simp)
      refine ⟨t, u, e, e2, ?_⟩
      rw [h4, hsel]
      simp [adjacentMon]
    | nil =>
      cases A with
      | nil => exact (h2 rfl).elim
      | cons a A1 =>
        have ht : t.selmon = some a := by rw [h1]; simp [adjacentMon]
        obtain ⟨u, S2, e2, h4, -, -, -⟩ := focusmon_spec (A := []) (B := A1 ++ [cur]) (-1) i1 m1
          (by rw [hdec]; simp) ht (by simp)
        refine ⟨t, u, e, e2, ?_⟩
        rw [h4, hsel]
        simp [adjacentMon]

theorem exMove_inv : Inv exMove [0, 1] [0, 1] :=
  ⟨by decide, by decide, by decide, by decide, fun i h => by cases h; decide⟩

theorem exMove_monsOk : MonsOk exMove [0, 1] :=
  ⟨by decide, by decide, by decide⟩

theorem focusmon_selects_adjacent_witness :
    (∃ t, focusmon exMove 1 = .ok t ∧ t.selmon = some (adjacentMon [0] 1 [] 1) ∧
      t.sel = ([0, 1].find? (monFocusable exMove (adjacentMon [0] 1 [] 1))).or exMove.sel) ∧
    ∃ t u, focusmon exMove 1 = .ok t ∧ focusmon t (-1) = .ok u ∧ u.selmon = exMove.selmon :=
  focusmon_selects_adjacent exMove [0, 1] [0, 1] [0, 1] [0] [] 1 1 exMove_inv exMove_monsOk
    rfl rfl (by decide)

/-- C15 fails as stated: in `exFocusmon` monitor 0 is selected and client 0, on it, is the
selection; the only client of monitor 1 is minimised, so monitor 1 has no focusable client.
`focusmon 1` makes monitor 1 the selected monitor and leaves client 0 selected: the
selection does not become empty. -/
theorem focusmon_keeps_selection :
    exFocusmon.selmon = some 0 ∧ exFocusmon.sel = some 0 ∧
      [0, 1].find? (monFocusable exFocusmon 1) = none ∧
      Except.map (fun t => (t.selmon, t.sel)) (focusmon exFocusmon 1) =
        .ok (some 1, some 0) := by
  decide

/-! ### `sendmon` -/

theorem land_land_self (a b : Nat) : a &&& (a &&& b) = a &&& b := by
  rw [← Nat.and_assoc, Nat.and_self]

theorem sendmon_spec {s : State} {L S M A B : List Nat} {c cur : Nat} (dir : Int)
    (hinv : Inv s L S) (hM : MonsOk s M) (hdec : M = A ++ cur :: B) (h2 : B ++ A ≠ [])
    (hsel : s.sel = some c)
    (hcur : (s.cl c).mon = some cur ∨ ((s.cl c).mon = none ∧ s.selmon = some cur)) :
    ∃ t, sendmon s dir = .ok t ∧ (t.cl c).mon = some (adjacentMon A cur B dir) ∧
      (t.cl c).tags = (s.cl c).tags ∧
      (t.mon (adjacentMon A cur B dir)).seltags = (s.mon (adjacentMon A cur B dir)).seltags ∧
      (t.mon (adjacentMon A cur B dir)).tagset (t.mon (adjacentMon A cur B dir)).seltags =
        (if (s.cl c).tags &&& (s.mon (adjacentMon A cur B dir)).tagset
            (s.mon (adjacentMon A cur B dir)).seltags = 0
          then (s.cl c).tags &&& TAGMASK s
          else (s.mon (adjacentMon A cur B dir)).tagset
            (s.mon (adjacentMon A cur B dir)).seltags) := by
  subst hdec
  have hmons : s.mons.isNone = false := by
    rw [isChain_head hM.chain]
    cases A <;> rfl
  have hcur' : (if (s.cl c).mon.isSome then (s.cl c).mon else s.selmon) = some cur := by
    rcases hcur with h | ⟨h, h'⟩
    · rw [h]; rfl
    · rw [h, h']; rfl
  have hne : adjacentMon A cur B dir ≠ cur := by
    intro e
    have hm := adjacentMon_mem cur dir h2
    rw [e] at hm
    have hnd := hM.chain.nodup
    have h1 := List.nodup_append.1 hnd
    rcases List.mem_append.1 hm with h | h
    · exact (List.nodup_cons.1 h1.2.1).1 h
    · exact h1.2.2 h (List.mem_cons_self _ _)
  have key : ∀ s3 : State, Inv s3 L S → MonsOk s3 (A ++ cur :: B) →
      (s3.cl c).mon = some (adjacentMon A cur B dir) → (s3.cl c).tags = (s.cl c).tags →
      ∀ k ts, (s3.mon k).seltags = (s.mon k).seltags → (s3.mon k).tagset (s3.mon k).seltags = ts →
      ∃ t, arrange s3 = .ok t ∧ (t.cl c).mon = some (adjacentMon A cur B dir) ∧
        (t.cl c).tags = (s.cl c).tags ∧ (t.mon k).seltags = (s.mon k).seltags ∧
        (t.mon k).tagset (t.mon k).seltags = ts := by
    intro s3 i3 m3 h3 h4 k ts h5 h6
    obtain ⟨t, e, hk, -⟩ := arrange_inv i3 m3
    exact ⟨t, e, by rw [hk.keep_cmon, h3], by rw [hk.keep_tags, h4], by rw [hk.keep_mon, h5],
      by rw [hk.keep_mon, h6]⟩
  unfold sendmon
  rw [hsel]
  simp only [hmons, Bool.false_eq_true, if_false]
  rw [hcur']
  simp only [deref, run_pure, run_ok_bind]
  rw [targetmon_chain dir hM.chain hM.bound]
  simp only [run_ok_bind, if_neg hne]
  by_cases hz : (s.cl c).tags &&& (s.mon (adjacentMon A cur B dir)).tagset
      (s.mon (adjacentMon A cur B dir)).seltags = 0
  · have hz' : ((s.setCl c (fun r => { r with mon := some (adjacentMon A cur B dir) })).cl c).tags &&&
        (s.mon (adjacentMon A cur B dir)).tagset (s.mon (adjacentMon A cur B dir)).seltags = 0 := by
      simpa [State.setCl] using hz
    simp only [State.setCl, State.setMon, Function.update_same] at hz' ⊢
    rw [if_pos hz, if_pos hz]
    refine key _ ?_ ?_ ?_ ?_ _ _ ?_ ?_
    · exact ⟨hinv.list, hinv.stack, hinv.perm, hinv.bound, hinv.sel⟩
    · refine ⟨hM.chain, hM.bound, fun m hm => ?_⟩
      have := hM.layout m hm
      by_cases hmk : m = adjacentMon A cur B dir
      · subst hmk
        simpa [mon_get_layout, Function.update_same] using this
      · simpa [mon_get_layout, Function.update_noteq hmk] using this
    · simp [Function.update_same]
    · simp [Function.update_same]
    · simp [Function.update_same]
    · simp [Function.update_same, TAGMASK]
  · simp only [State.setCl, State.setMon, Function.update_same]
    rw [if_neg hz, if_neg hz]
    refine key _ ?_ ?_ ?_ ?_ _ _ ?_ ?_
    · exact ⟨hinv.list, hinv.stack, hinv.perm, hinv.bound, hinv.sel⟩
    · exact ⟨hM.chain, hM.bound, hM.layout⟩
    · simp [Function.update_same]
    · simp [Function.update_same]
    · rfl
    · rfl

/-- C14: with at least two monitors and a selected client `c`, `sendmon` returns and sets the
monitor of `c` to the cyclically adjacent monitor; if the tags of `c` do not intersect the
current tag set of that monitor, that tag set becomes exactly the tags of `c`, otherwise it
is unchanged; in both cases `c` is visible on that monitor after the call. The tags of `c`
are taken as the program keeps them: within the tag mask, since every write of client tags
masks with `TAGMASK`, and non-empty, as those of a visible client, which the selection
always is (`DataReach`: both hold in every state the program reaches). -/
theorem sendmon_moves_and_shows (s : State) (L S M A B : List Nat) (c cur : Nat) (dir : Int)
    (hinv : Inv s L S) (hM : MonsOk s M) (hdec : M = A ++ cur :: B) (h2 : B ++ A ≠ [])
    (hsel : s.sel = some c)
    (hcur : (s.cl c).mon = some cur ∨ ((s.cl c).mon = none ∧ s.selmon = some cur))
    (hmask : (s.cl c).tags &&& TAGMASK s = (s.cl c).tags) (htags : (s.cl c).tags ≠ 0) :
    ∃ t, sendmon s dir = .ok t ∧ (t.cl c).mon = some (adjacentMon A cur B dir) ∧
      (t.mon (adjacentMon A cur B dir)).tagset (t.mon (adjacentMon A cur B dir)).seltags =
        (if (s.cl c).tags &&& (s.mon (adjacentMon A cur B dir)).tagset
            (s.mon (adjacentMon A cur B dir)).seltags = 0
          then (s.cl c).tags
          else (s.mon (adjacentMon A cur B dir)).tagset
            (s.mon (adjacentMon A cur B dir)).seltags) ∧
      isvisible t (some c) = true := by
  obtain ⟨t, e, h1, h3, h4, h5⟩ := sendmon_spec dir hinv hM hdec h2 hsel hcur
  rw [hmask] at h5
  refine ⟨t, e, h1, h5, ?_⟩
  simp only [isvisible, h1, h5, h3]
  split
  · rw [Nat.and_self]
    simpa using htags
  · rename_i hz
    simpa using hz

theorem exSend_inv : Inv exSend [0] [0] :=
  ⟨by decide, by decide, by decide, by decide, fun i h => by cases h; decide⟩

theorem exSend_monsOk : MonsOk exSend [0, 1] :=
  ⟨by decide, by decide, by decide⟩

theorem sendmon_moves_and_shows_witness :
    (exSend.cl 0).tags = 1 ∧ (exSend.mon 1).tagset (exSend.mon 1).seltags = 2 ∧
    ∃ t, sendmon exSend 1 = .ok t ∧ (t.cl 0).mon = some 1 ∧
      (t.mon 1).tagset (t.mon 1).seltags = 1 ∧ isvisible t (some 0) = true :=
  ⟨rfl, rfl, sendmon_moves_and_shows exSend [0] [0] [0, 1] [] [1] 0 0 1 exSend_inv
    exSend_monsOk rfl (by decide) rfl (Or.inl rfl) (by decide) (by decide)⟩

/-! ### `monocle` -/

theorem monoFold_other (k j : Nat) :
    ∀ (cs : List Nat) (s : State), j ∉ cs → (monoFold k s cs).cl j = s.cl j := by
  intro cs
  induction cs with
  | nil => intro s _; rfl
  | cons c cs ih =>
    intro s hj
    simp only [List.mem_cons, not_or] at hj
    unfold monoFold
    split
    · exact ih _ hj.2
    · simp only
      rw [ih _ hj.2, resize_other _ _ _ _ _ _ _ hj.1]

/-- Every client of monitor `k` that the loop of `monocle` visits, for which no clamp of
`resize` applies, ends with the work rectangle less twice its border width. -/
theorem monoFold_rect (m : Monitor) (k : Nat)
    (hx : m.wx ≤ m.sx + m.sw) (hy : m.wy ≤ m.sy + m.sh)
    (hx2 : m.sx ≤ m.wx + m.ww) (hy2 : m.sy ≤ m.wy + m.wh) (hbh : 0 < m.bh) :
    ∀ (cs : List Nat) (s : State), cs.Nodup → s.curmon = some k → s.mon k = m →
      ∀ c ∈ cs, (s.cl c).mon = some k →
      m.bh ≤ m.ww - 2 * (s.cl c).bw → m.bh ≤ m.wh - 2 * (s.cl c).bw →
      ((monoFold k s cs).cl c).x = m.wx ∧ ((monoFold k s cs).cl c).y = m.wy ∧
      ((monoFold k s cs).cl c).w = m.ww - 2 * (s.cl c).bw ∧
      ((monoFold k s cs).cl c).h = m.wh - 2 * (s.cl c).bw := by
  intro cs
  induction cs with
  | nil => intro s _ _ _ c hc; cases hc
  | cons a cs ih =>
    intro s hnd hk hm c hc hcm hw hh
    have hnd' := List.nodup_cons.1 hnd
    unfold monoFold
    split
    · rename_i hskip
      rcases List.mem_cons.1 hc with rfl | hc'
      · simp [hcm, hk] at hskip
      · exact ih _ hnd'.2 hk hm c hc' hcm hw hh
    · simp only
      have hf := frame_resize s a (s.mon k).wx (s.mon k).wy ((s.mon k).ww - 2 * (s.cl a).bw)
        ((s.mon k).wh - 2 * (s.cl a).bw)
      rcases List.mem_cons.1 hc with rfl | hc'
      · rw [monoFold_other _ _ _ _ hnd'.1]
        have hv : ¬ ((s.mon k).ww - 2 * (s.cl c).bw ≤ 0 ∧ (s.mon k).wh - 2 * (s.cl c).bw ≤ 0) := by
          rw [hm]; omega
        obtain ⟨e1, e2, e3, e4⟩ := resize_rect s c (s.mon k).wx (s.mon k).wy _ _ hv
        rw [e1, e2, e3, e4, resizeRect_exact s (s.cl c) k _ _ _ _ hcm (by rw [hm]; omega)
          (by rw [hm]; omega) (by rw [hm]; omega) (by rw [hm]; omega) (by rw [hm]; omega)
          (by rw [hm]; omega), hm]
        exact ⟨rfl, rfl, rfl, rfl⟩
      · have hb : ((resize s a (s.mon k).wx (s.mon k).wy ((s.mon k).ww - 2 * (s.cl a).bw)
            ((s.mon k).wh - 2 * (s.cl a).bw)).cl c).bw = (s.cl c).bw := by rw [hf.cl c]
        have hmn : ((resize s a (s.mon k).wx (s.mon k).wy ((s.mon k).ww - 2 * (s.cl a).bw)
            ((s.mon k).wh - 2 * (s.cl a).bw)).cl c).mon = (s.cl c).mon := by rw [hf.cl c]
        have := ih (resize s a (s.mon k).wx (s.mon k).wy ((s.mon k).ww - 2 * (s.cl a).bw)
            ((s.mon k).wh - 2 * (s.cl a).bw)) hnd'.2 (by rw [resize_curmon, hk])
            (by rw [hf.mon, hm]) c hc' (by rw [hmn, hcm]) (by rw [hb]; exact hw)
            (by rw [hb]; exact hh)
        rw [hb] at this
        exact this

/-- Let `monocle` run for monitor `k`, whose work rectangle meets its screen rectangle (its
origin is not beyond the right and bottom screen edges, its far corner not before the
screen origin) and whose bar height is positive. Then `monocle` returns, and every eligible
client `c` for which `ww - 2 * bw` and `wh - 2 * bw` are at least the bar height has the
stored geometry `x = wx`, `y = wy`, `w = ww - 2 * bw`, `h = wh - 2 * bw`. -/
theorem monocle_fills_work_rect (s : State) (k : Nat) (L : List Nat)
    (hL : IsChain s.next s.clients L) (hlen : L.length ≤ s.nclients)
    (hk : s.curmon = some k)
    (hx : (s.mon k).wx ≤ (s.mon k).sx + (s.mon k).sw)
    (hy : (s.mon k).wy ≤ (s.mon k).sy + (s.mon k).sh)
    (hx2 : (s.mon k).sx ≤ (s.mon k).wx + (s.mon k).ww)
    (hy2 : (s.mon k).sy ≤ (s.mon k).wy + (s.mon k).wh)
    (hbh : 0 < (s.mon k).bh) :
    ∃ t, monocle s = .ok t ∧ ∀ c ∈ L, eligible s c = true →
      (s.mon k).bh ≤ (s.mon k).ww - 2 * (s.cl c).bw →
      (s.mon k).bh ≤ (s.mon k).wh - 2 * (s.cl c).bw →
      (t.cl c).x = (s.mon k).wx ∧ (t.cl c).y = (s.mon k).wy ∧
      (t.cl c).w = (s.mon k).ww - 2 * (t.cl c).bw ∧
      (t.cl c).h = (s.mon k).wh - 2 * (t.cl c).bw := by
  refine ⟨_, monocle_eq hL hlen hk, fun c hc he hw hh => ?_⟩
  simp only [eligible, Bool.and_eq_true, beq_iff_eq, Bool.not_eq_true'] at he
  have hmem : c ∈ L.filter (fun a => !untiled s a) := by
    rw [List.mem_filter]
    refine ⟨hc, ?_⟩
    simp [untiled, he.2.1, he.2.2]
  have hb : ((monoFold k s (L.filter (fun a => !untiled s a))).cl c).bw = (s.cl c).bw := by
    have hf : Frame s (monoFold k s (L.filter (fun a => !untiled s a))) := by
      have := monocle_eq hL hlen hk
      exact frame_monocle this
    rw [hf.cl c]
  rw [hb]
  exact monoFold_rect (s.mon k) k hx hy hx2 hy2 hbh _ s (hL.nodup.filter _) hk rfl c hmem
    (by rw [he.1, hk]) hw hh

/-- C18, the code at the failing input: in `exHidden` client 1 is on monitor 1 and not
visible under its tag set, client 2 is the only eligible client of monitor 1. Running the
layout for monitor 1 gives the hidden client 1 the work rectangle and a geometry command,
and leaves the eligible client 2 without any: the master search of `tile` steps from
client 0, of the other monitor, to client 1 without testing its visibility. -/
theorem tile_resizes_hidden_client :
    isvisible exHidden (some 1) = false ∧
      [0, 1, 2].filter (fun i => (exHidden.cl i).mon == some 1 && !(exHidden.cl i).isfloating &&
        isvisible exHidden (some i)) = [2] ∧
      Except.map (fun t => ((t.cl 1).x, (t.cl 1).y, (t.cl 1).w, (t.cl 1).h))
        (arrangemon exHidden 1) = .ok (1000, 0, 1000, 800) ∧
      Except.map (fun t => ((t.cl 2).x, (t.cl 2).y, (t.cl 2).w, (t.cl 2).h))
        (arrangemon exHidden 1) = .ok (0, 0, 0, 0) ∧
      Except.map (fun t => t.cmds) (arrangemon exHidden 1) =
        .ok [.setWindowPos 101 1000 0 1000 800] := by
  decide

/-- C19, the code at the failing input: the monitor of `exClamp` has the screen rectangle
(-1920, 0, 1920, 1080), so `sx + sw = 0`. The request (100, 0, 800, 600), the stored
rectangle as `togglefloating` passes it, starts right of the monitor; `resize`
replaces `x` by `sw - WIDTH(c) = 1920 - 800 = 1120` (without `sx`), stores the rectangle
(1120, 0, 800, 600) and issues the geometry command for it: the stored `x` is greater than
`sx + sw`. -/
theorem resize_clamp_ignores_origin :
    (exClamp.mon 0).sx + (exClamp.mon 0).sw = 0 ∧
      (((resize exClamp 0 100 0 800 600).cl 0).x, ((resize exClamp 0 100 0 800 600).cl 0).y,
        ((resize exClamp 0 100 0 800 600).cl 0).w, ((resize exClamp 0 100 0 800 600).cl 0).h) =
        (1120, 0, 800, 600) ∧
      (resize exClamp 0 100 0 800 600).cmds = [.setWindowPos 100 1120 0 800 600] ∧
      ¬ ((resize exClamp 0 100 0 800 600).cl 0).x ≤ (exClamp.mon 0).sx + (exClamp.mon 0).sw := by
  decide

/-! ### Removal of a client that is not in the ordering -/

theorem detachLoop_absent {nx : Nat → Option Nat} {hd : Option Nat} {c : Nat} {l : List Nat} :
    ∀ {tc : Loc} {fuel : Nat},
      IsChain nx (tc.load nx hd) l → c ∉ l → l.length ≤ fuel →
      detachLoop nx hd (some c) fuel tc = .ok (locAfter tc l) := by
  induction l with
  | nil =>
    intro tc fuel h _ _
    simp [IsChain] at h
    cases fuel <;> simp [detachLoop, h, locAfter]
  | cons a l ih =>
    intro tc fuel h hc hf
    obtain ⟨h1, h2⟩ := h
    have hac : a ≠ c := fun e => hc (e ▸ List.mem_cons_self a l)
    cases fuel with
    | zero => simp at hf
    | succ f =>
      simp only [detachLoop, h1, Option.some.injEq, hac, if_false]
      rw [@ih (.node a) _ h2 (fun hm => hc (List.mem_cons_of_mem a hm)) (by simpa using hf)]
      cases l with
      | nil => simp [locAfter]
      | cons b l =>
        cases hl : (b :: l).getLast? with
        | none => simp at hl
        | some j => simp [locAfter, hl, List.getLast?_cons_cons]

/-- The link that the loop of `detach` ends on when `c` is absent is the `NULL` link at the
end of the chain. -/
theorem load_locAfter_chain {nx : Nat → Option Nat} {hd : Option Nat} {l : List Nat}
    (h : IsChain nx hd l) : (locAfter .head l).load nx hd = none := by
  rcases List.eq_nil_or_concat l with rfl | ⟨l', j, rfl⟩
  · simpa [locAfter, Loc.load, IsChain] using h
  · have : IsSeg nx hd (l' ++ [j]) none := isChain_iff_isSeg.1 (by simpa using h)
    simp [locAfter, Loc.load, this.next_getLast]

theorem storeAt_self (nx : Nat → Option Nat) (hd : Option Nat) (tc : Loc) :
    storeAt nx hd tc (tc.load nx hd) = (nx, hd) := by
  cases tc with
  | head => rfl
  | node j => simp [storeAt, Loc.load]

theorem detach_absent {s : State} {L : List Nat} {c : Nat} (hL : IsChain s.next s.clients L)
    (hlen : L.length ≤ s.nclients) (hc : c ∉ L) (hn : s.next c = none) :
    detach s (some c) = .ok s := by
  unfold detach
  rw [@detachLoop_absent _ _ _ _ .head _ hL hc hlen]
  have hl := load_locAfter_chain hL
  simp only [run_ok_bind, deref, run_pure]
  cases htc : locAfter .head L with
  | head =>
    rw [htc] at hl
    simp only [Loc.load] at hl
    simp only [hn]
    rw [← hl]
  | node j =>
    rw [htc] at hl
    simp only [Loc.load] at hl
    have hu : Function.update s.next j none = s.next := by
      rw [← hl]; exact Function.update_eq_self j s.next
    simp only [hn, hu]

theorem detachstack_absent {s : State} {S : List Nat} {c : Nat}
    (hS : IsChain s.snext s.stack S) (hlen : S.length ≤ s.nclients) (hc : c ∉ S)
    (hn : s.snext c = none) : detachstack s (some c) = .ok s := by
  unfold detachstack
  rw [@detachLoop_absent _ _ _ _ .head _ hS hc hlen]
  have hl := load_locAfter_chain hS
  simp only [run_ok_bind, deref, run_pure]
  cases htc : locAfter .head S with
  | head =>
    rw [htc] at hl
    simp only [Loc.load] at hl
    simp only [hn]
    rw [← hl]
  | node j =>
    rw [htc] at hl
    simp only [Loc.load] at hl
    have hu : Function.update s.snext j none = s.snext := by
      rw [← hl]; exact Function.update_eq_self j s.snext
    simp only [hn, hu]

theorem detachLoop_loc_ne {nx : Nat → Option Nat} {hd : Option Nat} {L : List Nat}
    {c fuel : Nat} (hL : IsChain nx hd L) (hlen : L.length ≤ fuel) (hc : c ∈ L) (tc : Loc)
    (h : detachLoop nx hd (some c) fuel .head = .ok tc) : tc ≠ .node c := by
  obtain ⟨A, B, rfl, hA, hB, he⟩ := split_of_mem_nodup hL.nodup hc
  obtain ⟨r, h1, h2⟩ := isChain_append.1 hL
  obtain ⟨rfl, _⟩ := h2
  have hlenA : A.length ≤ fuel := by simp at hlen; omega
  rw [@detachLoop_seg _ _ _ _ .head _ h1 hA hlenA] at h
  cases h
  rcases List.eq_nil_or_concat A with rfl | ⟨A', j, rfl⟩
  · simp [locAfter]
  · have hj : (A'.concat j).getLast? = some j := by simp
    simp only [locAfter, hj]
    intro e
    cases e
    exact hA (by simp)

/-- What `detach` of a client of the List leaves: the List without it, and the client's own
link as it was. -/
theorem detach_link {s : State} {L : List Nat} {c : Nat} (hL : IsChain s.next s.clients L)
    (hlen : L.length ≤ s.nclients) (hc : c ∈ L) :
    ∃ t, detach s (some c) = .ok t ∧ IsChain t.next t.clients (L.erase c) ∧
      t.next c = s.next c ∧ t.snext = s.snext ∧ t.stack = s.stack ∧
      t.nclients = s.nclients := by
  obtain ⟨tc, h1, h2⟩ := detachLoop_chain hL hlen hc
  have hne := detachLoop_loc_ne hL hlen hc tc h1
  cases tc with
  | head =>
    exact ⟨{ s with clients := s.next c }, by simp [detach, h1, deref], h2, rfl, rfl, rfl, rfl⟩
  | node j =>
    have hj : c ≠ j := fun e => hne (by rw [e])
    exact ⟨{ s with next := Function.update s.next j (s.next c) },
      by simp [detach, h1, deref], h2, Function.update_noteq hj _ _, rfl, rfl, rfl⟩

theorem detachstack_link {s : State} {S : List Nat} {c : Nat}
    (hS : IsChain s.snext s.stack S) (hlen : S.length ≤ s.nclients) (hc : c ∈ S) :
    ∃ t, detachstack s (some c) = .ok t ∧ IsChain t.snext t.stack (S.erase c) ∧
      t.snext c = s.snext c ∧ t.next = s.next ∧ t.clients = s.clients ∧
      t.nclients = s.nclients := by
  obtain ⟨tc, h1, h2⟩ := detachLoop_chain hS hlen hc
  have hne := detachLoop_loc_ne hS hlen hc tc h1
  cases tc with
  | head =>
    exact ⟨{ s with stack := s.snext c }, by simp [detachstack, h1, deref], h2, rfl, rfl, rfl,
      rfl⟩
  | node j =>
    have hj : c ≠ j := fun e => hne (by rw [e])
    exact ⟨{ s with snext := Function.update s.snext j (s.snext c) },
      by simp [detachstack, h1, deref], h2, Function.update_noteq hj _ _, rfl, rfl, rfl⟩

/-- C21, amended: let `c` have an empty link in both orderings (`c->next` and `c->snext`
are `NULL`: `c` is the last client of the ordering, or an absent client whose links are
cleared). If `c` is absent from the List and the Stack, `detach` and `detachstack` return
and leave the state exactly as it was; and removing `c` from both orderings returns, gives
the List and the Stack without `c`, and removing `c` once more changes nothing. -/
theorem removal_idempotent_unlinked (s : State) (L S : List Nat) (c : Nat)
    (hinv : Inv s L S) (hn : s.next c = none) (hsn : s.snext c = none) :
    (c ∉ L → detach s (some c) = .ok s ∧ detachstack s (some c) = .ok s) ∧
    ∃ t, (detach s (some c) >>= fun u => detachstack u (some c)) = .ok t ∧
      IsChain t.next t.clients (L.erase c) ∧ IsChain t.snext t.stack (S.erase c) ∧
      (detach t (some c) >>= fun u => detachstack u (some c)) = .ok t := by
  have habs : ∀ (u : State) (L' S' : List Nat), IsChain u.next u.clients L' →
      IsChain u.snext u.stack S' → L'.length ≤ u.nclients → S'.length ≤ u.nclients →
      c ∉ L' → c ∉ S' → u.next c = none → u.snext c = none →
      detach u (some c) = .ok u ∧ detachstack u (some c) = .ok u :=
    fun u L' S' h1 h2 h3 h4 h5 h6 h7 h8 =>
      ⟨detach_absent h1 h3 h5 h7, detachstack_absent h2 h4 h6 h8⟩
  have hboth : ∀ u : State, detach u (some c) = .ok u → detachstack u (some c) = .ok u →
      (detach u (some c) >>= fun v => detachstack v (some c)) = .ok u := by
    intro u e1 e2
    rw [e1]
    exact e2
  by_cases hc : c ∈ L
  · refine ⟨fun h => (h hc).elim, ?_⟩
    obtain ⟨t1, e1, c1, l1, sn1, st1, n1⟩ := detach_link hinv.list hinv.list_length_le hc
    have hS1 : IsChain t1.snext t1.stack S := by rw [sn1, st1]; exact hinv.stack
    obtain ⟨t2, e2, c2, l2, nx2, cl2, n2⟩ := detachstack_link hS1
      (by rw [n1]; exact hinv.stack_length_le) (hinv.mem_stack.2 hc)
    have hL2 : IsChain t2.next t2.clients (L.erase c) := by rw [nx2, cl2]; exact c1
    have hlenL : (L.erase c).length ≤ t2.nclients := by
      rw [n2, n1]
      exact le_trans (List.length_erase_le _ _) hinv.list_length_le
    have hlenS : (S.erase c).length ≤ t2.nclients := by
      rw [n2, n1]
      exact le_trans (List.length_erase_le _ _) hinv.stack_length_le
    have hcL : c ∉ L.erase c := fun h => (List.Nodup.mem_erase_iff hinv.list.nodup).1 h |>.1 rfl
    have hcS : c ∉ S.erase c := fun h => (List.Nodup.mem_erase_iff hinv.stack.nodup).1 h |>.1 rfl
    obtain ⟨a1, a2⟩ := habs t2 _ _ hL2 c2 hlenL hlenS hcL hcS (by rw [nx2, l1, hn])
      (by rw [l2, sn1, hsn])
    refine ⟨t2, ?_, hL2, c2, hboth t2 a1 a2⟩
    rw [e1]
    exact e2
  · have hcS : c ∉ S := fun h => hc (hinv.mem_stack.1 h)
    obtain ⟨a1, a2⟩ := habs s L S hinv.list hinv.stack hinv.list_length_le
      hinv.stack_length_le hc hcS hn hsn
    refine ⟨fun _ => ⟨a1, a2⟩, s, hboth s a1 a2, ?_, ?_, hboth s a1 a2⟩
    · rw [List.erase_of_not_mem hc]; exact hinv.list
    · rw [List.erase_of_not_mem hcS]; exact hinv.stack

theorem removal_idempotent_unlinked_witness :
    ∃ t, (detach exTile (some 2) >>= fun u => detachstack u (some 2)) = .ok t ∧
      IsChain t.next t.clients ([0, 1, 2].erase 2) ∧
      IsChain t.snext t.stack ([0, 1, 2].erase 2) ∧
      (detach t (some 2) >>= fun u => detachstack u (some 2)) = .ok t :=
  (removal_idempotent_unlinked exTile [0, 1, 2] [0, 1, 2] 2 exTile_inv rfl rfl).2

/-- C21 fails as stated: in `exThree` (List 0, 1, 2 and Stack 2, 0, 1) removing client 0
once gives the List 1, 2 and the Stack 2, 1. Removing it a second time stores its stale
links `next = 1` and `snext = 1` into the last cell of each ordering: the link of client 2
in the List points back to client 1, and the Stack link of client 1 points to client 1
itself, so both orderings have become circular. -/
theorem removal_twice_makes_cycle :
    Except.map (fun t => (t.clients, t.next 1, t.next 2))
        (detach exThree (some 0) >>= fun u => detachstack u (some 0)) =
        .ok (some 1, some 2, none) ∧
      Except.map (fun t => (t.stack, t.snext 2, t.snext 1))
        (detach exThree (some 0) >>= fun u => detachstack u (some 0)) =
        .ok (some 2, some 1, none) ∧
      Except.map (fun t => (t.clients, t.next 1, t.next 2))
        (detach exThree (some 0) >>= fun u => detachstack u (some 0) >>= fun v =>
          detach v (some 0) >>= fun w => detachstack w (some 0)) =
        .ok (some 1, some 2, some 1) ∧
      Except.map (fun t => (t.stack, t.snext 2, t.snext 1))
        (detach exThree (some 0) >>= fun u => detachstack u (some 0) >>= fun v =>
          detach v (some 0) >>= fun w => detachstack w (some 0)) =
        .ok (some 2, some 1, some 1) := by
  decide

/-! ### Stack rows collapsed to the full work height -/

/-- The stack loop entered with the row height `wh` at `y = wy`: every client of the
monitor that it lays out, and whose height `wh - 2 * bw` is at least the bar height, ends at
`y = wy` with that height. -/
theorem tileFold_full (m : Monitor) (k : Nat) (x w : Int) (n : Nat)
    (hy : m.wy ≤ m.sy + m.sh) (hy2 : m.sy ≤ m.wy + m.wh) (hbh : 0 < m.bh) :
    ∀ (cs : List Nat) (s : State) (i : Nat), cs.Nodup → s.curmon = some k →
      s.mon k = m → ∀ c ∈ cs, (s.cl c).mon = some k → (s.cl c).isfloating = false →
      m.bh ≤ m.wh - 2 * (s.cl c).bw →
      ((tileFold m x w m.wh n s cs i m.wy).cl c).y = m.wy ∧
        ((tileFold m x w m.wh n s cs i m.wy).cl c).h = m.wh - 2 * (s.cl c).bw := by
  intro cs
  induction cs with
  | nil => intro s i _ _ _ c hc; cases hc
  | cons a cs ih =>
    intro s i hnd hk hm c hc hcm hcf hcb
    have hnd' := List.nodup_cons.1 hnd
    unfold tileFold
    split
    · rename_i hskip
      rcases List.mem_cons.1 hc with rfl | hc'
      · simp [hcm, hk, hcf] at hskip
      · exact ih _ _ hnd'.2 hk hm c hc' hcm hcf hcb
    · simp only [ne_eq, not_true_eq_false, if_false]
      have hf := frame_resize s a x m.wy (w - 2 * (s.cl a).bw)
        (if i + 1 = n then m.wy + m.wh - m.wy - 2 * (s.cl a).bw else m.wh - 2 * (s.cl a).bw)
      rcases List.mem_cons.1 hc with rfl | hc'
      · rw [tileFold_other _ _ _ _ _ _ _ _ _ _ hnd'.1]
        have hh : (if i + 1 = n then m.wy + m.wh - m.wy - 2 * (s.cl c).bw
            else m.wh - 2 * (s.cl c).bw) = m.wh - 2 * (s.cl c).bw := by
          split <;> omega
        rw [hh]
        exact resize_row s c k x m.wy _ _ hcm (by rw [hm]; exact hy) (by rw [hm]; omega)
          (by rw [hm]; exact hcb) (by omega)
      · have := ih (resize s a x m.wy (w - 2 * (s.cl a).bw)
            (if i + 1 = n then m.wy + m.wh - m.wy - 2 * (s.cl a).bw
              else m.wh - 2 * (s.cl a).bw)) (i + 1) hnd'.2
          (by rw [resize_curmon]; exact hk) (by rw [hf.mon]; exact hm) c hc'
          (by rw [hf.cmon]; exact hcm) (by rw [hf.isfloating]; exact hcf)
          (by rw [hf.bw]; exact hcb)
        rw [hf.bw] at this
        exact this

/-- C22 fails as stated: on the monitor of `exTileTiny` the work height is 10 and the bar
height 20; the two clients are eligible, and the even share `10 / 1 = 10` is below the bar
height. `tile` asks for the full work height 10 for the stack client, and `resize` stores
the bar height 20: the stack client does not get the height `wh`. -/
theorem tile_tiny_work_height :
    [0, 1].filter (eligible exTileTiny) = [0, 1] ∧
      (exTileTiny.mon 0).wh / 1 < (exTileTiny.mon 0).bh ∧
      Except.map (fun t => ((t.cl 1).y, (t.cl 1).h, (exTileTiny.mon 0).wh))
        (tile exTileTiny) = .ok (20, 20, 10) := by
  decide

/-! ### Hot keys -/

theorem grabkeysFrom_ids (keys : List Key) : ∀ i : Nat,
    (grabkeysFrom i keys).map (fun r => r.1) = List.range' i keys.length := by
  induction keys with
  | nil => intro i; rfl
  | cons k ks ih => intro i; simp [grabkeysFrom, ih, List.range'_succ]

/-- The ids under which `grabkeys` registers the hot keys are `0, ..., LENGTH(keys) - 1`. -/
theorem grabkeys_ids (keys : List Key) :
    (grabkeys keys).map (fun r => r.1) = List.range keys.length := by
  rw [grabkeys, grabkeysFrom_ids, List.range_eq_range']

/-- An id from 1 on, inside the table, selects its entry; an id outside the table selects
none. -/
theorem hotkeyEntry_inside (keys : List Key) (i : Nat) (h0 : 0 < i) (h : i < keys.length) :
    hotkeyEntry keys i = keys[i]? := by
  unfold hotkeyEntry
  rw [if_pos ⟨h0, h⟩]

theorem hotkeyEntry_outside (keys : List Key) (i : Nat) (h : keys.length ≤ i) :
    hotkeyEntry keys i = none := by
  unfold hotkeyEntry
  rw [if_neg (by omega)]

/-- C23, the code at the failing input: for the key table `exKeys`, `grabkeys` registers
the hot keys under the ids 0 and 1. On `WM_HOTKEY` with `wParam = 0` the guard
`wParam > 0 && wParam < LENGTH(keys)` selects no entry and the state is returned as it is,
although the command of entry 0, `focusstack(+1)`, would move the selection of `exThree`
from client 2 to client 0; with `wParam = 1` entry 1 is run, and with `wParam = 2`
nothing. -/
theorem hotkey_zero_not_dispatched :
    grabkeys exKeys = [(0, 1, 74), (1, 1, 75)] ∧
      (hotkeyEntry exKeys 0).isNone = true ∧
      wmHotkey exHost 0 exKeys exThree 0 = .ok exThree ∧
      Except.map (fun t => t.sel) (focusstack exThree 1) = .ok (some 0) ∧
      exThree.sel = some 2 ∧
      wmHotkey exHost 0 exKeys exThree 1 = focusstack exThree (-1) ∧
      (hotkeyEntry exKeys 2).isNone = true :=
  ⟨by decide, by decide, rfl, by decide, rfl, rfl, by decide⟩

/-- C24, the code at the failing input: in `exNoSel` no client is selected, the selected
monitor 0 has no client, and clients 0 and 1 are visible and tiled on monitor 1.
`movestack(+1)` reads `sel->next` and `zoom`, whose `nexttiled(clients)` is client 0,
reaches `detach(NULL)`: both dereference the null selection. `movestack(-1)` finds no client
to swap with and returns with the List, the Stack and the selection as they were. -/
theorem movestack_zoom_null_selection :
    exNoSel.sel = none ∧
      Except.map (fun _ => ()) (movestack exNoSel 1) = .error .nullDeref ∧
      Except.map (fun _ => ()) (zoom exNoSel) = .error .nullDeref ∧
      Except.map (fun t => (t.clients, t.next 0, t.next 1)) (movestack exNoSel (-1)) =
        .ok (some 0, some 1, none) ∧
      Except.map (fun t => (t.stack, t.snext 0, t.snext 1, t.sel)) (movestack exNoSel (-1)) =
        .ok (some 0, some 1, none, none) := by
  decide

theorem mem_dropWhile_of_false (p : Nat → Bool) {a : Nat} :
    ∀ {l : List Nat}, a ∈ l → p a = false → a ∈ l.dropWhile p := by
  intro l
  induction l with
  | nil => intro h _; cases h
  | cons b l ih =>
    intro h hp
    rw [List.dropWhile_cons]
    split
    · rename_i hb
      rcases List.mem_cons.1 h with rfl | h'
      · rw [hp] at hb; cases hb
      · exact ih h' hp
    · exact h

theorem nodup_dropWhile (p : Nat → Bool) {l : List Nat} (h : l.Nodup) :
    (l.dropWhile p).Nodup :=
  h.sublist (List.dropWhile_suffix p).sublist

/-- C22, amended: let monitor `k` have at least two eligible clients in the List, a work
rectangle inside the screen rectangle vertically, a work height below `2 ^ 31` and a
positive bar height, and let every eligible client have a border width `bw ≥ 0` with
`bh + 2 * bw ≤ wh`. If the even share `wh / (n - 1)` is below the bar height, `tile` returns
and gives every eligible client, the stack clients among them, the full work height
(`h + 2 * bw = wh`) at `y = wy`, and afterwards no eligible client of the monitor has a
stored height below the bar height. -/
theorem tile_collapses_low_rows (s : State) (k : Nat) (L : List Nat)
    (hL : IsChain s.next s.clients L) (hlen : L.length ≤ s.nclients)
    (hk : s.curmon = some k)
    (hn : 2 ≤ (L.filter (eligible s)).length)
    (hsy : (s.mon k).sy ≤ (s.mon k).wy)
    (hsh : (s.mon k).wy + (s.mon k).wh ≤ (s.mon k).sy + (s.mon k).sh)
    (hbh : 0 < (s.mon k).bh) (hwh : (s.mon k).wh < 2 ^ 31)
    (hshare : (s.mon k).wh / (((L.filter (eligible s)).length - 1 : Nat) : Int) <
      (s.mon k).bh)
    (hrow : ∀ b ∈ L, eligible s b = true → 0 ≤ (s.cl b).bw ∧
      (s.mon k).bh + 2 * (s.cl b).bw ≤ (s.mon k).wh) :
    ∃ t, tile s = .ok t ∧
      (∀ b ∈ L, eligible s b = true →
        (t.cl b).y = (s.mon k).wy ∧ HEIGHT (t.cl b) = (s.mon k).wh) ∧
      ∀ b ∈ L, eligible s b = true → (s.mon k).bh ≤ (t.cl b).h := by
  have hel : ∀ b, eligible s b = true → (s.cl b).mon = some k ∧ (s.cl b).isfloating = false ∧
      isvisible s (some b) = true := by
    intro b he
    simpa [eligible, hk] using he
  obtain ⟨e, he⟩ : ∃ e, e ∈ L.filter (eligible s) :=
    List.exists_mem_of_length_pos (by omega)
  have heL := (List.mem_filter.1 he).1
  have hee := (List.mem_filter.1 he).2
  have hwh0 : 0 ≤ (s.mon k).wh := by have := hrow e heL hee; omega
  have hsurv : ∀ b ∈ L, eligible s b = true →
      b ∈ (L.dropWhile (untiled s)).dropWhile
        (fun i => (s.cl i).mon != s.curmon || (s.cl i).isfloating) := by
    intro b hb hbe
    obtain ⟨h1, h2, h3⟩ := hel b hbe
    exact mem_dropWhile_of_false _
      (mem_dropWhile_of_false _ hb (by simp [untiled, h2, h3])) (by simp [h1, hk, h2])
  have hnd : ((L.dropWhile (untiled s)).dropWhile
      (fun i => (s.cl i).mon != s.curmon || (s.cl i).isfloating)).Nodup :=
    nodup_dropWhile _ (nodup_dropWhile _ hL.nodup)
  rw [tile_eq hL hlen hk]
  refine ⟨_, rfl, ?_⟩
  unfold tileList
  simp only
  rw [if_neg (by omega)]
  cases hdr : (L.dropWhile (untiled s)).dropWhile
      (fun i => (s.cl i).mon != s.curmon || (s.cl i).isfloating) with
  | nil =>
    have := hsurv e heL hee
    rw [hdr] at this
    cases this
  | cons c R =>
    rw [hdr] at hsurv hnd
    have hcR : c ∉ R := (List.nodup_cons.1 hnd).1
    have hRnd : R.Nodup := (List.nodup_cons.1 hnd).2
    simp only
    rw [if_neg (by omega)]
    have hf := frame_resize s c (s.mon k).wx (s.mon k).wy
      ((if (L.filter (eligible s)).length = 1 then (s.mon k).ww
        else truncMul s.mfact (s.mon k).ww) - 2 * (s.cl c).bw)
      ((s.mon k).wh - 2 * (s.cl c).bw)
    have hcur := resize_curmon s c (s.mon k).wx (s.mon k).wy
      ((if (L.filter (eligible s)).length = 1 then (s.mon k).ww
        else truncMul s.mfact (s.mon k).ww) - 2 * (s.cl c).bw)
      ((s.mon k).wh - 2 * (s.cl c).bw)
    have hmaster : eligible s c = true → c ∈ L →
        ((resize s c (s.mon k).wx (s.mon k).wy
          ((if (L.filter (eligible s)).length = 1 then (s.mon k).ww
            else truncMul s.mfact (s.mon k).ww) - 2 * (s.cl c).bw)
          ((s.mon k).wh - 2 * (s.cl c).bw)).cl c).y = (s.mon k).wy ∧
        ((resize s c (s.mon k).wx (s.mon k).wy
          ((if (L.filter (eligible s)).length = 1 then (s.mon k).ww
            else truncMul s.mfact (s.mon k).ww) - 2 * (s.cl c).bw)
          ((s.mon k).wh - 2 * (s.cl c).bw)).cl c).h = (s.mon k).wh - 2 * (s.cl c).bw := by
      intro hce hcL
      have hr := hrow c hcL hce
      exact resize_row s c k _ _ _ _ (hel c hce).1 (by omega) (by omega) (by omega) (by omega)
    generalize resize s c (s.mon k).wx (s.mon k).wy
      ((if (L.filter (eligible s)).length = 1 then (s.mon k).ww
        else truncMul s.mfact (s.mon k).ww) - 2 * (s.cl c).bw)
      ((s.mon k).wh - 2 * (s.cl c).bw) = s1 at hf hcur hmaster ⊢
    have hh : (if (s.mon k).wh / (((L.filter (eligible s)).length - 1 : Nat) : Int) <
        (s.mon k).bh then (s.mon k).wh
        else (s.mon k).wh / (((L.filter (eligible s)).length - 1 : Nat) : Int)) =
        (s.mon k).wh := if_pos hshare
    rw [hf.mon, divUnsigned_eq _ _ hwh0 hwh, hh]
    have hfold : ∀ (x w : Int), ∀ b ∈ R, b ∈ L → eligible s b = true →
        ((tileFold (s.mon k) x w (s.mon k).wh ((L.filter (eligible s)).length - 1) s1
            (R.filter (fun i => !untiled s i)) 0 (s.mon k).wy).cl b).y = (s.mon k).wy ∧
        ((tileFold (s.mon k) x w (s.mon k).wh ((L.filter (eligible s)).length - 1) s1
            (R.filter (fun i => !untiled s i)) 0 (s.mon k).wy).cl b).h =
          (s.mon k).wh - 2 * (s.cl b).bw := by
      intro x w b hb hbL he
      obtain ⟨h1, h2, h3⟩ := hel b he
      have hr := hrow b hbL he
      have hmem : b ∈ R.filter (fun i => !untiled s i) := by
        rw [List.mem_filter]
        exact ⟨hb, by simp [untiled, h2, h3]⟩
      have := tileFold_full (s.mon k) k x w ((L.filter (eligible s)).length - 1) (by omega)
        (by omega) hbh (R.filter (fun i => !untiled s i)) s1 0 (hRnd.filter _)
        (by rw [hcur]; exact hk) (by rw [hf.mon]) b hmem (by rw [hf.cmon]; exact h1)
        (by rw [hf.isfloating]; exact h2) (by rw [hf.bw]; omega)
      rw [hf.bw] at this
      exact this
    have hfr : ∀ (x w : Int), Frame s1 (tileFold (s.mon k) x w (s.mon k).wh
        ((L.filter (eligible s)).length - 1) s1 (R.filter (fun i => !untiled s i)) 0
        (s.mon k).wy) :=
      fun x w => frame_tileFold (s.mon k) x w (s.mon k).wh
        ((L.filter (eligible s)).length - 1) (R.filter (fun i => !untiled s i)) s1 0
        (s.mon k).wy
    have hboth : ∀ (x w : Int), ∀ b ∈ L, eligible s b = true →
        ((tileFold (s.mon k) x w (s.mon k).wh ((L.filter (eligible s)).length - 1) s1
            (R.filter (fun i => !untiled s i)) 0 (s.mon k).wy).cl b).y = (s.mon k).wy ∧
        ((tileFold (s.mon k) x w (s.mon k).wh ((L.filter (eligible s)).length - 1) s1
            (R.filter (fun i => !untiled s i)) 0 (s.mon k).wy).cl b).h =
          (s.mon k).wh - 2 * (s.cl b).bw := by
      intro x w b hbL he
      rcases List.mem_cons.1 (hsurv b hbL he) with rfl | hbR
      · have hnot : b ∉ R.filter (fun i => !untiled s i) :=
          fun h => hcR (List.mem_filter.1 h).1
        rw [tileFold_other _ _ _ _ _ _ _ _ _ _ hnot]
        exact hmaster he hbL
      · exact hfold x w b hbR hbL he
    refine ⟨fun b hb he => ?_, fun b hb he => ?_⟩
    · obtain ⟨e1, e2⟩ := hboth _ _ b hb he
      refine ⟨e1, ?_⟩
      unfold HEIGHT
      rw [e2, (hfr _ _).bw, hf.bw]
      omega
    · obtain ⟨_, e2⟩ := hboth _ _ b hb he
      have hr := hrow b hb he
      rw [e2]
      omega

theorem tile_collapses_low_rows_witness :
    ∃ t, tile exTileLowTwo = .ok t ∧
      (∀ b ∈ [0, 1, 2, 3, 4], eligible exTileLowTwo b = true →
        (t.cl b).y = (exTileLowTwo.mon 0).wy ∧ HEIGHT (t.cl b) = (exTileLowTwo.mon 0).wh) ∧
      ∀ b ∈ [0, 1, 2, 3, 4], eligible exTileLowTwo b = true →
        (exTileLowTwo.mon 0).bh ≤ (t.cl b).h :=
  tile_collapses_low_rows exTileLowTwo 0 [0, 1, 2, 3, 4] (by decide) (by decide) rfl
    (by decide) (by decide) (by decide) (by decide) (by decide) (by decide) (by decide)

/-- C17: let `monocle` run for monitor `k`, whose record has the geometry that `monenumproc`
assigns (for some display rectangle and setting of `showbar` and `topbar`), with the clients
of the List without border, as `manage` creates them and every reached state has them
(`DataReach`). If the work width and height are at least the bar height, `monocle` returns
and every eligible client `c` (on that monitor, non-floating, visible) has the stored
geometry `x = wx`, `y = wy`, `w = ww - 2 * c.bw`, `h = wh - 2 * c.bw`. -/
theorem monocle_gives_work_rect (s : State) (k : Nat) (L : List Nat)
    (showbar topbar : Bool) (l t r b : Int) (m0 : Monitor)
    (hL : IsChain s.next s.clients L) (hlen : L.length ≤ s.nclients)
    (hk : s.curmon = some k)
    (hgeo : s.mon k = monGeometry showbar topbar l t r b m0)
    (hbw : ∀ c ∈ L, (s.cl c).bw = 0)
    (hww : (s.mon k).bh ≤ (s.mon k).ww) (hwh : (s.mon k).bh ≤ (s.mon k).wh) :
    ∃ u, monocle s = .ok u ∧ ∀ c ∈ L, eligible s c = true →
      (u.cl c).x = (s.mon k).wx ∧ (u.cl c).y = (s.mon k).wy ∧
      (u.cl c).w = (s.mon k).ww - 2 * (u.cl c).bw ∧
      (u.cl c).h = (s.mon k).wh - 2 * (u.cl c).bw := by
  have hgeo' : (s.mon k).bh = 20 ∧ (s.mon k).wx = (s.mon k).sx ∧ (s.mon k).ww = (s.mon k).sw ∧
      ((s.mon k).wy ≤ (s.mon k).sy + (s.mon k).sh ∨ (s.mon k).wh < (s.mon k).bh) := by
    rw [hgeo]
    cases showbar <;> cases topbar <;> simp [monGeometry] <;> omega
  have hgeo2 : (s.mon k).sy ≤ (s.mon k).wy := by
    rw [hgeo]
    cases showbar <;> cases topbar <;> simp [monGeometry]
  obtain ⟨u, e, h⟩ := monocle_fills_work_rect s k L hL hlen hk (by omega) (by omega)
    (by omega) (by omega) (by omega)
  refine ⟨u, e, fun c hc he => ?_⟩
  exact h c hc he (by rw [hbw c hc]; omega) (by rw [hbw c hc]; omega)

theorem monocle_gives_work_rect_witness :
    ∃ u, monocle exMono = .ok u ∧ ∀ c ∈ [0, 1], eligible exMono c = true →
      (u.cl c).x = (exMono.mon 0).wx ∧ (u.cl c).y = (exMono.mon 0).wy ∧
      (u.cl c).w = (exMono.mon 0).ww - 2 * (u.cl c).bw ∧
      (u.cl c).h = (exMono.mon 0).wh - 2 * (u.cl c).bw :=
  monocle_gives_work_rect exMono 0 [0, 1] true true 0 0 1000 800 (exMono.mon 0) (by decide)
    (by decide) rfl rfl (by decide) (by decide) (by decide)

/-! ### The tag data stay within the mask -/

theorem masked_and (a m : Nat) : (a &&& m) &&& m = a &&& m := by
  rw [Nat.and_assoc, Nat.and_self]

theorem masked_or {a b m : Nat} (ha : a &&& m = a) (hb : b &&& m = b) :
    (a ||| b) &&& m = a ||| b := by
  rw [Nat.and_comm, Nat.and_or_distrib_left, Nat.and_comm m a, Nat.and_comm m b, ha, hb]

theorem masked_xor {a b m : Nat} (ha : a &&& m = a) (hb : b &&& m = b) :
    (a ^^^ b) &&& m = a ^^^ b := by
  rw [Nat.and_xor_distrib_right, ha, hb]

theorem tagmask_cfg {s t : State} (h : t.cfg = s.cfg) : TAGMASK t = TAGMASK s := by
  unfold TAGMASK
  rw [h]

theorem DataOk.data_of_cells {s t : State} (hd : DataOk s) (hc : t.cfg = s.cfg) (hm : t.mon = s.mon)
    (ht : ∀ i, (t.cl i).tags = (s.cl i).tags) (hb : ∀ i, (t.cl i).bw = (s.cl i).bw) :
    DataOk t := by
  refine ⟨fun i => ?_, fun i => ?_, fun k j => ?_, fun j => ?_⟩
  · rw [tagmask_cfg hc, ht]; exact hd.tags i
  · rw [hb]; exact hd.bw i
  · rw [tagmask_cfg hc, hm]; exact hd.tagset k j
  · rw [tagmask_cfg hc, hc]; exact hd.cfgtagset j

theorem DataOk.data_of_keeps {s t : State} (hd : DataOk s) (hk : Keeps s t) : DataOk t :=
  hd.data_of_cells hk.keep_cfg hk.keep_mon hk.keep_tags hk.keep_bw

theorem DataOk.data_of_onlyCell {i : Nat} {s t : State} (hd : DataOk s) (ho : OnlyCell i s t)
    (ht : (t.cl i).tags &&& TAGMASK s = (t.cl i).tags) (hb : (t.cl i).bw = 0) : DataOk t := by
  have hc : t.cfg = s.cfg := by rw [ho.glob]
  have hm : t.mon = s.mon := by rw [ho.glob]
  refine ⟨fun j => ?_, fun j => ?_, fun k j => ?_, fun j => ?_⟩
  · rw [tagmask_cfg hc]
    by_cases hj : j = i
    · subst hj; exact ht
    · rw [ho.other j hj]; exact hd.tags j
  · by_cases hj : j = i
    · subst hj; exact hb
    · rw [ho.other j hj]; exact hd.bw j
  · rw [tagmask_cfg hc, hm]; exact hd.tagset k j
  · rw [tagmask_cfg hc, hc]; exact hd.cfgtagset j

theorem dataOk_setCl {s : State} (hd : DataOk s) (i : Nat) (f : Client → Client)
    (ht : (f (s.cl i)).tags &&& TAGMASK s = (f (s.cl i)).tags) (hb : (f (s.cl i)).bw = 0) :
    DataOk (s.setCl i f) := by
  refine ⟨fun j => ?_, fun j => ?_, hd.tagset, hd.cfgtagset⟩
  · show ((s.setCl i f).cl j).tags &&& TAGMASK s = ((s.setCl i f).cl j).tags
    by_cases hj : j = i
    · subst hj; simpa [State.setCl] using ht
    · simpa [State.setCl, Function.update_noteq hj] using hd.tags j
  · by_cases hj : j = i
    · subst hj; simpa [State.setCl] using hb
    · simpa [State.setCl, Function.update_noteq hj] using hd.bw j

theorem dataOk_setMon {s : State} (hd : DataOk s) (k : Nat) (f : Monitor → Monitor)
    (ht : ∀ j, (f (s.mon k)).tagset j &&& TAGMASK s = (f (s.mon k)).tagset j) :
    DataOk (s.setMon k f) := by
  refine ⟨hd.tags, hd.bw, fun m j => ?_, hd.cfgtagset⟩
  show ((s.setMon k f).mon m).tagset j &&& TAGMASK s = ((s.setMon k f).mon m).tagset j
  by_cases hm : m = k
  · subst hm; simpa [State.setMon] using ht j
  · simpa [State.setMon, Function.update_noteq hm] using hd.tagset m j

theorem dataOk_selmon {s : State} (hd : DataOk s) (m : Option Nat) :
    DataOk { s with selmon := m } :=
  ⟨hd.tags, hd.bw, hd.tagset, hd.cfgtagset⟩

theorem dataOk_hostvis {s : State} (hd : DataOk s) (v : Nat → Bool) :
    DataOk { s with hostvis := v } :=
  ⟨hd.tags, hd.bw, hd.tagset, hd.cfgtagset⟩

theorem defaultTs_masked {s : State} (hd : DataOk s) (c : Client) :
    defaultTs s c &&& TAGMASK s = defaultTs s c := by
  unfold defaultTs
  split
  · exact hd.tagset _ _
  · exact hd.cfgtagset _

theorem dataOk_foldl (g : State → Rule → State) (hg : ∀ s r, DataOk s → DataOk (g s r)) :
    ∀ (rs : List Rule) (s : State), DataOk s → DataOk (rs.foldl g s) := by
  intro rs
  induction rs with
  | nil => intro s hd; exact hd
  | cons r rs ih => intro s hd; exact ih _ (hg s r hd)

theorem applyrules_data {s : State} (hd : DataOk s) (i : Nat) (title cls : String) :
    DataOk (applyrules s i title cls) := by
  unfold applyrules
  simp only
  have h1 := dataOk_foldl (fun s r =>
    if (r.title.all fun t => wcsstr title t) && (r.cls.all fun k => wcsstr cls k) then
      s.setCl i (fun c => { c with
        isfloating := r.isfloating, ignoreborder := r.ignoreborder,
        tags := c.tags ||| (if r.tags &&& TAGMASK s ≠ 0 then r.tags &&& TAGMASK s
                            else defaultTs s c) })
    else s) (fun s r hs => by
      simp only
      split
      · refine dataOk_setCl hs _ _ ?_ (hs.bw i)
        refine masked_or (hs.tags i) ?_
        split
        · exact masked_and _ _
        · exact defaultTs_masked hs _
      · exact hs) s.cfg.rules s hd
  split
  · exact dataOk_setCl h1 _ _ (defaultTs_masked h1 _) (h1.bw i)
  · exact h1

theorem manage_data {s t : State} {hwnd : Nat} {wi : WinInfo} {r : Option Nat}
    (hd : DataOk s) (h : manage s hwnd wi = .ok (t, r)) : DataOk t := by
  unfold manage at h
  obtain ⟨c, hc, h⟩ := bind_eq_ok.1 h
  split at h
  · simp at h
    obtain ⟨rfl, rfl⟩ := h
    exact hd
  · split at h
    · simp at h
      obtain ⟨rfl, rfl⟩ := h
      exact hd
    · obtain ⟨m, _, h⟩ := bind_eq_ok.1 h
      simp only at h
      have d1 : DataOk ({ s with
          cl := Function.update s.cl s.nclients
            { hwnd := hwnd, parent := wi.parent, isalive := true, iscloaked := wi.cloaked,
              bw := 0,
              mon := if m.isSome then m else if s.selmon.isSome then s.selmon else s.mons,
              isfloating := !wi.minimizebox && !wi.maximizebox, ignoreborder := wi.cloaked },
          next := Function.update s.next s.nclients none,
          snext := Function.update s.snext s.nclients none,
          nclients := s.nclients + 1 } : State) := by
        refine ⟨fun j => ?_, fun j => ?_, hd.tagset, hd.cfgtagset⟩
        · show (Function.update s.cl s.nclients _ j).tags &&& TAGMASK s = _
          by_cases hj : j = s.nclients
          · subst hj; simp
          · simpa [Function.update_noteq hj] using hd.tags j
        · show (Function.update s.cl s.nclients _ j).bw = 0
          by_cases hj : j = s.nclients
          · subst hj; simp
          · simpa [Function.update_noteq hj] using hd.bw j
      generalize ({ s with
          cl := Function.update s.cl s.nclients _,
          next := Function.update s.next s.nclients none,
          snext := Function.update s.snext s.nclients none,
          nclients := s.nclients + 1 } : State) = s1 at h d1
      have d2 := applyrules_data d1 s.nclients wi.title wi.cls
      generalize applyrules s1 s.nclients wi.title wi.cls = s2 at h d2
      have d3 : DataOk (if (s2.cl s.nclients).isfloating && s2.hostvis hwnd then
          resize s2 s.nclients wi.left wi.top (wi.right - wi.left) (wi.bottom - wi.top)
          else s2) := by
        split
        · exact d2.data_of_keeps (frame_resize _ _ _ _ _ _).keeps
        · exact d2
      generalize (if (s2.cl s.nclients).isfloating && s2.hostvis hwnd then
          resize s2 s.nclients wi.left wi.top (wi.right - wi.left) (wi.bottom - wi.top)
          else s2) = s3 at h d3
      simp [attach, attachstack, deref] at h
      obtain ⟨rfl, rfl⟩ := h
      exact ⟨d3.tags, d3.bw, d3.tagset, d3.cfgtagset⟩

theorem update_masked {f : Nat → Nat} {M i v : Nat} (hf : ∀ j, f j &&& M = f j)
    (hv : v &&& M = v) (j : Nat) :
    Function.update f i v j &&& M = Function.update f i v j := by
  by_cases hj : j = i
  · subst hj
    simpa using hv
  · rw [Function.update_noteq hj]
    exact hf j

theorem arrange_data {s t : State} {L : List Nat} (hr : Reg s L) (hd : DataOk s)
    (h : arrange s = .ok t) : DataOk t := by
  obtain ⟨S, hinv⟩ := hr.inv
  exact hd.data_of_keeps (arrange_of_ok h hinv).1

theorem setselected_data {s t : State} {L : List Nat} {c : Option Nat} (hr : Reg s L)
    (hc : ∀ i, c = some i → i ∈ L) (hd : DataOk s) (h : setselected s c = .ok t) :
    DataOk t := by
  obtain ⟨S, hinv⟩ := hr.inv
  obtain ⟨t', S', e, hk, _⟩ := setselected_inv c hinv hc
  have := Except.ok.inj (e.symm.trans h)
  subst this
  exact hd.data_of_keeps hk

theorem focus_data {s t : State} {L : List Nat} {c : Option Nat} (hr : Reg s L)
    (hc : ∀ i, c = some i → i ∈ L) (hd : DataOk s) (h : focus s c = .ok t) : DataOk t := by
  obtain ⟨S, hinv⟩ := hr.inv
  obtain ⟨t', S', e, hk, _⟩ := focus_inv c hinv hc
  have := Except.ok.inj (e.symm.trans h)
  subst this
  exact hd.data_of_keeps hk

theorem unmanage_data {s t : State} {L : List Nat} {c : Nat} (hr : Reg s L) (hc : c ∈ L)
    (hd : DataOk s) (h : unmanage s (some c) = .ok t) : DataOk t := by
  obtain ⟨S, hinv⟩ := hr.inv
  exact hd.data_of_keeps (unmanage_of_ok hinv hc h).1

theorem ismanageable_data (host : Host) (_ : HostOk host) :
    ∀ (fuel : Nat) (s : State) (L : List Nat) (hwnd : Nat) (t : State) (ok : Bool),
      Reg s L → DataOk s → ismanageable host fuel s hwnd = .ok (t, ok) → DataOk t := by
  intro fuel
  induction fuel with
  | zero => intro s L hwnd t ok _ _ h; simp [ismanageable] at h
  | succ f ih =>
    intro s L hwnd t ok hr hd h
    unfold ismanageable at h
    split at h
    · simp at h
      obtain ⟨rfl, rfl⟩ := h
      exact hd
    · obtain ⟨c, _, h⟩ := bind_eq_ok.1 h
      split at h
      · simp at h
        obtain ⟨rfl, rfl⟩ := h
        exact hd
      · simp only at h
        obtain ⟨r1, h1, h⟩ := bind_eq_ok.1 h
        obtain ⟨s1, pok⟩ := r1
        simp only at h
        obtain ⟨s2, h2, h⟩ := bind_eq_ok.1 h
        simp at h
        obtain ⟨rfl, _⟩ := h
        have d1 : DataOk s1 := by
          split at h1
          · exact ih s L _ s1 pok hr hd h1
          · simp at h1
            obtain ⟨rfl, rfl⟩ := h1
            exact hd
        split at h2
        · obtain ⟨pc, _, h2⟩ := bind_eq_ok.1 h2
          split at h2
          · obtain ⟨r, hm, h2⟩ := bind_eq_ok.1 h2
            obtain ⟨t', r'⟩ := r
            simp at h2
            subst h2
            exact manage_data d1 hm
          · simp at h2
            subst h2
            exact d1
        · simp at h2
          subst h2
          exact d1

theorem scan_data (host : Host) (hh : HostOk host) (fuel : Nat) {s t : State} {L : List Nat}
    {hwnd : Nat} (hr : Reg s L) (hd : DataOk s) (h : scan host fuel s hwnd = .ok t) :
    DataOk t := by
  unfold scan at h
  obtain ⟨c, _, h⟩ := bind_eq_ok.1 h
  cases c with
  | some c =>
    simp at h
    subst h
    exact dataOk_setCl hd c _ (hd.tags c) (hd.bw c)
  | none =>
    simp only at h
    obtain ⟨r1, h1, h⟩ := bind_eq_ok.1 h
    obtain ⟨s1, ok⟩ := r1
    simp only at h
    have d1 := ismanageable_data host hh fuel s L hwnd s1 ok hr hd h1
    split at h
    · obtain ⟨r, hm, h⟩ := bind_eq_ok.1 h
      obtain ⟨t', r'⟩ := r
      simp at h
      subst h
      exact manage_data d1 hm
    · simp at h
      subst h
      exact d1

theorem enumChildWindows_data (host : Host) (hh : HostOk host) (fuel : Nat) :
    ∀ (ws : List Nat) (s t : State) (L : List Nat), Reg s L → DataOk s →
      enumChildWindows host fuel s ws = .ok t → DataOk t := by
  intro ws
  induction ws with
  | nil =>
    intro s t L hr hd h
    simp [enumChildWindows] at h
    subst h
    exact hd
  | cons w ws ih =>
    intro s t L hr hd h
    unfold enumChildWindows at h
    obtain ⟨s1, h1, h⟩ := bind_eq_ok.1 h
    obtain ⟨L1, r1, _, _⟩ := scan_reg host hh fuel hr h1
    exact ih s1 t L1 r1 (scan_data host hh fuel hr hd h1) h

theorem reapLoop_data (p : Nat) :
    ∀ (fuel : Nat) (s t : State) (L : List Nat) (cur : Option Nat), Reg s L → p ∈ L →
      (∀ c, cur = some c → c ∈ L) → DataOk s → reapLoop p fuel s cur = .ok t → DataOk t := by
  intro fuel
  induction fuel with
  | zero =>
    intro s t L cur hr hp _ hd h
    cases cur with
    | none =>
      simp [reapLoop] at h
      subst h
      exact hd
    | some c => simp [reapLoop] at h
  | succ f ih =>
    intro s t L cur hr hp hcur hd h
    cases cur with
    | none =>
      simp [reapLoop] at h
      subst h
      exact hd
    | some c =>
      have hc := hcur c rfl
      obtain ⟨S, hinv⟩ := hr.inv
      have hnext : ∀ b, s.next c = some b → b ∈ L :=
        fun b hb => isChain_next_mem hinv.list hc hb
      unfold reapLoop at h
      split at h
      · rename_i hpar
        split at h
        · obtain ⟨s1, h1, h⟩ := bind_eq_ok.1 h
          obtain ⟨r1, v1⟩ := unmanage_reg hr hc h1
          have hpc : p ≠ c := by
            intro e
            subst e
            exact hr.noself p (hinv.bound p hp) hpar
          exact ih s1 t (L.erase c) (s.next c) r1
            ((List.mem_erase_of_ne hpc).2 hp)
            (fun b hb => (List.mem_erase_of_ne (fun e => by
              subst e
              exact isChain_next_ne_self hinv.list hc hb)).2 (hnext b hb))
            (unmanage_data hr hc hd h1) h
        · simp only at h
          exact ih _ t L _ ((same_setCl s c _ rfl rfl).reg hr) hp hnext
            (dataOk_setCl hd c _ (hd.tags c) (hd.bw c)) h
      · exact ih s t L _ hr hp hnext hd h

theorem managechildwindows_data (host : Host) (hh : HostOk host) (fuel : Nat) {s t : State}
    {L : List Nat} {p : Nat} {c : Option Nat} (hr : Reg s L) (hp : p ∈ L) (hd : DataOk s)
    (h : managechildwindows host fuel s (some p) = .ok (t, c)) : DataOk t := by
  unfold managechildwindows at h
  simp only [deref, run_pure, run_ok_bind] at h
  obtain ⟨s1, h1, h⟩ := bind_eq_ok.1 h
  obtain ⟨s2, h2, h⟩ := bind_eq_ok.1 h
  obtain ⟨c', _, h⟩ := bind_eq_ok.1 h
  simp at h
  obtain ⟨rfl, _⟩ := h
  obtain ⟨L1, r1, m1, v1⟩ := enumChildWindows_reg host hh fuel _ s s1 L hr h1
  have d1 := enumChildWindows_data host hh fuel _ s s1 L hr hd h1
  obtain ⟨S1, i1⟩ := r1.inv
  exact reapLoop_data p s1.nclients s1 s2 L1 s1.clients r1 (m1 p hp)
    (fun c hc => by
      have := i1.list
      rw [hc] at this
      cases L1 with
      | nil => simp [IsChain] at this
      | cons a l =>
        obtain ⟨e, _⟩ := this
        cases e
        exact List.mem_cons_self _ _) d1 h2

theorem tagLoop_data (ui : Nat) :
    ∀ (fuel : Nat) (s t : State) (cur : Option Nat), DataOk s →
      tagLoop ui fuel s cur = .ok t → DataOk t := by
  intro fuel
  induction fuel with
  | zero =>
    intro s t cur hd h
    cases cur with
    | none =>
      simp [tagLoop] at h
      subst h
      exact hd
    | some c => simp [tagLoop] at h
  | succ f ih =>
    intro s t cur hd h
    cases cur with
    | none =>
      simp [tagLoop] at h
      subst h
      exact hd
    | some c =>
      unfold tagLoop at h
      simp only at h
      obtain ⟨c1, _, h⟩ := bind_eq_ok.1 h
      refine ih _ t c1 ?_ h
      split
      · exact dataOk_setCl hd c _ (masked_and _ _) (hd.bw c)
      · exact hd

theorem view_data {s t : State} {L : List Nat} {ui : Nat} (hr : Reg s L) (hd : DataOk s)
    (h : view s ui = .ok t) : DataOk t := by
  unfold view at h
  simp only at h
  have hs1 : Same s (if s.selmon.isNone then { s with selmon := s.mons } else s) := by
    split
    · exact same_selmon s _
    · exact Same.same_refl s
  have hd1 : DataOk (if s.selmon.isNone then { s with selmon := s.mons } else s) := by
    split
    · exact dataOk_selmon hd _
    · exact hd
  generalize (if s.selmon.isNone then { s with selmon := s.mons } else s) = s1 at h hs1 hd1
  obtain ⟨k, _, h⟩ := bind_eq_ok.1 h
  split at h
  · simp at h
    subst h
    exact hd1
  · have d2 : DataOk (s1.setMon k (fun m => { m with seltags := m.seltags ^^^ 1 })) :=
      dataOk_setMon hd1 k _ (fun j => hd1.tagset k j)
    refine arrange_data (L := L) (Same.reg ?_ (hs1.reg hr)) ?_ h
    · split
      · exact (same_setMon _ _ _).same_trans (same_setMon _ _ _)
      · exact same_setMon _ _ _
    · split
      · exact dataOk_setMon d2 k _ (update_masked (fun j => d2.tagset k j) (masked_and _ _))
      · exact d2

theorem toggleview_data {s t : State} {L : List Nat} {ui : Nat} (hr : Reg s L)
    (hd : DataOk s) (h : toggleview s ui = .ok t) : DataOk t := by
  unfold toggleview at h
  simp only at h
  have hs1 : Same s (if s.selmon.isNone then { s with selmon := s.mons } else s) := by
    split
    · exact same_selmon s _
    · exact Same.same_refl s
  have hd1 : DataOk (if s.selmon.isNone then { s with selmon := s.mons } else s) := by
    split
    · exact dataOk_selmon hd _
    · exact hd
  generalize (if s.selmon.isNone then { s with selmon := s.mons } else s) = s1 at h hs1 hd1
  obtain ⟨k, _, h⟩ := bind_eq_ok.1 h
  split at h
  · refine arrange_data (L := L) ((same_setMon _ _ _).reg (hs1.reg hr)) ?_ h
    exact dataOk_setMon hd1 k _ (update_masked (fun j => hd1.tagset k j)
      (masked_xor (hd1.tagset k _) (masked_and _ _)))
  · simp at h
    subst h
    exact hd1

theorem toggletag_data {s t : State} {L : List Nat} {ui : Nat} (hr : Reg s L)
    (hd : DataOk s) (h : toggletag s ui = .ok t) : DataOk t := by
  unfold toggletag at h
  split at h
  · simp at h
    subst h
    exact hd
  · rename_i sl hsl
    simp only at h
    split at h
    · exact arrange_data ((same_setCl _ _ _ rfl rfl).reg hr)
        (dataOk_setCl hd sl _ (masked_xor (hd.tags sl) (masked_and _ _)) (hd.bw sl)) h
    · simp at h
      subst h
      exact hd

theorem tag_data (host : Host) (hh : HostOk host) (fuel : Nat) {s t : State} {L : List Nat}
    {ui : Nat} (hr : Reg s L) (hd : DataOk s) (h : tag host fuel s ui = .ok t) :
    DataOk t := by
  unfold tag at h
  split at h
  · simp at h
    subst h
    exact hd
  · rename_i sl hsl
    split at h
    · obtain ⟨r, h1, h⟩ := bind_eq_ok.1 h
      obtain ⟨s2, c⟩ := r
      simp only at h
      obtain ⟨s3, h3, h⟩ := bind_eq_ok.1 h
      obtain ⟨S, hinv⟩ := hr.inv
      have hsl' : (s.setCl sl (fun c => { c with tags := ui &&& TAGMASK s })).sel = some sl := hsl
      rw [hsl'] at h1
      have d1 : DataOk (s.setCl sl (fun c => { c with tags := ui &&& TAGMASK s })) :=
        dataOk_setCl hd sl _ (masked_and _ _) (hd.bw sl)
      obtain ⟨L2, r2, _, _⟩ := managechildwindows_reg host hh fuel
        ((same_setCl s sl _ rfl rfl).reg hr) (hinv.sel sl hsl) h1
      have d2 := managechildwindows_data host hh fuel
        ((same_setCl s sl _ rfl rfl).reg hr) (hinv.sel sl hsl) d1 h1
      have r3 := tagLoop_reg ui _ s2 s3 L2 c r2 h3
      have d3 := tagLoop_data ui _ s2 s3 c d2 h3
      exact arrange_data r3 d3 h
    · simp at h
      subst h
      exact hd

theorem focusstack_data {s t : State} {L : List Nat} {dir : Int} (hr : Reg s L)
    (hd : DataOk s) (h : focusstack s dir = .ok t) : DataOk t := by
  obtain ⟨S, hinv⟩ := hr.inv
  obtain ⟨S', hk, _⟩ := focusstack_of_ok hinv h
  exact hd.data_of_keeps hk

theorem movestack_data {s t : State} {L : List Nat} {dir : Int} (hr : Reg s L)
    (hd : DataOk s) (h : movestack s dir = .ok t) : DataOk t := by
  obtain ⟨S, hinv⟩ := hr.inv
  obtain ⟨L', S', _, hk⟩ := movestack_of_ok hinv h
  exact hd.data_of_keeps hk

theorem zoom_data {s t : State} {L : List Nat} (hr : Reg s L) (hd : DataOk s)
    (h : zoom s = .ok t) : DataOk t := by
  obtain ⟨S, hinv⟩ := hr.inv
  obtain ⟨L', S', _, hk⟩ := zoom_of_ok hinv h
  exact hd.data_of_keeps hk

theorem focusmon_data {s t : State} {L : List Nat} {dir : Int} (hr : Reg s L)
    (hd : DataOk s) (h : focusmon s dir = .ok t) : DataOk t := by
  unfold focusmon at h
  split at h
  · simp at h
    subst h
    exact hd
  · simp only at h
    have hs1 : Same s (if s.selmon.isNone then { s with selmon := s.mons } else s) := by
      split
      · exact same_selmon s _
      · exact Same.same_refl s
    have hd1 : DataOk (if s.selmon.isNone then { s with selmon := s.mons } else s) := by
      split
      · exact dataOk_selmon hd _
      · exact hd
    generalize (if s.selmon.isNone then { s with selmon := s.mons } else s) = s1 at h hs1 hd1
    obtain ⟨cur, _, h⟩ := bind_eq_ok.1 h
    obtain ⟨target, _, h⟩ := bind_eq_ok.1 h
    split at h
    · obtain ⟨c, hc, h⟩ := bind_eq_ok.1 h
      have r2 : Reg { s1 with selmon := target } L := (same_selmon s1 target).reg (hs1.reg hr)
      split at h
      · obtain ⟨S, i2⟩ := r2.inv
        refine focus_data r2 (fun i hi => ?_) (dataOk_selmon hd1 _) h
        rw [skipWhile_chain _ i2.stack i2.stack_length_le] at hc
        have := Except.ok.inj hc
        rw [hi] at this
        exact i2.mem_stack.1 (List.mem_of_find?_eq_some this)
      · simp at h
        subst h
        exact dataOk_selmon hd1 _
    · simp at h
      subst h
      exact hd1

theorem sendmon_data {s t : State} {L : List Nat} {dir : Int} (hr : Reg s L)
    (hd : DataOk s) (h : sendmon s dir = .ok t) : DataOk t := by
  unfold sendmon at h
  cases hsel : s.sel with
  | none =>
    simp [hsel] at h
    subst h
    exact hd
  | some sl =>
    simp only [hsel] at h
    split at h
    · simp at h
      subst h
      exact hd
    · obtain ⟨cur, _, h⟩ := bind_eq_ok.1 h
      obtain ⟨target, _, h⟩ := bind_eq_ok.1 h
      cases target with
      | none =>
        simp at h
        subst h
        exact hd
      | some tg =>
        simp only at h
        split at h
        · simp at h
          subst h
          exact hd
        · have h1 : Same s (s.setCl sl (fun c => { c with mon := some tg })) :=
            same_setCl s sl _ rfl rfl
          have d1 : DataOk (s.setCl sl (fun c => { c with mon := some tg })) :=
            dataOk_setCl hd sl _ (hd.tags sl) (hd.bw sl)
          have d2 : DataOk ({ s.setCl sl (fun c => { c with mon := some tg }) with
              hostvis := Function.update (s.setCl sl (fun c => { c with mon := some tg })).hostvis
                ((s.setCl sl (fun c => { c with mon := some tg })).cl sl).hwnd true
              cmds := (s.setCl sl (fun c => { c with mon := some tg })).cmds ++
                [.setWindowPos ((s.setCl sl (fun c => { c with mon := some tg })).cl sl).hwnd
                  ((s.setCl sl (fun c => { c with mon := some tg })).mon tg).wx
                  ((s.setCl sl (fun c => { c with mon := some tg })).mon tg).wy
                  ((s.setCl sl (fun c => { c with mon := some tg })).cl sl).w
                  ((s.setCl sl (fun c => { c with mon := some tg })).cl sl).h] } : State) :=
            ⟨d1.tags, d1.bw, d1.tagset, d1.cfgtagset⟩
          refine arrange_data (L := L) (Same.reg ?_ (h1.reg hr)) ?_ h
          · split
            · exact ⟨rfl, rfl, rfl, rfl, rfl, rfl, fun _ => ⟨rfl, rfl⟩⟩
            · exact ⟨rfl, rfl, rfl, rfl, rfl, rfl, fun _ => ⟨rfl, rfl⟩⟩
          · split
            · exact dataOk_setMon d2 tg _ (update_masked (fun j => d2.tagset tg j)
                (masked_and _ _))
            · exact d2

theorem windowDestroyed_data {s t : State} {L : List Nat} {hwnd : Nat} (hr : Reg s L)
    (hd : DataOk s) (h : windowDestroyed s hwnd = .ok t) : DataOk t := by
  unfold windowDestroyed at h
  obtain ⟨c, hc, h⟩ := bind_eq_ok.1 h
  obtain ⟨S, hinv⟩ := hr.inv
  cases c with
  | none =>
    simp at h
    subst h
    exact hd
  | some c =>
    simp only at h
    split at h
    · exact unmanage_data hr (getclient_mem hinv hc) hd h
    · simp at h
      subst h
      exact dataOk_setCl hd c _ (hd.tags c) (hd.bw c)

theorem update_client_monitor_data {host : Host} {s t : State} {c : Nat}
    (hd : DataOk s) (h : update_client_monitor host s c = .ok t) : DataOk t := by
  unfold update_client_monitor at h
  obtain ⟨m, _, h⟩ := bind_eq_ok.1 h
  split at h
  · simp at h
    subst h
    exact dataOk_setCl hd c _ (hd.tags c) (hd.bw c)
  · simp at h
    subst h
    exact hd

theorem adopt_select_data (host : Host) (hh : HostOk host) (fuel : Nat) {s t : State}
    {L : List Nat} {hwnd : Nat} (hr : Reg s L) (hd : DataOk s)
    (h : (do
      let (s1, ok) ← ismanageable host fuel s hwnd
      if ok then do
        let (s2, c) ← manage s1 hwnd (host hwnd).info
        let (s3, _) ← managechildwindows host fuel s2 c
        let s4 ← setselected s3 c
        arrange s4
      else pure s1 : Run State) = .ok t) :
    DataOk t := by
  obtain ⟨r, h1, h⟩ := bind_eq_ok.1 h
  obtain ⟨s1, ok⟩ := r
  obtain ⟨L1, r1, _, v1, z1⟩ := ismanageable_reg host hh fuel s L hwnd s1 ok hr h1
  have d1 := ismanageable_data host hh fuel s L hwnd s1 ok hr hd h1
  simp only at h
  split at h
  · rename_i hok
    obtain ⟨r2, h2, h⟩ := bind_eq_ok.1 h
    obtain ⟨s2, c⟩ := r2
    obtain ⟨L2, rg2, _, m2, _⟩ := manage_reg r1 (hh _ (z1 hok)) h2
    have d2 := manage_data d1 h2
    obtain ⟨r3, h3, h⟩ := bind_eq_ok.1 h
    obtain ⟨s3, c3⟩ := r3
    simp only at h3 h
    cases c with
    | none => simp [managechildwindows, deref] at h3
    | some ci =>
      obtain ⟨L3, rg3, m3, _⟩ := managechildwindows_reg host hh fuel rg2 (m2 ci rfl) h3
      have d3 := managechildwindows_data host hh fuel rg2 (m2 ci rfl) d2 h3
      obtain ⟨s4, h4, h⟩ := bind_eq_ok.1 h
      have rg4 := (setselected_reg rg3 (fun i hi => by cases hi; exact m3) h4).1
      have d4 := setselected_data rg3 (fun i hi => by cases hi; exact m3) d3 h4
      exact arrange_data rg4 d4 h
  · simp at h
    subst h
    exact d1

theorem windowCreated_data (host : Host) (hh : HostOk host) (fuel : Nat) {s t : State}
    {L : List Nat} {hwnd : Nat} (hr : Reg s L) (hd : DataOk s)
    (h : windowCreated host fuel s hwnd = .ok t) : DataOk t := by
  unfold windowCreated at h
  obtain ⟨c, _, h⟩ := bind_eq_ok.1 h
  split at h
  · simp at h
    subst h
    exact hd
  · obtain ⟨r, h1, h⟩ := bind_eq_ok.1 h
    obtain ⟨s1, ok⟩ := r
    obtain ⟨L1, r1, _, v1, z1⟩ := ismanageable_reg host hh fuel s L hwnd s1 ok hr h1
    have d1 := ismanageable_data host hh fuel s L hwnd s1 ok hr hd h1
    simp only at h
    split at h
    · rename_i hok
      obtain ⟨r2, h2, hA⟩ := bind_eq_ok.1 h
      obtain ⟨s2, c2⟩ := r2
      simp only at hA
      obtain ⟨L2, rg2, _, m2, _⟩ := manage_reg r1 (hh _ (z1 hok)) h2
      have d2 := manage_data d1 h2
      obtain ⟨r3, h3, hB⟩ := bind_eq_ok.1 hA
      obtain ⟨s3, c3⟩ := r3
      simp only at h3 hB
      cases c2 with
      | none => simp [managechildwindows, deref] at h3
      | some ci =>
        obtain ⟨L3, rg3, _, _⟩ := managechildwindows_reg host hh fuel rg2 (m2 ci rfl) h3
        have d3 := managechildwindows_data host hh fuel rg2 (m2 ci rfl) d2 h3
        exact arrange_data rg3 d3 hB
    · simp at h
      subst h
      exact d1

theorem windowUncloaked_data (host : Host) (hh : HostOk host) (fuel : Nat) {s t : State}
    {L : List Nat} {hwnd : Nat} (hr : Reg s L) (hd : DataOk s)
    (h : windowUncloaked host fuel s hwnd = .ok t) : DataOk t := by
  unfold windowUncloaked at h
  split at h
  · simp at h
    subst h
    exact hd
  · obtain ⟨c, _, h⟩ := bind_eq_ok.1 h
    split at h
    · simp at h
      subst h
      exact hd
    · exact adopt_select_data host hh fuel hr hd h

theorem windowActivated_data (host : Host) (hh : HostOk host) (fuel : Nat) {s t : State}
    {L : List Nat} {hwnd : Nat} (hr : Reg s L) (_ : Vis s) (hd : DataOk s)
    (h : windowActivated host fuel s hwnd = .ok t) : DataOk t := by
  unfold windowActivated at h
  obtain ⟨c, hc, h⟩ := bind_eq_ok.1 h
  obtain ⟨S, hinv⟩ := hr.inv
  cases c with
  | none =>
    exact adopt_select_data host hh fuel hr hd h
  | some c =>
    simp only at h
    obtain ⟨r1, h1, h⟩ := bind_eq_ok.1 h
    obtain ⟨s1, c1⟩ := r1
    simp only at h
    obtain ⟨s2, h2, h⟩ := bind_eq_ok.1 h
    obtain ⟨s3, h3, h⟩ := bind_eq_ok.1 h
    obtain ⟨s4, h4, h⟩ := bind_eq_ok.1 h
    obtain ⟨L1, rg1, m1, _⟩ := managechildwindows_reg host hh fuel hr (getclient_mem hinv hc) h1
    have d1 := managechildwindows_data host hh fuel hr (getclient_mem hinv hc) hd h1
    have rg2 := update_client_monitor_reg rg1 h2
    have d2 := update_client_monitor_data d1 h2
    obtain ⟨rg3, v3⟩ := setselected_reg rg2 (fun i hi => by cases hi; exact m1) h3
    have d3 := setselected_data rg2 (fun i hi => by cases hi; exact m1) d2 h3
    have g4 : (Reg s4 L1 ∧ Vis s4) ∧ DataOk s4 := by
      split at h4
      · rename_i ti _
        have d3a := dataOk_setCl d3 ti
          (fun r => { r with isminimized := (host (s3.cl ti).hwnd).iconic }) (d3.tags ti)
          (d3.bw ti)
        split at h4
        · exact ⟨arrange_reg ((same_setCl s3 _ _ rfl rfl).reg rg3) h4,
            arrange_data ((same_setCl s3 _ _ rfl rfl).reg rg3) d3a h4⟩
        · simp at h4
          subst h4
          exact ⟨⟨(same_setCl s3 _ _ rfl rfl).reg rg3, vis_setCl _ _ v3 rfl rfl⟩, d3a⟩
      · simp at h4
        subst h4
        exact ⟨⟨rg3, v3⟩, d3⟩
    split at h
    · rename_i sl _
      split at h
      · exact zoom_data ((same_setCl s4 _ _ rfl rfl).reg g4.1.1)
          (dataOk_setCl g4.2 sl _ (g4.2.tags sl) (g4.2.bw sl)) h
      · simp at h
        subst h
        exact g4.2
    · simp at h
      subst h
      exact g4.2

/-- Every event keeps the tag data within the mask and the borders at 0. -/
theorem handle_data (host : Host) (hh : HostOk host) (fuel : Nat) {s t : State}
    {L : List Nat} (e : Event) (hr : Reg s L) (hv : Vis s) (hd : DataOk s)
    (hu : ∀ c, e = .unmanage c → c ∈ L) (h : handle host fuel s e = .ok t) : DataOk t := by
  cases e with
  | view ui => exact view_data hr hd h
  | toggleview ui => exact toggleview_data hr hd h
  | tag ui => exact tag_data host hh fuel hr hd h
  | toggletag ui => exact toggletag_data hr hd h
  | focusstack dir => exact focusstack_data hr hd h
  | movestack dir => exact movestack_data hr hd h
  | zoom => exact zoom_data hr hd h
  | focusmon dir => exact focusmon_data hr hd h
  | sendmon dir => exact sendmon_data hr hd h
  | unmanage c => exact unmanage_data hr (hu c rfl) hd h
  | windowCreated hwnd => exact windowCreated_data host hh fuel hr hd h
  | windowDestroyed hwnd => exact windowDestroyed_data hr hd h
  | windowActivated hwnd => exact windowActivated_data host hh fuel hr hv hd h
  | windowUncloaked hwnd => exact windowUncloaked_data host hh fuel hr hd h

theorem setupScan_data (host : Host) (hh : HostOk host) (fuel : Nat) {s t : State}
    {L : List Nat} {ws : List Nat} (hr : Reg s L) (hd : DataOk s)
    (h : setupScan host fuel s ws = .ok t) : DataOk t := by
  unfold setupScan at h
  obtain ⟨s1, h1, h⟩ := bind_eq_ok.1 h
  obtain ⟨s2, h2, h⟩ := bind_eq_ok.1 h
  obtain ⟨L1, r1, _, _⟩ := enumChildWindows_reg host hh fuel ws s s1 L hr h1
  have d1 := enumChildWindows_data host hh fuel ws s s1 L hr hd h1
  obtain ⟨r2, _⟩ := arrange_reg ((same_selmon s1 s1.mons).reg r1) h2
  have d2 := arrange_data ((same_selmon s1 s1.mons).reg r1) (dataOk_selmon d1 _) h2
  exact focus_data r2 (fun i hi => by cases hi) d2 h

theorem dataReach_eventReach {s : State} (h : DataReach s) : EventReach s := by
  induction h with
  | init s h1 h2 h3 h4 _ => exact .init s h1 h2 h3 h4
  | setup s t host fuel ws _ hh h ih => exact .setup s t host fuel ws ih hh h
  | event s t host fuel e _ hh hu h ih => exact .event s t host fuel e ih hh hu h
  | hostShows s v _ ih => exact .hostShows s v ih

/-- In every state the program reaches, the tags of every client and every tag set lie
within `TAGMASK`, and every border width is 0. -/
theorem dataReach_data {s : State} (h : DataReach s) : DataOk s := by
  induction h with
  | init s _ _ _ _ hd => exact hd
  | setup s t host fuel ws hs hh h ih =>
    obtain ⟨L, hr, _⟩ := eventReach_reg (dataReach_eventReach hs)
    exact setupScan_data host hh fuel hr ih h
  | event s t host fuel e hs hh hu h ih =>
    obtain ⟨L, hr, hv⟩ := eventReach_reg (dataReach_eventReach hs)
    obtain ⟨S, hinv⟩ := hr.inv
    refine handle_data host hh fuel e hr hv ih (fun c hc => ?_) h
    obtain ⟨L', hL', hm⟩ := hu c hc
    rw [← hL'.unique hinv.list]
    exact hm
  | hostShows s v _ ih => exact dataOk_hostvis ih v

/-- In every state the program reaches, the selected client has tags within `TAGMASK`, at
least one tag, and border width 0. -/
theorem dataReach_sel_tags {s : State} (h : DataReach s) {c : Nat} (hsel : s.sel = some c) :
    (s.cl c).tags &&& TAGMASK s = (s.cl c).tags ∧ (s.cl c).tags ≠ 0 ∧ (s.cl c).bw = 0 := by
  have hd := dataReach_data h
  obtain ⟨L, _, hv⟩ := eventReach_reg (dataReach_eventReach h)
  refine ⟨hd.tags c, ?_, hd.bw c⟩
  intro h0
  have := hv c hsel
  simp [isvisible, h0] at this

theorem exEmpty_data : DataOk exEmpty := by
  refine ⟨fun i => ?_, fun i => rfl, fun k j => ?_, fun j => ?_⟩
  · show 0 &&& TAGMASK exEmpty = 0
    decide
  · show 1 &&& TAGMASK exEmpty = 1
    decide
  · show exEmpty.cfg.tagset j &&& TAGMASK exEmpty = exEmpty.cfg.tagset j
    simp [exEmpty, TAGMASK]

theorem exEmpty_dataReach : DataReach exEmpty :=
  .init exEmpty rfl rfl rfl rfl exEmpty_data

end DwmWin32
